import Mathlib

/-!
# struct-maxent: the coordinate-descent fitting engine and its weak learners

A shallow embedding of `src/space.*`, `src/feature.*`, `src/tree.*`,
`src/wlearner.*` and `src/dmaxent.*`.

Conventions of the embedding.

* A C++ `double` is an element of a linear ordered field `α` (exact arithmetic).
  Rounding, infinities and not-a-number are outside the model, and so is a
  division by zero: the model agrees with the code on computations whose
  intermediate values are finite.  All definitions are computable; at `α = ℚ`
  they can be evaluated.
* An `int` is an integer: arithmetic on `int` that leaves the range of the
  type is outside the model.
* `exp` and `log` of `<cmath>` are parameters `exp log : α → α` of the functions
  that call them.  Theorems that need a law of the exponential say so.
* The abstract classes `Feature` and `WLearner` (pure virtual methods) are
  records of functions.
* `weighted_features[direction]` with `direction` out of range is undefined
  behaviour in the source; the embedding returns `none` there.
* A `Node*` is a tree value (`NULL` or a node with its children), and a node that
  a queue refers to is addressed by its path from the root.  A `std::map` is the
  list of its entries in key order.
* A method that changes its object and returns a value (`AddPoint`,
  `AddRawFeature`) returns the value and the object after the call; an exception
  that escapes (`std::out_of_range` from `GetPoint`) is the error of an `Except`.
* A node holds pointers to points; the point list of a `Node` value holds the
  points as the node reads them, and a write to a point through another pointer
  is `Node.reweigh`.
* The loops of `Train` in the two learners have no bound in the source; here they
  take a bound on their passes and return a `Run`: a result, undefined behaviour
  of the source, or the bound reached.
-/

namespace StructMaxent

/-! ## constants.hpp -/

/-- The minimum distinguishable difference `gTolerance = 1e-7`. -/
def gTolerance {α : Type} [LinearOrderedField α] : α := 1 / 10 ^ 7

/-! ## space.hpp / space.cpp -/

/-- A point of the space: `class Point`. -/
structure Point (α : Type) where
  id : Int
  finalized : Bool
  probability_weight : α
  raw_features : List α

/-- `Point::GetProbWeight`. -/
def Point.GetProbWeight {α : Type} (p : Point α) : α := p.probability_weight

/-- `Point::SetProbWeight`. -/
def Point.SetProbWeight {α : Type} (p : Point α) (value : α) : Point α :=
  { p with probability_weight := value }

/-- The underlying space: `class Space`. -/
structure Space (α : Type) where
  finalized : Bool
  points : List (Point α)

/-- `Space::NumPoints`. -/
def Space.NumPoints {α : Type} (s : Space α) : Nat := s.points.length

/-- An example is a `Point*`: it points either at the point stored in the space
under a key, or at a point object that lives outside the space (the space stores
copies of the points added to it). -/
inductive Example (α : Type) where
  | inSpace (key : Nat) : Example α
  | detached (point : Point α) : Example α

/-- A sample is a vector of examples. -/
abbrev Sample (α : Type) := List (Example α)

/-! ## feature.hpp / feature.cpp -/

/-- The abstract class `Feature`: the virtual `FeatureMap` and `Complexity`, and
the two cached expectations. -/
structure Feature (α : Type) where
  FeatureMap : Point α → α
  Complexity : α
  sample_expectation : α
  population_expectation : α

/-- `Feature::GetSampleExpectation`. -/
def Feature.GetSampleExpectation {α : Type} (f : Feature α) : α := f.sample_expectation

/-- `Feature::GetUnnormalizedPopulationExpectation`. -/
def Feature.GetUnnormalizedPopulationExpectation {α : Type} (f : Feature α) : α :=
  f.population_expectation

/-- `Feature::ComputeUnnormalizedPopulationExpectation`: the loop
`expectation += p.GetProbWeight() * FeatureMap(&p)` over the space, stored in the
feature. -/
def Feature.ComputeUnnormalizedPopulationExpectation {α : Type} [LinearOrderedField α]
    (f : Feature α) (space : Space α) : Feature α :=
  { f with population_expectation :=
      space.points.foldl (fun expectation p => expectation + p.GetProbWeight * f.FeatureMap p) 0 }

/-! ## wlearner.hpp -/

/-- The abstract class `WLearner`: `Train(space, sample, &feature, &gradient)`
returns a new feature and its gradient.  No learner of the source writes to the
space in `Train`; what `TreeLearner::Train` writes to the learner (entries that
lookups create in `value_to_thresholds`) does not change what a later call
returns, and the record holds the learner as a function. -/
structure WLearner (α : Type) where
  Train : Space α → Sample α → Feature α × α

/-! ## dmaxent.hpp / dmaxent.cpp -/

/-- The private state of `class DMaxEntModel`. -/
structure DMaxEntModel (α : Type) where
  weighted_features : List (α × Feature α)
  weak_learners : List (WLearner α)
  space : Space α
  sample : Sample α
  normalizer : α
  model_parameter_alpha : α
  model_parameter_beta : α
  lambda : α
  max_descent_steps : α
  step_size : α
  model_gradient : α
  direction : Nat
  version : Int
  stop_if_converged : Bool
  test_sample : Sample α

section Engine

variable {α : Type} [LinearOrderedField α]

/-- The inline helper `sgn`: 1 if `x > 0` and -1 otherwise. -/
def sgn (x : α) : α := if x > 0 then 1 else -1

/-- The constructor `DMaxEntModel::DMaxEntModel`.  The source leaves `step_size`,
`model_gradient` and `direction` uninitialised; `Fit` assigns each before it
reads it, and they are 0 here. -/
def DMaxEntModel.mk0 (alpha beta max_steps : α) (ver : Int) (l : α)
    (stop_on_convergence : Bool) (X : Space α) (S : Sample α) (features : List (Feature α))
    (learners : List (WLearner α)) (test : Sample α) : DMaxEntModel α :=
  { weighted_features := features.map (fun feature => ((0 : α), feature))
    weak_learners := learners
    space := X
    sample := S
    normalizer := (X.NumPoints : α)
    model_parameter_alpha := alpha
    model_parameter_beta := beta
    lambda := l
    max_descent_steps := max_steps
    step_size := 0
    model_gradient := 0
    direction := 0
    version := ver
    stop_if_converged := stop_on_convergence
    test_sample := test }

/-- The regularisation threshold `2 * model_parameter_alpha * feature->Complexity() +
model_parameter_beta`, computed in `FindDescentDirection` (as `beta`) and in both
step-size routines (as `beta_k`). -/
def DMaxEntModel.beta_k (m : DMaxEntModel α) (feature : Feature α) : α :=
  2 * m.model_parameter_alpha * feature.Complexity + m.model_parameter_beta

/-- The difference `-feature->GetSampleExpectation() +
feature->GetUnnormalizedPopulationExpectation() / normalizer`. -/
def DMaxEntModel.diff_expectations (m : DMaxEntModel α) (feature : Feature α) : α :=
  -feature.GetSampleExpectation + feature.GetUnnormalizedPopulationExpectation / m.normalizer

/-- The gradient computed in the body of the first loop of `FindDescentDirection`
for a feature of weight `feature_weight` (its population expectation already
recomputed). -/
def DMaxEntModel.gradient (m : DMaxEntModel α) (feature_weight : α) (feature : Feature α) : α :=
  let diff_expectations := m.diff_expectations feature
  let beta := m.beta_k feature
  if |feature_weight| > gTolerance then
    beta * sgn feature_weight + diff_expectations
  else if |diff_expectations| < beta then
    0
  else
    -beta * sgn diff_expectations + diff_expectations

/-- The first loop of `FindDescentDirection`, from index `index` on: every
feature gets its population expectation recomputed, and
`(best_feature_index, best_absolute_gradient)` is updated whenever
`|gradient| >= best_absolute_gradient`. -/
def DMaxEntModel.scanFeatures (m : DMaxEntModel α) :
    List (α × Feature α) → Nat → Nat × α → List (α × Feature α) × (Nat × α)
  | [], _, best => ([], best)
  | (feature_weight, feature) :: rest, index, (best_feature_index, best_absolute_gradient) =>
    let feature := feature.ComputeUnnormalizedPopulationExpectation m.space
    let gradient := m.gradient feature_weight feature
    let best :=
      if |gradient| ≥ best_absolute_gradient then (index, |gradient|)
      else (best_feature_index, best_absolute_gradient)
    let r := DMaxEntModel.scanFeatures m rest (index + 1) best
    ((feature_weight, feature) :: r.1, r.2)

/-- A (weight, feature) entry after the first loop of `FindDescentDirection` has
visited it: the weight is kept and the feature has its population expectation
recomputed on the space of the model. -/
def DMaxEntModel.refreshed (m : DMaxEntModel α) (wf : α × Feature α) : α × Feature α :=
  (wf.1, wf.2.ComputeUnnormalizedPopulationExpectation m.space)

/-- The absolute gradient that the first loop of `FindDescentDirection` computes
for an entry of the list. -/
def DMaxEntModel.absGradient (m : DMaxEntModel α) (wf : α × Feature α) : α :=
  |m.gradient (m.refreshed wf).1 (m.refreshed wf).2|

/-- The value of `best_absolute_gradient` when the first loop of
`FindDescentDirection` ends: the best absolute gradient of the existing features
(-1 when there is none). -/
def DMaxEntModel.bestExisting (m : DMaxEntModel α) : α :=
  (m.scanFeatures m.weighted_features 0 (0, -1)).2.2

/-- The second loop of `FindDescentDirection`: each weak learner is trained, and
its feature replaces the candidate when `|gradient| > best_absolute_gradient +
gTolerance`.  The pair `new_feature_found`, `new_feature` is an `Option`. -/
def DMaxEntModel.scanLearners (m : DMaxEntModel α) (size : Nat) :
    List (WLearner α) → Option (Feature α) × (Nat × α) → Option (Feature α) × (Nat × α)
  | [], st => st
  | learner :: rest, (new_feature, best_feature_index, best_absolute_gradient) =>
    let (feature, gradient) := learner.Train m.space m.sample
    if |gradient| > best_absolute_gradient + gTolerance then
      DMaxEntModel.scanLearners m size rest (some feature, size, |gradient|)
    else
      DMaxEntModel.scanLearners m size rest (new_feature, best_feature_index, best_absolute_gradient)

/-- `DMaxEntModel::FindDescentDirection`. -/
def DMaxEntModel.FindDescentDirection (m : DMaxEntModel α) : DMaxEntModel α :=
  let r := m.scanFeatures m.weighted_features 0 (0, -1)
  let weighted_features := r.1
  let s := m.scanLearners weighted_features.length m.weak_learners (none, r.2)
  let weighted_features :=
    match s.1 with
    | some new_feature => weighted_features ++ [((0 : α), new_feature)]
    | none => weighted_features
  { m with weighted_features := weighted_features, model_gradient := s.2.2, direction := s.2.1 }

/-- The value `beta` of `FindStepSize1`. -/
def DMaxEntModel.beta1 (exp : α → α) (m : DMaxEntModel α) (feature_weight : α)
    (feature : Feature α) : α :=
  let Phi_pt := m.lambda + feature.GetUnnormalizedPopulationExpectation / m.normalizer
  let Phi_mt := -m.lambda + feature.GetUnnormalizedPopulationExpectation / m.normalizer
  let Phi_p := m.lambda + feature.GetSampleExpectation
  let Phi_m := -m.lambda + feature.GetSampleExpectation
  (Phi_pt * Phi_m * exp (-2 * feature_weight * m.lambda) - Phi_p * Phi_mt) /
    (Phi_pt * exp (-2 * feature_weight * m.lambda) - Phi_mt)

/-- `DMaxEntModel::FindStepSize1`. -/
def DMaxEntModel.FindStepSize1 (exp log : α → α) (m : DMaxEntModel α) : Option (DMaxEntModel α) :=
  match m.weighted_features[m.direction]? with
  | none => none
  | some (feature_weight, feature) =>
    let Phi_pt := m.lambda + feature.GetUnnormalizedPopulationExpectation / m.normalizer
    let Phi_mt := -m.lambda + feature.GetUnnormalizedPopulationExpectation / m.normalizer
    let Phi_p := m.lambda + feature.GetSampleExpectation
    let Phi_m := -m.lambda + feature.GetSampleExpectation
    let beta := m.beta1 exp feature_weight feature
    let beta_k := m.beta_k feature
    if |beta| < beta_k then
      some { m with step_size := -feature_weight }
    else if beta > beta_k then
      let step := 0.5 * log (Phi_mt * (beta_k - Phi_p) / (Phi_pt * (beta_k - Phi_m))) / m.lambda
      some { m with step_size := step }
    else
      let step := 0.5 * log (Phi_mt * (beta_k + Phi_p) / (Phi_pt * (beta_k + Phi_m))) / m.lambda
      some { m with step_size := step }

/-- The value `beta` of `FindStepSize2`. -/
def DMaxEntModel.beta2 (m : DMaxEntModel α) (feature_weight : α) (feature : Feature α) : α :=
  feature_weight * m.lambda * m.lambda - m.diff_expectations feature

/-- `DMaxEntModel::FindStepSize2`. -/
def DMaxEntModel.FindStepSize2 (m : DMaxEntModel α) : Option (DMaxEntModel α) :=
  match m.weighted_features[m.direction]? with
  | none => none
  | some (feature_weight, feature) =>
    let diff_expectations := m.diff_expectations feature
    let beta_k := m.beta_k feature
    let beta := m.beta2 feature_weight feature
    if |beta| ≤ beta_k then
      some { m with step_size := -feature_weight }
    else if beta > beta_k then
      some { m with step_size := -(beta_k + diff_expectations) / (m.lambda * m.lambda) }
    else
      some { m with step_size := -(-beta_k + diff_expectations) / (m.lambda * m.lambda) }

/-- The loop of `UpdateModel` over the points of the space: each point gets the
weight `point.GetProbWeight() * exp(step_size * feature->FeatureMap(&point))`, which
is also added to `new_normalizer`. -/
def DMaxEntModel.updatePoints (exp : α → α) (step_size : α) (feature : Feature α) :
    List (Point α) → α → List (Point α) × α
  | [], new_normalizer => ([], new_normalizer)
  | point :: rest, new_normalizer =>
    let weight := point.GetProbWeight * exp (step_size * feature.FeatureMap point)
    let r := DMaxEntModel.updatePoints exp step_size feature rest (new_normalizer + weight)
    (point.SetProbWeight weight :: r.1, r.2)

/-- `DMaxEntModel::UpdateModel`. -/
def DMaxEntModel.UpdateModel (exp : α → α) (m : DMaxEntModel α) : Option (DMaxEntModel α) :=
  match m.weighted_features[m.direction]? with
  | none => none
  | some (feature_weight, feature) =>
    let r := DMaxEntModel.updatePoints exp m.step_size feature m.space.points 0
    some { m with
      weighted_features :=
        m.weighted_features.set m.direction (feature_weight + m.step_size, feature),
      space := { m.space with points := r.1 },
      normalizer := r.2 }

/-- One pass through the body of the loop of `Fit`: `FindDescentDirection`, the
step-size routine of the configured version, `UpdateModel`. -/
def DMaxEntModel.FitIteration (exp log : α → α) (m : DMaxEntModel α) : Option (DMaxEntModel α) :=
  let m := m.FindDescentDirection
  (if m.version = 1 then m.FindStepSize1 exp log else m.FindStepSize2).bind
    (DMaxEntModel.UpdateModel exp)

/-- The loop `for (int iter = 0; iter < max_descent_steps; iter++)` of `Fit`, from
the counter value `iter` on.  The result is the final state together with the
number of times the body has run.  The `VLOG` statements of the body only read
the state and are left out.  `fuel` bounds the recursion; `Fit` supplies the
number of counter values below `max_descent_steps`, which is never used up before
the loop guard fails. -/
def DMaxEntModel.FitLoop (exp log : α → α) :
    Nat → Nat → DMaxEntModel α → Option (DMaxEntModel α × Nat)
  | 0, iter, m => some (m, iter)
  | fuel + 1, iter, m =>
    if (iter : α) < m.max_descent_steps then
      match m.FitIteration exp log with
      | none => none
      | some m =>
        if m.model_gradient < gTolerance ∧ m.stop_if_converged = true then
          some (m, iter + 1)
        else
          DMaxEntModel.FitLoop exp log fuel (iter + 1) m
    else
      some (m, iter)

/-- `DMaxEntModel::Fit`, with the number of iterations performed. -/
def DMaxEntModel.FitCount [FloorRing α] (exp log : α → α) (m : DMaxEntModel α) :
    Option (DMaxEntModel α × Nat) :=
  DMaxEntModel.FitLoop exp log ⌈m.max_descent_steps⌉₊ 0 m

/-- `DMaxEntModel::Fit`. -/
def DMaxEntModel.Fit [FloorRing α] (exp log : α → α) (m : DMaxEntModel α) :
    Option (DMaxEntModel α) :=
  (m.FitCount exp log).map Prod.fst

/-- The state after `k` iterations as the specification words them: each
iteration runs `FindDescentDirection`, then the step-size routine of the
configured version (`FindStepSize1` for version 1, `FindStepSize2` for any other
value), then `UpdateModel`. -/
def DMaxEntModel.afterIterations (exp log : α → α) :
    Nat → DMaxEntModel α → Option (DMaxEntModel α)
  | 0, m => some m
  | k + 1, m =>
    match DMaxEntModel.afterIterations exp log k m with
    | none => none
    | some s =>
      if s.FindDescentDirection.version = 1 then
        (s.FindDescentDirection.FindStepSize1 exp log).bind (DMaxEntModel.UpdateModel exp)
      else
        s.FindDescentDirection.FindStepSize2.bind (DMaxEntModel.UpdateModel exp)

/-- The Gibbs form of the class comment: the weight of every point of the space
is the exponential of the weighted linear combination of the features of the
model at that point. -/
def DMaxEntModel.GibbsForm (exp : α → α) (m : DMaxEntModel α) : Prop :=
  ∀ p ∈ m.space.points,
    p.GetProbWeight = exp ((m.weighted_features.map (fun wf => wf.1 * wf.2.FeatureMap p)).sum)

/-- A feature map that reads a point through its covariates only, as every
feature class of `feature.cpp` does (`GetRawFeature` is the only access): the
value does not depend on the probability weight of the point. -/
def Feature.ReadsCovariatesOnly (f : Feature α) : Prop :=
  ∀ (p : Point α) (value : α), f.FeatureMap (p.SetProbWeight value) = f.FeatureMap p

end Engine

/-! ## The fixture of dmaxent_test.cpp -/

section Fixture

variable (α : Type) [LinearOrderedField α]

/-- The point `point1` of the test fixture (`finalized` tells the copy stored in
the space from the object the sample points at). -/
def fixturePoint1 (finalized : Bool) : Point α :=
  { id := 1, finalized := finalized, probability_weight := 1,
    raw_features := [0.5, 0.4, 0.7, 0.7] }

/-- The point `point2` of the test fixture. -/
def fixturePoint2 (finalized : Bool) : Point α :=
  { id := 2, finalized := finalized, probability_weight := 1,
    raw_features := [0.9, 0.1, 0.1, 0.1] }

/-- The finalized two-point space of the test fixture. -/
def fixtureSpace : Space α :=
  { finalized := true, points := [fixturePoint1 α true, fixturePoint2 α true] }

/-- The sample of the test fixture: `point1` once and `point2` three times. -/
def fixtureSample : Sample α :=
  [Example.detached (fixturePoint1 α false), Example.detached (fixturePoint2 α false),
    Example.detached (fixturePoint2 α false), Example.detached (fixturePoint2 α false)]

/-- `RawFeature(0)` of the fixture, on points that have covariate 0, with the
sample expectation that `SetUp` computes. -/
def fixtureRaw0 : Feature α :=
  { FeatureMap := fun p => p.raw_features.getD 0 0, Complexity := 0,
    sample_expectation := 0.8, population_expectation := 0 }

/-- `ProductFeature(1, 2)` of the fixture, on points that have covariates 1 and 2. -/
def fixtureProduct12 : Feature α :=
  { FeatureMap := fun p => p.raw_features.getD 1 0 * p.raw_features.getD 2 0, Complexity := 0,
    sample_expectation := 0.0775, population_expectation := 0 }

/-- `ThresholdFeature(3, 0.5)` of the fixture, on points that have covariate 3. -/
def fixtureThreshold3 : Feature α :=
  { FeatureMap := fun p => if p.raw_features.getD 3 0 > 0.5 then 1 else 0, Complexity := 0,
    sample_expectation := 0.25, population_expectation := 0 }

/-- A weak learner that proposes the threshold feature with gradient 1 whatever
the space and sample. -/
def fixtureLearner : WLearner α :=
  { Train := fun _ _ => (fixtureThreshold3 α, 1) }

/-- The model of the tests: `DMaxEntModel(0.0, 0.07, max_steps, ver, 1, true, space,
sample, &features, learners, test)`. -/
def fixtureModel (max_steps : α) (ver : Int) (learners : List (WLearner α)) : DMaxEntModel α :=
  DMaxEntModel.mk0 0 0.07 max_steps ver 1 true (fixtureSpace α) (fixtureSample α)
    [fixtureRaw0 α, fixtureProduct12 α, fixtureThreshold3 α] learners []

/-- The fixture model with the third feature selected and its population
expectation recomputed, at weight `w` and with step size `s`. -/
def fixtureSelected (w s : α) : DMaxEntModel α :=
  { fixtureModel α 1 2 [] with
    weighted_features := [(0, fixtureRaw0 α), (0, fixtureProduct12 α),
      (w, (fixtureThreshold3 α).ComputeUnnormalizedPopulationExpectation (fixtureSpace α))],
    direction := 2,
    step_size := s }

/-- The fixture model with the second feature selected and its population
expectation recomputed, at weight `w`. -/
def fixtureProductSelected (w : α) : DMaxEntModel α :=
  { fixtureModel α 1 2 [] with
    weighted_features := [(0, fixtureRaw0 α),
      (w, (fixtureProduct12 α).ComputeUnnormalizedPopulationExpectation (fixtureSpace α)),
      (0, fixtureThreshold3 α)],
    direction := 1 }

end Fixture

/-! ## wlearner.hpp / wlearner.cpp: complexities and penalized gradients

`sqrt` and `log` of `<cmath>` are parameters, as `exp` and `log` are for the
engine.  A `std::map<double, double>` is the list of its entries in key order. -/

section LearnerBasics

variable {α : Type} [LinearOrderedField α]

/-- The private state of `class TreeLearner`. -/
structure TreeLearner (α : Type) where
  num_features : Int
  model_parameter_alpha : α
  model_parameter_beta : α
  value_to_thresholds : List (List (α × α))

/-- The private state of `class MonomialLearner`. -/
structure MonomialLearner (α : Type) where
  num_features : Int
  model_parameter_alpha : α
  model_parameter_beta : α
  feature_bound : α

/-- `TreeLearner::TreeComplexity`. -/
def TreeLearner.TreeComplexity (sqrt log : α → α) (L : TreeLearner α)
    (tree_size sample_size : Int) : α :=
  sqrt (((4 * tree_size + 2 : Int) : α) * (log ((L.num_features : α) + 2.0) / log 2.0) *
    log ((sample_size : α) + 1.0) / (sample_size : α))

/-- `TreeLearner::Gradient`. -/
def TreeLearner.Gradient (sqrt log : α → α) (L : TreeLearner α) (tree_size sample_size : Int)
    (expectation_difference : α) : α :=
  let complexity := L.model_parameter_beta +
    L.model_parameter_alpha * L.TreeComplexity sqrt log tree_size sample_size
  if |expectation_difference| < complexity then
    0
  else
    let sgn : Int := if expectation_difference > 0 then 1 else -1
    expectation_difference - (sgn : α) * complexity

/-- `MonomialLearner::MonomialComplexity`. -/
def MonomialLearner.MonomialComplexity (sqrt log : α → α) (L : MonomialLearner α)
    (power sample_size : Int) : α :=
  sqrt (2 * L.feature_bound * (power : α) * log (L.num_features : α) / (sample_size : α))

/-- `MonomialLearner::Gradient`. -/
def MonomialLearner.Gradient (sqrt log : α → α) (L : MonomialLearner α) (power sample_size : Int)
    (difference : α) : α :=
  let complexity := L.model_parameter_beta +
    L.model_parameter_alpha * L.MonomialComplexity sqrt log power sample_size
  if |difference| < complexity then
    0
  else
    let sgn : Int := if difference > 0 then 1 else -1
    difference - (sgn : α) * complexity

/-- The rule shared by the bodies of `TreeLearner::Gradient` and
`MonomialLearner::Gradient`, as the specification words it: 0 when `|d| < c`, and
`d - sign(d) * c` otherwise (`sign` is 1 for `d > 0` and -1 otherwise). -/
def penalizedGradient (c d : α) : α :=
  if |d| < c then 0 else d - sgn d * c

end LearnerBasics

/-! ## dmaxent.cpp: AUC -/

section AUCModel

variable {α : Type} [LinearOrderedField α]

/-- The point an example points at: the point stored in the space under the key,
or the detached object; a key that is not in the space is a dangling pointer. -/
def Example.deref (space : Space α) : Example α → Option (Point α)
  | Example.inSpace key => space.points[key]?
  | Example.detached point => some point

/-- The points a sample points at, in order (`none` with a dangling pointer). -/
def Sample.points (space : Space α) : Sample α → Option (List (Point α))
  | [] => some []
  | e :: rest =>
    match e.deref space, Sample.points space rest with
    | some p, some ps => some (p :: ps)
    | _, _ => none

/-- The first loop of `AUC`: `positive[point->GetId()] = true` for every example.
An id that is not an index of the vector is undefined behaviour (`none`). -/
def AUC.mark : List Bool → List (Point α) → Option (List Bool)
  | positive, [] => some positive
  | positive, point :: rest =>
    if 0 ≤ point.id ∧ point.id.toNat < positive.length then
      AUC.mark (positive.set point.id.toNat true) rest
    else
      none

/-- The label `positive[point->GetId()]` of a point whose id is an index. -/
def AUC.label (positive : List Bool) (point : Point α) : Bool :=
  positive.getD point.id.toNat false

/-- `PointProbLessThanOperator::operator()`, on points whose ids are indices of
`positive`. -/
def PointProbLessThanOperator (positive : List Bool) (point1 point2 : Point α) : Bool :=
  decide (point1.GetProbWeight < point2.GetProbWeight) ||
    (decide (point1.GetProbWeight = point2.GetProbWeight) &&
      !(AUC.label positive point1) && AUC.label positive point2)

/-- The last loop of `AUC` over the sorted points, on the pair `(n, r)`. -/
def AUC.scan (positive : List Bool) : List (Point α) → α × α → α × α
  | [], nr => nr
  | point :: rest, (n, r) =>
    if AUC.label positive point then AUC.scan positive rest (n, r + n)
    else AUC.scan positive rest (n + 1.0, r)

/-- The value `r / (n * (all_points.size() - n))` that `AUC` returns when
`std::sort` has left `all_points` in the order `sorted`. -/
def AUC.ofSorted (positive : List Bool) (sorted : List (Point α)) : α :=
  (AUC.scan positive sorted (0.0, 0.0)).2 /
    ((AUC.scan positive sorted (0.0, 0.0)).1 *
      ((sorted.length : α) - (AUC.scan positive sorted (0.0, 0.0)).1))

/-- `DMaxEntModel::AUC`.  `std::sort` is a merge sort here; the order it leaves
among equivalent points does not matter (`AUC_sorted_eq`).  The result is `none`
when an example dangles or an id is not an index of `positive`. -/
def DMaxEntModel.AUC (m : DMaxEntModel α) (sample : Sample α) : Option α :=
  match Sample.points m.space sample with
  | none => none
  | some examples =>
    match AUC.mark (List.replicate m.space.NumPoints false) examples with
    | none => none
    | some positive =>
      if m.space.points.all
          (fun p => decide (0 ≤ p.id) && decide (p.id.toNat < positive.length)) then
        some (AUC.ofSorted positive
          (m.space.points.mergeSort (fun a b => !PointProbLessThanOperator positive b a)))
      else
        none

/-- The number of pairs (p, q) of points of the list with `R p q`. -/
def countPairs (R : Point α → Point α → Bool) (l1 l2 : List (Point α)) : Nat :=
  (l1.map (fun p => l2.countP (R p))).sum

/-- The number of (positive, negative) pairs of points in which the weight of the
positive point is greater than or equal to the weight of the negative point. -/
def AUC.concordant (positive : List Bool) (points : List (Point α)) : Nat :=
  countPairs (fun p q => AUC.label positive p && !(AUC.label positive q) &&
    decide (q.GetProbWeight ≤ p.GetProbWeight)) points points

/-- The number of (positive, negative) pairs of points of equal weight. -/
def AUC.tied (positive : List Bool) (points : List (Point α)) : Nat :=
  countPairs (fun p q => AUC.label positive p && !(AUC.label positive q) &&
    decide (q.GetProbWeight = p.GetProbWeight)) points points

end AUCModel

/-! ## The fixture of `TestAUC` -/

section AUCFixture

variable (α : Type) [LinearOrderedField α]

/-- A point without covariates, as `TestAUC` creates them. -/
def aucPoint (id : Int) (w : α) : Point α :=
  { id := id, finalized := false, probability_weight := w, raw_features := [] }

/-- The ten-point space of `TestAUC`. -/
def aucSpace : Space α :=
  { finalized := false,
    points := [aucPoint α 0 3, aucPoint α 1 2, aucPoint α 2 1.5, aucPoint α 3 1.0,
      aucPoint α 4 0.8, aucPoint α 5 0.7, aucPoint α 6 0.5, aucPoint α 7 0.3,
      aucPoint α 8 0.1, aucPoint α 9 0.1] }

/-- The test sample of `TestAUC`. -/
def aucSample : Sample α :=
  [Example.detached (aucPoint α 8 0.1), Example.detached (aucPoint α 5 0.7),
    Example.detached (aucPoint α 4 0.8), Example.detached (aucPoint α 4 0.8),
    Example.detached (aucPoint α 2 1.5), Example.detached (aucPoint α 1 2),
    Example.detached (aucPoint α 0 3)]

/-- The model of `TestAUC`. -/
def aucModel : DMaxEntModel α :=
  DMaxEntModel.mk0 0 0.07 3 1 1 true (aucSpace α) (fixtureSample α)
    [fixtureRaw0 α, fixtureProduct12 α, fixtureThreshold3 α] [] []

/-- A model over a space of two points with ids 0 and 1 and the given weights. -/
def twoPointModel (w0 w1 : α) : DMaxEntModel α :=
  DMaxEntModel.mk0 0 0.07 3 1 1 true
    { finalized := true, points := [aucPoint α 0 w0, aucPoint α 1 w1] } [] [] [] []

end AUCFixture

/-! ## space.cpp and feature.cpp: covariates and the simple feature classes

`Point::GetRawFeature` returns not-a-number for a missing covariate; that result
is `none` here.  The engine computes with finite values: where a feature map of a
simple class would be not-a-number the model is not meant, and the value reads
as 0. -/

section FeatureClasses

variable {α : Type} [LinearOrderedField α]

/-- `Point::GetRawFeature`: the covariate at `index`, not-a-number (`none`) when
`index < raw_features.size()` fails (the comparison is unsigned, so also for a
negative `index`). -/
def Point.GetRawFeature (p : Point α) (index : Int) : Option α :=
  if 0 ≤ index then p.raw_features[index.toNat]? else none

/-- A double that may be not-a-number, read in the arithmetic of the engine. -/
def finite (x : Option α) : α := x.getD 0

/-- `Feature::ComputeSampleExpectation`, on the points that the examples of the
sample point at: `count++; sum += FeatureMap(e)` for every example, then
`sample_expectation = sum / count`. -/
def Feature.ComputeSampleExpectation (f : Feature α) (examples : List (Point α)) : Feature α :=
  { f with sample_expectation :=
      (examples.foldl (fun (st : α × Nat) e => (st.1 + f.FeatureMap e, st.2 + 1)) (0, 0)).1 /
        ((examples.foldl (fun (st : α × Nat) e => (st.1 + f.FeatureMap e, st.2 + 1)) (0, 0)).2 : α) }

/-- `RawFeature(i)` with the class complexity `complexity`; the expectations are
not-a-number until computed (0 here). -/
def RawFeature (i : Int) (complexity : α) : Feature α :=
  { FeatureMap := fun point => finite (point.GetRawFeature i)
    Complexity := complexity
    sample_expectation := 0
    population_expectation := 0 }

/-- `ProductFeature(i, j)` with the class complexity `complexity`. -/
def ProductFeature (i j : Int) (complexity : α) : Feature α :=
  { FeatureMap := fun point =>
      finite (point.GetRawFeature i) * finite (point.GetRawFeature j)
    Complexity := complexity
    sample_expectation := 0
    population_expectation := 0 }

/-- `ThresholdFeature(i, theta)` with the class complexity `complexity`: 1 when
the covariate is above the threshold and 0 otherwise, also for a missing
covariate. -/
def ThresholdFeature (i : Int) (theta : α) (complexity : α) : Feature α :=
  { FeatureMap := fun point =>
      match point.GetRawFeature i with
      | some v => if v > theta then 1 else 0
      | none => 0
    Complexity := complexity
    sample_expectation := 0
    population_expectation := 0 }

end FeatureClasses

/-! ## The model of `DMaxEntModelTest::SetUp` -/

section TestModel

variable (α : Type) [LinearOrderedField α]

/-- The features of `SetUp`: `RawFeature(0)`, `ProductFeature(1, 2)` and
`ThresholdFeature(3, 0.5)`, each with its sample expectation computed on the
sample (`point1` once, `point2` three times) and complexity 0. -/
def testFeatures : List (Feature α) :=
  [(RawFeature 0 0).ComputeSampleExpectation
      [fixturePoint1 α false, fixturePoint2 α false, fixturePoint2 α false, fixturePoint2 α false],
    (ProductFeature 1 2 0).ComputeSampleExpectation
      [fixturePoint1 α false, fixturePoint2 α false, fixturePoint2 α false, fixturePoint2 α false],
    (ThresholdFeature 3 0.5 0).ComputeSampleExpectation
      [fixturePoint1 α false, fixturePoint2 α false, fixturePoint2 α false, fixturePoint2 α false]]

/-- The model that the tests construct from `SetUp`:
`DMaxEntModel(0.0, 0.07, max_steps, ver, 1, true, space, sample, &features,
learners, test)` with no weak learner. -/
def testModel (max_steps : α) (ver : Int) : DMaxEntModel α :=
  DMaxEntModel.mk0 0 0.07 max_steps ver 1 true (fixtureSpace α) (fixtureSample α)
    (testFeatures α) [] []

end TestModel

/-! ## Runs of the training loops

The loops of `MonomialLearner::Train` and `TreeLearner::Train` have no bound in
the source; here they take a bound on the number of iterations. -/

/-- The outcome of a run: a result, undefined behaviour of the source (a read of
an uninitialised local, an index out of range, a not-a-number where the source
needs an ordered value), or the bound on the iterations reached. -/
inductive Run (β : Type) where
  | ok (result : β) : Run β
  | undefined : Run β
  | exhausted : Run β

/-! ## feature.cpp and wlearner.cpp: monomial features and their learner -/

section MonomialModel

variable {α : Type} [LinearOrderedField α]

/-- The state of `class MonomialFeature`: `powers`, `complexity` and the two
expectations of the base class (not-a-number after construction, 0 here). -/
structure MonomialFeature (α : Type) where
  powers : List Int
  complexity : α
  sample_expectation : α
  population_expectation : α

/-- The constructor `MonomialFeature::MonomialFeature(pwrs)`. -/
def MonomialFeature.new (pwrs : List Int) : MonomialFeature α :=
  { powers := pwrs, complexity := 0, sample_expectation := 0, population_expectation := 0 }

/-- `MonomialFeature::FeatureMap`: `result *= pow(point->GetRawFeature(index),
powers[index])` for every index, from `result = 1.0`. -/
def MonomialFeature.FeatureMap (f : MonomialFeature α) (point : Point α) : α :=
  f.powers.enum.foldl
    (fun result ip => result * finite (point.GetRawFeature (ip.1 : Int)) ^ ip.2) 1

/-- `MonomialFeature::SetComplexity`. -/
def MonomialFeature.SetComplexity (f : MonomialFeature α) (value : α) : MonomialFeature α :=
  { f with complexity := value }

/-- `MonomialFeature::MonomialExpectations`. -/
def MonomialFeature.MonomialExpectations (f : MonomialFeature α) (population sample : α) :
    MonomialFeature α :=
  { f with population_expectation := population, sample_expectation := sample }

/-- `MonomialFeature::GetPower`. -/
def MonomialFeature.GetPower (f : MonomialFeature α) : Int :=
  f.powers.foldl (fun sum p => sum + p) 0

/-- A monomial feature seen through the base class `Feature`. -/
def MonomialFeature.toFeature (f : MonomialFeature α) : Feature α :=
  { FeatureMap := f.FeatureMap
    Complexity := f.complexity
    sample_expectation := f.sample_expectation
    population_expectation := f.population_expectation }

/-- The inner loops of `BestFeature`: `expectation += values[index] *
point.GetRawFeature(feature)` over the points, `index` running with them; `none`
when `values` is shorter than the list of points (an index out of range). -/
def MonomialLearner.weightedSum (feature : Int) : List α → List (Point α) → α → Option α
  | _, [], expectation => some expectation
  | [], _ :: _, _ => none
  | v :: values, point :: points, expectation =>
    MonomialLearner.weightedSum feature values points
      (expectation + v * finite (point.GetRawFeature feature))

/-- `MonomialLearner::BestFeature`; the result is (`candidate_gradient`,
`candidate_feature`, `candidate_population_expectation`,
`candidate_sample_expectation`). -/
def MonomialLearner.BestFeature (sqrt log : α → α) (L : MonomialLearner α)
    (point_values sample_values : List α) (space : Space α) (sample : List (Point α))
    (normalizer : α) (power : Int) : Option (α × Int × α × α) :=
  (List.range L.num_features.toNat).foldl
    (fun (candidate : Option (α × Int × α × α)) (feature : Nat) =>
      match candidate, MonomialLearner.weightedSum (feature : Int) point_values space.points 0,
        MonomialLearner.weightedSum (feature : Int) sample_values sample 0 with
      | some c, some population_sum, some sample_sum =>
        let population_expectation := population_sum / normalizer
        let sample_expectation := sample_sum / (sample.length : α)
        let diff := population_expectation - sample_expectation
        let gradient := L.Gradient sqrt log (power + 1) (sample.length : Int) diff
        if |gradient| > |c.1| + gTolerance then
          some (gradient, (feature : Int), population_expectation, sample_expectation)
        else
          some c
      | _, _, _ => none)
    (some (0, 0, 0, 0))

/-- The locals of `MonomialLearner::Train` that its loop changes.  The two
expectations are assigned together and are uninitialised (`none`) before. -/
structure MonomialLearner.State (α : Type) where
  monomial : List Int
  point_values : List α
  sample_values : List α
  best_gradient : α
  expectations : Option (α × α)
  power : Int

/-- The loop `while (!stop)` of `MonomialLearner::Train`, at most `bound` times
through its body; the result is the last `*feature` and `*monomial_gradient`. -/
def MonomialLearner.TrainLoop (sqrt log : α → α) (L : MonomialLearner α) (space : Space α)
    (sample : List (Point α)) (normalizer : α) :
    Nat → MonomialLearner.State α → Run (MonomialFeature α × α)
  | 0, _ => Run.exhausted
  | bound + 1, st =>
    match L.BestFeature sqrt log st.point_values st.sample_values space sample normalizer
      st.power with
    | none => Run.undefined
    | some (candidate_gradient, candidate_feature, candidate_population_expectation,
        candidate_sample_expectation) =>
      if |candidate_gradient| > |st.best_gradient| + gTolerance then
        if 0 ≤ candidate_feature ∧ candidate_feature.toNat < st.monomial.length then
          MonomialLearner.TrainLoop sqrt log L space sample normalizer bound
            { monomial := st.monomial.modify (fun p => p + 1) candidate_feature.toNat
              point_values := List.zipWith
                (fun v (point : Point α) => v * finite (point.GetRawFeature candidate_feature))
                st.point_values space.points
              sample_values := List.zipWith
                (fun v (point : Point α) => v * finite (point.GetRawFeature candidate_feature))
                st.sample_values sample
              best_gradient := candidate_gradient
              expectations :=
                some (candidate_population_expectation, candidate_sample_expectation)
              power := st.power + 1 }
        else
          Run.undefined
      else
        match st.expectations with
        | none => Run.undefined
        | some (monomial_population_expectation, monomial_sample_expectation) =>
          Run.ok
            (((MonomialFeature.new st.monomial).SetComplexity
                (L.MonomialComplexity sqrt log st.power (sample.length : Int))).MonomialExpectations
              monomial_population_expectation monomial_sample_expectation,
            st.best_gradient)

/-- `MonomialLearner::Train`, with a bound on the rounds: the feature and the
gradient.  A sample that points at no point is undefined behaviour. -/
def MonomialLearner.Train (sqrt log : α → α) (L : MonomialLearner α) (space : Space α)
    (sample : Sample α) (bound : Nat) : Run (MonomialFeature α × α) :=
  match Sample.points space sample with
  | none => Run.undefined
  | some examples =>
    MonomialLearner.TrainLoop sqrt log L space examples
      (space.points.foldl (fun normalizer point => normalizer + point.GetProbWeight) 0) bound
      { monomial := List.replicate L.num_features.toNat 0
        point_values := space.points.map Point.GetProbWeight
        sample_values := List.replicate examples.length 1
        best_gradient := 0
        expectations := none
        power := 0 }

end MonomialModel

/-! ## The fixture of `MonomialLearnerTest` -/

section MonomialFixture

variable (α : Type) [LinearOrderedField α]

/-- The four points of `MonomialLearnerTest::SetUp`, as stored in the space. -/
def monomialPoints : List (Point α) :=
  [{ id := 1, finalized := true, probability_weight := 0.5, raw_features := [1, -1, 0.5] },
    { id := 2, finalized := true, probability_weight := 1.5, raw_features := [0.5, -0.5, 1] },
    { id := 3, finalized := true, probability_weight := 2.0, raw_features := [-1, 0.0, 1] },
    { id := 4, finalized := true, probability_weight := 1.0, raw_features := [-1, 0.1, 0.0] }]

/-- The space of `MonomialLearnerTest::SetUp`. -/
def monomialSpace : Space α :=
  { finalized := true, points := monomialPoints α }

/-- The sample of `MonomialLearnerTest::SetUp`: `point2`, `point3`, `point3`. -/
def monomialSample : Sample α :=
  [Example.detached
      { id := 2, finalized := false, probability_weight := 1.5, raw_features := [0.5, -0.5, 1] },
    Example.detached
      { id := 3, finalized := false, probability_weight := 2.0, raw_features := [-1, 0.0, 1] },
    Example.detached
      { id := 3, finalized := false, probability_weight := 2.0, raw_features := [-1, 0.0, 1] }]

/-- The learner `MonomialLearner(3, 0, 0.01, 1.0)`. -/
def monomialLearner : MonomialLearner α :=
  { num_features := 3, model_parameter_alpha := 0, model_parameter_beta := 0.01,
    feature_bound := 1.0 }

end MonomialFixture

/-! ## tree.hpp / tree.cpp

A `Node*` is a value of `Node`: `NULL`, or a node with its private state, its two
children included.  A node that another pointer reaches (an element of the queue
of `TreeLearner::Train`) is addressed by the path from the root, `false` for the
left child and `true` for the right one. -/

section TreeModel

variable {α : Type} [LinearOrderedField α]

/-- A pointer to a `class Node`. -/
inductive Node (α : Type) where
  | null : Node α
  | mk (feature : Int) (threshold value : α) (left_child right_child : Node α) (weight : α)
      (points samples : List (Point α)) : Node α

/-- `new Node()`: the class has no constructor, so the members are
value-initialised. -/
def Node.new : Node α := Node.mk 0 0 0 Node.null Node.null 0 [] []

/-- Comparison of a pointer with `NULL`. -/
def Node.isNull : Node α → Bool
  | Node.null => true
  | Node.mk _ _ _ _ _ _ _ _ => false

/-- `Node::GetValue` (`none` through a null pointer, as for every reader below). -/
def Node.GetValue : Node α → Option α
  | Node.null => none
  | Node.mk _ _ value _ _ _ _ _ => some value

/-- `Node::GetPopulationWeight`. -/
def Node.GetPopulationWeight : Node α → Option α
  | Node.null => none
  | Node.mk _ _ _ _ _ weight _ _ => some weight

/-- `Node::GetSampleCount`. -/
def Node.GetSampleCount : Node α → Option Int
  | Node.null => none
  | Node.mk _ _ _ _ _ _ _ samples => some (samples.length : Int)

/-- `Node::GetLeftChild`. -/
def Node.GetLeftChild : Node α → Option (Node α)
  | Node.null => none
  | Node.mk _ _ _ left_child _ _ _ _ => some left_child

/-- `Node::GetRightChild`. -/
def Node.GetRightChild : Node α → Option (Node α)
  | Node.null => none
  | Node.mk _ _ _ _ right_child _ _ _ => some right_child

/-- The points between `PointsBegin()` and `PointsEnd()`. -/
def Node.Points : Node α → List (Point α)
  | Node.null => []
  | Node.mk _ _ _ _ _ _ points _ => points

/-- The points between `SamplesBegin()` and `SamplesEnd()`. -/
def Node.Samples : Node α → List (Point α)
  | Node.null => []
  | Node.mk _ _ _ _ _ _ _ samples => samples

/-- `Node::SetThreshold`.  The writers are called on nodes just created or taken
from the queue, never through a null pointer; on `NULL` they do nothing here. -/
def Node.SetThreshold : Node α → α → Node α
  | Node.null, _ => Node.null
  | Node.mk feature _ value left_child right_child weight points samples, val =>
    Node.mk feature val value left_child right_child weight points samples

/-- `Node::SetFeature`. -/
def Node.SetFeature : Node α → Int → Node α
  | Node.null, _ => Node.null
  | Node.mk _ threshold value left_child right_child weight points samples, index =>
    Node.mk index threshold value left_child right_child weight points samples

/-- `Node::SetLeftChild`. -/
def Node.SetLeftChild : Node α → Node α → Node α
  | Node.null, _ => Node.null
  | Node.mk feature threshold value _ right_child weight points samples, child =>
    Node.mk feature threshold value child right_child weight points samples

/-- `Node::SetRightChild`. -/
def Node.SetRightChild : Node α → Node α → Node α
  | Node.null, _ => Node.null
  | Node.mk feature threshold value left_child _ weight points samples, child =>
    Node.mk feature threshold value left_child child weight points samples

/-- `Node::SetValue`. -/
def Node.SetValue : Node α → α → Node α
  | Node.null, _ => Node.null
  | Node.mk feature threshold _ left_child right_child weight points samples, val =>
    Node.mk feature threshold val left_child right_child weight points samples

/-- `Node::ClearPoints`. -/
def Node.ClearPoints : Node α → Node α
  | Node.null => Node.null
  | Node.mk feature threshold value left_child right_child _ _ samples =>
    Node.mk feature threshold value left_child right_child 0 [] samples

/-- `Node::ClearSamples`. -/
def Node.ClearSamples : Node α → Node α
  | Node.null => Node.null
  | Node.mk feature threshold value left_child right_child weight points _ =>
    Node.mk feature threshold value left_child right_child weight points []

/-- `Node::AddPoint`. -/
def Node.AddPoint : Node α → Point α → Node α
  | Node.null, _ => Node.null
  | Node.mk feature threshold value left_child right_child weight points samples, point =>
    Node.mk feature threshold value left_child right_child (weight + point.GetProbWeight)
      (points ++ [point]) samples

/-- `Node::AddSample`. -/
def Node.AddSample : Node α → Point α → Node α
  | Node.null, _ => Node.null
  | Node.mk feature threshold value left_child right_child weight points samples, point =>
    Node.mk feature threshold value left_child right_child weight points (samples ++ [point])

/-- `Node::IsLeaf`: both children are `NULL`. -/
def Node.IsLeaf : Node α → Option Bool
  | Node.null => none
  | Node.mk _ _ _ left_child right_child _ _ _ => some (left_child.isNull && right_child.isNull)

/-- The test `point->GetRawFeature(index) < threshold`, which is false for a
missing covariate (not-a-number). -/
def Point.RawFeatureLess (point : Point α) (index : Int) (threshold : α) : Bool :=
  match point.GetRawFeature index with
  | some v => decide (v < threshold)
  | none => false

/-- `Node::Child`. -/
def Node.Child : Node α → Point α → Option (Node α)
  | Node.null, _ => none
  | Node.mk feature threshold _ left_child right_child _ _ _, point =>
    if point.RawFeatureLess feature threshold then some left_child else some right_child

/-- The node that a path from this node reaches (`NULL` past a null pointer). -/
def Node.sub : Node α → List Bool → Node α
  | n, [] => n
  | Node.null, _ :: _ => Node.null
  | Node.mk _ _ _ left_child right_child _ _ _, b :: path =>
    if b then right_child.sub path else left_child.sub path

/-- The tree after a write `g` to the node that a path reaches. -/
def Node.modify (g : Node α → Node α) : Node α → List Bool → Node α
  | n, [] => g n
  | Node.null, _ :: _ => Node.null
  | Node.mk feature threshold value left_child right_child weight points samples, b :: path =>
    if b then
      Node.mk feature threshold value left_child (right_child.modify g path) weight points samples
    else
      Node.mk feature threshold value (left_child.modify g path) right_child weight points samples

/-- The number of nodes that the pointer reaches. -/
def Node.count : Node α → Nat
  | Node.null => 0
  | Node.mk _ _ _ left_child right_child _ _ _ => 1 + left_child.count + right_child.count

end TreeModel

/-! ## feature.cpp: tree features -/

section TreeFeatureModel

variable {α : Type} [LinearOrderedField α]

/-- The state of `class TreeFeature`: the root of its tree, `complexity` (not
initialised by the constructor, 0 here) and the two expectations of the base
class (not-a-number after construction, 0 here). -/
structure TreeFeature (α : Type) where
  root : Node α
  complexity : α
  sample_expectation : α
  population_expectation : α

/-- The constructor `TreeFeature::TreeFeature(node)`. -/
def TreeFeature.new (node : Node α) : TreeFeature α :=
  { root := node, complexity := 0, sample_expectation := 0, population_expectation := 0 }

/-- The loop of `TreeFeature::FeatureMap` from a node: `while (!(node->IsLeaf()))
node = node->Child(point)`, then `node->GetValue()`; `none` when the walk reaches
a null pointer. -/
def TreeFeature.walk : Node α → Point α → Option α
  | Node.null, _ => none
  | Node.mk feature threshold value left_child right_child _ _ _, point =>
    if left_child.isNull && right_child.isNull then
      some value
    else if point.RawFeatureLess feature threshold then
      TreeFeature.walk left_child point
    else
      TreeFeature.walk right_child point

/-- `TreeFeature::FeatureMap`. -/
def TreeFeature.FeatureMap (f : TreeFeature α) (point : Point α) : Option α :=
  TreeFeature.walk f.root point

/-- `TreeFeature::SetComplexity`. -/
def TreeFeature.SetComplexity (f : TreeFeature α) (value : α) : TreeFeature α :=
  { f with complexity := value }

/-- A tree feature seen through the base class `Feature`. -/
def TreeFeature.toFeature (f : TreeFeature α) : Feature α :=
  { FeatureMap := fun point => finite (f.FeatureMap point)
    Complexity := f.complexity
    sample_expectation := f.sample_expectation
    population_expectation := f.population_expectation }

/-- The loop of `TreeFeature::ComputeTreeExpectations` over its queue, with the
sums (`up_expectation`, `us_expectation`, `sample_count`). -/
def TreeFeature.expectationsLoop : List (Node α) → α × α × α → Option (α × α × α)
  | [], sums => some sums
  | Node.null :: _, _ => none
  | Node.mk _ _ value left_child right_child weight _ samples :: q, sums =>
    if left_child.isNull && right_child.isNull then
      TreeFeature.expectationsLoop q
        (sums.1 + value * weight, sums.2.1 + value * (samples.length : α),
          sums.2.2 + (samples.length : α))
    else
      TreeFeature.expectationsLoop (q ++ [left_child, right_child]) sums
termination_by q => (q.map (fun n => 2 * n.count + 1)).sum
decreasing_by
  all_goals simp_wf
  all_goals simp only [List.map_append, List.sum_append, List.map_cons, List.map_nil,
    List.sum_cons, List.sum_nil, Node.count]
  all_goals omega

/-- `TreeFeature::ComputeTreeExpectations`. -/
def TreeFeature.ComputeTreeExpectations (f : TreeFeature α) : Option (TreeFeature α) :=
  match TreeFeature.expectationsLoop [f.root] (0, 0, 0) with
  | none => none
  | some sums =>
    some { f with population_expectation := sums.1, sample_expectation := sums.2.1 / sums.2.2 }

/-- The children that the loop of `TreeSize` pushes: those that are not `NULL`. -/
def Node.pushed (left_child right_child : Node α) : List (Node α) :=
  (if left_child.isNull then [] else [left_child]) ++
    (if right_child.isNull then [] else [right_child])

/-- The loop of `TreeFeature::TreeSize` over its queue. -/
def TreeFeature.sizeLoop : List (Node α) → Int → Option Int
  | [], tree_size => some tree_size
  | Node.null :: _, _ => none
  | Node.mk _ _ _ left_child right_child _ _ _ :: q, tree_size =>
    TreeFeature.sizeLoop (q ++ Node.pushed left_child right_child) (tree_size + 1)
termination_by q => (q.map (fun n => 2 * n.count + 1)).sum
decreasing_by
  simp_wf
  simp only [List.map_append, List.sum_append, Node.count, Node.pushed]
  split_ifs <;> simp <;> omega

/-- `TreeFeature::TreeSize`. -/
def TreeFeature.TreeSize (f : TreeFeature α) : Option Int :=
  TreeFeature.sizeLoop [f.root] 0

end TreeFeatureModel

/-! ## wlearner.cpp: the tree learner

A `std::map` is the list of its entries in key order.  `operator[]` on a map
inserts a missing key with a zero value, so the lookups of
`BuildThresholdToWeightsMap` in `value_to_thresholds` change the learner; the
functions that look up return the learner after the call. -/

section TreeLearnerModel

variable {α : Type} [LinearOrderedField α]

/-- `std::map::find`: the value stored under a key. -/
def mapFind {β : Type} : List (α × β) → α → Option β
  | [], _ => none
  | e :: rest, k => if e.1 = k then some e.2 else mapFind rest k

/-- The entries after the insertion of a key that the map does not hold. -/
def mapInsert {β : Type} : List (α × β) → α → β → List (α × β)
  | [], k, v => [(k, v)]
  | e :: rest, k, v => if k < e.1 then (k, v) :: e :: rest else e :: mapInsert rest k v

/-- The entries after `m[k] = f(m[k])`, where `operator[]` first inserts the
value-initialised `zero` under a missing key. -/
def mapUpdate {β : Type} (zero : β) (f : β → β) (m : List (α × β)) (k : α) : List (α × β) :=
  match mapFind m k with
  | some _ => m.map (fun e => if e.1 = k then (e.1, f e.2) else e)
  | none => mapInsert m k (f zero)

/-- The lookup `value_to_thresholds[index][value]` for the covariate `value` of a
point: the threshold and the learner after the lookup.  An `index` outside the
vector is undefined behaviour, and so is a not-a-number key, which the order of
the map does not cover (`none`). -/
def TreeLearner.thresholdOf (L : TreeLearner α) (index : Int) (value : Option α) :
    Option (α × TreeLearner α) :=
  match value with
  | none => none
  | some v =>
    if 0 ≤ index then
      match L.value_to_thresholds[index.toNat]? with
      | none => none
      | some m =>
        match mapFind m v with
        | some threshold => some (threshold, L)
        | none =>
          some (0, { L with
            value_to_thresholds := L.value_to_thresholds.set index.toNat (mapInsert m v 0) })
    else
      none

/-- The first loop of `BuildThresholdToWeightsMap`:
`threshold_to_weights[value_to_thresholds[index][point->GetRawFeature(index)]].first
+= point->GetProbWeight()` for every point. -/
def TreeLearner.addPoints (index : Int) :
    List (Point α) → List (α × (α × Int)) → TreeLearner α →
      Option (List (α × (α × Int)) × TreeLearner α)
  | [], threshold_to_weights, L => some (threshold_to_weights, L)
  | point :: rest, threshold_to_weights, L =>
    match L.thresholdOf index (point.GetRawFeature index) with
    | none => none
    | some (threshold, L1) =>
      TreeLearner.addPoints index rest
        (mapUpdate (0, 0) (fun e => (e.1 + point.GetProbWeight, e.2)) threshold_to_weights
          threshold) L1

/-- The second loop of `BuildThresholdToWeightsMap`: `.second += 1` for every
sample point. -/
def TreeLearner.addSamples (index : Int) :
    List (Point α) → List (α × (α × Int)) → TreeLearner α →
      Option (List (α × (α × Int)) × TreeLearner α)
  | [], threshold_to_weights, L => some (threshold_to_weights, L)
  | point :: rest, threshold_to_weights, L =>
    match L.thresholdOf index (point.GetRawFeature index) with
    | none => none
    | some (threshold, L1) =>
      TreeLearner.addSamples index rest
        (mapUpdate (0, 0) (fun e => (e.1, e.2 + 1)) threshold_to_weights threshold) L1

/-- `TreeLearner::BuildThresholdToWeightsMap`: the map and the learner after the
lookups. -/
def TreeLearner.BuildThresholdToWeightsMap (L : TreeLearner α) (node : Node α) (index : Int) :
    Option (List (α × (α × Int)) × TreeLearner α) :=
  match TreeLearner.addPoints index node.Points [] L with
  | none => none
  | some (threshold_to_weights, L1) =>
    TreeLearner.addSamples index node.Samples threshold_to_weights L1

/-- The locals of the loop of `BestThreshold`; `out` holds what the loop has
written through the four pointers (`threshold`, `grad`, `left_val`, `diff`), which
it writes together, and is `none` while it has written nothing. -/
structure TreeLearner.Scan (α : Type) where
  best_gradient : α
  left_population_weight : α
  right_population_weight : α
  left_sample_count : α
  right_sample_count : α
  out : Option (α × α × α × α)

/-- The body of the loop of `BestThreshold` for one entry of the map. -/
def TreeLearner.scanEntry (sqrt log : α → α) (L : TreeLearner α) (value old_diff normalizer : α)
    (sample_size tree_size : Int) (s : TreeLearner.Scan α) (elem : α × (α × Int)) :
    TreeLearner.Scan α :=
  let left_population_weight := s.left_population_weight + elem.2.1
  let right_population_weight := s.right_population_weight - elem.2.1
  let left_sample_count := s.left_sample_count + (elem.2.2 : α)
  let right_sample_count := s.right_sample_count - (elem.2.2 : α)
  let left_diff := left_population_weight / normalizer - left_sample_count / (sample_size : α)
  let right_diff := right_population_weight / normalizer - right_sample_count / (sample_size : α)
  let led := old_diff + (1 - 2 * value) * left_diff
  let red := old_diff + (1 - 2 * value) * right_diff
  let new_left_gradient := L.Gradient sqrt log (tree_size + 2) sample_size led
  let new_right_gradient := L.Gradient sqrt log (tree_size + 2) sample_size red
  let new_gradient :=
    if |new_left_gradient| > |new_right_gradient| + gTolerance then new_left_gradient
    else new_right_gradient
  if |new_gradient| > s.best_gradient + gTolerance then
    { best_gradient := |new_gradient|
      left_population_weight := left_population_weight
      right_population_weight := right_population_weight
      left_sample_count := left_sample_count
      right_sample_count := right_sample_count
      out := some (elem.1, new_gradient,
        if |new_left_gradient| > |new_right_gradient| + gTolerance then 1.0 - value else value,
        if |new_left_gradient| > |new_right_gradient| + gTolerance then led else red) }
  else
    { best_gradient := s.best_gradient
      left_population_weight := left_population_weight
      right_population_weight := right_population_weight
      left_sample_count := left_sample_count
      right_sample_count := right_sample_count
      out := s.out }

/-- `TreeLearner::BestThreshold`: what the call has written through
(`threshold`, `grad`, `left_val`, `diff`), `none` when the map is empty and it wrote
nothing, and the learner after the call. -/
def TreeLearner.BestThreshold (sqrt log : α → α) (L : TreeLearner α) (feature_index : Int)
    (node : Node α) (old_diff normalizer : α) (sample_size tree_size : Int) :
    Option (Option (α × α × α × α) × TreeLearner α) :=
  match L.BuildThresholdToWeightsMap node feature_index, node.GetPopulationWeight,
    node.GetSampleCount, node.GetValue with
  | some (threshold_to_weights, L1), some weight, some sample_count, some value =>
    some ((threshold_to_weights.foldl
        (TreeLearner.scanEntry sqrt log L1 value old_diff normalizer sample_size tree_size)
        { best_gradient := -1.0
          left_population_weight := 0.0
          right_population_weight := weight
          left_sample_count := 0.0
          right_sample_count := (sample_count : α)
          out := none }).out, L1)
  | _, _, _, _ => none

/-- The conversion of a `double` to `int`, which truncates. -/
def truncate [FloorRing α] (x : α) : Int :=
  if 0 ≤ x then Int.floor x else Int.ceil x

/-- `TreeLearner::GrowTree` on the node that `node` points at: the node after the
call, the two new children included. -/
def TreeLearner.GrowTree (node : Node α) (threshold : α) (feature_index left_val : Int) :
    Node α :=
  let left_child := (Node.new : Node α).SetValue (left_val : α)
  let right_child := (Node.new : Node α).SetValue ((1 - left_val : Int) : α)
  let withPoints := node.Points.foldl
    (fun (children : Node α × Node α) point =>
      if point.RawFeatureLess feature_index threshold then
        (children.1.AddPoint point, children.2)
      else
        (children.1, children.2.AddPoint point))
    (left_child, right_child)
  let withSamples := node.Samples.foldl
    (fun (children : Node α × Node α) point =>
      if point.RawFeatureLess feature_index threshold then
        (children.1.AddSample point, children.2)
      else
        (children.1, children.2.AddSample point))
    withPoints
  ((((node.SetThreshold threshold).SetFeature feature_index).SetLeftChild
    withSamples.1).SetRightChild withSamples.2).ClearPoints.ClearSamples

/-- The loop over `feature_index` of `TreeLearner::Train` for one node.  `best`
is `best_gradient` with the locals assigned together with it (`best_threshold`,
`best_feature_index`, `best_left_val`, `best_diff`), `none` before the first
assignment, when `best_left_val` is uninitialised; `best_feature_index`, a `double`
that holds a feature index in the source, is an integer here.  Reading `gradient`
after a call of `BestThreshold` that wrote nothing is undefined behaviour
(`none`). -/
def TreeLearner.featureLoop (sqrt log : α → α) (node : Node α) (old_diff normalizer : α)
    (sample_size tree_size : Int) :
    List Nat → α × Option (α × Int × α × α) → TreeLearner α →
      Option ((α × Option (α × Int × α × α)) × TreeLearner α)
  | [], best, L => some (best, L)
  | feature_index :: rest, best, L =>
    match L.BestThreshold sqrt log (feature_index : Int) node old_diff normalizer sample_size
      tree_size with
    | none => none
    | some (none, _) => none
    | some (some (threshold, gradient, left_val, diff), L1) =>
      if |gradient| > |best.1| + gTolerance then
        TreeLearner.featureLoop sqrt log node old_diff normalizer sample_size tree_size rest
          (gradient, some (threshold, (feature_index : Int), left_val, diff)) L1
      else
        TreeLearner.featureLoop sqrt log node old_diff normalizer sample_size tree_size rest
          best L1

/-- The locals of `TreeLearner::Train` that its loop changes, with the learner
and the tree under `root`; the queue holds the paths of its nodes. -/
structure TreeLearner.State (α : Type) where
  learner : TreeLearner α
  root : Node α
  q : List (List Bool)
  old_diff : α
  tree_size : Int
  old_gradient : α

/-- The body of the loop `while (!q.empty())` of `TreeLearner::Train`, for the
node `node` taken from the front of the queue and the rest `q` of the queue. -/
def TreeLearner.TrainStep [FloorRing α] (sqrt log : α → α) (normalizer : α) (sample_size : Int)
    (st : TreeLearner.State α) (node : List Bool) (q : List (List Bool)) :
    Option (TreeLearner.State α) :=
  match TreeLearner.featureLoop sqrt log (st.root.sub node) st.old_diff normalizer sample_size
    st.tree_size (List.range st.learner.num_features.toNat) (0.0, none) st.learner with
  | none => none
  | some ((best_gradient, best), L1) =>
    if |best_gradient| > |st.old_gradient| + gTolerance then
      match best with
      | none => none
      | some (best_threshold, best_feature_index, best_left_val, best_diff) =>
        some
          { learner := L1
            root := st.root.modify
              (fun n => TreeLearner.GrowTree n best_threshold best_feature_index
                (truncate best_left_val)) node
            q := q ++ [node ++ [false], node ++ [true]]
            old_diff := best_diff
            tree_size := st.tree_size + 2
            old_gradient := best_gradient }
    else
      some
        { learner := L1
          root := st.root
          q := q
          old_diff := st.old_diff
          tree_size := st.tree_size
          old_gradient := st.old_gradient }

/-- The loop `while (!q.empty())` of `TreeLearner::Train`, at most `bound` times
through its body. -/
def TreeLearner.TrainLoop [FloorRing α] (sqrt log : α → α) (normalizer : α) (sample_size : Int) :
    Nat → TreeLearner.State α → Run (TreeLearner.State α)
  | bound, st =>
    match st.q with
    | [] => Run.ok st
    | node :: q =>
      match bound with
      | 0 => Run.exhausted
      | bound1 + 1 =>
        match TreeLearner.TrainStep sqrt log normalizer sample_size st node q with
        | none => Run.undefined
        | some st1 => TreeLearner.TrainLoop sqrt log normalizer sample_size bound1 st1

/-- `TreeLearner::Train`, with a bound on the iterations of its loop: the
feature, the gradient and the learner after the call.  A sample that points at
no point is undefined behaviour. -/
def TreeLearner.Train [FloorRing α] (sqrt log : α → α) (L : TreeLearner α) (space : Space α)
    (sample : Sample α) (bound : Nat) : Run (TreeFeature α × α × TreeLearner α) :=
  match Sample.points space sample with
  | none => Run.undefined
  | some examples =>
    let root :=
      (examples.foldl Node.AddSample (space.points.foldl Node.AddPoint Node.new)).SetValue 0
    match root.GetPopulationWeight with
    | none => Run.undefined
    | some normalizer =>
      match TreeLearner.TrainLoop sqrt log normalizer (examples.length : Int) bound
        { learner := L, root := root, q := [[]], old_diff := 0.0, tree_size := 1,
          old_gradient := 0.0 } with
      | Run.ok st =>
        match (TreeFeature.new st.root).ComputeTreeExpectations with
        | none => Run.undefined
        | some tfeature =>
          Run.ok (tfeature.SetComplexity
            (st.learner.TreeComplexity sqrt log st.tree_size (examples.length : Int)),
            st.old_gradient, st.learner)
      | Run.undefined => Run.undefined
      | Run.exhausted => Run.exhausted

end TreeLearnerModel

/-! ## What the claims about `TreeLearner::Train` speak of -/

section TreeSpecification

variable {α : Type} [LinearOrderedField α]

/-- The tree under a node holds the points `P` and the sample points `S`: a leaf
stores them, with their total weight, and a node with children has handed the
points below its threshold to the left child and the others to the right one. -/
def Node.Holds : Node α → List (Point α) → List (Point α) → Prop
  | Node.null, _, _ => False
  | Node.mk feature threshold _ left_child right_child weight points samples, P, S =>
    if left_child.isNull && right_child.isNull then
      points = P ∧ samples = S ∧ weight = (P.map Point.GetProbWeight).sum
    else
      left_child.Holds (P.filter (fun p => p.RawFeatureLess feature threshold))
          (S.filter (fun p => p.RawFeatureLess feature threshold)) ∧
        right_child.Holds (P.filter (fun p => !p.RawFeatureLess feature threshold))
          (S.filter (fun p => !p.RawFeatureLess feature threshold))

/-- The number of nodes with a child that the pointer reaches: the nodes that a
call of `GrowTree` has split. -/
def Node.splits : Node α → Nat
  | Node.null => 0
  | Node.mk _ _ _ left_child right_child _ _ _ =>
    (if left_child.isNull && right_child.isNull then 0 else 1) + left_child.splits +
      right_child.splits

/-- The sums over the leaves of a tree that `ComputeTreeExpectations` forms:
value times weight, value times sample count, and sample count. -/
def Node.leafSums : Node α → α × α × α
  | Node.null => (0, 0, 0)
  | Node.mk _ _ value left_child right_child weight _ samples =>
    if left_child.isNull && right_child.isNull then
      (value * weight, value * (samples.length : α), (samples.length : α))
    else
      ((left_child.leafSums).1 + (right_child.leafSums).1,
        (left_child.leafSums).2.1 + (right_child.leafSums).2.1,
        (left_child.leafSums).2.2 + (right_child.leafSums).2.2)

end TreeSpecification

/-! ## Learner states that answer alike -/

section LearnerAgreement

variable {α : Type} [LinearOrderedField α]

/-- The answer of `value_to_thresholds[index][value]` in a learner state: the value
under the key, 0 for a key that the map does not hold, and `none` for an `index`
outside the vector. -/
def TreeLearner.lookup (L : TreeLearner α) (index : Nat) (value : α) : Option α :=
  (L.value_to_thresholds[index]?).map (fun m => (mapFind m value).getD 0)

/-- Two states of a tree learner agree: they have the same parameters and give the
same answer to every lookup. -/
def TreeLearner.Agree (L L1 : TreeLearner α) : Prop :=
  L.num_features = L1.num_features ∧ L.model_parameter_alpha = L1.model_parameter_alpha ∧
    L.model_parameter_beta = L1.model_parameter_beta ∧
    ∀ (index : Nat) (value : α), L.lookup index value = L1.lookup index value

/-- The number of points and sample points that a node stores. -/
def Node.load {β : Type} (n : Node β) : Nat := n.Points.length + n.Samples.length

end LearnerAgreement

/-! ## The fixture of the second part of `TreeLearnerTest.TestTrain` -/

section TreeFixture
variable (α : Type) [LinearOrderedField α]

/-- The four points of the second part of `TreeLearnerTest.TestTrain`. -/
def treePoints : List (Point α) :=
  [{ id := 1, finalized := true, probability_weight := 1, raw_features := [-1, -1] },
    { id := 2, finalized := true, probability_weight := 1, raw_features := [-1, 1] },
    { id := 3, finalized := true, probability_weight := 0, raw_features := [1, -1] },
    { id := 4, finalized := true, probability_weight := 1, raw_features := [1, 1] }]

/-- The space of the second part of `TreeLearnerTest.TestTrain`. -/
def treeSpace : Space α :=
  { finalized := true, points := treePoints α }

/-- The sample of the second part of `TreeLearnerTest.TestTrain`: `point3`. -/
def treeSample : Sample α :=
  [Example.detached
    { id := 3, finalized := false, probability_weight := 0, raw_features := [1, -1] }]

/-- The learner `TreeLearner(2, 0.0, 0.0, vtot)` of the second part of
`TreeLearnerTest.TestTrain`. -/
def treeLearner : TreeLearner α :=
  { num_features := 2, model_parameter_alpha := 0.0, model_parameter_beta := 0.0,
    value_to_thresholds := [[(-1.0, 0.0), (1.0, 2.0)], [(-1.0, 0.0), (1.0, 2.0)]] }

end TreeFixture

/-! ## space.cpp: building points and spaces

The writers return the value that the method returns together with the object
after the call. -/

section SpaceModel

variable {α : Type} [LinearOrderedField α]

/-- An exception of the standard library that the source lets escape. -/
inductive Thrown where
  | out_of_range : Thrown

/-- The constructor `Point::Point(point_id)`. -/
def Point.new (point_id : Int) : Point α :=
  { id := point_id, finalized := false, probability_weight := 1.0, raw_features := [] }

/-- `Point::GetId`. -/
def Point.GetId (p : Point α) : Int := p.id

/-- `Point::NumRawFeatures`. -/
def Point.NumRawFeatures (p : Point α) : Int := (p.raw_features.length : Int)

/-- `Point::AddRawFeature`: -1 on a finalized point, and otherwise the index of
the new covariate, `raw_features.size() - 1` after the `push_back`. -/
def Point.AddRawFeature (p : Point α) (value : α) : Int × Point α :=
  if p.finalized then
    (-1, p)
  else
    (((p.raw_features ++ [value]).length : Int) - 1,
      { p with raw_features := p.raw_features ++ [value] })

/-- `Point::Finalize`. -/
def Point.Finalize (p : Point α) : Point α := { p with finalized := true }

/-- The constructor `Space::Space()`. -/
def Space.new : Space α := { finalized := false, points := [] }

/-- `Space::AddPoint`: -1 on a finalized space, and otherwise the key of the copy
of the point that the space now holds, `points.size() - 1` after the
`push_back`. -/
def Space.AddPoint (s : Space α) (point : Point α) : Int × Space α :=
  if s.finalized then
    (-1, s)
  else
    (((s.points ++ [point]).length : Int) - 1, { s with points := s.points ++ [point] })

/-- `Space::GetPoint`: `points.at(key)`, which throws `std::out_of_range` unless
`key`, converted to the unsigned size type, is below `points.size()`. -/
def Space.GetPoint (s : Space α) (key : Int) : Except Thrown (Point α) :=
  if 0 ≤ key then
    match s.points[key.toNat]? with
    | some point => Except.ok point
    | none => Except.error Thrown.out_of_range
  else
    Except.error Thrown.out_of_range

/-- `Space::Finalize`. -/
def Space.Finalize (s : Space α) : Space α :=
  { finalized := true, points := s.points.map Point.Finalize }

end SpaceModel

/-! ## feature.cpp: the feature maps of the simple classes, with not-a-number

A `double` that may be not-a-number is an `Option`: `none` is not-a-number.  A
product with a not-a-number factor is not-a-number, and a comparison with
not-a-number is false. -/

section FeatureMaps

variable {α : Type} [LinearOrderedField α]

/-- `RawFeature::FeatureMap` of the feature `RawFeature(index)`. -/
def RawFeature.FeatureMap (index : Int) (point : Point α) : Option α :=
  point.GetRawFeature index

/-- `ProductFeature::FeatureMap` of the feature
`ProductFeature(first_index, second_index)`. -/
def ProductFeature.FeatureMap (first_index second_index : Int) (point : Point α) : Option α :=
  match point.GetRawFeature first_index, point.GetRawFeature second_index with
  | some a, some b => some (a * b)
  | _, _ => none

/-- `ThresholdFeature::FeatureMap` of the feature `ThresholdFeature(index,
threshold)`: `(point->GetRawFeature(index) > threshold) ? 1 : 0`. -/
def ThresholdFeature.FeatureMap (index : Int) (threshold : α) (point : Point α) : Option α :=
  match point.GetRawFeature index with
  | some v => if v > threshold then some 1 else some 0
  | none => some 0

end FeatureMaps

/-! ## Sequences of calls on a node, and the walk that the specification describes -/

section NodeSpecification

variable {α : Type} [LinearOrderedField α]

/-- A call of one of the four methods of `Node` that add or clear points and
sample points. -/
inductive NodeOp (α : Type) where
  | AddPoint (point : Point α) : NodeOp α
  | AddSample (point : Point α) : NodeOp α
  | ClearPoints : NodeOp α
  | ClearSamples : NodeOp α

/-- The node after a call. -/
def Node.apply (n : Node α) : NodeOp α → Node α
  | NodeOp.AddPoint point => n.AddPoint point
  | NodeOp.AddSample point => n.AddSample point
  | NodeOp.ClearPoints => n.ClearPoints
  | NodeOp.ClearSamples => n.ClearSamples

/-- The node after `SetProbWeight(value)` on the point that entry `k` of its point
list points at: the node holds pointers, so the point that it reads changes,
and its cached `weight` does not. -/
def Node.reweigh : Node α → Nat → α → Node α
  | Node.null, _, _ => Node.null
  | Node.mk feature threshold value left_child right_child weight points samples, k, val =>
    match points[k]? with
    | some point =>
      Node.mk feature threshold value left_child right_child weight
        (points.set k (point.SetProbWeight val)) samples
    | none => Node.mk feature threshold value left_child right_child weight points samples

/-- A finite tree in which each node has either no child or both children. -/
def Node.Full : Node α → Prop
  | Node.null => False
  | Node.mk _ _ _ left_child right_child _ _ _ =>
    (left_child.isNull = true ∧ right_child.isNull = true) ∨
      (left_child.Full ∧ right_child.Full)

/-- The path from a node that the specification describes for a point: at a node
with children, to the left child when the covariate of the point at the feature
index of the node is strictly less than its threshold and to the right child
otherwise, down to a node without children. -/
def Node.route : Node α → Point α → List Bool
  | Node.null, _ => []
  | Node.mk feature threshold _ left_child right_child _ _ _, point =>
    if left_child.isNull && right_child.isNull then
      []
    else if point.RawFeatureLess feature threshold then
      false :: left_child.route point
    else
      true :: right_child.route point

/-- A path from a node takes every step by the rule of the specification: it
leaves only nodes that have a child, to the left exactly when the covariate of
the point is strictly less than the threshold. -/
def Node.Follows : Node α → Point α → List Bool → Prop
  | _, _, [] => True
  | Node.null, _, _ :: _ => False
  | Node.mk feature threshold _ left_child right_child _ _ _, point, b :: path =>
    (left_child.isNull && right_child.isNull) = false ∧
      b = !point.RawFeatureLess feature threshold ∧
      (if b then right_child.Follows point path else left_child.Follows point path)

end NodeSpecification

/-! ## Fixtures of feature_test.cpp and wlearner_test.cpp -/

section FeatureFixture

variable (α : Type) [LinearOrderedField α]

/-- The tree of `FeatureTest.TestTreeFeatureMap`: the root asks covariate 1
against 0, its left child covariate 2 against 1, its right child covariate 3
against -2, and the four leaves have the values 1, 0, 0, 1. -/
def featureTestTree : Node α :=
  Node.mk 1 0.0 0
    (Node.mk 2 1.0 0 (Node.mk 0 0 1 Node.null Node.null 0 [] [])
      (Node.mk 0 0 0 Node.null Node.null 0 [] []) 0 [] [])
    (Node.mk 3 (-2.0) 0 (Node.mk 0 0 0 Node.null Node.null 0 [] [])
      (Node.mk 0 0 1 Node.null Node.null 0 [] []) 0 [] [])
    0 [] []

/-- A point of `FeatureTest.TestComputeGetSampleExpectationOfRawFeature`:
`new Point(point_id)` with the covariates -10, `middle` and 123 added in turn. -/
def featureTestPoint (point_id : Int) (middle : α) : Point α :=
  ((((Point.new point_id).AddRawFeature (-10)).2.AddRawFeature middle).2.AddRawFeature 123).2

/-- The sample of `FeatureTest.TestComputeGetSampleExpectationOfRawFeature`:
`point`, `point2`, `point3`, `point2`. -/
def featureTestSample : List (Point α) :=
  [featureTestPoint α 1 0.5, featureTestPoint α 2 1.0, featureTestPoint α 3 1.5,
    featureTestPoint α 2 1.0]

/-- The learner `MonomialLearner(3, 0.1, 0.01, 1.0)` of
`MonomialLearnerTest.TestBestFeature`. -/
def monomialTestLearner : MonomialLearner α :=
  { num_features := 3, model_parameter_alpha := 0.1, model_parameter_beta := 0.01,
    feature_bound := 1.0 }

end FeatureFixture

/-! ## The rounds of `MonomialLearner::Train` -/

section MonomialRounds

variable {α : Type} [LinearOrderedField α]

/-- The states in which `MonomialLearner::Train` enters the body of its loop
`while (!stop)`: the state before the loop, and the state after a pass through
the body that accepted its candidate. -/
inductive MonomialLearner.Round (sqrt log : α → α) (L : MonomialLearner α) (space : Space α)
    (sample : List (Point α)) (normalizer : α) : MonomialLearner.State α → Prop where
  | first : MonomialLearner.Round sqrt log L space sample normalizer
      { monomial := List.replicate L.num_features.toNat 0
        point_values := space.points.map Point.GetProbWeight
        sample_values := List.replicate sample.length 1
        best_gradient := 0
        expectations := none
        power := 0 }
  | next (st : MonomialLearner.State α) (candidate_gradient : α) (candidate_feature : Int)
      (candidate_population_expectation candidate_sample_expectation : α) :
      MonomialLearner.Round sqrt log L space sample normalizer st →
      L.BestFeature sqrt log st.point_values st.sample_values space sample normalizer st.power =
        some (candidate_gradient, candidate_feature, candidate_population_expectation,
          candidate_sample_expectation) →
      |candidate_gradient| > |st.best_gradient| + gTolerance →
      0 ≤ candidate_feature → candidate_feature.toNat < st.monomial.length →
      MonomialLearner.Round sqrt log L space sample normalizer
        { monomial := st.monomial.modify (fun p => p + 1) candidate_feature.toNat
          point_values := List.zipWith
            (fun v (point : Point α) => v * finite (point.GetRawFeature candidate_feature))
            st.point_values space.points
          sample_values := List.zipWith
            (fun v (point : Point α) => v * finite (point.GetRawFeature candidate_feature))
            st.sample_values sample
          best_gradient := candidate_gradient
          expectations :=
            some (candidate_population_expectation, candidate_sample_expectation)
          power := st.power + 1 }

end MonomialRounds

/-! ## dmaxent.cpp: LogLoss -/

section LogLossModel

variable {α : Type} [LinearOrderedField α]

/-- `DMaxEntModel::LogLoss`: `loss += log(normalizer / example->GetProbWeight())`
for every example `e` of the sample, from `loss = 0.0`; `none` when an example
dangles. -/
def DMaxEntModel.LogLoss (log : α → α) (m : DMaxEntModel α) (sample : Sample α) : Option α :=
  match Sample.points m.space sample with
  | none => none
  | some examples =>
    some (examples.foldl
      (fun loss e => loss + log (m.normalizer / e.GetProbWeight)) 0)

end LogLossModel

/-! ## What the claims about `BestThreshold` speak of -/

section BucketSpecification

variable {α : Type} [LinearOrderedField α]

/-- The answer of `value_to_thresholds[index][point->GetRawFeature(index)]` for a
point in a learner state: the key of the bucket of the point (0 where the lookup
has no answer). -/
def TreeLearner.bucket (L : TreeLearner α) (index : Int) (point : Point α) : α :=
  ((point.GetRawFeature index).bind (L.lookup index.toNat)).getD 0

/-- The lookups for the covariate `index` of the points have an answer: `index`
is an index of `value_to_thresholds`, and no point misses the covariate. -/
def TreeLearner.Answers (L : TreeLearner α) (index : Int) (points : List (Point α)) : Prop :=
  0 ≤ index ∧ ∀ p ∈ points, ∃ v t, p.GetRawFeature index = some v ∧
    L.lookup index.toNat v = some t

/-- The value-to-threshold map of the covariate `index` sends every value of the
covariate that occurs among the points to the smallest threshold strictly greater
than it, the thresholds being those of the values that occur. -/
def TreeLearner.NextThreshold (L : TreeLearner α) (index : Int) (points : List (Point α)) :
    Prop :=
  0 ≤ index ∧ ∀ p ∈ points, ∃ v t, p.GetRawFeature index = some v ∧
    L.lookup index.toNat v = some t ∧ v < t ∧
    ∀ q ∈ points, ∀ u s, q.GetRawFeature index = some u → L.lookup index.toNat u = some s →
      v < s → t ≤ s

/-- The locals of the loop of `BestThreshold` after the passes for the entries
`entries` of the map, for a node of the value `value`, the weight `weight` and the
sample count `sample_count`. -/
def TreeLearner.scanAfter (sqrt log : α → α) (L : TreeLearner α)
    (value old_diff normalizer : α) (sample_size tree_size : Int) (weight : α)
    (sample_count : Int) (entries : List (α × (α × Int))) : TreeLearner.Scan α :=
  entries.foldl
    (TreeLearner.scanEntry sqrt log L value old_diff normalizer sample_size tree_size)
    { best_gradient := -1.0
      left_population_weight := 0.0
      right_population_weight := weight
      left_sample_count := 0.0
      right_sample_count := (sample_count : α)
      out := none }

/-- The value `led` of the pass of the loop of `BestThreshold` that left the
locals `s`: `old_diff + (1 - 2 * node->GetValue()) * left_diff`. -/
def TreeLearner.Scan.led (s : TreeLearner.Scan α) (value old_diff normalizer : α)
    (sample_size : Int) : α :=
  old_diff + (1 - 2 * value) *
    (s.left_population_weight / normalizer - s.left_sample_count / (sample_size : α))

/-- The value `red` of the pass of the loop of `BestThreshold` that left the
locals `s`: `old_diff + (1 - 2 * node->GetValue()) * right_diff`. -/
def TreeLearner.Scan.red (s : TreeLearner.Scan α) (value old_diff normalizer : α)
    (sample_size : Int) : α :=
  old_diff + (1 - 2 * value) *
    (s.right_population_weight / normalizer - s.right_sample_count / (sample_size : α))

/-- The value `new_left_gradient` of the pass of the loop of `BestThreshold` that
left the locals `s`. -/
def TreeLearner.Scan.new_left_gradient (s : TreeLearner.Scan α) (sqrt log : α → α)
    (L : TreeLearner α) (value old_diff normalizer : α) (sample_size tree_size : Int) : α :=
  L.Gradient sqrt log (tree_size + 2) sample_size (s.led value old_diff normalizer sample_size)

/-- The value `new_right_gradient` of the pass of the loop of `BestThreshold` that
left the locals `s`. -/
def TreeLearner.Scan.new_right_gradient (s : TreeLearner.Scan α) (sqrt log : α → α)
    (L : TreeLearner α) (value old_diff normalizer : α) (sample_size tree_size : Int) : α :=
  L.Gradient sqrt log (tree_size + 2) sample_size (s.red value old_diff normalizer sample_size)

/-- The value `new_gradient` of the pass of the loop of `BestThreshold` that left
the locals `s`: the left gradient when its absolute value exceeds that of the
right gradient by more than `gTolerance`, and the right gradient otherwise. -/
def TreeLearner.Scan.new_gradient (s : TreeLearner.Scan α) (sqrt log : α → α)
    (L : TreeLearner α) (value old_diff normalizer : α) (sample_size tree_size : Int) : α :=
  if |s.new_left_gradient sqrt log L value old_diff normalizer sample_size tree_size| >
      |s.new_right_gradient sqrt log L value old_diff normalizer sample_size tree_size| +
        gTolerance then
    s.new_left_gradient sqrt log L value old_diff normalizer sample_size tree_size
  else
    s.new_right_gradient sqrt log L value old_diff normalizer sample_size tree_size

/-- The value that the pass of the loop of `BestThreshold` that left the locals `s`
writes to `*left_val` when it writes. -/
def TreeLearner.Scan.new_left_val (s : TreeLearner.Scan α) (sqrt log : α → α)
    (L : TreeLearner α) (value old_diff normalizer : α) (sample_size tree_size : Int) : α :=
  if |s.new_left_gradient sqrt log L value old_diff normalizer sample_size tree_size| >
      |s.new_right_gradient sqrt log L value old_diff normalizer sample_size tree_size| +
        gTolerance then
    1.0 - value
  else
    value

/-- The value that the pass of the loop of `BestThreshold` that left the locals `s`
writes to `*diff` when it writes. -/
def TreeLearner.Scan.new_diff (s : TreeLearner.Scan α) (sqrt log : α → α)
    (L : TreeLearner α) (value old_diff normalizer : α) (sample_size tree_size : Int) : α :=
  if |s.new_left_gradient sqrt log L value old_diff normalizer sample_size tree_size| >
      |s.new_right_gradient sqrt log L value old_diff normalizer sample_size tree_size| +
        gTolerance then
    s.led value old_diff normalizer sample_size
  else
    s.red value old_diff normalizer sample_size

end BucketSpecification

/-! ## The root of the second part of `TreeLearnerTest.TestTrain` -/

section TreeRootFixture

variable (α : Type) [LinearOrderedField α]

/-- The points that the sample of the second part of `TreeLearnerTest.TestTrain`
points at. -/
def treeExamples : List (Point α) :=
  [{ id := 3, finalized := false, probability_weight := 0, raw_features := [1, -1] }]

/-- The root that `TreeLearner::Train` builds from the space and the sample of the
second part of `TreeLearnerTest.TestTrain` before its loop. -/
def treeRoot : Node α :=
  ((treeExamples α).foldl Node.AddSample
    ((treePoints α).foldl Node.AddPoint Node.new)).SetValue 0

end TreeRootFixture

/-! ## What the claims about the trees of `TreeLearner::Train` speak of -/

section TrainedSpecification

variable {α : Type} [LinearOrderedField α]

/-- A tree as `TreeLearner::Train` grows it: every node has the value 0 or 1, and
a node has no child, or two children whose values sum to 1 and no points and
sample points of its own. -/
def Node.Trained : Node α → Prop
  | Node.null => False
  | Node.mk _ _ value left_child right_child _ points samples =>
    (value = 0 ∨ value = 1) ∧
      ((left_child.isNull = true ∧ right_child.isNull = true) ∨
        (left_child.Trained ∧ right_child.Trained ∧ points = [] ∧ samples = [] ∧
          ∃ a b, left_child.GetValue = some a ∧ right_child.GetValue = some b ∧ a + b = 1))

/-- The points that the leaves of a tree hold, from left to right. -/
def Node.leafPoints : Node α → List (Point α)
  | Node.null => []
  | Node.mk _ _ _ left_child right_child _ points _ =>
    if left_child.isNull && right_child.isNull then points
    else left_child.leafPoints ++ right_child.leafPoints

/-- The sample points that the leaves of a tree hold, from left to right. -/
def Node.leafSamples : Node α → List (Point α)
  | Node.null => []
  | Node.mk _ _ _ left_child right_child _ _ samples =>
    if left_child.isNull && right_child.isNull then samples
    else left_child.leafSamples ++ right_child.leafSamples

/-- The locals of `TreeLearner::Train` when its loop starts. -/
def TreeLearner.start (L : TreeLearner α) (points examples : List (Point α)) :
    TreeLearner.State α :=
  { learner := L
    root := (examples.foldl Node.AddSample (points.foldl Node.AddPoint Node.new)).SetValue 0
    q := [[]]
    old_diff := 0.0
    tree_size := 1
    old_gradient := 0.0 }

/-- The states that the loop of `TreeLearner::Train` reaches from a state: the
state itself, and the state after a pass through the body from a state that it
reaches. -/
inductive TreeLearner.Reaches [FloorRing α] (sqrt log : α → α) (normalizer : α)
    (sample_size : Int) (st0 : TreeLearner.State α) : TreeLearner.State α → Prop
  | start : TreeLearner.Reaches sqrt log normalizer sample_size st0 st0
  | pass (st st1 : TreeLearner.State α) (node : List Bool) (q : List (List Bool)) :
    TreeLearner.Reaches sqrt log normalizer sample_size st0 st → st.q = node :: q →
    TreeLearner.TrainStep sqrt log normalizer sample_size st node q = some st1 →
    TreeLearner.Reaches sqrt log normalizer sample_size st0 st1

/-- What the loop of `TreeLearner::Train` keeps about the tree, for the points `P`
of the space and the points `S` of the sample: the learner answers as the learner
`L0` of the start, the tree holds `P` and `S` and is as `Trained` says, the queue
holds distinct leaves, `tree_size` is the number of nodes, and before the first
split the tree and the gradient are those of the start. -/
def TreeLearner.State.Sound (L0 : TreeLearner α) (P S : List (Point α))
    (st : TreeLearner.State α) : Prop :=
  L0.Agree st.learner ∧ st.root.Holds P S ∧ st.root.Trained ∧ st.q.Nodup ∧
    (∀ p ∈ st.q, (st.root.sub p).IsLeaf = some true) ∧
    st.tree_size = (st.root.count : Int) ∧
    (st.root.splits = 0 →
      st.root = Node.mk 0 0 0 Node.null Node.null (P.map Point.GetProbWeight).sum P S ∧
        st.old_gradient = 0)

/-- What the loop of `TreeLearner::Train` keeps about its accumulators: `old_diff`
is the expectation difference of the tree, formed from the sums over its leaves;
after a split `old_gradient` is the gradient of `old_diff` for the size of the
tree; and `old_gradient` has grown by `gTolerance` with every split. -/
def TreeLearner.State.Exact (sqrt log : α → α) (L0 : TreeLearner α) (S : List (Point α))
    (normalizer : α) (st : TreeLearner.State α) : Prop :=
  st.old_diff = st.root.leafSums.1 / normalizer - st.root.leafSums.2.1 / (S.length : α) ∧
    (0 < st.root.splits →
      st.old_gradient = L0.Gradient sqrt log st.tree_size (S.length : Int) st.old_diff) ∧
    (st.root.splits : α) * gTolerance ≤ |st.old_gradient|

end TrainedSpecification

/-! ## Properties of `UpdateModel` -/

section UpdateModelFacts

variable {α : Type} [LinearOrderedField α]

/-- The points produced by the update loop: every point keeps its place and gets
its weight multiplied by the exponential factor. -/
theorem updatePoints_fst (exp : α → α) (step_size : α) (feature : Feature α)
    (points : List (Point α)) (acc : α) :
    (DMaxEntModel.updatePoints exp step_size feature points acc).1 =
      points.map (fun p =>
        p.SetProbWeight (p.GetProbWeight * exp (step_size * feature.FeatureMap p))) := by
  induction points generalizing acc with
  | nil => rfl
  | cons p rest ih => simp [DMaxEntModel.updatePoints, ih]

/-- The accumulator of the update loop ends as its initial value plus the sum of
the weights written. -/
theorem updatePoints_snd (exp : α → α) (step_size : α) (feature : Feature α)
    (points : List (Point α)) (acc : α) :
    (DMaxEntModel.updatePoints exp step_size feature points acc).2 =
      acc + ((DMaxEntModel.updatePoints exp step_size feature points acc).1.map
        Point.GetProbWeight).sum := by
  induction points generalizing acc with
  | nil => simp [DMaxEntModel.updatePoints]
  | cons p rest ih =>
    simp only [DMaxEntModel.updatePoints, List.map_cons, List.sum_cons]
    rw [ih]
    simp only [Point.GetProbWeight, Point.SetProbWeight]
    ring

/-- With the direction in range, `UpdateModel` returns, and its result is the
record below. -/
theorem UpdateModel_eq_some (exp : α → α) (m : DMaxEntModel α)
    (h : m.direction < m.weighted_features.length) :
    m.UpdateModel exp = some { m with
      weighted_features := m.weighted_features.set m.direction
        ((m.weighted_features.get ⟨m.direction, h⟩).1 + m.step_size,
          (m.weighted_features.get ⟨m.direction, h⟩).2),
      space := { m.space with points := (DMaxEntModel.updatePoints exp m.step_size
        (m.weighted_features.get ⟨m.direction, h⟩).2 m.space.points 0).1 },
      normalizer := (DMaxEntModel.updatePoints exp m.step_size
        (m.weighted_features.get ⟨m.direction, h⟩).2 m.space.points 0).2 } := by
  unfold DMaxEntModel.UpdateModel
  rw [List.getElem?_eq_getElem h]

/-- Dividing every term of a list by its non-zero sum gives a list of sum 1. -/
theorem sum_map_div_eq_one {β : Type} (w : β → α) (l : List β) (c : α) (hc : c ≠ 0)
    (h : c = (l.map w).sum) : (l.map (fun p => w p / c)).sum = 1 := by
  have key : ∀ l : List β, (l.map (fun p => w p / c)).sum = (l.map w).sum / c := by
    intro l
    induction l with
    | nil => simp
    | cons a t ih => simp [ih, add_div]
  rw [key, ← h, div_self hc]

/-- Whenever `UpdateModel` returns, the normalizer is the sum of the weights of
the points. -/
theorem UpdateModel_normalizer (exp : α → α) (m m1 : DMaxEntModel α)
    (h : m.UpdateModel exp = some m1) :
    m1.normalizer = (m1.space.points.map Point.GetProbWeight).sum := by
  by_cases hlt : m.direction < m.weighted_features.length
  · rw [UpdateModel_eq_some exp m hlt] at h
    have h1 := Option.some.inj h
    subst h1
    simpa using updatePoints_snd exp m.step_size _ m.space.points 0
  · unfold DMaxEntModel.UpdateModel at h
    rw [List.getElem?_eq_none (not_lt.1 hlt)] at h
    exact Option.noConfusion h

/-- Claim C1: for every model state, direction (in range) and step size,
`UpdateModel` returns, and after it the normalizer equals the sum of
`probability_weight` over all points of the space; so after every iteration of
`Fit` the weights divided by the normalizer sum to 1 whenever the normalizer is
non-zero. -/
theorem UpdateModel_normalizer_eq_sum (exp log : α → α) (m : DMaxEntModel α) :
    (m.direction < m.weighted_features.length → ∃ m1, m.UpdateModel exp = some m1) ∧
    (∀ m1, m.UpdateModel exp = some m1 →
      m1.normalizer = (m1.space.points.map Point.GetProbWeight).sum) ∧
    (∀ m1, m.FitIteration exp log = some m1 →
      m1.normalizer = (m1.space.points.map Point.GetProbWeight).sum ∧
      (m1.normalizer ≠ 0 →
        (m1.space.points.map (fun p => p.GetProbWeight / m1.normalizer)).sum = 1)) := by
  refine ⟨fun h => ⟨_, UpdateModel_eq_some exp m h⟩, UpdateModel_normalizer exp m, ?_⟩
  intro m1 h
  have hsum : m1.normalizer = (m1.space.points.map Point.GetProbWeight).sum := by
    unfold DMaxEntModel.FitIteration at h
    simp only at h
    cases hstep : (if m.FindDescentDirection.version = 1 then
        m.FindDescentDirection.FindStepSize1 exp log
      else m.FindDescentDirection.FindStepSize2) with
    | none =>
      rw [hstep] at h
      exact Option.noConfusion h
    | some m2 =>
      rw [hstep] at h
      exact UpdateModel_normalizer exp m2 m1 h
  exact ⟨hsum, fun hne => sum_map_div_eq_one Point.GetProbWeight _ _ hne hsum⟩

/-- Claim C3: `UpdateModel` adds `step_size` to the weight stored at index
`direction`, leaves every other entry of the (weight, feature) list, the feature
at `direction`, and the length and order of the list unchanged, and replaces the
weight `w` of every point `p` of the space by `w * exp (step_size * FeatureMap p)`
for the selected feature, touching nothing else of the point. -/
theorem UpdateModel_frame (exp : α → α) (m : DMaxEntModel α)
    (h : m.direction < m.weighted_features.length) :
    ∃ m1 w f, m.UpdateModel exp = some m1 ∧
      m.weighted_features[m.direction]? = some (w, f) ∧
      m1.weighted_features[m.direction]? = some (w + m.step_size, f) ∧
      (∀ i : Nat, i ≠ m.direction → m1.weighted_features[i]? = m.weighted_features[i]?) ∧
      m1.weighted_features.length = m.weighted_features.length ∧
      m1.space.points.length = m.space.points.length ∧
      (∀ j : Nat, m1.space.points[j]? = (m.space.points[j]?).map (fun p : Point α =>
        p.SetProbWeight (p.GetProbWeight * exp (m.step_size * f.FeatureMap p)))) := by
  refine ⟨_, (m.weighted_features.get ⟨m.direction, h⟩).1,
    (m.weighted_features.get ⟨m.direction, h⟩).2, UpdateModel_eq_some exp m h, ?_, ?_, ?_, ?_, ?_, ?_⟩
  · simp [List.getElem?_eq_getElem h]
  · simp [List.getElem?_set, h]
  · intro i hi
    simp [List.getElem?_set, Ne.symm hi]
  · simp
  · simp [updatePoints_fst]
  · intro j
    simp [updatePoints_fst]

end UpdateModelFacts

/-! ## Properties of `FindDescentDirection` -/

section DirectionFacts

variable {α : Type} [LinearOrderedField α]

theorem gTolerance_pos : (0 : α) < gTolerance := by
  unfold gTolerance
  positivity

theorem gTolerance_lt_one : (gTolerance : α) < 1 := by
  unfold gTolerance
  rw [div_lt_one (by positivity)]
  norm_num

theorem scanFeatures_fst (m : DMaxEntModel α) (l : List (α × Feature α)) (i : Nat)
    (b : Nat × α) : (m.scanFeatures l i b).1 = l.map m.refreshed := by
  induction l generalizing i b with
  | nil => rfl
  | cons wf rest ih =>
    obtain ⟨w, f⟩ := wf
    obtain ⟨bi, bg⟩ := b
    simp [DMaxEntModel.scanFeatures, ih, DMaxEntModel.refreshed]

/-- What the first loop returns as `(best_feature_index, best_absolute_gradient)`:
a value that is at least the initial one and at least every absolute gradient of
the list, and that is either the initial pair or the absolute gradient of the
entry at the returned index. -/
theorem scanFeatures_snd (m : DMaxEntModel α) (l : List (α × Feature α)) (i : Nat)
    (b : Nat × α) :
    b.2 ≤ (m.scanFeatures l i b).2.2 ∧
    (∀ wf ∈ l, m.absGradient wf ≤ (m.scanFeatures l i b).2.2) ∧
    ((m.scanFeatures l i b).2 = b ∨
      (i ≤ (m.scanFeatures l i b).2.1 ∧
        ∃ wf, l[(m.scanFeatures l i b).2.1 - i]? = some wf ∧
          (m.scanFeatures l i b).2.2 = m.absGradient wf)) := by
  induction l generalizing i b with
  | nil => simp [DMaxEntModel.scanFeatures]
  | cons wf rest ih =>
    obtain ⟨w, f⟩ := wf
    obtain ⟨bi, bg⟩ := b
    simp only [DMaxEntModel.scanFeatures]
    set g := m.gradient w (f.ComputeUnnormalizedPopulationExpectation m.space) with hg
    have hgabs : m.absGradient (w, f) = |g| := rfl
    by_cases hc : |g| ≥ bg
    · rw [if_pos hc]
      obtain ⟨h1, h2, h3⟩ := ih (i + 1) (i, |g|)
      refine ⟨le_trans hc h1, ?_, ?_⟩
      · intro wf hwf
        rcases List.mem_cons.1 hwf with rfl | hmem
        · rw [hgabs]; exact h1
        · exact h2 wf hmem
      · right
        rcases h3 with h3 | ⟨h3, wf, h4, h5⟩
        · rw [h3]
          exact ⟨le_refl _, (w, f), by simp, hgabs.symm⟩
        · refine ⟨by omega, wf, ?_, h5⟩
          rw [← h4]
          have : (m.scanFeatures rest (i + 1) (i, |g|)).2.1 - i =
              ((m.scanFeatures rest (i + 1) (i, |g|)).2.1 - (i + 1)) + 1 := by omega
          rw [this, List.getElem?_cons_succ]
    · rw [if_neg hc]
      obtain ⟨h1, h2, h3⟩ := ih (i + 1) (bi, bg)
      refine ⟨h1, ?_, ?_⟩
      · intro wf hwf
        rcases List.mem_cons.1 hwf with rfl | hmem
        · rw [hgabs]; exact le_trans (le_of_lt (not_le.1 hc)) h1
        · exact h2 wf hmem
      · rcases h3 with h3 | ⟨h3, wf, h4, h5⟩
        · left; exact h3
        · right
          refine ⟨by omega, wf, ?_, h5⟩
          rw [← h4]
          have : (m.scanFeatures rest (i + 1) (bi, bg)).2.1 - i =
              ((m.scanFeatures rest (i + 1) (bi, bg)).2.1 - (i + 1)) + 1 := by omega
          rw [this, List.getElem?_cons_succ]

/-- One step of the first loop on an entry whose absolute gradient reaches the
best so far. -/
theorem scanFeatures_snd_cons_pos (m : DMaxEntModel α) (w : α) (f : Feature α)
    (rest : List (α × Feature α)) (i bi : Nat) (bg : α)
    (h : |m.gradient w (f.ComputeUnnormalizedPopulationExpectation m.space)| ≥ bg) :
    (m.scanFeatures ((w, f) :: rest) i (bi, bg)).2 = (m.scanFeatures rest (i + 1)
      (i, |m.gradient w (f.ComputeUnnormalizedPopulationExpectation m.space)|)).2 := by
  simp only [DMaxEntModel.scanFeatures, if_pos h]

/-- One step of the first loop on an entry whose absolute gradient stays below the
best so far. -/
theorem scanFeatures_snd_cons_neg (m : DMaxEntModel α) (w : α) (f : Feature α)
    (rest : List (α × Feature α)) (i bi : Nat) (bg : α)
    (h : ¬ |m.gradient w (f.ComputeUnnormalizedPopulationExpectation m.space)| ≥ bg) :
    (m.scanFeatures ((w, f) :: rest) i (bi, bg)).2 =
      (m.scanFeatures rest (i + 1) (bi, bg)).2 := by
  simp only [DMaxEntModel.scanFeatures, if_neg h]

/-- On a non-empty list, started from `(0, -1)`, the first loop returns the index
of an entry and that entry's absolute gradient, which is the largest of the list. -/
theorem scanFeatures_best (m : DMaxEntModel α) (l : List (α × Feature α)) (hl : l ≠ []) :
    (∃ wf, l[(m.scanFeatures l 0 (0, -1)).2.1]? = some wf ∧
      (m.scanFeatures l 0 (0, -1)).2.2 = m.absGradient wf) ∧
    (∀ wf ∈ l, m.absGradient wf ≤ (m.scanFeatures l 0 (0, -1)).2.2) := by
  obtain ⟨_, h2, h3⟩ := scanFeatures_snd m l 0 (0, -1)
  refine ⟨?_, h2⟩
  rcases h3 with h3 | ⟨_, wf, h4, h5⟩
  · exfalso
    obtain ⟨wf, hwf⟩ := List.exists_mem_of_ne_nil l hl
    have h := h2 wf hwf
    rw [h3] at h
    have h0 : (0 : α) ≤ m.absGradient wf := abs_nonneg _
    simp only at h
    linarith
  · exact ⟨wf, by simpa using h4, h5⟩

/-- The second loop of `FindDescentDirection`: if some learner's absolute
gradient exceeds the incoming best by more than `gTolerance`, the loop ends on
such a learner's feature, at index `size`, with that learner's absolute gradient;
otherwise it leaves its state as it was. -/
theorem scanLearners_spec (m : DMaxEntModel α) (size : Nat) (ls : List (WLearner α))
    (st : Option (Feature α) × (Nat × α)) :
    ((∃ l ∈ ls, |(l.Train m.space m.sample).2| > st.2.2 + gTolerance) →
      ∃ l ∈ ls, |(l.Train m.space m.sample).2| > st.2.2 + gTolerance ∧
        m.scanLearners size ls st =
          (some (l.Train m.space m.sample).1, size, |(l.Train m.space m.sample).2|)) ∧
    ((¬ ∃ l ∈ ls, |(l.Train m.space m.sample).2| > st.2.2 + gTolerance) →
      m.scanLearners size ls st = st) := by
  induction ls generalizing st with
  | nil => simp [DMaxEntModel.scanLearners]
  | cons l rest ih =>
    obtain ⟨nf, bi, bg⟩ := st
    have tol : (0 : α) < gTolerance := gTolerance_pos
    by_cases hc : |(l.Train m.space m.sample).2| > bg + gTolerance
    · have hstep : m.scanLearners size (l :: rest) (nf, bi, bg) =
          m.scanLearners size rest
            (some (l.Train m.space m.sample).1, size, |(l.Train m.space m.sample).2|) := by
        simp only [DMaxEntModel.scanLearners]
        rw [if_pos hc]
      obtain ⟨ih1, ih2⟩ :=
        ih (some (l.Train m.space m.sample).1, size, |(l.Train m.space m.sample).2|)
      refine ⟨fun _ => ?_, fun hno => absurd ⟨l, List.mem_cons_self _ _, hc⟩ hno⟩
      by_cases hr : ∃ l2 ∈ rest, |(l2.Train m.space m.sample).2| >
          |(l.Train m.space m.sample).2| + gTolerance
      · obtain ⟨l2, hmem, hgt, heq⟩ := ih1 hr
        refine ⟨l2, List.mem_cons_of_mem _ hmem, ?_, by rw [hstep, heq]⟩
        simp only at hgt hc ⊢
        linarith
      · exact ⟨l, List.mem_cons_self _ _, hc, by rw [hstep, ih2 hr]⟩
    · have hstep : m.scanLearners size (l :: rest) (nf, bi, bg) =
          m.scanLearners size rest (nf, bi, bg) := by
        simp only [DMaxEntModel.scanLearners]
        rw [if_neg hc]
      obtain ⟨ih1, ih2⟩ := ih (nf, bi, bg)
      constructor
      · rintro ⟨l2, hmem, hgt⟩
        rcases List.mem_cons.1 hmem with rfl | hmem
        · exact absurd hgt hc
        · obtain ⟨l3, hm3, hg3, heq⟩ := ih1 ⟨l2, hmem, hgt⟩
          exact ⟨l3, List.mem_cons_of_mem _ hm3, hg3, by rw [hstep, heq]⟩
      · intro hno
        rw [hstep]
        apply ih2
        rintro ⟨l2, hmem, hgt⟩
        exact hno ⟨l2, List.mem_cons_of_mem _ hmem, hgt⟩

/-- The result of `FindDescentDirection` when some learner's absolute gradient
exceeds the best existing one by more than `gTolerance`. -/
theorem FindDescentDirection_found (m : DMaxEntModel α)
    (h : ∃ l ∈ m.weak_learners, |(l.Train m.space m.sample).2| > m.bestExisting + gTolerance) :
    ∃ l ∈ m.weak_learners, |(l.Train m.space m.sample).2| > m.bestExisting + gTolerance ∧
      m.FindDescentDirection = { m with
        weighted_features :=
          m.weighted_features.map m.refreshed ++ [((0 : α), (l.Train m.space m.sample).1)],
        model_gradient := |(l.Train m.space m.sample).2|,
        direction := m.weighted_features.length } := by
  obtain ⟨l, hmem, hgt, heq⟩ := (scanLearners_spec m
    (m.scanFeatures m.weighted_features 0 (0, -1)).1.length m.weak_learners
    (none, (m.scanFeatures m.weighted_features 0 (0, -1)).2)).1 h
  refine ⟨l, hmem, hgt, ?_⟩
  simp only [scanFeatures_fst, List.length_map] at heq
  unfold DMaxEntModel.FindDescentDirection
  simp only [scanFeatures_fst, List.length_map, heq]

/-- The result of `FindDescentDirection` when no learner's absolute gradient
exceeds the best existing one by more than `gTolerance`. -/
theorem FindDescentDirection_not_found (m : DMaxEntModel α)
    (h : ¬ ∃ l ∈ m.weak_learners, |(l.Train m.space m.sample).2| > m.bestExisting + gTolerance) :
    m.FindDescentDirection = { m with
      weighted_features := m.weighted_features.map m.refreshed,
      model_gradient := m.bestExisting,
      direction := (m.scanFeatures m.weighted_features 0 (0, -1)).2.1 } := by
  have heq := (scanLearners_spec m
    (m.scanFeatures m.weighted_features 0 (0, -1)).1.length m.weak_learners
    (none, (m.scanFeatures m.weighted_features 0 (0, -1)).2)).2 h
  simp only [scanFeatures_fst, List.length_map] at heq
  unfold DMaxEntModel.FindDescentDirection
  simp only [scanFeatures_fst, List.length_map, heq]
  rfl

/-- With a feature or a weak learner at hand, the direction chosen by
`FindDescentDirection` is an index of the resulting list. -/
theorem FindDescentDirection_direction_lt (m : DMaxEntModel α)
    (hne : m.weighted_features ≠ [] ∨ m.weak_learners ≠ []) :
    m.FindDescentDirection.direction < m.FindDescentDirection.weighted_features.length := by
  by_cases h : ∃ l ∈ m.weak_learners,
      |(l.Train m.space m.sample).2| > m.bestExisting + gTolerance
  · obtain ⟨l, _, _, heq⟩ := FindDescentDirection_found m h
    rw [heq]
    simp
  · rw [FindDescentDirection_not_found m h]
    simp only [List.length_map]
    by_cases hf : m.weighted_features = []
    · exfalso
      rcases hne with hne | hne
      · exact hne hf
      · obtain ⟨l, hl⟩ := List.exists_mem_of_ne_nil _ hne
        apply h
        refine ⟨l, hl, ?_⟩
        have h0 : (0 : α) ≤ |(l.Train m.space m.sample).2| := abs_nonneg _
        have h1 : (gTolerance : α) < 1 := gTolerance_lt_one
        have hb : m.bestExisting = -1 := by
          simp [DMaxEntModel.bestExisting, hf, DMaxEntModel.scanFeatures]
        rw [hb]
        linarith
    · obtain ⟨⟨wf, hget, _⟩, _⟩ := scanFeatures_best m m.weighted_features hf
      by_contra hge
      rw [List.getElem?_eq_none (not_lt.1 hge)] at hget
      exact Option.noConfusion hget

/-- Claim C5: in `FindDescentDirection`, for a feature whose weight is exactly 0,
with `diff = population_expectation / normalizer - sample_expectation` and
`beta_k = 2 * alpha * Complexity() + beta`, the gradient is 0 when
`|diff| < beta_k` and `diff - beta_k * sgn diff` otherwise (`sgn` is the helper of
the source, -1 at 0; for `beta_k >= 0` the mathematical sign gives the same
value); consequently, for `beta_k >= 0`, `|gradient| = max (|diff| - beta_k) 0`. -/
theorem gradient_zero_weight (m : DMaxEntModel α) (f : Feature α) (diff beta_k : α)
    (hdiff : diff = f.population_expectation / m.normalizer - f.sample_expectation)
    (hbeta : beta_k = 2 * m.model_parameter_alpha * f.Complexity + m.model_parameter_beta) :
    (|diff| < beta_k → m.gradient 0 f = 0) ∧
    (¬ |diff| < beta_k → m.gradient 0 f = diff - beta_k * sgn diff) ∧
    (0 ≤ beta_k → ¬ |diff| < beta_k →
      m.gradient 0 f = diff - beta_k * ((SignType.sign diff : SignType) : α)) ∧
    (0 ≤ beta_k → |m.gradient 0 f| = max (|diff| - beta_k) 0) := by
  have hd : m.diff_expectations f = diff := by
    rw [hdiff]
    simp only [DMaxEntModel.diff_expectations, Feature.GetSampleExpectation,
      Feature.GetUnnormalizedPopulationExpectation]
    ring
  have hb : m.beta_k f = beta_k := by rw [hbeta]; rfl
  have h0 : ¬ |(0 : α)| > gTolerance := by
    rw [abs_zero]
    exact not_lt.2 (le_of_lt gTolerance_pos)
  have hg : m.gradient 0 f = if |diff| < beta_k then 0 else -beta_k * sgn diff + diff := by
    simp only [DMaxEntModel.gradient, hd, hb, if_neg h0]
  refine ⟨fun h => by rw [hg, if_pos h], fun h => by rw [hg, if_neg h]; ring, fun hk h => ?_,
    fun hk => ?_⟩
  · rw [hg, if_neg h]
    have hle := not_lt.1 h
    unfold sgn
    rcases lt_trichotomy diff 0 with hneg | hzero | hpos
    · rw [if_neg (not_lt.2 (le_of_lt hneg)), sign_neg hneg]
      simp
      ring
    · subst hzero
      rw [abs_zero] at hle
      have hk0 : beta_k = 0 := le_antisymm hle hk
      simp [hk0]
    · rw [if_pos hpos, sign_pos hpos]
      simp
      ring
  rw [hg]
  by_cases h : |diff| < beta_k
  · rw [if_pos h, abs_zero, max_eq_right (by linarith)]
  · rw [if_neg h, max_eq_left (by linarith [not_lt.1 h])]
    have hle := not_lt.1 h
    unfold sgn
    by_cases hpos : diff > 0
    · rw [if_pos hpos]
      rw [abs_of_pos hpos] at hle ⊢
      rw [abs_of_nonneg (by linarith)]
      ring
    · rw [if_neg hpos]
      have hnp := not_lt.1 hpos
      rw [abs_of_nonpos hnp] at hle ⊢
      rw [abs_of_nonpos (by linarith)]
      ring

/-- Claim C6, as amended: in `FindDescentDirection`, for a feature whose weight has
an absolute value above `gTolerance`, the gradient used for direction selection
is `beta_k * sgn weight + diff`, with
`diff = population_expectation / normalizer - sample_expectation` and
`beta_k = 2 * alpha * Complexity() + beta`. -/
theorem gradient_active_weight (m : DMaxEntModel α) (w : α) (f : Feature α) (diff beta_k : α)
    (hdiff : diff = f.population_expectation / m.normalizer - f.sample_expectation)
    (hbeta : beta_k = 2 * m.model_parameter_alpha * f.Complexity + m.model_parameter_beta)
    (hw : |w| > gTolerance) :
    m.gradient w f = beta_k * sgn w + diff := by
  rw [hdiff, hbeta]
  simp only [DMaxEntModel.gradient, DMaxEntModel.diff_expectations, DMaxEntModel.beta_k,
    Feature.GetSampleExpectation, Feature.GetUnnormalizedPopulationExpectation, if_pos hw]
  ring

/-- Claim C7: `FindDescentDirection` appends a feature iff some weak learner
returns a gradient whose absolute value exceeds the best absolute gradient of the
existing features (-1 when there is none) by more than `gTolerance`; then exactly one (0, new feature)
pair of such a learner is appended at the end, the direction is its index and the
reported gradient is that learner's absolute gradient.  In every case the
existing entries keep their weight and position (their features get the
population expectation recomputed) and the list grows by at most one. -/
theorem FindDescentDirection_append (m : DMaxEntModel α) :
    (∀ wf ∈ m.weighted_features, m.absGradient wf ≤ m.bestExisting) ∧
    (m.weighted_features ≠ [] → ∃ wf ∈ m.weighted_features, m.bestExisting = m.absGradient wf) ∧
    (m.weighted_features = [] → m.bestExisting = -1) ∧
    (m.FindDescentDirection.weighted_features.length = m.weighted_features.length + 1 ↔
      ∃ l ∈ m.weak_learners, |(l.Train m.space m.sample).2| > m.bestExisting + gTolerance) ∧
    ((∃ l ∈ m.weak_learners, |(l.Train m.space m.sample).2| > m.bestExisting + gTolerance) →
      ∃ l ∈ m.weak_learners, |(l.Train m.space m.sample).2| > m.bestExisting + gTolerance ∧
        m.FindDescentDirection.weighted_features =
          m.weighted_features.map m.refreshed ++ [((0 : α), (l.Train m.space m.sample).1)] ∧
        m.FindDescentDirection.direction = m.weighted_features.length ∧
        m.FindDescentDirection.model_gradient = |(l.Train m.space m.sample).2|) ∧
    ((¬ ∃ l ∈ m.weak_learners, |(l.Train m.space m.sample).2| > m.bestExisting + gTolerance) →
      m.FindDescentDirection.weighted_features = m.weighted_features.map m.refreshed) ∧
    m.FindDescentDirection.weighted_features.take m.weighted_features.length =
      m.weighted_features.map m.refreshed ∧
    m.FindDescentDirection.weighted_features.length ≤ m.weighted_features.length + 1 := by
  have hbest := scanFeatures_snd m m.weighted_features 0 (0, -1)
  have hfound := FindDescentDirection_found m
  have hnot := FindDescentDirection_not_found m
  refine ⟨hbest.2.1, ?_, ?_, ?_, ?_, ?_, ?_, ?_⟩
  · intro hne
    obtain ⟨⟨wf, hget, hval⟩, _⟩ := scanFeatures_best m m.weighted_features hne
    exact ⟨wf, List.getElem?_mem hget, hval⟩
  · intro hnil
    simp [DMaxEntModel.bestExisting, hnil, DMaxEntModel.scanFeatures]
  · constructor
    · intro hlen
      by_contra hno
      rw [hnot hno] at hlen
      simp at hlen
    · intro h
      obtain ⟨l, _, _, heq⟩ := hfound h
      rw [heq]
      simp
  · intro h
    obtain ⟨l, hmem, hgt, heq⟩ := hfound h
    exact ⟨l, hmem, hgt, by rw [heq], by rw [heq], by rw [heq]⟩
  · intro h
    rw [hnot h]
  · by_cases h : ∃ l ∈ m.weak_learners,
        |(l.Train m.space m.sample).2| > m.bestExisting + gTolerance
    · obtain ⟨l, _, _, heq⟩ := hfound h
      rw [heq]
      simp
    · rw [hnot h]
      simp
  · by_cases h : ∃ l ∈ m.weak_learners,
        |(l.Train m.space m.sample).2| > m.bestExisting + gTolerance
    · obtain ⟨l, _, _, heq⟩ := hfound h
      rw [heq]
      simp
    · rw [hnot h]
      simp

end DirectionFacts

/-! ## Properties of the step-size routines -/

section StepSizeFacts

variable {α : Type} [LinearOrderedField α]

/-- `FindStepSize2` on a direction in range returns, and changes only
`step_size`, to the value of its three-way case split. -/
theorem FindStepSize2_eq_some (m : DMaxEntModel α) (w : α) (f : Feature α)
    (hget : m.weighted_features[m.direction]? = some (w, f)) :
    ∃ s, m.FindStepSize2 = some { m with step_size := s } ∧
      s = (if |m.beta2 w f| ≤ m.beta_k f then -w
        else if m.beta2 w f > m.beta_k f then
          -(m.beta_k f + m.diff_expectations f) / (m.lambda * m.lambda)
        else -(-m.beta_k f + m.diff_expectations f) / (m.lambda * m.lambda)) := by
  unfold DMaxEntModel.FindStepSize2
  rw [hget]
  simp only
  split_ifs <;> exact ⟨_, rfl, rfl⟩

/-- `FindStepSize1` on a direction in range returns, and changes only `step_size`;
when `|beta| < beta_k` the step is minus the weight. -/
theorem FindStepSize1_eq_some (exp log : α → α) (m : DMaxEntModel α) (w : α) (f : Feature α)
    (hget : m.weighted_features[m.direction]? = some (w, f)) :
    ∃ s, m.FindStepSize1 exp log = some { m with step_size := s } ∧
      (|m.beta1 exp w f| < m.beta_k f → s = -w) := by
  unfold DMaxEntModel.FindStepSize1
  rw [hget]
  simp only
  split_ifs with h1 h2
  · exact ⟨_, rfl, fun _ => rfl⟩
  · exact ⟨_, rfl, fun h => absurd h h1⟩
  · exact ⟨_, rfl, fun h => absurd h h1⟩

/-- Claim C8: `FindStepSize2`, for the selected feature with weight `w`,
`diff = population_expectation / normalizer - sample_expectation`,
`beta_k = 2 * alpha * Complexity() + beta >= 0` and `lambda != 0`, with
`b = w * lambda^2 - diff`, returns with only `step_size` changed, and sets it to
`-w` when `|b| < beta_k`, to `-(beta_k + diff) / lambda^2` when `b > beta_k`, and
to `-(diff - beta_k) / lambda^2` when `b < -beta_k`. -/
theorem FindStepSize2_cases (m : DMaxEntModel α) (w : α) (f : Feature α) (diff beta_k b : α)
    (hget : m.weighted_features[m.direction]? = some (w, f))
    (hdiff : diff = f.population_expectation / m.normalizer - f.sample_expectation)
    (hbeta : beta_k = 2 * m.model_parameter_alpha * f.Complexity + m.model_parameter_beta)
    (hb : b = w * m.lambda ^ 2 - diff) (hk : 0 ≤ beta_k) (_hlam : m.lambda ≠ 0) :
    ∃ s, m.FindStepSize2 = some { m with step_size := s } ∧
      (|b| < beta_k → s = -w) ∧
      (b > beta_k → s = -(beta_k + diff) / m.lambda ^ 2) ∧
      (b < -beta_k → s = -(diff - beta_k) / m.lambda ^ 2) := by
  have hd : m.diff_expectations f = diff := by
    rw [hdiff]
    simp only [DMaxEntModel.diff_expectations, Feature.GetSampleExpectation,
      Feature.GetUnnormalizedPopulationExpectation]
    ring
  have hbk : m.beta_k f = beta_k := by rw [hbeta]; rfl
  have hb2 : m.beta2 w f = b := by
    rw [hb, DMaxEntModel.beta2, hd]
    ring
  obtain ⟨s, hs1, hs2⟩ := FindStepSize2_eq_some m w f hget
  rw [hb2, hbk, hd] at hs2
  refine ⟨s, hs1, ?_, ?_, ?_⟩
  · intro h
    rw [hs2, if_pos (le_of_lt h)]
  · intro h
    have h1 : ¬ |b| ≤ beta_k := fun hle => absurd (le_trans (le_abs_self b) hle) (not_le.2 h)
    rw [hs2, if_neg h1, if_pos h, sq]
  · intro h
    have h1 : ¬ |b| ≤ beta_k := by
      intro hle
      have := (abs_le.1 hle).1
      linarith
    have h2 : ¬ b > beta_k := by
      intro hgt
      linarith
    rw [hs2, if_neg h1, if_neg h2, sq]
    congr 1
    ring

/-- Claim C9: in both step-size versions, whenever the computed beta of the
selected feature satisfies `|beta| < beta_k`, the routine returns with `step_size`
equal to minus the feature's current weight, and the following `UpdateModel`
returns with the selected feature's weight equal to 0. -/
theorem step_cancels_weight (exp log : α → α) (m : DMaxEntModel α) (w : α) (f : Feature α)
    (hget : m.weighted_features[m.direction]? = some (w, f)) :
    (|m.beta1 exp w f| < m.beta_k f →
      ∃ m1 m2, m.FindStepSize1 exp log = some m1 ∧ m1.step_size = -w ∧
        m1.UpdateModel exp = some m2 ∧ m2.weighted_features[m.direction]? = some (0, f)) ∧
    (|m.beta2 w f| < m.beta_k f →
      ∃ m1 m2, m.FindStepSize2 = some m1 ∧ m1.step_size = -w ∧
        m1.UpdateModel exp = some m2 ∧ m2.weighted_features[m.direction]? = some (0, f)) := by
  have hlt : m.direction < m.weighted_features.length := by
    by_contra hge
    rw [List.getElem?_eq_none (not_lt.1 hge)] at hget
    exact Option.noConfusion hget
  have hw : m.weighted_features[m.direction] = (w, f) := by
    have := List.getElem?_eq_getElem hlt
    rw [hget] at this
    exact (Option.some.inj this).symm
  constructor
  · intro h
    obtain ⟨s, h1, h2⟩ := FindStepSize1_eq_some exp log m w f hget
    have hs := h2 h
    subst hs
    refine ⟨_, _, h1, rfl, UpdateModel_eq_some exp { m with step_size := -w } hlt, ?_⟩
    simp [List.getElem?_set, hlt, hw]
  · intro h
    obtain ⟨s, h1, h2⟩ := FindStepSize2_eq_some m w f hget
    rw [if_pos (le_of_lt h)] at h2
    subst h2
    refine ⟨_, _, h1, rfl, UpdateModel_eq_some exp { m with step_size := -w } hlt, ?_⟩
    simp [List.getElem?_set, hlt, hw]

end StepSizeFacts

/-! ## Properties of `Fit` -/

section FitFacts

variable {α : Type} [LinearOrderedField α]

/-- One pass through the loop body when the direction that `FindDescentDirection`
chooses is in range: the pass returns, with the selected weight moved by the
step and every point reweighted. -/
theorem FitIteration_eq_some (exp log : α → α) (m : DMaxEntModel α)
    (hlt : m.FindDescentDirection.direction < m.FindDescentDirection.weighted_features.length) :
    ∃ s w f, m.FindDescentDirection.weighted_features[m.FindDescentDirection.direction]? =
        some (w, f) ∧
      m.FitIteration exp log = some { m.FindDescentDirection with
        step_size := s,
        weighted_features :=
          m.FindDescentDirection.weighted_features.set m.FindDescentDirection.direction (w + s, f),
        space := { m.space with
          points := (DMaxEntModel.updatePoints exp s f m.space.points 0).1 },
        normalizer := (DMaxEntModel.updatePoints exp s f m.space.points 0).2 } := by
  have hget := List.getElem?_eq_getElem hlt
  have hstep : ∃ s, (if m.FindDescentDirection.version = 1 then
      m.FindDescentDirection.FindStepSize1 exp log else m.FindDescentDirection.FindStepSize2) =
      some { m.FindDescentDirection with step_size := s } := by
    split_ifs
    · obtain ⟨s, h, _⟩ := FindStepSize1_eq_some exp log m.FindDescentDirection _ _ hget
      exact ⟨s, h⟩
    · obtain ⟨s, h, _⟩ := FindStepSize2_eq_some m.FindDescentDirection _ _ hget
      exact ⟨s, h⟩
  obtain ⟨s, hs⟩ := hstep
  refine ⟨s, _, _, hget, ?_⟩
  unfold DMaxEntModel.FitIteration
  simp only [hs, Option.bind]
  rw [UpdateModel_eq_some exp { m.FindDescentDirection with step_size := s } hlt]
  rfl

/-- One pass through the loop body fails exactly when the chosen direction is out
of range. -/
theorem FitIteration_eq_none (exp log : α → α) (m : DMaxEntModel α)
    (hge : ¬ m.FindDescentDirection.direction < m.FindDescentDirection.weighted_features.length) :
    m.FitIteration exp log = none := by
  have hget := List.getElem?_eq_none (not_lt.1 hge)
  unfold DMaxEntModel.FitIteration DMaxEntModel.FindStepSize1 DMaxEntModel.FindStepSize2
  simp only [hget]
  split_ifs <;> rfl

/-- The loop body of `Fit` is one iteration in the words of the specification. -/
theorem afterIterations_succ (exp log : α → α) (k : Nat) (m : DMaxEntModel α) :
    m.afterIterations exp log (k + 1) = (m.FitIteration exp log).bind
      (fun s => s.afterIterations exp log k) := by
  have one : ∀ s : DMaxEntModel α, s.afterIterations exp log 1 = s.FitIteration exp log := by
    intro s
    simp only [DMaxEntModel.afterIterations, DMaxEntModel.FitIteration]
    split_ifs <;> rfl
  induction k generalizing m with
  | zero =>
    rw [one]
    cases m.FitIteration exp log <;> rfl
  | succ k ih =>
    have unfold1 : m.afterIterations exp log (k + 1 + 1) =
        (m.afterIterations exp log (k + 1)).bind (fun s => s.afterIterations exp log 1) := by
      conv_lhs => unfold DMaxEntModel.afterIterations
      cases h : DMaxEntModel.afterIterations exp log (k + 1) m with
      | none => rfl
      | some s =>
        simp only [Option.bind]
        rw [one]
        simp only [DMaxEntModel.FitIteration]
        split_ifs <;> rfl
    rw [unfold1, ih]
    cases h : m.FitIteration exp log with
    | none => rfl
    | some s =>
      simp only [Option.bind]
      conv_rhs => unfold DMaxEntModel.afterIterations
      cases h2 : DMaxEntModel.afterIterations exp log k s with
      | none => rfl
      | some t =>
        simp only [Option.bind]
        rw [one]
        simp only [DMaxEntModel.FitIteration]
        split_ifs <;> rfl

/-- `FindDescentDirection` never shortens the feature list. -/
theorem FindDescentDirection_length_ge (m : DMaxEntModel α) :
    m.weighted_features.length ≤ m.FindDescentDirection.weighted_features.length := by
  by_cases h : ∃ l ∈ m.weak_learners,
      |(l.Train m.space m.sample).2| > m.bestExisting + gTolerance
  · obtain ⟨l, _, _, heq⟩ := FindDescentDirection_found m h
    rw [heq]
    simp
  · rw [FindDescentDirection_not_found m h]
    simp

/-- What one pass through the loop body leaves alone. -/
theorem FitIteration_frame (exp log : α → α) (m m1 : DMaxEntModel α)
    (h : m.FitIteration exp log = some m1) :
    m1.max_descent_steps = m.max_descent_steps ∧ m1.stop_if_converged = m.stop_if_converged ∧
    m1.version = m.version ∧ m1.weak_learners = m.weak_learners ∧
    m.weighted_features.length ≤ m1.weighted_features.length := by
  by_cases hlt : m.FindDescentDirection.direction < m.FindDescentDirection.weighted_features.length
  · obtain ⟨s, w, f, _, heq⟩ := FitIteration_eq_some exp log m hlt
    rw [heq] at h
    have h1 := Option.some.inj h
    subst h1
    refine ⟨rfl, rfl, rfl, rfl, ?_⟩
    simpa using FindDescentDirection_length_ge m
  · rw [FitIteration_eq_none exp log m hlt] at h
    exact Option.noConfusion h

/-- With a feature or a weak learner at hand, one pass through the loop body
returns, and the next pass has a feature or a weak learner at hand as well. -/
theorem FitIteration_total (exp log : α → α) (m : DMaxEntModel α)
    (hne : m.weighted_features ≠ [] ∨ m.weak_learners ≠ []) :
    ∃ m1, m.FitIteration exp log = some m1 ∧
      (m1.weighted_features ≠ [] ∨ m1.weak_learners ≠ []) := by
  obtain ⟨s, w, f, _, heq⟩ :=
    FitIteration_eq_some exp log m (FindDescentDirection_direction_lt m hne)
  refine ⟨_, heq, ?_⟩
  obtain ⟨_, _, _, h4, h5⟩ := FitIteration_frame exp log m _ heq
  rcases hne with hne | hne
  · left
    intro hnil
    rw [hnil] at h5
    exact hne (List.length_eq_zero.1 (Nat.le_zero.1 h5))
  · right
    rw [h4]
    exact hne

/-- The loop of `Fit` started at counter `iter` with `fuel` counter values left
below `max_descent_steps`: it returns after `k <= fuel` further iterations, in the
state that `k` iterations produce; without `stop_if_converged` all `fuel`
iterations run; with it, no iteration before the last one run reported a gradient
below `gTolerance`, and if iterations were left over the last one run did. -/
theorem FitLoop_spec (exp log : α → α) (fuel : Nat) :
    ∀ (iter : Nat) (m : DMaxEntModel α),
      m.max_descent_steps = ((iter + fuel : Nat) : α) →
      (m.weighted_features ≠ [] ∨ m.weak_learners ≠ []) →
      ∃ m1 k, DMaxEntModel.FitLoop exp log fuel iter m = some (m1, iter + k) ∧
        m.afterIterations exp log k = some m1 ∧ k ≤ fuel ∧
        (m.stop_if_converged = false → k = fuel) ∧
        (m.stop_if_converged = true →
          (∀ j s, 0 < j → j < k → m.afterIterations exp log j = some s →
            ¬ s.model_gradient < gTolerance) ∧
          (k < fuel → 0 < k ∧ m1.model_gradient < gTolerance)) := by
  induction fuel with
  | zero =>
    intro iter m _ _
    refine ⟨m, 0, rfl, rfl, le_refl _, fun _ => rfl, fun _ => ⟨?_, ?_⟩⟩
    · intro j s h0 h1
      omega
    · intro h
      omega
  | succ fuel ih =>
    intro iter m hmax hne
    have hguard : (iter : α) < m.max_descent_steps := by
      rw [hmax]
      exact_mod_cast (by omega : iter < iter + (fuel + 1))
    obtain ⟨m2, hit, hne2⟩ := FitIteration_total exp log m hne
    obtain ⟨f1, f2, _, _, _⟩ := FitIteration_frame exp log m m2 hit
    have hone : m.afterIterations exp log 1 = some m2 := by
      rw [afterIterations_succ, hit]
      rfl
    by_cases hstop : m2.model_gradient < gTolerance ∧ m2.stop_if_converged = true
    · have hloop : DMaxEntModel.FitLoop exp log (fuel + 1) iter m = some (m2, iter + 1) := by
        simp only [DMaxEntModel.FitLoop, if_pos hguard, hit, if_pos hstop]
      refine ⟨m2, 1, hloop, hone, by omega, ?_, fun _ => ⟨?_, fun _ => ⟨by omega, hstop.1⟩⟩⟩
      · intro hfalse
        rw [← f2, hstop.2] at hfalse
        exact Bool.noConfusion hfalse
      · intro j s h0 h1
        omega
    · have hloop : DMaxEntModel.FitLoop exp log (fuel + 1) iter m =
          DMaxEntModel.FitLoop exp log fuel (iter + 1) m2 := by
        simp only [DMaxEntModel.FitLoop, if_pos hguard, hit, if_neg hstop]
      have hmax2 : m2.max_descent_steps = ((iter + 1 + fuel : Nat) : α) := by
        rw [f1, hmax]
        congr 1
        omega
      obtain ⟨m1, k, h1, h2, h3, h4, h5⟩ := ih (iter + 1) m2 hmax2 hne2
      refine ⟨m1, k + 1, ?_, ?_, by omega, ?_, ?_⟩
      · rw [hloop, h1]
        congr 2
        omega
      · rw [afterIterations_succ, hit]
        exact h2
      · intro hfalse
        rw [h4 (by rw [f2]; exact hfalse)]
      · intro htrue
        obtain ⟨h6, h7⟩ := h5 (by rw [f2]; exact htrue)
        refine ⟨?_, fun hk => ?_⟩
        · intro j s hj0 hjk hs
          cases j with
          | zero => omega
          | succ j =>
            rw [afterIterations_succ, hit] at hs
            by_cases hj : j = 0
            · subst hj
              have hs2 : m2 = s := Option.some.inj hs
              subst hs2
              intro hlt
              exact hstop ⟨hlt, by rw [f2]; exact htrue⟩
            · exact h6 j s (by omega) (by omega) hs
        · obtain ⟨h8, h9⟩ := h7 (by omega)
          exact ⟨by omega, h9⟩

/-- The fuel that `Fit` gives its loop is enough whatever `max_descent_steps` is:
once the counter values below `max_descent_steps` are covered, more fuel does not
change the result. -/
theorem FitLoop_fuel_succ [FloorRing α] (exp log : α → α) (fuel : Nat) :
    ∀ (iter : Nat) (m : DMaxEntModel α), ⌈m.max_descent_steps⌉₊ ≤ iter + fuel →
      DMaxEntModel.FitLoop exp log (fuel + 1) iter m =
        DMaxEntModel.FitLoop exp log fuel iter m := by
  induction fuel with
  | zero =>
    intro iter m h
    have hguard : ¬ (iter : α) < m.max_descent_steps := by
      rw [not_lt]
      exact Nat.ceil_le.1 (by omega)
    simp only [DMaxEntModel.FitLoop, if_neg hguard]
  | succ fuel ih =>
    intro iter m h
    rw [DMaxEntModel.FitLoop]
    conv_rhs => rw [DMaxEntModel.FitLoop]
    by_cases hguard : (iter : α) < m.max_descent_steps
    · simp only [if_pos hguard]
      cases hit : m.FitIteration exp log with
      | none => rfl
      | some m2 =>
        simp only
        obtain ⟨f1, _, _, _, _⟩ := FitIteration_frame exp log m m2 hit
        by_cases hstop : m2.model_gradient < gTolerance ∧ m2.stop_if_converged = true
        · simp only [if_pos hstop]
        · simp only [if_neg hstop]
          exact ih (iter + 1) m2 (by rw [f1]; omega)
    · simp only [if_neg hguard]

/-- With a feature or a weak learner at hand, the loop of `Fit` returns. -/
theorem FitLoop_total (exp log : α → α) (fuel : Nat) :
    ∀ (iter : Nat) (m : DMaxEntModel α), (m.weighted_features ≠ [] ∨ m.weak_learners ≠ []) →
      ∃ r, DMaxEntModel.FitLoop exp log fuel iter m = some r := by
  induction fuel with
  | zero => exact fun iter m _ => ⟨(m, iter), rfl⟩
  | succ fuel ih =>
    intro iter m hne
    obtain ⟨m2, hit, hne2⟩ := FitIteration_total exp log m hne
    rw [DMaxEntModel.FitLoop]
    by_cases hguard : (iter : α) < m.max_descent_steps
    · simp only [if_pos hguard, hit]
      by_cases hstop : m2.model_gradient < gTolerance ∧ m2.stop_if_converged = true
      · exact ⟨_, by rw [if_pos hstop]⟩
      · rw [if_neg hstop]
        exact ih (iter + 1) m2 hne2
    · exact ⟨_, by rw [if_neg hguard]⟩

/-- Claim C10: with `max_descent_steps` an iteration count `n` and a feature or a
weak learner at hand, `Fit` returns after `k <= n` iterations, in the state
produced by `k` iterations, each `FindDescentDirection`, then the step-size
routine of the configured version (`FindStepSize1` for version 1, `FindStepSize2`
otherwise), then `UpdateModel`.  Without `stop_if_converged`, `k = n`.  With it,
no iteration before the `k`-th reports a gradient below `gTolerance`, and if
`k < n` the `k`-th does (and its update is applied). -/
theorem Fit_iterations [FloorRing α] (exp log : α → α) (m : DMaxEntModel α) (n : Nat)
    (hmax : m.max_descent_steps = (n : α))
    (hne : m.weighted_features ≠ [] ∨ m.weak_learners ≠ []) :
    ∃ m1 k, m.FitCount exp log = some (m1, k) ∧ m.Fit exp log = some m1 ∧
      m.afterIterations exp log k = some m1 ∧ k ≤ n ∧
      (m.stop_if_converged = false → k = n) ∧
      (m.stop_if_converged = true →
        (∀ j s, 0 < j → j < k → m.afterIterations exp log j = some s →
          ¬ s.model_gradient < gTolerance) ∧
        (k < n → 0 < k ∧ m1.model_gradient < gTolerance)) := by
  have hceil : ⌈m.max_descent_steps⌉₊ = n := by
    rw [hmax]
    exact Nat.ceil_natCast n
  obtain ⟨m1, k, h1, h2, h3, h4, h5⟩ :=
    FitLoop_spec exp log n 0 m (by rw [hmax, Nat.zero_add]) hne
  have hcount : m.FitCount exp log = some (m1, k) := by
    unfold DMaxEntModel.FitCount
    rw [hceil, h1, Nat.zero_add]
  refine ⟨m1, k, hcount, ?_, h2, h3, h4, h5⟩
  unfold DMaxEntModel.Fit
  rw [hcount]
  rfl

end FitFacts

/-! ## The Gibbs form -/

section GibbsFacts

variable {α : Type} [LinearOrderedField α]

/-- The linear combination after the weight at one index has moved by `s`. -/
theorem sum_set_weight (p : Point α) (s : α) (l : List (α × Feature α)) (i : Nat) (w : α)
    (f : Feature α) (h : l[i]? = some (w, f)) :
    ((l.set i (w + s, f)).map (fun wf => wf.1 * wf.2.FeatureMap p)).sum =
      (l.map (fun wf => wf.1 * wf.2.FeatureMap p)).sum + s * f.FeatureMap p := by
  induction l generalizing i with
  | nil => simp at h
  | cons a t ih =>
    cases i with
    | zero =>
      simp only [List.getElem?_cons_zero, Option.some.injEq] at h
      subst h
      simp only [List.set_cons_zero, List.map_cons, List.sum_cons]
      ring
    | succ i =>
      simp only [List.getElem?_cons_succ] at h
      simp only [List.set_cons_succ, List.map_cons, List.sum_cons, ih i h]
      ring

/-- `FindDescentDirection` does not change the linear combination at any point:
the existing entries keep weight and feature map, and an appended feature has
weight 0. -/
theorem FindDescentDirection_sum (m : DMaxEntModel α) (p : Point α) :
    (m.FindDescentDirection.weighted_features.map (fun wf => wf.1 * wf.2.FeatureMap p)).sum =
      (m.weighted_features.map (fun wf => wf.1 * wf.2.FeatureMap p)).sum := by
  have hmap : (m.weighted_features.map m.refreshed).map (fun wf => wf.1 * wf.2.FeatureMap p) =
      m.weighted_features.map (fun wf => wf.1 * wf.2.FeatureMap p) := by
    rw [List.map_map]
    rfl
  by_cases h : ∃ l ∈ m.weak_learners,
      |(l.Train m.space m.sample).2| > m.bestExisting + gTolerance
  · obtain ⟨l, _, _, heq⟩ := FindDescentDirection_found m h
    rw [heq]
    simp only [List.map_append, List.sum_append, hmap]
    simp
  · rw [FindDescentDirection_not_found m h]
    simp only [hmap]

/-- The features of the list after `FindDescentDirection` read covariates only
when those before it and those of the learners do. -/
theorem FindDescentDirection_reads (m : DMaxEntModel α)
    (hf : ∀ wf ∈ m.weighted_features, wf.2.ReadsCovariatesOnly)
    (hl : ∀ l ∈ m.weak_learners, ∀ sp sa, (l.Train sp sa).1.ReadsCovariatesOnly) :
    ∀ wf ∈ m.FindDescentDirection.weighted_features, wf.2.ReadsCovariatesOnly := by
  have hold : ∀ wf ∈ m.weighted_features.map m.refreshed, wf.2.ReadsCovariatesOnly := by
    intro wf hwf
    obtain ⟨wf0, hmem, rfl⟩ := List.mem_map.1 hwf
    exact hf wf0 hmem
  by_cases h : ∃ l ∈ m.weak_learners,
      |(l.Train m.space m.sample).2| > m.bestExisting + gTolerance
  · obtain ⟨l, hmem, _, heq⟩ := FindDescentDirection_found m h
    rw [heq]
    intro wf hwf
    rcases List.mem_append.1 hwf with hwf | hwf
    · exact hold wf hwf
    · rw [List.mem_singleton.1 hwf]
      exact hl l hmem _ _
  · rw [FindDescentDirection_not_found m h]
    exact hold

/-- One pass through the loop body keeps the Gibbs form, for an exponential that
turns sums into products and features that read covariates only. -/
theorem FitIteration_gibbs (exp log : α → α) (hadd : ∀ a b, exp (a + b) = exp a * exp b)
    (m m1 : DMaxEntModel α) (h : m.FitIteration exp log = some m1)
    (hg : m.GibbsForm exp)
    (hf : ∀ wf ∈ m.weighted_features, wf.2.ReadsCovariatesOnly)
    (hl : ∀ l ∈ m.weak_learners, ∀ sp sa, (l.Train sp sa).1.ReadsCovariatesOnly) :
    m1.GibbsForm exp ∧ (∀ wf ∈ m1.weighted_features, wf.2.ReadsCovariatesOnly) ∧
      (∀ l ∈ m1.weak_learners, ∀ sp sa, (l.Train sp sa).1.ReadsCovariatesOnly) := by
  by_cases hlt : m.FindDescentDirection.direction < m.FindDescentDirection.weighted_features.length
  · obtain ⟨s, w, f, hget, heq⟩ := FitIteration_eq_some exp log m hlt
    rw [heq] at h
    have h1 := Option.some.inj h
    subst h1
    have hreads := FindDescentDirection_reads m hf hl
    have hset : ∀ wf ∈ m.FindDescentDirection.weighted_features.set
        m.FindDescentDirection.direction (w + s, f), wf.2.ReadsCovariatesOnly := by
      intro wf hwf
      rcases List.mem_or_eq_of_mem_set hwf with hwf | hwf
      · exact hreads wf hwf
      · rw [hwf]
        exact hreads (w, f) (List.getElem?_mem hget)
    refine ⟨?_, hset, hl⟩
    intro p1 hp1
    simp only [updatePoints_fst] at hp1
    obtain ⟨p, hp, rfl⟩ := List.mem_map.1 hp1
    have hsame : (m.FindDescentDirection.weighted_features.set
        m.FindDescentDirection.direction (w + s, f)).map (fun wf => wf.1 * wf.2.FeatureMap
          (p.SetProbWeight (p.GetProbWeight * exp (s * f.FeatureMap p)))) =
        (m.FindDescentDirection.weighted_features.set
          m.FindDescentDirection.direction (w + s, f)).map (fun wf => wf.1 * wf.2.FeatureMap p) := by
      apply List.map_congr_left
      intro wf hwf
      rw [hset wf hwf]
    simp only [hsame]
    rw [sum_set_weight p s _ _ w f hget, FindDescentDirection_sum, hadd, ← hg p hp]
    rfl
  · rw [FitIteration_eq_none exp log m hlt] at h
    exact Option.noConfusion h

/-- Any number of iterations keeps the Gibbs form. -/
theorem afterIterations_gibbs (exp log : α → α) (hadd : ∀ a b, exp (a + b) = exp a * exp b)
    (k : Nat) : ∀ (m s : DMaxEntModel α), m.afterIterations exp log k = some s →
      m.GibbsForm exp → (∀ wf ∈ m.weighted_features, wf.2.ReadsCovariatesOnly) →
      (∀ l ∈ m.weak_learners, ∀ sp sa, (l.Train sp sa).1.ReadsCovariatesOnly) →
      s.GibbsForm exp := by
  induction k with
  | zero =>
    intro m s h hg _ _
    have h1 : m = s := Option.some.inj h
    rw [← h1]
    exact hg
  | succ k ih =>
    intro m s h hg hf hl
    rw [afterIterations_succ] at h
    cases hit : m.FitIteration exp log with
    | none =>
      rw [hit] at h
      exact Option.noConfusion h
    | some m2 =>
      rw [hit] at h
      obtain ⟨g2, f2, l2⟩ := FitIteration_gibbs exp log hadd m m2 hit hg hf hl
      exact ih m2 s h g2 f2 l2

/-- Whatever the loop of `Fit` returns is the state after some number of
iterations. -/
theorem FitLoop_result (exp log : α → α) (fuel : Nat) :
    ∀ (iter : Nat) (m : DMaxEntModel α) (r : DMaxEntModel α × Nat),
      DMaxEntModel.FitLoop exp log fuel iter m = some r →
      ∃ k, m.afterIterations exp log k = some r.1 := by
  induction fuel with
  | zero =>
    intro iter m r h
    have h1 : (m, iter) = r := Option.some.inj h
    exact ⟨0, by rw [← h1]; rfl⟩
  | succ fuel ih =>
    intro iter m r h
    simp only [DMaxEntModel.FitLoop] at h
    split_ifs at h with hguard
    · cases hit : m.FitIteration exp log with
      | none =>
        rw [hit] at h
        exact Option.noConfusion h
      | some m2 =>
        rw [hit] at h
        simp only at h
        split_ifs at h with hstop
        · have h1 : (m2, iter + 1) = r := Option.some.inj h
          refine ⟨1, ?_⟩
          rw [afterIterations_succ, hit, ← h1]
          rfl
        · obtain ⟨k, hk⟩ := ih (iter + 1) m2 r h
          refine ⟨k + 1, ?_⟩
          rw [afterIterations_succ, hit]
          exact hk
    · have h1 : (m, iter) = r := Option.some.inj h
      exact ⟨0, by rw [← h1]; rfl⟩

/-- With a feature or a weak learner at hand, every number of iterations returns. -/
theorem afterIterations_total (exp log : α → α) (k : Nat) :
    ∀ m : DMaxEntModel α, (m.weighted_features ≠ [] ∨ m.weak_learners ≠ []) →
      ∃ s, m.afterIterations exp log k = some s := by
  induction k with
  | zero => exact fun m _ => ⟨m, rfl⟩
  | succ k ih =>
    intro m hne
    obtain ⟨m2, hit, hne2⟩ := FitIteration_total exp log m hne
    obtain ⟨s, hs⟩ := ih m2 hne2
    exact ⟨s, by rw [afterIterations_succ, hit]; exact hs⟩

/-- Claim C2 (Gibbs form): for a model constructed over a space in which every
point has `probability_weight` 1 (the constructor starts all feature weights at
0), with an exponential that maps 0 to 1 and sums to products and features that
read covariates only, after any number of `Fit` iterations, and when `Fit`
returns, every point `p` of the space has
`probability_weight p = exp (sum of weight_k * feature_k.FeatureMap p)` over all
(weight, feature) pairs, those appended by weak learners included; with a feature
or a weak learner at hand every number of iterations is reached and `Fit`
returns. -/
theorem Fit_gibbs_form [FloorRing α] (exp log : α → α) (hexp0 : exp 0 = 1)
    (hadd : ∀ a b, exp (a + b) = exp a * exp b)
    (alpha beta max_steps : α) (ver : Int) (l : α) (stop_on_convergence : Bool) (X : Space α)
    (S : Sample α) (features : List (Feature α)) (learners : List (WLearner α)) (test : Sample α)
    (hone : ∀ p ∈ X.points, p.probability_weight = 1)
    (hf : ∀ f ∈ features, f.ReadsCovariatesOnly)
    (hl : ∀ lr ∈ learners, ∀ sp sa, (lr.Train sp sa).1.ReadsCovariatesOnly) :
    (∀ k s, (DMaxEntModel.mk0 alpha beta max_steps ver l stop_on_convergence X S features
        learners test).afterIterations exp log k = some s → s.GibbsForm exp) ∧
    (∀ s, (DMaxEntModel.mk0 alpha beta max_steps ver l stop_on_convergence X S features
        learners test).Fit exp log = some s → s.GibbsForm exp) ∧
    ((features ≠ [] ∨ learners ≠ []) →
      (∀ k, ∃ s, (DMaxEntModel.mk0 alpha beta max_steps ver l stop_on_convergence X S features
        learners test).afterIterations exp log k = some s) ∧
      ∃ s, (DMaxEntModel.mk0 alpha beta max_steps ver l stop_on_convergence X S features
        learners test).Fit exp log = some s) := by
  have hg0 : (DMaxEntModel.mk0 alpha beta max_steps ver l stop_on_convergence X S features
      learners test).GibbsForm exp := by
    intro p hp
    have hzero : ∀ fs : List (Feature α),
        ((fs.map (fun feature => ((0 : α), feature))).map
          (fun wf => wf.1 * wf.2.FeatureMap p)).sum = 0 := by
      intro fs
      induction fs with
      | nil => rfl
      | cons a t ih =>
        simp only [List.map_cons, List.sum_cons, ih]
        ring
    show p.probability_weight = exp _
    rw [hone p hp]
    simp only [DMaxEntModel.mk0, hzero, hexp0]
  have hf0 : ∀ wf ∈ (DMaxEntModel.mk0 alpha beta max_steps ver l stop_on_convergence X S
      features learners test).weighted_features, wf.2.ReadsCovariatesOnly := by
    intro wf hwf
    obtain ⟨f, hmem, rfl⟩ := List.mem_map.1 hwf
    exact hf f hmem
  have hall : ∀ k s, (DMaxEntModel.mk0 alpha beta max_steps ver l stop_on_convergence X S
      features learners test).afterIterations exp log k = some s → s.GibbsForm exp :=
    fun k s h => afterIterations_gibbs exp log hadd k _ s h hg0 hf0 hl
  refine ⟨hall, ?_, ?_⟩
  · intro s hs
    unfold DMaxEntModel.Fit DMaxEntModel.FitCount at hs
    cases hr : DMaxEntModel.FitLoop exp log ⌈(DMaxEntModel.mk0 alpha beta max_steps ver l
        stop_on_convergence X S features learners test).max_descent_steps⌉₊ 0
        (DMaxEntModel.mk0 alpha beta max_steps ver l stop_on_convergence X S features
          learners test) with
    | none =>
      rw [hr] at hs
      exact Option.noConfusion hs
    | some r =>
      rw [hr] at hs
      have h1 : r.1 = s := Option.some.inj hs
      obtain ⟨k, hk⟩ := FitLoop_result exp log _ 0 _ r hr
      rw [h1] at hk
      exact hall k s hk
  · intro hne
    have hne0 : (DMaxEntModel.mk0 alpha beta max_steps ver l stop_on_convergence X S features
        learners test).weighted_features ≠ [] ∨ (DMaxEntModel.mk0 alpha beta max_steps ver l
        stop_on_convergence X S features learners test).weak_learners ≠ [] := by
      rcases hne with hne | hne
      · left
        intro hnil
        apply hne
        simpa [DMaxEntModel.mk0] using hnil
      · right
        exact hne
    refine ⟨fun k => afterIterations_total exp log k _ hne0, ?_⟩
    obtain ⟨r, hr⟩ := FitLoop_total exp log ⌈(DMaxEntModel.mk0 alpha beta max_steps ver l
      stop_on_convergence X S features learners test).max_descent_steps⌉₊ 0 _ hne0
    refine ⟨r.1, ?_⟩
    unfold DMaxEntModel.Fit DMaxEntModel.FitCount
    rw [hr]
    rfl

end GibbsFacts

/-! ## The claims on the fixture of dmaxent_test.cpp -/

section OnFixture

/-- The three gradients that `FindDescentDirection` computes on the fixture. -/
theorem fixture_gradients (ver : Int) (learners : List (WLearner ℚ)) :
    (fixtureModel ℚ 1 ver learners).gradient 0
      ((fixtureRaw0 ℚ).ComputeUnnormalizedPopulationExpectation (fixtureSpace ℚ)) = -3 / 100 ∧
    (fixtureModel ℚ 1 ver learners).gradient 0
      ((fixtureProduct12 ℚ).ComputeUnnormalizedPopulationExpectation (fixtureSpace ℚ)) = 0 ∧
    (fixtureModel ℚ 1 ver learners).gradient 0
      ((fixtureThreshold3 ℚ).ComputeUnnormalizedPopulationExpectation (fixtureSpace ℚ)) =
        9 / 50 := by
  refine ⟨?_, ?_, ?_⟩ <;>
  norm_num [DMaxEntModel.gradient, DMaxEntModel.diff_expectations, DMaxEntModel.beta_k, sgn,
    gTolerance, Feature.GetSampleExpectation, Feature.GetUnnormalizedPopulationExpectation,
    fixtureRaw0, fixtureProduct12, fixtureThreshold3,
    Feature.ComputeUnnormalizedPopulationExpectation, fixtureSpace, fixtureModel,
    DMaxEntModel.mk0, fixturePoint1, fixturePoint2, Point.GetProbWeight, Space.NumPoints,
    abs_of_pos, abs_of_neg]

/-- The first loop of `FindDescentDirection` on the fixture ends on index 2 with
best absolute gradient 0.18. -/
theorem fixture_scan (ver : Int) (learners : List (WLearner ℚ)) :
    ((fixtureModel ℚ 1 ver learners).scanFeatures
      (fixtureModel ℚ 1 ver learners).weighted_features 0 (0, -1)).2 = (2, 9 / 50) := by
  obtain ⟨g0, g1, g2⟩ := fixture_gradients ver learners
  have hs : (fixtureModel ℚ 1 ver learners).space = fixtureSpace ℚ := rfl
  have hw : (fixtureModel ℚ 1 ver learners).weighted_features =
      [(0, fixtureRaw0 ℚ), (0, fixtureProduct12 ℚ), (0, fixtureThreshold3 ℚ)] := rfl
  rw [hw, scanFeatures_snd_cons_pos _ _ _ _ _ _ _ (by rw [hs, g0]; norm_num [abs_of_pos]), hs, g0,
    scanFeatures_snd_cons_neg _ _ _ _ _ _ _ (by rw [hs, g1]; norm_num [abs_of_pos]),
    scanFeatures_snd_cons_pos _ _ _ _ _ _ _ (by rw [hs, g2]; norm_num [abs_of_pos]), hs, g2]
  norm_num [DMaxEntModel.scanFeatures, abs_of_pos]

/-- On the fixture, `FindDescentDirection` selects index 2 with absolute gradient
0.18, the direction that `TestFitAfterOneIterationVer2` expects. -/
theorem fixture_direction :
    (fixtureModel ℚ 1 2 []).FindDescentDirection.direction = 2 ∧
    (fixtureModel ℚ 1 2 []).FindDescentDirection.model_gradient = 9 / 50 := by
  have hscan := fixture_scan 2 []
  have hnot : ¬ ∃ l ∈ (fixtureModel ℚ 1 2 []).weak_learners,
      |(l.Train (fixtureModel ℚ 1 2 []).space (fixtureModel ℚ 1 2 []).sample).2| >
        (fixtureModel ℚ 1 2 []).bestExisting + gTolerance := by
    simp [fixtureModel, DMaxEntModel.mk0]
  rw [FindDescentDirection_not_found _ hnot]
  simp only [DMaxEntModel.bestExisting, hscan]
  exact ⟨trivial, trivial⟩

/-- C1 on the fixture: the update of the version-2 test, with the real exponential. -/
theorem UpdateModel_normalizer_eq_sum_witness :
    ∃ m1, (fixtureSelected ℝ 0 (-0.18)).UpdateModel Real.exp = some m1 ∧
      m1.normalizer = (m1.space.points.map Point.GetProbWeight).sum :=
  (UpdateModel_normalizer_eq_sum Real.exp Real.log (fixtureSelected ℝ 0 (-0.18))).1
    (by decide) |>.elim fun m1 h =>
      ⟨m1, h, (UpdateModel_normalizer_eq_sum Real.exp Real.log
        (fixtureSelected ℝ 0 (-0.18))).2.1 m1 h⟩

/-- C3 on the fixture: the update of the version-2 test, with the real exponential. -/
theorem UpdateModel_frame_witness :
    ∃ (m1 : DMaxEntModel ℝ) (w : ℝ) (f : Feature ℝ),
      (fixtureSelected ℝ 0 (-0.18)).UpdateModel Real.exp = some m1 ∧
      (fixtureSelected ℝ 0 (-0.18)).weighted_features[2]? = some (w, f) ∧
      m1.weighted_features[2]? = some (w + -0.18, f) ∧
      (∀ i : Nat, i ≠ 2 →
        m1.weighted_features[i]? = (fixtureSelected ℝ 0 (-0.18)).weighted_features[i]?) ∧
      m1.weighted_features.length = 3 ∧
      m1.space.points.length = 2 ∧
      (∀ j : Nat, m1.space.points[j]? =
        ((fixtureSpace ℝ).points[j]?).map (fun p : Point ℝ =>
          p.SetProbWeight (p.GetProbWeight * Real.exp (-0.18 * f.FeatureMap p)))) :=
  UpdateModel_frame Real.exp (fixtureSelected ℝ 0 (-0.18)) (by decide)

/-- C5 on the fixture: the threshold feature at weight 0, where `diff = 1/4` and `beta_k = 7/100`. -/
theorem gradient_zero_weight_witness :
    (|(1 / 4 : ℚ)| < 7 / 100 → (fixtureSelected ℚ 0 0).gradient 0
      ((fixtureThreshold3 ℚ).ComputeUnnormalizedPopulationExpectation (fixtureSpace ℚ)) = 0) ∧
    (¬ |(1 / 4 : ℚ)| < 7 / 100 → (fixtureSelected ℚ 0 0).gradient 0
      ((fixtureThreshold3 ℚ).ComputeUnnormalizedPopulationExpectation (fixtureSpace ℚ)) =
        1 / 4 - 7 / 100 * sgn (1 / 4)) ∧
    ((0 : ℚ) ≤ 7 / 100 → ¬ |(1 / 4 : ℚ)| < 7 / 100 → (fixtureSelected ℚ 0 0).gradient 0
      ((fixtureThreshold3 ℚ).ComputeUnnormalizedPopulationExpectation (fixtureSpace ℚ)) =
        1 / 4 - 7 / 100 * ((SignType.sign (1 / 4 : ℚ) : SignType) : ℚ)) ∧
    ((0 : ℚ) ≤ 7 / 100 → |(fixtureSelected ℚ 0 0).gradient 0
      ((fixtureThreshold3 ℚ).ComputeUnnormalizedPopulationExpectation (fixtureSpace ℚ))| =
        max (|(1 / 4 : ℚ)| - 7 / 100) 0) :=
  gradient_zero_weight (fixtureSelected ℚ 0 0)
    ((fixtureThreshold3 ℚ).ComputeUnnormalizedPopulationExpectation (fixtureSpace ℚ))
    (1 / 4) (7 / 100)
    (by norm_num [fixtureThreshold3, Feature.ComputeUnnormalizedPopulationExpectation,
      fixtureSpace, fixtureSelected, fixtureModel, DMaxEntModel.mk0, fixturePoint1,
      fixturePoint2, Point.GetProbWeight, Space.NumPoints])
    (by norm_num [fixtureThreshold3, Feature.ComputeUnnormalizedPopulationExpectation,
      fixtureSelected, fixtureModel, DMaxEntModel.mk0])

/-- Claim C6 as stated fails: a weight of 1e-8 is non-zero, yet the gradient is
the one of an inactive coordinate, 0.18, and not `beta_k * sgn weight + diff`,
which is 0.32. -/
theorem gradient_active_weight_counterexample :
    (1 / 10 ^ 8 : ℚ) ≠ 0 ∧
    (fixtureSelected ℚ (1 / 10 ^ 8) 0).gradient (1 / 10 ^ 8)
      ((fixtureThreshold3 ℚ).ComputeUnnormalizedPopulationExpectation (fixtureSpace ℚ)) = 9 / 50 ∧
    (2 * (fixtureSelected ℚ (1 / 10 ^ 8) 0).model_parameter_alpha *
        ((fixtureThreshold3 ℚ).ComputeUnnormalizedPopulationExpectation
          (fixtureSpace ℚ)).Complexity +
      (fixtureSelected ℚ (1 / 10 ^ 8) 0).model_parameter_beta) * sgn (1 / 10 ^ 8 : ℚ) +
      (((fixtureThreshold3 ℚ).ComputeUnnormalizedPopulationExpectation
          (fixtureSpace ℚ)).population_expectation / (fixtureSelected ℚ (1 / 10 ^ 8) 0).normalizer -
        ((fixtureThreshold3 ℚ).ComputeUnnormalizedPopulationExpectation
          (fixtureSpace ℚ)).sample_expectation) = 8 / 25 := by
  refine ⟨by norm_num, ?_, ?_⟩
  · norm_num [DMaxEntModel.gradient, DMaxEntModel.diff_expectations, DMaxEntModel.beta_k, sgn,
      gTolerance, Feature.GetSampleExpectation, Feature.GetUnnormalizedPopulationExpectation,
      fixtureThreshold3, Feature.ComputeUnnormalizedPopulationExpectation, fixtureSpace,
      fixtureSelected, fixtureModel, DMaxEntModel.mk0, fixturePoint1, fixturePoint2,
      Point.GetProbWeight, Space.NumPoints, abs_of_pos]
  · norm_num [sgn, fixtureThreshold3, Feature.ComputeUnnormalizedPopulationExpectation,
      fixtureSpace, fixtureSelected, fixtureModel, DMaxEntModel.mk0, fixturePoint1,
      fixturePoint2, Point.GetProbWeight, Space.NumPoints]

/-- C6 as amended, on the fixture: the threshold feature at weight -0.18. -/
theorem gradient_active_weight_witness :
    (fixtureSelected ℚ (-9 / 50) 0).gradient (-9 / 50)
      ((fixtureThreshold3 ℚ).ComputeUnnormalizedPopulationExpectation (fixtureSpace ℚ)) =
        7 / 100 * sgn (-9 / 50 : ℚ) + 1 / 4 :=
  gradient_active_weight (fixtureSelected ℚ (-9 / 50) 0) (-9 / 50)
    ((fixtureThreshold3 ℚ).ComputeUnnormalizedPopulationExpectation (fixtureSpace ℚ))
    (1 / 4) (7 / 100)
    (by norm_num [fixtureThreshold3, Feature.ComputeUnnormalizedPopulationExpectation,
      fixtureSpace, fixtureSelected, fixtureModel, DMaxEntModel.mk0, fixturePoint1,
      fixturePoint2, Point.GetProbWeight, Space.NumPoints])
    (by norm_num [fixtureThreshold3, Feature.ComputeUnnormalizedPopulationExpectation,
      fixtureSelected, fixtureModel, DMaxEntModel.mk0])
    (by norm_num [gTolerance, abs_of_neg])

/-- C7 on the fixture with one weak learner of gradient 1: its feature is appended at index 3. -/
theorem FindDescentDirection_append_witness :
    ∃ l ∈ (fixtureModel ℚ 1 1 [fixtureLearner ℚ]).weak_learners,
      |(l.Train (fixtureSpace ℚ) (fixtureSample ℚ)).2| >
        (fixtureModel ℚ 1 1 [fixtureLearner ℚ]).bestExisting + gTolerance ∧
      (fixtureModel ℚ 1 1 [fixtureLearner ℚ]).FindDescentDirection.weighted_features =
        (fixtureModel ℚ 1 1 [fixtureLearner ℚ]).weighted_features.map
          (fixtureModel ℚ 1 1 [fixtureLearner ℚ]).refreshed ++
          [((0 : ℚ), (l.Train (fixtureSpace ℚ) (fixtureSample ℚ)).1)] ∧
      (fixtureModel ℚ 1 1 [fixtureLearner ℚ]).FindDescentDirection.direction = 3 ∧
      (fixtureModel ℚ 1 1 [fixtureLearner ℚ]).FindDescentDirection.model_gradient =
        |(l.Train (fixtureSpace ℚ) (fixtureSample ℚ)).2| :=
  (FindDescentDirection_append (fixtureModel ℚ 1 1 [fixtureLearner ℚ])).2.2.2.2.1
    ⟨fixtureLearner ℚ, List.mem_singleton.2 rfl, by
      have hb : (fixtureModel ℚ 1 1 [fixtureLearner ℚ]).bestExisting = 9 / 50 := by
        unfold DMaxEntModel.bestExisting
        rw [fixture_scan]
      rw [hb]
      norm_num [fixtureLearner, gTolerance]⟩

/-- C8 on the fixture: `b = -1/4 < -beta_k`, the step of `TestFitAfterOneIterationVer2`. -/
theorem FindStepSize2_cases_witness :
    ∃ s, (fixtureSelected ℚ 0 0).FindStepSize2 =
        some { fixtureSelected ℚ 0 0 with step_size := s } ∧
      (|(-1 / 4 : ℚ)| < 7 / 100 → s = -0) ∧
      ((-1 / 4 : ℚ) > 7 / 100 → s = -(7 / 100 + 1 / 4) / (fixtureSelected ℚ 0 0).lambda ^ 2) ∧
      ((-1 / 4 : ℚ) < -(7 / 100) →
        s = -(1 / 4 - 7 / 100) / (fixtureSelected ℚ 0 0).lambda ^ 2) :=
  FindStepSize2_cases (fixtureSelected ℚ 0 0) 0
    ((fixtureThreshold3 ℚ).ComputeUnnormalizedPopulationExpectation (fixtureSpace ℚ))
    (1 / 4) (7 / 100) (-1 / 4) rfl
    (by norm_num [fixtureThreshold3, Feature.ComputeUnnormalizedPopulationExpectation,
      fixtureSpace, fixtureSelected, fixtureModel, DMaxEntModel.mk0, fixturePoint1,
      fixturePoint2, Point.GetProbWeight, Space.NumPoints])
    (by norm_num [fixtureThreshold3, Feature.ComputeUnnormalizedPopulationExpectation,
      fixtureSelected, fixtureModel, DMaxEntModel.mk0])
    (by norm_num [fixtureSelected, fixtureModel, DMaxEntModel.mk0])
    (by norm_num)
    (by norm_num [fixtureSelected, fixtureModel, DMaxEntModel.mk0])

/-- C9 on the fixture: the product feature at weight 0.01 has `|beta| < beta_k` in version 2, and the update returns it to weight 0. -/
theorem step_cancels_weight_witness :
    ∃ m1 m2, (fixtureProductSelected ℝ (1 / 100)).FindStepSize2 = some m1 ∧
      m1.step_size = -(1 / 100) ∧ m1.UpdateModel Real.exp = some m2 ∧
      m2.weighted_features[1]? = some (0,
        (fixtureProduct12 ℝ).ComputeUnnormalizedPopulationExpectation (fixtureSpace ℝ)) :=
  (step_cancels_weight Real.exp Real.log (fixtureProductSelected ℝ (1 / 100)) (1 / 100)
    ((fixtureProduct12 ℝ).ComputeUnnormalizedPopulationExpectation (fixtureSpace ℝ)) rfl).2
    (by
      norm_num [DMaxEntModel.beta2, DMaxEntModel.beta_k, DMaxEntModel.diff_expectations,
        Feature.GetSampleExpectation, Feature.GetUnnormalizedPopulationExpectation,
        fixtureProduct12, Feature.ComputeUnnormalizedPopulationExpectation, fixtureSpace,
        fixtureProductSelected, fixtureModel, DMaxEntModel.mk0, fixturePoint1, fixturePoint2,
        Point.GetProbWeight, Space.NumPoints, abs_lt])

/-- C10 on the model of `TestFitAfterThreeIterationsVer1`. -/
theorem Fit_iterations_witness :
    ∃ m1 k, (fixtureModel ℝ 3 1 []).FitCount Real.exp Real.log = some (m1, k) ∧
      (fixtureModel ℝ 3 1 []).Fit Real.exp Real.log = some m1 ∧
      (fixtureModel ℝ 3 1 []).afterIterations Real.exp Real.log k = some m1 ∧ k ≤ 3 ∧
      ((fixtureModel ℝ 3 1 []).stop_if_converged = false → k = 3) ∧
      ((fixtureModel ℝ 3 1 []).stop_if_converged = true →
        (∀ j s, 0 < j → j < k →
          (fixtureModel ℝ 3 1 []).afterIterations Real.exp Real.log j = some s →
            ¬ s.model_gradient < gTolerance) ∧
        (k < 3 → 0 < k ∧ m1.model_gradient < gTolerance)) :=
  Fit_iterations Real.exp Real.log (fixtureModel ℝ 3 1 []) 3
    (by norm_num [fixtureModel, DMaxEntModel.mk0])
    (Or.inl (by simp [fixtureModel, DMaxEntModel.mk0]))

/-- C2 on the fixture with one weak learner, with the real exponential. -/
theorem Fit_gibbs_form_witness :
    (∀ k s, (fixtureModel ℝ 3 1 [fixtureLearner ℝ]).afterIterations Real.exp Real.log k = some s →
      s.GibbsForm Real.exp) ∧
    (∀ s, (fixtureModel ℝ 3 1 [fixtureLearner ℝ]).Fit Real.exp Real.log = some s →
      s.GibbsForm Real.exp) ∧
    (([fixtureRaw0 ℝ, fixtureProduct12 ℝ, fixtureThreshold3 ℝ] ≠ [] ∨
        [fixtureLearner ℝ] ≠ []) →
      (∀ k, ∃ s, (fixtureModel ℝ 3 1 [fixtureLearner ℝ]).afterIterations Real.exp Real.log k =
        some s) ∧
      ∃ s, (fixtureModel ℝ 3 1 [fixtureLearner ℝ]).Fit Real.exp Real.log = some s) :=
  Fit_gibbs_form Real.exp Real.log Real.exp_zero Real.exp_add 0 0.07 3 1 1 true (fixtureSpace ℝ)
    (fixtureSample ℝ) [fixtureRaw0 ℝ, fixtureProduct12 ℝ, fixtureThreshold3 ℝ]
    [fixtureLearner ℝ] []
    (by
      intro p hp
      simp only [fixtureSpace, List.mem_cons, List.mem_singleton, List.not_mem_nil,
        or_false] at hp
      rcases hp with rfl | rfl <;> rfl)
    (by
      intro f hf
      simp only [List.mem_cons, List.mem_singleton, List.not_mem_nil, or_false] at hf
      rcases hf with rfl | rfl | rfl <;> exact fun _ _ => rfl)
    (by
      intro lr hlr sp sa
      rw [List.mem_singleton.1 hlr]
      exact fun _ _ => rfl)

end OnFixture

/-! ## The penalized gradient rule and the constructor -/

section GradientRule

variable {α : Type} [LinearOrderedField α]

theorem penalizedGradient_pos (c d : α) (hd : 0 < d) :
    penalizedGradient c d = if d < c then 0 else d - c := by
  unfold penalizedGradient sgn
  rw [abs_of_pos hd, if_pos hd, one_mul]

theorem penalizedGradient_neg (c d : α) (hd : d < 0) :
    penalizedGradient c d = if -d < c then 0 else d + c := by
  unfold penalizedGradient sgn
  rw [abs_of_neg hd, if_neg (not_lt.2 (le_of_lt hd))]
  split_ifs
  · rfl
  · ring

theorem penalizedGradient_zero (c : α) (hc : 0 ≤ c) : penalizedGradient c 0 = 0 := by
  unfold penalizedGradient sgn
  rw [abs_zero]
  split_ifs with h1 h2
  · rfl
  · exact absurd h2 (lt_irrefl 0)
  · have hc0 : c = 0 := le_antisymm (not_lt.1 h1) hc
    rw [hc0]
    ring

/-- For a non-negative penalty the rule is soft thresholding: it is
`sign d * max (|d| - c) 0` (with the mathematical sign and with `sgn`), its
absolute value is at most `|d|`, and it is odd in `d`. -/
theorem penalizedGradient_facts (c d : α) (hc : 0 ≤ c) :
    penalizedGradient c d = ((SignType.sign d : SignType) : α) * max (|d| - c) 0 ∧
    penalizedGradient c d = sgn d * max (|d| - c) 0 ∧
    |penalizedGradient c d| ≤ |d| ∧
    penalizedGradient c (-d) = -penalizedGradient c d := by
  rcases lt_trichotomy d 0 with hneg | hzero | hpos
  · have hnd : 0 < -d := by linarith
    have hs : sgn d = -1 := by
      unfold sgn
      rw [if_neg (not_lt.2 (le_of_lt hneg))]
    rw [penalizedGradient_neg c d hneg, penalizedGradient_pos c (-d) hnd, hs, sign_neg hneg,
      abs_of_neg hneg]
    by_cases h : -d < c
    · simp only [if_pos h]
      rw [max_eq_right (by linarith)]
      refine ⟨by simp, by simp, ?_, by simp⟩
      rw [abs_zero]
      linarith
    · have hle := not_lt.1 h
      simp only [if_neg h]
      rw [max_eq_left (by linarith)]
      refine ⟨by simp; ring, by ring, ?_, by ring⟩
      rw [abs_of_nonpos (by linarith)]
      linarith
  · subst hzero
    have hs : sgn (0 : α) = -1 := by
      unfold sgn
      rw [if_neg (lt_irrefl 0)]
    rw [neg_zero, penalizedGradient_zero c hc, hs, abs_zero, max_eq_right (by linarith)]
    simp
  · have hnd : -d < 0 := by linarith
    have hs : sgn d = 1 := by
      unfold sgn
      rw [if_pos hpos]
    rw [penalizedGradient_pos c d hpos, penalizedGradient_neg c (-d) hnd, hs, sign_pos hpos,
      abs_of_pos hpos, neg_neg]
    by_cases h : d < c
    · simp only [if_pos h]
      rw [max_eq_right (by linarith)]
      refine ⟨by simp, by simp, ?_, by simp⟩
      rw [abs_zero]
      linarith
    · have hle := not_lt.1 h
      simp only [if_neg h]
      rw [max_eq_left (by linarith)]
      refine ⟨by simp, by ring, ?_, by ring⟩
      rw [abs_of_nonneg (by linarith)]
      linarith

/-- Claim C20 (penalized gradient rule): for every tree size, sample size >= 1
and expectation difference `d`, `TreeLearner::Gradient` returns 0 when `|d| < c`
and `d - sign(d) * c` otherwise, where
`c = beta + alpha * TreeComplexity(tree_size, sample_size)`, and
`MonomialLearner::Gradient` obeys the same rule with
`c = beta + alpha * MonomialComplexity(power, sample_size)`; for `c >= 0` the
result is `sign(d) * max (|d| - c) 0`, its absolute value never exceeds `|d|`, and
it is odd in `d`. -/
theorem Gradient_rule (sqrt log : α → α) (T : TreeLearner α) (M : MonomialLearner α)
    (size sample_size : Int) (d : α) (_hs : 1 ≤ sample_size) :
    (T.Gradient sqrt log size sample_size d =
      penalizedGradient (T.model_parameter_beta +
        T.model_parameter_alpha * T.TreeComplexity sqrt log size sample_size) d) ∧
    (M.Gradient sqrt log size sample_size d =
      penalizedGradient (M.model_parameter_beta +
        M.model_parameter_alpha * M.MonomialComplexity sqrt log size sample_size) d) ∧
    (∀ c : α, (|d| < c → penalizedGradient c d = 0) ∧
      (¬ |d| < c → penalizedGradient c d = d - sgn d * c) ∧
      (0 ≤ c →
        penalizedGradient c d = ((SignType.sign d : SignType) : α) * max (|d| - c) 0 ∧
        |penalizedGradient c d| ≤ |d| ∧
        penalizedGradient c (-d) = -penalizedGradient c d)) := by
  refine ⟨?_, ?_, fun c => ⟨fun h => ?_, fun h => ?_, fun hc => ?_⟩⟩
  · unfold TreeLearner.Gradient penalizedGradient sgn
    simp only
    split_ifs <;> simp
  · unfold MonomialLearner.Gradient penalizedGradient sgn
    simp only
    split_ifs <;> simp
  · simp [penalizedGradient, h]
  · simp [penalizedGradient, h]
  · obtain ⟨h1, _, h3, h4⟩ := penalizedGradient_facts c d hc
    exact ⟨h1, h3, h4⟩

end GradientRule

section ConstructorFacts

variable {α : Type} [LinearOrderedField α]

/-- The sum of a list of weights that are all 1 is the length of the list. -/
theorem sum_unit_weights (points : List (Point α))
    (hone : ∀ p ∈ points, p.probability_weight = 1) :
    (points.map Point.GetProbWeight).sum = (points.length : α) := by
  induction points with
  | nil => simp
  | cons p rest ih =>
    have hp : p.GetProbWeight = 1 := hone p (List.mem_cons_self _ _)
    have hrest := ih (fun q hq => hone q (List.mem_cons_of_mem _ hq))
    simp only [List.map_cons, List.sum_cons, List.length_cons, hp, hrest]
    push_cast
    ring

/-- Claim C15, as amended: for every model freshly constructed over a space, with
any weights of its points, the normalizer is the number of points of the space
(`X->NumPoints()`), so that it is the sum of the current `probability_weight`s of
the points exactly when that sum is the number of points; when every point has
its initial `probability_weight` 1, it is that sum, and then, for a non-empty
space, `probability_weight / normalizer` is non-negative and sums to 1. -/
theorem constructor_normalizer (alpha beta max_steps : α) (ver : Int) (l : α)
    (stop_on_convergence : Bool) (X : Space α) (S : Sample α) (features : List (Feature α))
    (learners : List (WLearner α)) (test : Sample α) :
    (DMaxEntModel.mk0 alpha beta max_steps ver l stop_on_convergence X S features learners
      test).normalizer = (X.NumPoints : α) ∧
    (DMaxEntModel.mk0 alpha beta max_steps ver l stop_on_convergence X S features learners
      test).space = X ∧
    ((DMaxEntModel.mk0 alpha beta max_steps ver l stop_on_convergence X S features learners
        test).normalizer = ((DMaxEntModel.mk0 alpha beta max_steps ver l stop_on_convergence X S
          features learners test).space.points.map Point.GetProbWeight).sum ↔
      (X.points.map Point.GetProbWeight).sum = (X.NumPoints : α)) ∧
    ((∀ p ∈ X.points, p.probability_weight = 1) →
      (DMaxEntModel.mk0 alpha beta max_steps ver l stop_on_convergence X S features learners
        test).normalizer = ((DMaxEntModel.mk0 alpha beta max_steps ver l stop_on_convergence X S
          features learners test).space.points.map Point.GetProbWeight).sum ∧
      (X.points ≠ [] →
        (∀ p ∈ X.points, 0 ≤ p.GetProbWeight / (DMaxEntModel.mk0 alpha beta max_steps ver l
          stop_on_convergence X S features learners test).normalizer) ∧
        (X.points.map (fun p => p.GetProbWeight / (DMaxEntModel.mk0 alpha beta max_steps ver l
          stop_on_convergence X S features learners test).normalizer)).sum = 1)) := by
  have hn : (DMaxEntModel.mk0 alpha beta max_steps ver l stop_on_convergence X S features
      learners test).normalizer = (X.points.length : α) := rfl
  have hs : (DMaxEntModel.mk0 alpha beta max_steps ver l stop_on_convergence X S features
      learners test).space = X := rfl
  refine ⟨rfl, rfl, ?_, fun hone => ?_⟩
  · rw [hn, hs]
    exact ⟨fun h => h.symm, fun h => h.symm⟩
  · have hsum := sum_unit_weights X.points hone
    refine ⟨?_, fun hne => ?_⟩
    · rw [hn, hs]
      exact hsum.symm
    · have hpos : (0 : α) < (X.points.length : α) := by
        exact_mod_cast List.length_pos.2 hne
      rw [hn]
      refine ⟨fun p hp => ?_, ?_⟩
      · have hp1 : p.GetProbWeight = 1 := hone p hp
        rw [hp1]
        positivity
      · exact sum_map_div_eq_one Point.GetProbWeight X.points _ (ne_of_gt hpos) hsum.symm

/-- Claim C15 as stated fails: over a finalized space whose single point has
weight 2, the freshly constructed model has normalizer 1 while the weights sum
to 2. -/
theorem constructor_normalizer_counterexample :
    (DMaxEntModel.mk0 (0 : ℚ) 0 1 1 1 true
      { finalized := true,
        points := [{ id := 0, finalized := true, probability_weight := 2, raw_features := [] }] }
      [] [] [] []).normalizer = 1 ∧
    ((DMaxEntModel.mk0 (0 : ℚ) 0 1 1 1 true
      { finalized := true,
        points := [{ id := 0, finalized := true, probability_weight := 2, raw_features := [] }] }
      [] [] [] []).space.points.map Point.GetProbWeight).sum = 2 := by
  constructor
  · norm_num [DMaxEntModel.mk0, Space.NumPoints]
  · norm_num [DMaxEntModel.mk0, Point.GetProbWeight]

end ConstructorFacts

/-! ## Properties of `AUC` -/

section PairCounting

variable {α : Type}

theorem countPairs_nil_left (R : Point α → Point α → Bool) (l2 : List (Point α)) :
    countPairs R [] l2 = 0 := rfl

theorem countPairs_cons_left (R : Point α → Point α → Bool) (a : Point α)
    (l1 l2 : List (Point α)) :
    countPairs R (a :: l1) l2 = l2.countP (R a) + countPairs R l1 l2 := by
  simp [countPairs]

theorem countPairs_cons_right (R : Point α → Point α → Bool) (a : Point α)
    (l1 l2 : List (Point α)) :
    countPairs R l1 (a :: l2) = l1.countP (fun p => R p a) + countPairs R l1 l2 := by
  induction l1 with
  | nil => rfl
  | cons b t ih =>
    rw [countPairs_cons_left, countPairs_cons_left, ih, List.countP_cons, List.countP_cons]
    omega

/-- The number of pairs does not depend on the order of either list. -/
theorem countPairs_perm (R : Point α → Point α → Bool) {l1 l1' l2 l2' : List (Point α)}
    (h1 : l1.Perm l1') (h2 : l2.Perm l2') : countPairs R l1 l2 = countPairs R l1' l2' := by
  have hmap : l1.map (fun p => l2.countP (R p)) = l1.map (fun p => l2'.countP (R p)) := by
    apply List.map_congr_left
    intro p _
    exact h2.countP_eq _
  unfold countPairs
  rw [hmap]
  exact (h1.map _).sum_eq

/-- Pairs counted with a relation that holds of exactly the pairs of two others,
never both, are the pairs of the two together. -/
theorem countPairs_add (R1 R2 R : Point α → Point α → Bool) (l1 l2 : List (Point α))
    (h : ∀ p ∈ l1, ∀ q ∈ l2,
      (if R1 p q then 1 else 0) + (if R2 p q then 1 else 0) = (if R p q then 1 else 0)) :
    countPairs R1 l1 l2 + countPairs R2 l1 l2 = countPairs R l1 l2 := by
  have inner : ∀ p ∈ l1, ∀ l : List (Point α), (∀ q ∈ l, q ∈ l2) →
      l.countP (R1 p) + l.countP (R2 p) = l.countP (R p) := by
    intro p hp l
    induction l with
    | nil => intro _; rfl
    | cons q t ih =>
      intro hsub
      have hq := h p hp q (hsub q (List.mem_cons_self _ _))
      have ht := ih (fun x hx => hsub x (List.mem_cons_of_mem _ hx))
      rw [List.countP_cons, List.countP_cons, List.countP_cons]
      omega
  induction l1 with
  | nil => rfl
  | cons a t ih =>
    rw [countPairs_cons_left, countPairs_cons_left, countPairs_cons_left]
    have ha := inner a (List.mem_cons_self _ _) l2 (fun q hq => hq)
    have ht := ih (fun p hp => h p (List.mem_cons_of_mem _ hp))
      (fun p hp => inner p (List.mem_cons_of_mem _ hp))
    omega

/-- Swapping the two roles of a pair. -/
theorem countPairs_swap (R : Point α → Point α → Bool) (l1 l2 : List (Point α)) :
    countPairs R l1 l2 = countPairs (fun q p => R p q) l2 l1 := by
  induction l1 with
  | nil =>
    induction l2 with
    | nil => rfl
    | cons b t ih =>
      rw [countPairs_cons_left, ← ih]
      rfl
  | cons a t ih =>
    rw [countPairs_cons_left, countPairs_cons_right, ih]

/-- Pairs of a product relation: the product of the two counts. -/
theorem countPairs_product (f g : Point α → Bool) (l1 l2 : List (Point α)) :
    countPairs (fun p q => f p && g q) l1 l2 = l1.countP f * l2.countP g := by
  induction l1 with
  | nil => simp [countPairs]
  | cons a t ih =>
    rw [countPairs_cons_left, ih, List.countP_cons]
    by_cases ha : f a = true
    · simp only [ha, Bool.true_and, if_true]
      ring
    · have hf : f a = false := by simpa using ha
      simp [hf]

theorem countPairs_congr (R1 R2 : Point α → Point α → Bool) (l1 l2 : List (Point α))
    (h : ∀ p ∈ l1, ∀ q ∈ l2, R1 p q = R2 p q) : countPairs R1 l1 l2 = countPairs R2 l1 l2 := by
  unfold countPairs
  congr 1
  apply List.map_congr_left
  intro p hp
  apply List.countP_congr
  intro q hq
  rw [h p hp q hq]

theorem getD_set_true (l : List Bool) (k i : Nat) (hk : k < l.length) :
    (l.set k true).getD i false = true ↔ (l.getD i false = true ∨ k = i) := by
  rw [List.getD_eq_getElem?_getD, List.getD_eq_getElem?_getD, List.getElem?_set]
  by_cases hki : k = i
  · subst hki
    simp [hk]
  · simp [hki]

/-- The first loop of `AUC` on examples whose ids are indices: it returns, and the
vector is true exactly where it was true or an example has that id. -/
theorem mark_spec (examples : List (Point α)) :
    ∀ positive0 : List Bool,
      (∀ e ∈ examples, 0 ≤ e.id ∧ e.id.toNat < positive0.length) →
      ∃ positive, AUC.mark positive0 examples = some positive ∧
        positive.length = positive0.length ∧
        ∀ i, (positive.getD i false = true ↔
          (positive0.getD i false = true ∨ ∃ e ∈ examples, e.id.toNat = i)) := by
  induction examples with
  | nil =>
    intro positive0 _
    exact ⟨positive0, rfl, rfl, fun i => by simp⟩
  | cons e rest ih =>
    intro positive0 hvalid
    have he := hvalid e (List.mem_cons_self _ _)
    obtain ⟨positive, h1, h2, h3⟩ := ih (positive0.set e.id.toNat true) (by
      intro x hx
      rw [List.length_set]
      exact hvalid x (List.mem_cons_of_mem _ hx))
    refine ⟨positive, ?_, ?_, ?_⟩
    · simp only [AUC.mark, if_pos he]
      exact h1
    · rw [h2, List.length_set]
    · intro i
      rw [h3 i, getD_set_true _ _ _ he.2]
      constructor
      · rintro ((h | h) | ⟨x, hx, hxi⟩)
        · exact Or.inl h
        · exact Or.inr ⟨e, List.mem_cons_self _ _, h⟩
        · exact Or.inr ⟨x, List.mem_cons_of_mem _ hx, hxi⟩
      · rintro (h | ⟨x, hx, hxi⟩)
        · exact Or.inl (Or.inl h)
        · rcases List.mem_cons.1 hx with rfl | hx
          · exact Or.inl (Or.inr hxi)
          · exact Or.inr ⟨x, hx, hxi⟩

end PairCounting

section AUCFacts

variable {α : Type} [LinearOrderedField α]

/-- The comparison functor in words: lighter, or equally heavy with the first
point negative and the second positive. -/
theorem PointProbLessThanOperator_iff (positive : List Bool) (a b : Point α) :
    PointProbLessThanOperator positive a b = true ↔
      a.GetProbWeight < b.GetProbWeight ∨
        (a.GetProbWeight = b.GetProbWeight ∧ AUC.label positive a = false ∧
          AUC.label positive b = true) := by
  simp [PointProbLessThanOperator, and_assoc]

/-- The order that `std::sort` is asked for is total ... -/
theorem sortOrder_total (positive : List Bool) (a b : Point α) :
    (!PointProbLessThanOperator positive b a || !PointProbLessThanOperator positive a b) =
      true := by
  by_cases h1 : PointProbLessThanOperator positive b a = true
  · by_cases h2 : PointProbLessThanOperator positive a b = true
    · exfalso
      rw [PointProbLessThanOperator_iff] at h1 h2
      rcases h1 with h1 | ⟨h1, h1a, h1b⟩ <;> rcases h2 with h2 | ⟨h2, h2a, h2b⟩
      · exact lt_asymm h1 h2
      · rw [h2] at h1
        exact lt_irrefl _ h1
      · rw [h1] at h2
        exact lt_irrefl _ h2
      · rw [h1a] at h2b
        exact Bool.noConfusion h2b
    · simp [h2]
  · simp [h1]

/-- ... and transitive. -/
theorem sortOrder_trans (positive : List Bool) (a b c : Point α)
    (hab : (!PointProbLessThanOperator positive b a) = true)
    (hbc : (!PointProbLessThanOperator positive c b) = true) :
    (!PointProbLessThanOperator positive c a) = true := by
  rw [Bool.not_eq_true', ← Bool.not_eq_true, PointProbLessThanOperator_iff] at hab hbc ⊢
  intro hca
  rcases hca with hca | ⟨hca, hc, ha⟩
  · rcases lt_trichotomy b.GetProbWeight a.GetProbWeight with h | h | h
    · exact hab (Or.inl h)
    · rw [← h] at hca
      exact hbc (Or.inl hca)
    · exact hbc (Or.inl (lt_trans hca h))
  · rcases lt_trichotomy b.GetProbWeight a.GetProbWeight with h | h | h
    · exact hab (Or.inl h)
    · cases hb : AUC.label positive b
      · exact hab (Or.inr ⟨h, hb, ha⟩)
      · exact hbc (Or.inr ⟨hca.trans h.symm, hc, hb⟩)
    · rw [← hca] at h
      exact hbc (Or.inl h)

/-- The merge sort that stands for `std::sort` returns a sorted permutation. -/
theorem mergeSort_sorted_perm (positive : List Bool) (points : List (Point α)) :
    (points.mergeSort (fun a b => !PointProbLessThanOperator positive b a)).Perm points ∧
    (points.mergeSort (fun a b => !PointProbLessThanOperator positive b a)).Pairwise
      (fun a b => (!PointProbLessThanOperator positive b a) = true) :=
  ⟨List.mergeSort_perm _ _,
    List.sorted_mergeSort (sortOrder_trans positive) (fun a b => sortOrder_total positive a b) _⟩

/-- In a sorted list headed by `a`, the concordant pairs are those of the tail,
and, when `a` is negative, `a` with every positive point of the tail. -/
theorem concordant_cons_sorted (positive : List Bool) (a : Point α) (l : List (Point α))
    (h : ∀ q ∈ l, (!PointProbLessThanOperator positive q a) = true) :
    AUC.concordant positive (a :: l) =
      AUC.concordant positive l +
        (if AUC.label positive a then 0 else l.countP (AUC.label positive)) := by
  have hle : ∀ q ∈ l, ¬ (q.GetProbWeight < a.GetProbWeight ∨
      (q.GetProbWeight = a.GetProbWeight ∧ AUC.label positive q = false ∧
        AUC.label positive a = true)) := by
    intro q hq
    have := h q hq
    rw [Bool.not_eq_true', ← Bool.not_eq_true, PointProbLessThanOperator_iff] at this
    exact this
  unfold AUC.concordant
  rw [countPairs_cons_left, countPairs_cons_right, List.countP_cons]
  have h1 : l.countP (fun q => AUC.label positive a && !(AUC.label positive q) &&
      decide (q.GetProbWeight ≤ a.GetProbWeight)) = 0 := by
    rw [List.countP_eq_zero]
    intro q hq hR
    simp only [Bool.and_eq_true, Bool.not_eq_true', decide_eq_true_eq] at hR
    obtain ⟨⟨ha, hqn⟩, hw⟩ := hR
    rcases lt_or_eq_of_le hw with hlt | heq
    · exact hle q hq (Or.inl hlt)
    · exact hle q hq (Or.inr ⟨heq, hqn, ha⟩)
  have h2 : l.countP (fun p => AUC.label positive p && !(AUC.label positive a) &&
      decide (a.GetProbWeight ≤ p.GetProbWeight)) =
      (if AUC.label positive a then 0 else l.countP (AUC.label positive)) := by
    cases ha : AUC.label positive a
    · simp only [Bool.not_false, Bool.and_true, Bool.false_eq_true, if_false]
      apply List.countP_congr
      intro p hp
      simp only [Bool.and_eq_true, decide_eq_true_eq]
      constructor
      · exact fun hh => hh.1
      · intro hpos
        refine ⟨hpos, ?_⟩
        by_contra hlt
        exact hle p hp (Or.inl (not_le.1 hlt))
    · simp
  have h3 : (AUC.label positive a && !(AUC.label positive a) &&
      decide (a.GetProbWeight ≤ a.GetProbWeight)) = false := by
    cases AUC.label positive a <;> rfl
  rw [h1, h2, h3]
  simp only [Bool.false_eq_true, if_false]
  omega

/-- The last loop of `AUC` on a sorted list: `n` grows by the number of negative
points, `r` by `n` for every positive point and by the concordant pairs. -/
theorem scan_sorted (positive : List Bool) (l : List (Point α)) :
    l.Pairwise (fun a b => (!PointProbLessThanOperator positive b a) = true) →
    ∀ n r : α, AUC.scan positive l (n, r) =
      (n + (l.countP (fun p => !(AUC.label positive p)) : α),
        r + n * (l.countP (AUC.label positive) : α) + (AUC.concordant positive l : α)) := by
  induction l with
  | nil =>
    intro _ n r
    simp [AUC.scan, AUC.concordant, countPairs]
  | cons a t ih =>
    intro hs n r
    rw [List.pairwise_cons] at hs
    have hstep := concordant_cons_sorted positive a t hs.1
    rw [hstep]
    cases ha : AUC.label positive a
    · simp only [AUC.scan, ha, Bool.false_eq_true, if_false, ih hs.2, List.countP_cons,
        Bool.not_false, if_true]
      push_cast
      norm_num
      constructor <;> ring
    · simp only [AUC.scan, ha, if_true, ih hs.2, List.countP_cons, Bool.not_true,
        Bool.false_eq_true, if_false]
      push_cast
      norm_num
      ring

/-- Whatever order `std::sort` leaves among equivalent points, `AUC` returns the
number of concordant pairs over (number of negatives times number of positives). -/
theorem AUC_sorted_eq (positive : List Bool) (points sorted : List (Point α))
    (hperm : sorted.Perm points)
    (hsorted : sorted.Pairwise (fun a b => (!PointProbLessThanOperator positive b a) = true)) :
    AUC.ofSorted positive sorted = (AUC.concordant positive points : α) /
      ((points.countP (fun p => !(AUC.label positive p)) : α) *
        (points.countP (AUC.label positive) : α)) := by
  unfold AUC.ofSorted
  rw [scan_sorted positive sorted hsorted]
  have hc : AUC.concordant positive sorted = AUC.concordant positive points :=
    countPairs_perm _ hperm hperm
  have hn := hperm.countP_eq (fun p => !(AUC.label positive p))
  have hp := hperm.countP_eq (AUC.label positive)
  have hlen : (sorted.length : α) = (points.countP (AUC.label positive) : α) +
      (points.countP (fun p => !(AUC.label positive p)) : α) := by
    rw [hperm.length_eq, List.length_eq_countP_add_countP (AUC.label positive) points]
    push_cast
    congr 2
    apply List.countP_congr
    intro p _
    simp
  simp only [hc, hn, hp, hlen]
  norm_num

end AUCFacts

section AUCClaims

variable {α : Type} [LinearOrderedField α]

/-- `AUC` on a sample that resolves, with all ids indices of the space: the
labels are "some example has this id", and the value is the number of concordant
pairs over (number of positives times number of negatives), whatever the order
`std::sort` leaves among equivalent points. -/
theorem AUC_eq_concordant (m : DMaxEntModel α) (sample : Sample α) (examples : List (Point α))
    (hres : Sample.points m.space sample = some examples)
    (hex : ∀ e ∈ examples, 0 ≤ e.id ∧ e.id < (m.space.NumPoints : Int))
    (hpt : ∀ p ∈ m.space.points, 0 ≤ p.id ∧ p.id < (m.space.NumPoints : Int)) :
    ∃ positive, AUC.mark (List.replicate m.space.NumPoints false) examples = some positive ∧
      (∀ p ∈ m.space.points, (AUC.label positive p = true ↔ ∃ e ∈ examples, e.id = p.id)) ∧
      m.AUC sample = some ((AUC.concordant positive m.space.points : α) /
        ((m.space.points.countP (AUC.label positive) : α) *
          (m.space.points.countP (fun p => !(AUC.label positive p)) : α))) ∧
      (∀ sorted : List (Point α), sorted.Perm m.space.points →
        sorted.Pairwise (fun a b => (!PointProbLessThanOperator positive b a) = true) →
        AUC.ofSorted positive sorted = (AUC.concordant positive m.space.points : α) /
          ((m.space.points.countP (AUC.label positive) : α) *
            (m.space.points.countP (fun p => !(AUC.label positive p)) : α))) := by
  have hex' : ∀ e ∈ examples, 0 ≤ e.id ∧
      e.id.toNat < (List.replicate m.space.NumPoints false).length := by
    intro e he
    obtain ⟨h0, h1⟩ := hex e he
    rw [List.length_replicate]
    exact ⟨h0, by omega⟩
  obtain ⟨positive, h1, h2, h3⟩ := mark_spec examples _ hex'
  rw [List.length_replicate] at h2
  have hlabel : ∀ p ∈ m.space.points,
      (AUC.label positive p = true ↔ ∃ e ∈ examples, e.id = p.id) := by
    intro p hp
    obtain ⟨hp0, _⟩ := hpt p hp
    unfold AUC.label
    rw [h3]
    constructor
    · rintro (h | ⟨e, he, hid⟩)
      · exfalso
        rw [List.getD_eq_getElem?_getD, List.getElem?_replicate] at h
        split_ifs at h <;> simp at h
      · obtain ⟨he0, _⟩ := hex e he
        exact ⟨e, he, by omega⟩
    · rintro ⟨e, he, hid⟩
      exact Or.inr ⟨e, he, by rw [hid]⟩
  have hall : m.space.points.all
      (fun p => decide (0 ≤ p.id) && decide (p.id.toNat < positive.length)) = true := by
    rw [List.all_eq_true]
    intro p hp
    obtain ⟨hp0, hp1⟩ := hpt p hp
    rw [h2]
    simp only [Bool.and_eq_true, decide_eq_true_eq]
    exact ⟨hp0, by omega⟩
  have hsorted : ∀ sorted : List (Point α), sorted.Perm m.space.points →
      sorted.Pairwise (fun a b => (!PointProbLessThanOperator positive b a) = true) →
      AUC.ofSorted positive sorted = (AUC.concordant positive m.space.points : α) /
        ((m.space.points.countP (AUC.label positive) : α) *
          (m.space.points.countP (fun p => !(AUC.label positive p)) : α)) := by
    intro sorted hperm hs
    rw [AUC_sorted_eq positive m.space.points sorted hperm hs, mul_comm]
  refine ⟨positive, h1, hlabel, ?_, hsorted⟩
  unfold DMaxEntModel.AUC
  simp only [hres, h1, hall, if_true]
  obtain ⟨hperm, hs⟩ := mergeSort_sorted_perm positive m.space.points
  rw [hsorted _ hperm hs]

end AUCClaims

section AUCClaimsMain

variable {α : Type} [LinearOrderedField α]

/-- Claim C12: for every space whose point ids are valid indices in
`[0, NumPoints)` and every sample (of such ids) with at least one positive and
one negative point in the space, `AUC(sample)` is the number of (positive,
negative) pairs of space points in which the positive point's weight is greater
than or equal to the negative point's, divided by (number of positives times
number of negatives), ties counting for the positive; a point is positive when
an example has its id, and the order `std::sort` leaves among equivalent points
does not matter. -/
theorem AUC_pairs (m : DMaxEntModel α) (sample : Sample α) (examples : List (Point α))
    (hres : Sample.points m.space sample = some examples)
    (hex : ∀ e ∈ examples, 0 ≤ e.id ∧ e.id < (m.space.NumPoints : Int))
    (hpt : ∀ p ∈ m.space.points, 0 ≤ p.id ∧ p.id < (m.space.NumPoints : Int))
    (_hpos : ∃ p ∈ m.space.points, ∃ e ∈ examples, e.id = p.id)
    (_hneg : ∃ p ∈ m.space.points, ¬ ∃ e ∈ examples, e.id = p.id) :
    ∃ positive, AUC.mark (List.replicate m.space.NumPoints false) examples = some positive ∧
      (∀ p ∈ m.space.points, (AUC.label positive p = true ↔ ∃ e ∈ examples, e.id = p.id)) ∧
      m.AUC sample = some ((AUC.concordant positive m.space.points : α) /
        ((m.space.points.countP (AUC.label positive) : α) *
          (m.space.points.countP (fun p => !(AUC.label positive p)) : α))) ∧
      (∀ sorted : List (Point α), sorted.Perm m.space.points →
        sorted.Pairwise (fun a b => (!PointProbLessThanOperator positive b a) = true) →
        AUC.ofSorted positive sorted = (AUC.concordant positive m.space.points : α) /
          ((m.space.points.countP (AUC.label positive) : α) *
            (m.space.points.countP (fun p => !(AUC.label positive p)) : α))) :=
  AUC_eq_concordant m sample examples hres hex hpt

/-- With a positive and a negative point, the product of the two counts is not 0. -/
theorem counts_ne_zero (positive : List Bool) (points : List (Point α))
    (hpos : ∃ p ∈ points, AUC.label positive p = true)
    (hneg : ∃ p ∈ points, ¬ AUC.label positive p = true) :
    ((points.countP (AUC.label positive) : α) *
      (points.countP (fun p => !(AUC.label positive p)) : α)) ≠ 0 := by
  obtain ⟨p, hp, hpl⟩ := hpos
  obtain ⟨q, hq, hql⟩ := hneg
  have h1 : 0 < points.countP (AUC.label positive) :=
    List.countP_pos_iff.2 ⟨p, hp, hpl⟩
  have h2 : 0 < points.countP (fun p => !(AUC.label positive p)) :=
    List.countP_pos_iff.2 ⟨q, hq, by simpa using hql⟩
  have h1' : (0 : α) < (points.countP (AUC.label positive) : α) := by exact_mod_cast h1
  have h2' : (0 : α) < (points.countP (fun p => !(AUC.label positive p)) : α) := by
    exact_mod_cast h2
  exact ne_of_gt (mul_pos h1' h2')

/-- Claim C13: for every space and sample (ids valid indices) with at least one
positive and one negative point, if every positive point's weight strictly
exceeds every negative point's weight then `AUC(sample) = 1`. -/
theorem AUC_separated (m : DMaxEntModel α) (sample : Sample α) (examples : List (Point α))
    (hres : Sample.points m.space sample = some examples)
    (hex : ∀ e ∈ examples, 0 ≤ e.id ∧ e.id < (m.space.NumPoints : Int))
    (hpt : ∀ p ∈ m.space.points, 0 ≤ p.id ∧ p.id < (m.space.NumPoints : Int))
    (hpos : ∃ p ∈ m.space.points, ∃ e ∈ examples, e.id = p.id)
    (hneg : ∃ p ∈ m.space.points, ¬ ∃ e ∈ examples, e.id = p.id)
    (hsep : ∀ p ∈ m.space.points, ∀ q ∈ m.space.points, (∃ e ∈ examples, e.id = p.id) →
      (¬ ∃ e ∈ examples, e.id = q.id) → q.GetProbWeight < p.GetProbWeight) :
    m.AUC sample = some 1 := by
  obtain ⟨positive, _, hlabel, hauc, _⟩ := AUC_eq_concordant m sample examples hres hex hpt
  rw [hauc]
  have hc : AUC.concordant positive m.space.points =
      m.space.points.countP (AUC.label positive) *
        m.space.points.countP (fun p => !(AUC.label positive p)) := by
    unfold AUC.concordant
    rw [← countPairs_product]
    apply countPairs_congr
    intro p hp q hq
    cases hpl : AUC.label positive p
    · rfl
    · cases hql : AUC.label positive q
      · have hlt := hsep p hp q hq ((hlabel p hp).1 hpl)
          (fun h => by rw [(hlabel q hq).2 h] at hql; exact Bool.noConfusion hql)
        simp [le_of_lt hlt]
      · rfl
  have hne := counts_ne_zero positive m.space.points
    (by obtain ⟨p, hp, h⟩ := hpos; exact ⟨p, hp, (hlabel p hp).2 h⟩)
    (by obtain ⟨q, hq, h⟩ := hneg; exact ⟨q, hq, fun hl => h ((hlabel q hq).1 hl)⟩)
  rw [hc]
  push_cast
  rw [div_self hne]

end AUCClaimsMain

section AUCComplement

variable {α : Type} [LinearOrderedField α]

/-- Concordant pairs of a labelling and of its flip add up to all (positive,
negative) pairs plus the tied ones. -/
theorem concordant_flip (positive positive2 : List Bool) (points : List (Point α))
    (hflip : ∀ p ∈ points, AUC.label positive2 p = !(AUC.label positive p)) :
    AUC.concordant positive points + AUC.concordant positive2 points =
      points.countP (AUC.label positive) * points.countP (fun p => !(AUC.label positive p)) +
        AUC.tied positive points := by
  have h2 : AUC.concordant positive2 points =
      countPairs (fun a b => AUC.label positive a && !(AUC.label positive b) &&
        decide (a.GetProbWeight ≤ b.GetProbWeight)) points points := by
    unfold AUC.concordant
    rw [countPairs_swap]
    apply countPairs_congr
    intro a ha b hb
    rw [hflip a ha, hflip b hb]
    cases AUC.label positive a <;> cases AUC.label positive b <;> simp
  have h3 : countPairs (fun a b => AUC.label positive a && !(AUC.label positive b) &&
        decide (b.GetProbWeight < a.GetProbWeight)) points points +
      AUC.tied positive points = AUC.concordant positive points := by
    unfold AUC.tied AUC.concordant
    apply countPairs_add
    intro a _ b _
    cases AUC.label positive a <;> cases AUC.label positive b <;>
      simp only [Bool.true_and, Bool.false_and, Bool.not_true, Bool.not_false, Bool.and_true,
        Bool.and_false, Bool.false_eq_true, if_false, decide_eq_true_eq]
    rcases lt_trichotomy b.GetProbWeight a.GetProbWeight with h | h | h
    · simp [h, le_of_lt h, ne_of_lt h]
    · simp [h]
    · simp [not_lt.2 (le_of_lt h), not_le.2 h, ne_of_gt h]
  have h4 : countPairs (fun a b => AUC.label positive a && !(AUC.label positive b) &&
        decide (a.GetProbWeight ≤ b.GetProbWeight)) points points +
      countPairs (fun a b => AUC.label positive a && !(AUC.label positive b) &&
        decide (b.GetProbWeight < a.GetProbWeight)) points points =
      points.countP (AUC.label positive) * points.countP (fun p => !(AUC.label positive p)) := by
    rw [← countPairs_product]
    apply countPairs_add
    intro a _ b _
    cases AUC.label positive a <;> cases AUC.label positive b <;>
      simp only [Bool.true_and, Bool.false_and, Bool.not_true, Bool.not_false, Bool.and_true,
        Bool.and_false, Bool.false_eq_true, if_false, decide_eq_true_eq]
    by_cases h : a.GetProbWeight ≤ b.GetProbWeight
    · simp [h, not_lt.2 h]
    · simp [h, not_le.1 h]
  omega

/-- Claim C14, as amended: for every space and every sample S with at least one
positive and one negative point (ids valid indices), if S' is a sample containing
exactly the space points not in S, then
`AUC(S') = 1 - AUC(S) + tied / (positives * negatives)`, where `tied` is the number
of (positive, negative) pairs of equal weight; so `AUC(S') = 1 - AUC(S)` when no
positive point has the weight of a negative point. -/
theorem AUC_complement (m : DMaxEntModel α) (S S2 : Sample α) (examples examples2 : List (Point α))
    (hres : Sample.points m.space S = some examples)
    (hres2 : Sample.points m.space S2 = some examples2)
    (hex : ∀ e ∈ examples, 0 ≤ e.id ∧ e.id < (m.space.NumPoints : Int))
    (hex2 : ∀ e ∈ examples2, 0 ≤ e.id ∧ e.id < (m.space.NumPoints : Int))
    (hpt : ∀ p ∈ m.space.points, 0 ≤ p.id ∧ p.id < (m.space.NumPoints : Int))
    (hpos : ∃ p ∈ m.space.points, ∃ e ∈ examples, e.id = p.id)
    (hneg : ∃ p ∈ m.space.points, ¬ ∃ e ∈ examples, e.id = p.id)
    (hcompl : ∀ p ∈ m.space.points,
      ((∃ e ∈ examples2, e.id = p.id) ↔ ¬ ∃ e ∈ examples, e.id = p.id)) :
    ∃ positive a a2,
      AUC.mark (List.replicate m.space.NumPoints false) examples = some positive ∧
      m.AUC S = some a ∧ m.AUC S2 = some a2 ∧
      a2 = 1 - a + (AUC.tied positive m.space.points : α) /
        ((m.space.points.countP (AUC.label positive) : α) *
          (m.space.points.countP (fun p => !(AUC.label positive p)) : α)) ∧
      ((∀ p ∈ m.space.points, ∀ q ∈ m.space.points, (∃ e ∈ examples, e.id = p.id) →
        (¬ ∃ e ∈ examples, e.id = q.id) → q.GetProbWeight ≠ p.GetProbWeight) →
        a2 = 1 - a) := by
  obtain ⟨positive, hmark, hlabel, hauc, _⟩ := AUC_eq_concordant m S examples hres hex hpt
  obtain ⟨positive2, _, hlabel2, hauc2, _⟩ := AUC_eq_concordant m S2 examples2 hres2 hex2 hpt
  have hflip : ∀ p ∈ m.space.points, AUC.label positive2 p = !(AUC.label positive p) := by
    intro p hp
    have h1 := hlabel p hp
    have h2 := hlabel2 p hp
    have h3 := hcompl p hp
    cases ha : AUC.label positive p <;> cases hb : AUC.label positive2 p
    · exfalso
      rw [ha] at h1
      rw [hb] at h2
      exact Bool.noConfusion (h2.2 (h3.2 (fun h => Bool.noConfusion (h1.2 h))))
    · rfl
    · rfl
    · exfalso
      rw [ha] at h1
      rw [hb] at h2
      exact (h3.1 (h2.1 rfl)) (h1.1 rfl)
  have hne := counts_ne_zero positive m.space.points
    (by obtain ⟨p, hp, h⟩ := hpos; exact ⟨p, hp, (hlabel p hp).2 h⟩)
    (by obtain ⟨q, hq, h⟩ := hneg; exact ⟨q, hq, fun hl => h ((hlabel q hq).1 hl)⟩)
  have hP2 : m.space.points.countP (AUC.label positive2) =
      m.space.points.countP (fun p => !(AUC.label positive p)) :=
    List.countP_congr (fun p hp => by rw [hflip p hp])
  have hN2 : m.space.points.countP (fun p => !(AUC.label positive2 p)) =
      m.space.points.countP (AUC.label positive) :=
    List.countP_congr (fun p hp => by rw [hflip p hp]; simp)
  have hsum := concordant_flip positive positive2 m.space.points hflip
  have hsum' : (AUC.concordant positive2 m.space.points : α) =
      (m.space.points.countP (AUC.label positive) : α) *
        (m.space.points.countP (fun p => !(AUC.label positive p)) : α) +
      (AUC.tied positive m.space.points : α) - (AUC.concordant positive m.space.points : α) := by
    have : ((AUC.concordant positive m.space.points + AUC.concordant positive2 m.space.points :
        Nat) : α) = ((m.space.points.countP (AUC.label positive) *
          m.space.points.countP (fun p => !(AUC.label positive p)) +
          AUC.tied positive m.space.points : Nat) : α) := by rw [hsum]
    push_cast at this
    linarith
  have hrel : (AUC.concordant positive2 m.space.points : α) /
      ((m.space.points.countP (AUC.label positive2) : α) *
        (m.space.points.countP (fun p => !(AUC.label positive2 p)) : α)) =
      1 - (AUC.concordant positive m.space.points : α) /
        ((m.space.points.countP (AUC.label positive) : α) *
          (m.space.points.countP (fun p => !(AUC.label positive p)) : α)) +
      (AUC.tied positive m.space.points : α) /
        ((m.space.points.countP (AUC.label positive) : α) *
          (m.space.points.countP (fun p => !(AUC.label positive p)) : α)) := by
    rw [hP2, hN2, hsum', mul_comm (m.space.points.countP (fun p => !(AUC.label positive p)) : α)]
    field_simp
    ring
  refine ⟨positive, _, _, hmark, hauc, hauc2, hrel, ?_⟩
  intro hnotie
  have ht : AUC.tied positive m.space.points = 0 := by
    unfold AUC.tied countPairs
    apply List.sum_eq_zero
    intro n hn
    obtain ⟨p, hp, rfl⟩ := List.mem_map.1 hn
    rw [List.countP_eq_zero]
    intro q hq hR
    simp only [Bool.and_eq_true, Bool.not_eq_true', decide_eq_true_eq] at hR
    obtain ⟨⟨hpl, hql⟩, hw⟩ := hR
    exact hnotie p hp q hq ((hlabel p hp).1 hpl)
      (fun h => by rw [(hlabel q hq).2 h] at hql; exact Bool.noConfusion hql) hw
  rw [hrel, ht]
  simp

end AUCComplement

/-! ## `AUC` on concrete inputs -/

section AUCOnFixture

variable {α : Type} [LinearOrderedField α]

/-- The value of `AUC` once the vector `positive` of its first loop is known. -/
theorem AUC_value (m : DMaxEntModel α) (sample : Sample α) (examples : List (Point α))
    (positive : List Bool)
    (hres : Sample.points m.space sample = some examples)
    (hex : ∀ e ∈ examples, 0 ≤ e.id ∧ e.id < (m.space.NumPoints : Int))
    (hpt : ∀ p ∈ m.space.points, 0 ≤ p.id ∧ p.id < (m.space.NumPoints : Int))
    (hmark : AUC.mark (List.replicate m.space.NumPoints false) examples = some positive) :
    m.AUC sample = some ((AUC.concordant positive m.space.points : α) /
      ((m.space.points.countP (AUC.label positive) : α) *
        (m.space.points.countP (fun p => !(AUC.label positive p)) : α))) := by
  obtain ⟨positive1, h1, _, hauc, _⟩ := AUC_eq_concordant m sample examples hres hex hpt
  rw [hmark] at h1
  rw [← Option.some.inj h1] at hauc
  exact hauc

/-- The ids of the points and examples of the `TestAUC` fixture are indices. -/
theorem aucModel_ids :
    (∀ e ∈ [aucPoint ℚ 8 0.1, aucPoint ℚ 5 0.7, aucPoint ℚ 4 0.8, aucPoint ℚ 4 0.8,
        aucPoint ℚ 2 1.5, aucPoint ℚ 1 2, aucPoint ℚ 0 3],
      0 ≤ e.id ∧ e.id < ((aucModel ℚ).space.NumPoints : Int)) ∧
    (∀ p ∈ (aucModel ℚ).space.points, 0 ≤ p.id ∧ p.id < ((aucModel ℚ).space.NumPoints : Int)) := by
  constructor
  · intro e he
    simp only [List.mem_cons, List.mem_singleton, List.not_mem_nil, or_false] at he
    rcases he with rfl | rfl | rfl | rfl | rfl | rfl | rfl <;>
      simp [aucPoint, aucModel, DMaxEntModel.mk0, aucSpace, Space.NumPoints]
  · intro p hp
    simp only [aucModel, DMaxEntModel.mk0, aucSpace, List.mem_cons, List.mem_singleton,
      List.not_mem_nil, or_false] at hp
    rcases hp with rfl | rfl | rfl | rfl | rfl | rfl | rfl | rfl | rfl | rfl <;>
      simp [aucPoint, aucModel, DMaxEntModel.mk0, aucSpace, Space.NumPoints]

/-- On the fixture of `TestAUC` the model returns 19/24, the value 0.79166666
that the test expects. -/
theorem aucModel_AUC : (aucModel ℚ).AUC (aucSample ℚ) = some (19 / 24) := by
  rw [AUC_value (aucModel ℚ) (aucSample ℚ) _ [true, true, true, false, true, true, false, false, true, false] rfl aucModel_ids.1 aucModel_ids.2 rfl]
  have l0 : ∀ w : ℚ, AUC.label [true, true, true, false, true, true, false, false, true, false] (aucPoint ℚ 0 w) = true := fun _ => rfl
  have l1 : ∀ w : ℚ, AUC.label [true, true, true, false, true, true, false, false, true, false] (aucPoint ℚ 1 w) = true := fun _ => rfl
  have l2 : ∀ w : ℚ, AUC.label [true, true, true, false, true, true, false, false, true, false] (aucPoint ℚ 2 w) = true := fun _ => rfl
  have l3 : ∀ w : ℚ, AUC.label [true, true, true, false, true, true, false, false, true, false] (aucPoint ℚ 3 w) = false := fun _ => rfl
  have l4 : ∀ w : ℚ, AUC.label [true, true, true, false, true, true, false, false, true, false] (aucPoint ℚ 4 w) = true := fun _ => rfl
  have l5 : ∀ w : ℚ, AUC.label [true, true, true, false, true, true, false, false, true, false] (aucPoint ℚ 5 w) = true := fun _ => rfl
  have l6 : ∀ w : ℚ, AUC.label [true, true, true, false, true, true, false, false, true, false] (aucPoint ℚ 6 w) = false := fun _ => rfl
  have l7 : ∀ w : ℚ, AUC.label [true, true, true, false, true, true, false, false, true, false] (aucPoint ℚ 7 w) = false := fun _ => rfl
  have l8 : ∀ w : ℚ, AUC.label [true, true, true, false, true, true, false, false, true, false] (aucPoint ℚ 8 w) = true := fun _ => rfl
  have l9 : ∀ w : ℚ, AUC.label [true, true, true, false, true, true, false, false, true, false] (aucPoint ℚ 9 w) = false := fun _ => rfl
  simp only [AUC.concordant, countPairs, aucModel, DMaxEntModel.mk0, aucSpace, List.map_cons,
    List.map_nil, List.countP_cons, List.countP_nil, l0, l1, l2, l3, l4, l5, l6, l7, l8, l9]
  norm_num [aucPoint, Point.GetProbWeight]

/-- The ids of a two-point model are indices. -/
theorem twoPointModel_ids (w0 w1 : ℚ) :
    ∀ p ∈ (twoPointModel ℚ w0 w1).space.points,
      0 ≤ p.id ∧ p.id < ((twoPointModel ℚ w0 w1).space.NumPoints : Int) := by
  intro p hp
  simp only [twoPointModel, DMaxEntModel.mk0, List.mem_cons, List.mem_singleton,
    List.not_mem_nil, or_false] at hp
  rcases hp with rfl | rfl <;> simp [aucPoint, twoPointModel, DMaxEntModel.mk0, Space.NumPoints]

/-- `AUC` over two points when the sample is the point with id 0. -/
theorem twoPointModel_AUC_first (w0 w1 : ℚ) :
    (twoPointModel ℚ w0 w1).AUC [Example.detached (aucPoint ℚ 0 w0)] =
      some (if w1 ≤ w0 then 1 else 0) := by
  rw [AUC_value (twoPointModel ℚ w0 w1) [Example.detached (aucPoint ℚ 0 w0)]
    [aucPoint ℚ 0 w0] [true, false] rfl
    (fun e he => by
      rw [List.mem_singleton.1 he]
      simp [aucPoint, twoPointModel, DMaxEntModel.mk0, Space.NumPoints])
    (twoPointModel_ids w0 w1) rfl]
  have l0 : ∀ w : ℚ, AUC.label [true, false] (aucPoint ℚ 0 w) = true := fun _ => rfl
  have l1 : ∀ w : ℚ, AUC.label [true, false] (aucPoint ℚ 1 w) = false := fun _ => rfl
  simp only [AUC.concordant, countPairs, twoPointModel, DMaxEntModel.mk0, List.map_cons,
    List.map_nil, List.countP_cons, List.countP_nil, l0, l1]
  split_ifs <;> simp_all [aucPoint, Point.GetProbWeight]

/-- `AUC` over two points when the sample is the point with id 1. -/
theorem twoPointModel_AUC_second (w0 w1 : ℚ) :
    (twoPointModel ℚ w0 w1).AUC [Example.detached (aucPoint ℚ 1 w1)] =
      some (if w0 ≤ w1 then 1 else 0) := by
  rw [AUC_value (twoPointModel ℚ w0 w1) [Example.detached (aucPoint ℚ 1 w1)]
    [aucPoint ℚ 1 w1] [false, true] rfl
    (fun e he => by
      rw [List.mem_singleton.1 he]
      simp [aucPoint, twoPointModel, DMaxEntModel.mk0, Space.NumPoints])
    (twoPointModel_ids w0 w1) rfl]
  have l0 : ∀ w : ℚ, AUC.label [false, true] (aucPoint ℚ 0 w) = false := fun _ => rfl
  have l1 : ∀ w : ℚ, AUC.label [false, true] (aucPoint ℚ 1 w) = true := fun _ => rfl
  simp only [AUC.concordant, countPairs, twoPointModel, DMaxEntModel.mk0, List.map_cons,
    List.map_nil, List.countP_cons, List.countP_nil, l0, l1]
  split_ifs <;> simp_all [aucPoint, Point.GetProbWeight]

/-- Claim C14 as stated fails: over two points of equal weight 1 with ids 0 and
1, the sample holding the first point and the complementary sample holding the
second both have AUC 1, and 1 is not 1 - 1. -/
theorem AUC_complement_counterexample :
    (twoPointModel ℚ 1 1).AUC [Example.detached (aucPoint ℚ 0 1)] = some 1 ∧
    (twoPointModel ℚ 1 1).AUC [Example.detached (aucPoint ℚ 1 1)] = some 1 ∧
    (1 : ℚ) ≠ 1 - 1 := by
  refine ⟨?_, ?_, by norm_num⟩
  · rw [twoPointModel_AUC_first]
    simp
  · rw [twoPointModel_AUC_second]
    simp

end AUCOnFixture

/-! ## The end-to-end fixture of `TestFitAfterOneIterationVer1` -/

section TestModelFacts
variable {α : Type} [LinearOrderedField α]

/-- Reading covariate `i` with the missing-value default is `getD`. -/
theorem GetRawFeature_natCast (p : Point α) (i : Nat) :
    finite (p.GetRawFeature (i : Int)) = p.raw_features.getD i 0 := by
  simp [finite, Point.GetRawFeature, List.getD_eq_getElem?_getD]

/-- The features that `SetUp` builds are the fixture features with the sample
expectations 0.8, 0.0775 and 0.25. -/
theorem testFeatures_eq :
    testFeatures α = [fixtureRaw0 α, fixtureProduct12 α, fixtureThreshold3 α] := by
  have h0 : (RawFeature (0 : Int) (0 : α)).FeatureMap = (fixtureRaw0 α).FeatureMap := by
    funext p
    exact GetRawFeature_natCast p 0
  have h1 : (ProductFeature (1 : Int) (2 : Int) (0 : α)).FeatureMap =
      (fixtureProduct12 α).FeatureMap := by
    funext p
    show finite (p.GetRawFeature ((1 : Nat) : Int)) * finite (p.GetRawFeature ((2 : Nat) : Int)) = _
    rw [GetRawFeature_natCast, GetRawFeature_natCast]
    rfl
  have h2 : (ThresholdFeature (3 : Int) (0.5 : α) (0 : α)).FeatureMap =
      (fixtureThreshold3 α).FeatureMap := by
    funext p
    have h3 : p.GetRawFeature (3 : Int) = p.raw_features[3]? := by
      simp [Point.GetRawFeature]
    simp only [ThresholdFeature, fixtureThreshold3, h3, List.getD_eq_getElem?_getD]
    cases h : p.raw_features[3]? with
    | none => norm_num
    | some v => simp
  have e0 : (RawFeature (0 : Int) (0 : α)).ComputeSampleExpectation
      [fixturePoint1 α false, fixturePoint2 α false, fixturePoint2 α false,
        fixturePoint2 α false] = fixtureRaw0 α := by
    unfold Feature.ComputeSampleExpectation
    rw [h0]
    simp only [RawFeature, fixtureRaw0, Feature.mk.injEq, true_and, and_true]
    norm_num [fixturePoint1, fixturePoint2]
  have e1 : (ProductFeature (1 : Int) (2 : Int) (0 : α)).ComputeSampleExpectation
      [fixturePoint1 α false, fixturePoint2 α false, fixturePoint2 α false,
        fixturePoint2 α false] = fixtureProduct12 α := by
    unfold Feature.ComputeSampleExpectation
    rw [h1]
    simp only [ProductFeature, fixtureProduct12, Feature.mk.injEq, true_and, and_true]
    norm_num [fixturePoint1, fixturePoint2]
  have e2 : (ThresholdFeature (3 : Int) (0.5 : α) (0 : α)).ComputeSampleExpectation
      [fixturePoint1 α false, fixturePoint2 α false, fixturePoint2 α false,
        fixturePoint2 α false] = fixtureThreshold3 α := by
    unfold Feature.ComputeSampleExpectation
    rw [h2]
    simp only [ThresholdFeature, fixtureThreshold3, Feature.mk.injEq, true_and, and_true]
    norm_num [fixturePoint1, fixturePoint2]
  unfold testFeatures
  rw [e0, e1, e2]

/-- The three gradients on the fixture, in any field. -/
theorem fixture_gradients_field (s : α) (ver : Int) :
    (fixtureModel α s ver []).gradient 0
      ((fixtureRaw0 α).ComputeUnnormalizedPopulationExpectation (fixtureSpace α)) = -3 / 100 ∧
    (fixtureModel α s ver []).gradient 0
      ((fixtureProduct12 α).ComputeUnnormalizedPopulationExpectation (fixtureSpace α)) = 0 ∧
    (fixtureModel α s ver []).gradient 0
      ((fixtureThreshold3 α).ComputeUnnormalizedPopulationExpectation (fixtureSpace α)) =
        9 / 50 := by
  refine ⟨?_, ?_, ?_⟩ <;>
  norm_num [DMaxEntModel.gradient, DMaxEntModel.diff_expectations, DMaxEntModel.beta_k, sgn,
    gTolerance, Feature.GetSampleExpectation, Feature.GetUnnormalizedPopulationExpectation,
    fixtureRaw0, fixtureProduct12, fixtureThreshold3,
    Feature.ComputeUnnormalizedPopulationExpectation, fixtureSpace, fixtureModel,
    DMaxEntModel.mk0, fixturePoint1, fixturePoint2, Point.GetProbWeight, Space.NumPoints,
    abs_of_pos, abs_of_neg]

/-- The scan of the fixture features ends on the third with gradient 9/50. -/
theorem fixture_scan_field (s : α) (ver : Int) :
    ((fixtureModel α s ver []).scanFeatures
      (fixtureModel α s ver []).weighted_features 0 (0, -1)).2 = (2, 9 / 50) := by
  obtain ⟨g0, g1, g2⟩ := fixture_gradients_field s ver
  have hs : (fixtureModel α s ver []).space = fixtureSpace α := rfl
  have hw : (fixtureModel α s ver []).weighted_features =
      [(0, fixtureRaw0 α), (0, fixtureProduct12 α), (0, fixtureThreshold3 α)] := rfl
  rw [hw, scanFeatures_snd_cons_pos _ _ _ _ _ _ _ (by rw [hs, g0]; norm_num [abs_of_pos]), hs, g0,
    scanFeatures_snd_cons_neg _ _ _ _ _ _ _ (by rw [hs, g1]; norm_num [abs_of_pos]),
    scanFeatures_snd_cons_pos _ _ _ _ _ _ _ (by rw [hs, g2]; norm_num [abs_of_pos]), hs, g2]
  norm_num [DMaxEntModel.scanFeatures, abs_of_pos]

/-- `FindDescentDirection` on the test model. -/
theorem testModel_direction (s : α) (ver : Int) :
    (testModel α s ver).FindDescentDirection = { testModel α s ver with
      weighted_features := [(0, (fixtureRaw0 α).ComputeUnnormalizedPopulationExpectation (fixtureSpace α)),
        (0, (fixtureProduct12 α).ComputeUnnormalizedPopulationExpectation (fixtureSpace α)),
        (0, (fixtureThreshold3 α).ComputeUnnormalizedPopulationExpectation (fixtureSpace α))],
      model_gradient := 9 / 50,
      direction := 2 } := by
  have hm : testModel α s ver = fixtureModel α s ver [] := by
    unfold testModel fixtureModel
    rw [testFeatures_eq]
  have hscan := fixture_scan_field s ver
  have hnot : ¬ ∃ l ∈ (fixtureModel α s ver []).weak_learners,
      |(l.Train (fixtureModel α s ver []).space (fixtureModel α s ver []).sample).2| >
        (fixtureModel α s ver []).bestExisting + gTolerance := by
    simp [fixtureModel, DMaxEntModel.mk0]
  rw [hm, FindDescentDirection_not_found _ hnot]
  simp only [DMaxEntModel.bestExisting, hscan]
  rfl

end TestModelFacts

section TestModelNumeric

/-- A numeric enclosure of ln(11/17), from the series of the logarithm. -/
theorem log_11_17_bounds : |Real.log (11 / 17) + 0.4353180712578455| < 19 / 10 ^ 8 := by
  have h := Real.abs_log_sub_add_sum_range_le (x := 6 / 17) (by rw [abs_of_pos] <;> norm_num) 15
  have hx : (1 : ℝ) - 6 / 17 = 11 / 17 := by norm_num
  rw [hx] at h
  have habs : |(6 / 17 : ℝ)| = 6 / 17 := abs_of_pos (by norm_num)
  rw [habs] at h
  rw [abs_le] at h
  simp only [Finset.sum_range_succ, Finset.sum_range_zero] at h
  norm_num at h
  rw [abs_lt]
  obtain ⟨h1, h2⟩ := h
  constructor
  · norm_num
    linarith
  · norm_num
    linarith

/-- The recomputed threshold feature of the fixture. -/
theorem fixtureThreshold3_refreshed :
    (fixtureThreshold3 ℝ).ComputeUnnormalizedPopulationExpectation (fixtureSpace ℝ) =
      { fixtureThreshold3 ℝ with population_expectation := 1 } := by
  unfold Feature.ComputeUnnormalizedPopulationExpectation
  congr 1
  norm_num [fixtureThreshold3, fixtureSpace, fixturePoint1, fixturePoint2, Point.GetProbWeight]

/-- Version 1 of the step size on the test model after direction finding. -/
theorem testModel_step1 :
    (testModel ℝ 1 1).FindDescentDirection.FindStepSize1 Real.exp Real.log =
      some { (testModel ℝ 1 1).FindDescentDirection with
        step_size := 1 / 2 * Real.log (11 / 17) } := by
  rw [testModel_direction]
  unfold DMaxEntModel.FindStepSize1
  simp only [List.getElem?_cons_succ, List.getElem?_cons_zero, fixtureThreshold3_refreshed]
  have hb : DMaxEntModel.beta1 Real.exp { testModel ℝ 1 1 with
      weighted_features := [(0, (fixtureRaw0 ℝ).ComputeUnnormalizedPopulationExpectation (fixtureSpace ℝ)),
        (0, (fixtureProduct12 ℝ).ComputeUnnormalizedPopulationExpectation (fixtureSpace ℝ)),
        (0, { fixtureThreshold3 ℝ with population_expectation := 1 })],
      model_gradient := 9 / 50,
      direction := 2 } 0 { fixtureThreshold3 ℝ with population_expectation := 1 } = -1 / 4 := by
    norm_num [DMaxEntModel.beta1, testModel, DMaxEntModel.mk0, fixtureThreshold3,
      Feature.GetSampleExpectation, Feature.GetUnnormalizedPopulationExpectation, fixtureSpace,
      Space.NumPoints]
  rw [hb]
  have hk : DMaxEntModel.beta_k { testModel ℝ 1 1 with
      weighted_features := [(0, (fixtureRaw0 ℝ).ComputeUnnormalizedPopulationExpectation (fixtureSpace ℝ)),
        (0, (fixtureProduct12 ℝ).ComputeUnnormalizedPopulationExpectation (fixtureSpace ℝ)),
        (0, { fixtureThreshold3 ℝ with population_expectation := 1 })],
      model_gradient := 9 / 50,
      direction := 2 } { fixtureThreshold3 ℝ with population_expectation := 1 } = 7 / 100 := by
    norm_num [DMaxEntModel.beta_k, testModel, DMaxEntModel.mk0, fixtureThreshold3]
  rw [hk]
  have h1 : ¬ |(-1 / 4 : ℝ)| < 7 / 100 := by
    rw [abs_of_neg (by norm_num)]
    norm_num
  have h2 : ¬ (-1 / 4 : ℝ) > 7 / 100 := by norm_num
  rw [if_neg h1, if_neg h2]
  have harg : ((-(testModel ℝ 1 1).lambda + 1 / (testModel ℝ 1 1).normalizer) *
      (7 / 100 + ((testModel ℝ 1 1).lambda + (fixtureThreshold3 ℝ).sample_expectation)) /
      (((testModel ℝ 1 1).lambda + 1 / (testModel ℝ 1 1).normalizer) *
        (7 / 100 + (-(testModel ℝ 1 1).lambda + (fixtureThreshold3 ℝ).sample_expectation)))) =
      11 / 17 := by
    norm_num [testModel, DMaxEntModel.mk0, fixtureThreshold3, fixtureSpace, Space.NumPoints]
  simp only [Feature.GetSampleExpectation, Feature.GetUnnormalizedPopulationExpectation]
  rw [harg]
  have hl : (testModel ℝ 1 1).lambda = 1 := rfl
  have hstep : (0.5 * Real.log (11 / 17) / (testModel ℝ 1 1).lambda : ℝ) =
      1 / 2 * Real.log (11 / 17) := by
    rw [hl]
    norm_num
  rw [hstep]

/-- When `max_descent_steps` is 1, `Fit` is one pass through the loop body. -/
theorem Fit_one_step {α : Type} [LinearOrderedField α] [FloorRing α] (exp log : α → α)
    (m m1 : DMaxEntModel α) (hmax : m.max_descent_steps = 1)
    (hit : m.FitIteration exp log = some m1) : m.Fit exp log = some m1 := by
  unfold DMaxEntModel.Fit DMaxEntModel.FitCount
  rw [hmax, Nat.ceil_one]
  have hguard : ((0 : Nat) : α) < m.max_descent_steps := by
    rw [hmax]
    norm_num
  simp only [DMaxEntModel.FitLoop, if_pos hguard, hit]
  split_ifs <;> rfl

/-- One pass through the loop body on the test model, version 1. -/
theorem testModel_iteration :
    (testModel ℝ 1 1).FitIteration Real.exp Real.log = some
      { (testModel ℝ 1 1).FindDescentDirection with
        step_size := 1 / 2 * Real.log (11 / 17),
        weighted_features :=
          [(0, (fixtureRaw0 ℝ).ComputeUnnormalizedPopulationExpectation (fixtureSpace ℝ)),
            (0, (fixtureProduct12 ℝ).ComputeUnnormalizedPopulationExpectation (fixtureSpace ℝ)),
            (1 / 2 * Real.log (11 / 17),
              (fixtureThreshold3 ℝ).ComputeUnnormalizedPopulationExpectation (fixtureSpace ℝ))],
        space := { fixtureSpace ℝ with
          points := [(fixturePoint1 ℝ true).SetProbWeight (Real.exp (1 / 2 * Real.log (11 / 17))),
            (fixturePoint2 ℝ true).SetProbWeight 1] },
        normalizer := Real.exp (1 / 2 * Real.log (11 / 17)) + 1 } := by
  have hv : (testModel ℝ 1 1).FindDescentDirection.version = 1 := rfl
  unfold DMaxEntModel.FitIteration
  simp only [hv, if_true, testModel_step1, Option.bind]
  unfold DMaxEntModel.UpdateModel
  simp only [testModel_direction, List.getElem?_cons_succ, List.getElem?_cons_zero,
    updatePoints_snd, updatePoints_fst, fixtureThreshold3_refreshed]
  have hp : (testModel ℝ 1 1).space.points = [fixturePoint1 ℝ true, fixturePoint2 ℝ true] := rfl
  have hf : (testModel ℝ 1 1).space.finalized = (fixtureSpace ℝ).finalized := rfl
  have hm1 : (fixtureThreshold3 ℝ).FeatureMap (fixturePoint1 ℝ true) = 1 := by
    norm_num [fixtureThreshold3, fixturePoint1]
  have hm2 : (fixtureThreshold3 ℝ).FeatureMap (fixturePoint2 ℝ true) = 0 := by
    norm_num [fixtureThreshold3, fixturePoint2]
  have hw1 : (fixturePoint1 ℝ true).probability_weight = 1 := rfl
  have hw2 : (fixturePoint2 ℝ true).probability_weight = 1 := rfl
  simp only [hp, hf, List.map_cons, List.map_nil, hm1, hm2, mul_one, mul_zero,
    Real.exp_zero, one_mul, zero_add, List.set_cons_succ, List.set_cons_zero, List.sum_cons,
    List.sum_nil, add_zero, Point.GetProbWeight, Point.SetProbWeight, hw1, hw2]

/-- The exponential of the step is the square root of 11/17, approximately. -/
theorem exp_step_bounds :
    |Real.exp (1 / 2 * Real.log (11 / 17)) - 0.8043996665398437| < 1 / 10 ^ 7 := by
  have hsq : Real.exp (1 / 2 * Real.log (11 / 17)) * Real.exp (1 / 2 * Real.log (11 / 17)) =
      11 / 17 := by
    rw [← Real.exp_add, ← add_mul]
    norm_num
    rw [Real.exp_log (by norm_num)]
  have hpos : 0 < Real.exp (1 / 2 * Real.log (11 / 17)) := Real.exp_pos _
  rw [abs_lt]
  constructor
  · by_contra hc
    push_neg at hc
    have h1 : Real.exp (1 / 2 * Real.log (11 / 17)) ≤ 0.8043996665398437 - 1 / 10 ^ 7 := by
      linarith
    have h2 : Real.exp (1 / 2 * Real.log (11 / 17)) * Real.exp (1 / 2 * Real.log (11 / 17)) ≤
        (0.8043996665398437 - 1 / 10 ^ 7) * (0.8043996665398437 - 1 / 10 ^ 7) :=
      mul_le_mul h1 h1 hpos.le (by norm_num)
    rw [hsq] at h2
    norm_num at h2
  · by_contra hc
    push_neg at hc
    have h1 : (0.8043996665398437 + 1 / 10 ^ 7 : ℝ) ≤ Real.exp (1 / 2 * Real.log (11 / 17)) := by
      linarith
    have h2 : (0.8043996665398437 + 1 / 10 ^ 7 : ℝ) * (0.8043996665398437 + 1 / 10 ^ 7) ≤
        Real.exp (1 / 2 * Real.log (11 / 17)) * Real.exp (1 / 2 * Real.log (11 / 17)) :=
      mul_le_mul h1 h1 (by norm_num) hpos.le
    rw [hsq] at h2
    norm_num at h2

/-- Claim C11: on the two-point fixture (covariates [0.5,0.4,0.7,0.7] and
[0.9,0.1,0.1,0.1], unit weights, the sample holding the first point once and
the second three times, features Raw(0), Product(1,2), Threshold(3,0.5) of
complexity 0, alpha 0, beta 0.07, lambda 1, one iteration, version 1, no weak
learner) `Fit` returns a model whose direction is 2, whose step size is exactly
(1/2) ln(11/17) and within 1e-7 of -0.21765903562892275, whose normalizer is
within 1e-7 of 1.8043996665398437, whose first point has a weight within 1e-7 of
0.8043996665398437, whose second point has weight 1, and whose first two
feature weights are still 0. -/
theorem Fit_fixture_one_iteration :
    ∃ (m1 : DMaxEntModel ℝ) (p0 p1 : Point ℝ) (f0 f1 f2 : Feature ℝ),
      (testModel ℝ 1 1).Fit Real.exp Real.log = some m1 ∧
      m1.direction = 2 ∧
      m1.step_size = 1 / 2 * Real.log (11 / 17) ∧
      |m1.step_size - (-0.21765903562892275)| < 1 / 10 ^ 7 ∧
      |m1.normalizer - 1.8043996665398437| < 1 / 10 ^ 7 ∧
      m1.space.points = [p0, p1] ∧
      |p0.GetProbWeight - 0.8043996665398437| < 1 / 10 ^ 7 ∧
      p1.GetProbWeight = 1 ∧
      m1.weighted_features = [(0, f0), (0, f1), (m1.step_size, f2)] := by
  refine ⟨_, _, _, _, _, _,
    Fit_one_step Real.exp Real.log (testModel ℝ 1 1) _ rfl testModel_iteration,
    ?_, rfl, ?_, ?_, rfl, ?_, rfl, rfl⟩
  · simp only [testModel_direction]
  · show |1 / 2 * Real.log (11 / 17) - (-0.21765903562892275)| < 1 / 10 ^ 7
    have h := log_11_17_bounds
    rw [abs_lt] at h ⊢
    constructor <;> (norm_num at h ⊢; linarith)
  · show |Real.exp (1 / 2 * Real.log (11 / 17)) + 1 - 1.8043996665398437| < 1 / 10 ^ 7
    have h := exp_step_bounds
    rw [abs_lt] at h ⊢
    constructor <;> (norm_num at h ⊢; linarith)
  · exact exp_step_bounds

end TestModelNumeric

/-! ## The claims about `AUC`, the constructor and the gradients on concrete inputs -/

section ClaimWitnesses

/-- The pair-counting form of `AUC` (claim C12) on the fixture of `TestAUC`. -/
theorem AUC_pairs_witness :
    Sample.points (aucModel ℚ).space (aucSample ℚ) =
      some [aucPoint ℚ 8 0.1, aucPoint ℚ 5 0.7, aucPoint ℚ 4 0.8, aucPoint ℚ 4 0.8,
        aucPoint ℚ 2 1.5, aucPoint ℚ 1 2, aucPoint ℚ 0 3] ∧
    ∃ positive : List Bool,
      (aucModel ℚ).AUC (aucSample ℚ) =
        some ((AUC.concordant positive (aucModel ℚ).space.points : ℚ) /
          (((aucModel ℚ).space.points.countP (AUC.label positive) : ℚ) *
            ((aucModel ℚ).space.points.countP (fun p => !(AUC.label positive p)) : ℚ))) := by
  refine ⟨rfl, ?_⟩
  obtain ⟨positive, _, _, h, _⟩ := AUC_pairs (aucModel ℚ) (aucSample ℚ)
    [aucPoint ℚ 8 0.1, aucPoint ℚ 5 0.7, aucPoint ℚ 4 0.8, aucPoint ℚ 4 0.8,
      aucPoint ℚ 2 1.5, aucPoint ℚ 1 2, aucPoint ℚ 0 3] rfl aucModel_ids.1 aucModel_ids.2
    ⟨aucPoint ℚ 0 3, by simp [aucModel, DMaxEntModel.mk0, aucSpace],
      aucPoint ℚ 0 3, by simp, rfl⟩
    ⟨aucPoint ℚ 3 1.0, by simp [aucModel, DMaxEntModel.mk0, aucSpace], by simp [aucPoint]⟩
  exact ⟨positive, h⟩

/-- Claim C13 on two points of weights 2 and 1, the sample holding the first. -/
theorem AUC_separated_witness :
    (∀ p ∈ (twoPointModel ℚ 2 1).space.points, ∀ q ∈ (twoPointModel ℚ 2 1).space.points,
      (∃ e ∈ [aucPoint ℚ 0 2], e.id = p.id) → (¬ ∃ e ∈ [aucPoint ℚ 0 2], e.id = q.id) →
      q.GetProbWeight < p.GetProbWeight) ∧
    (twoPointModel ℚ 2 1).AUC [Example.detached (aucPoint ℚ 0 2)] = some 1 := by
  have hsep : ∀ p ∈ (twoPointModel ℚ 2 1).space.points,
      ∀ q ∈ (twoPointModel ℚ 2 1).space.points,
      (∃ e ∈ [aucPoint ℚ 0 2], e.id = p.id) → (¬ ∃ e ∈ [aucPoint ℚ 0 2], e.id = q.id) →
      q.GetProbWeight < p.GetProbWeight := by
    intro p hp q hq
    simp only [twoPointModel, DMaxEntModel.mk0, List.mem_cons, List.mem_singleton,
      List.not_mem_nil, or_false] at hp hq
    rcases hp with rfl | rfl <;> rcases hq with rfl | rfl <;>
      simp [aucPoint, Point.GetProbWeight]
  exact ⟨hsep, AUC_separated (twoPointModel ℚ 2 1) [Example.detached (aucPoint ℚ 0 2)]
    [aucPoint ℚ 0 2] rfl
    (fun e he => by
      rw [List.mem_singleton.1 he]
      simp [aucPoint, twoPointModel, DMaxEntModel.mk0, Space.NumPoints])
    (twoPointModel_ids 2 1)
    ⟨aucPoint ℚ 0 2, by simp [twoPointModel, DMaxEntModel.mk0], aucPoint ℚ 0 2, by simp, rfl⟩
    ⟨aucPoint ℚ 1 1, by simp [twoPointModel, DMaxEntModel.mk0], by simp [aucPoint]⟩
    hsep⟩

/-- The amended claim C14 on two points of weights 2 and 1: the sample holding the
first point and the sample holding the second have AUC values `a` and `1 - a`. -/
theorem AUC_complement_witness :
    (∀ p ∈ (twoPointModel ℚ 2 1).space.points,
      ((∃ e ∈ [aucPoint ℚ 1 1], e.id = p.id) ↔ ¬ ∃ e ∈ [aucPoint ℚ 0 2], e.id = p.id)) ∧
    ∃ a a2 : ℚ,
      (twoPointModel ℚ 2 1).AUC [Example.detached (aucPoint ℚ 0 2)] = some a ∧
      (twoPointModel ℚ 2 1).AUC [Example.detached (aucPoint ℚ 1 1)] = some a2 ∧
      a2 = 1 - a := by
  have hcompl : ∀ p ∈ (twoPointModel ℚ 2 1).space.points,
      ((∃ e ∈ [aucPoint ℚ 1 1], e.id = p.id) ↔ ¬ ∃ e ∈ [aucPoint ℚ 0 2], e.id = p.id) := by
    intro p hp
    simp only [twoPointModel, DMaxEntModel.mk0, List.mem_cons, List.mem_singleton,
      List.not_mem_nil, or_false] at hp
    rcases hp with rfl | rfl <;> simp [aucPoint]
  refine ⟨hcompl, ?_⟩
  obtain ⟨_, a, a2, _, h1, h2, _, h3⟩ := AUC_complement (twoPointModel ℚ 2 1)
    [Example.detached (aucPoint ℚ 0 2)] [Example.detached (aucPoint ℚ 1 1)]
    [aucPoint ℚ 0 2] [aucPoint ℚ 1 1] rfl rfl
    (fun e he => by
      rw [List.mem_singleton.1 he]
      simp [aucPoint, twoPointModel, DMaxEntModel.mk0, Space.NumPoints])
    (fun e he => by
      rw [List.mem_singleton.1 he]
      simp [aucPoint, twoPointModel, DMaxEntModel.mk0, Space.NumPoints])
    (twoPointModel_ids 2 1)
    ⟨aucPoint ℚ 0 2, by simp [twoPointModel, DMaxEntModel.mk0], aucPoint ℚ 0 2, by simp, rfl⟩
    ⟨aucPoint ℚ 1 1, by simp [twoPointModel, DMaxEntModel.mk0], by simp [aucPoint]⟩
    hcompl
  refine ⟨a, a2, h1, h2, h3 ?_⟩
  intro p hp q hq
  simp only [twoPointModel, DMaxEntModel.mk0, List.mem_cons, List.mem_singleton,
    List.not_mem_nil, or_false] at hp hq
  rcases hp with rfl | rfl <;> rcases hq with rfl | rfl <;>
    simp [aucPoint, Point.GetProbWeight]

/-- The amended claim C15 on the model of the tests, whose two points have weight
1, so that the normalizer 2 is the sum of the weights, and on the model of
`TestAUC`, whose ten points have the weights 3, 2, 1.5, ..., with the normalizer
10, the number of points, which is the sum of those weights. -/
theorem constructor_normalizer_witness :
    (∀ p ∈ (fixtureSpace ℚ).points, p.probability_weight = 1) ∧
    (fixtureModel ℚ 1 1 []).normalizer = 2 ∧
    (fixtureModel ℚ 1 1 []).normalizer =
      ((fixtureModel ℚ 1 1 []).space.points.map Point.GetProbWeight).sum ∧
    (aucModel ℚ).normalizer = ((aucSpace ℚ).NumPoints : ℚ) ∧
    (aucModel ℚ).normalizer = 10 ∧
    (aucModel ℚ).normalizer = ((aucModel ℚ).space.points.map Point.GetProbWeight).sum := by
  have hone : ∀ p ∈ (fixtureSpace ℚ).points, p.probability_weight = 1 := by
    intro p hp
    simp only [fixtureSpace, List.mem_cons, List.mem_singleton, List.not_mem_nil,
      or_false] at hp
    rcases hp with rfl | rfl <;> rfl
  obtain ⟨h1, _, _, h3⟩ := constructor_normalizer (0 : ℚ) 0.07 1 1 1 true (fixtureSpace ℚ)
    (fixtureSample ℚ) [fixtureRaw0 ℚ, fixtureProduct12 ℚ, fixtureThreshold3 ℚ] [] []
  have h4 := (constructor_normalizer (0 : ℚ) 0.07 3 1 1 true (aucSpace ℚ) (fixtureSample ℚ)
    [fixtureRaw0 ℚ, fixtureProduct12 ℚ, fixtureThreshold3 ℚ] [] []).1
  have h5 : (aucModel ℚ).normalizer = ((aucSpace ℚ).NumPoints : ℚ) := h4
  have h6 := (constructor_normalizer (0 : ℚ) 0.07 3 1 1 true (aucSpace ℚ) (fixtureSample ℚ)
    [fixtureRaw0 ℚ, fixtureProduct12 ℚ, fixtureThreshold3 ℚ] [] []).2.2.1.2
    (by norm_num [aucSpace, aucPoint, Point.GetProbWeight, Space.NumPoints])
  refine ⟨hone, ?_, (h3 hone).1, h5, ?_, h6⟩
  · rw [show fixtureModel ℚ 1 1 [] = DMaxEntModel.mk0 (0 : ℚ) 0.07 1 1 1 true (fixtureSpace ℚ)
      (fixtureSample ℚ) [fixtureRaw0 ℚ, fixtureProduct12 ℚ, fixtureThreshold3 ℚ] [] [] from rfl,
      h1]
    norm_num [Space.NumPoints, fixtureSpace]
  · rw [h5]
    norm_num [Space.NumPoints, aucSpace]

/-- Claim C20 on a tree of size 3, a sample of size 12 and the difference 3/10,
with the identity in the place of `sqrt` and `log`. -/
theorem Gradient_rule_witness :
    (1 : Int) ≤ 12 ∧
    (TreeLearner.Gradient (fun x : ℚ => x) (fun x : ℚ => x)
      { num_features := 2, model_parameter_alpha := 0, model_parameter_beta := 1 / 100,
        value_to_thresholds := [] } 3 12 (3 / 10) =
      penalizedGradient (1 / 100 + 0 * TreeLearner.TreeComplexity (fun x : ℚ => x)
        (fun x : ℚ => x)
        { num_features := 2, model_parameter_alpha := 0, model_parameter_beta := 1 / 100,
          value_to_thresholds := [] } 3 12) (3 / 10)) ∧
    penalizedGradient (1 / 100 : ℚ) (-(3 / 10)) = -penalizedGradient (1 / 100) (3 / 10) := by
  obtain ⟨h1, _, h3⟩ := Gradient_rule (fun x : ℚ => x) (fun x : ℚ => x)
    { num_features := 2, model_parameter_alpha := 0, model_parameter_beta := 1 / 100,
      value_to_thresholds := [] }
    { num_features := 2, model_parameter_alpha := 0, model_parameter_beta := 1 / 100,
      feature_bound := 1 } 3 12 (3 / 10) (by decide)
  exact ⟨by decide, h1, ((h3 (1 / 100)).2.2 (by norm_num)).2.2⟩

end ClaimWitnesses

/-! ## `MonomialLearner::Train` on the fixture of `MonomialLearnerTest` -/

section MonomialFacts

/-- The examples of the fixture sample. -/
theorem monomialSample_points :
    Sample.points (monomialSpace ℚ) (monomialSample ℚ) = some
      [{ id := 2, finalized := false, probability_weight := 1.5, raw_features := [0.5, -0.5, 1] },
       { id := 3, finalized := false, probability_weight := 2.0, raw_features := [-1, 0.0, 1] },
       { id := 3, finalized := false, probability_weight := 2.0, raw_features := [-1, 0.0, 1] }] :=
  rfl

/-- First round of `BestFeature` on the fixture: covariate 2. -/
theorem monomial_round1 :
    (monomialLearner ℚ).BestFeature (fun x => x) (fun x => x)
      [1 / 2, 3 / 2, 2, 1] [1, 1, 1] (monomialSpace ℚ)
      [{ id := 2, finalized := false, probability_weight := 1.5, raw_features := [0.5, -0.5, 1] },
       { id := 3, finalized := false, probability_weight := 2.0, raw_features := [-1, 0.0, 1] },
       { id := 3, finalized := false, probability_weight := 2.0, raw_features := [-1, 0.0, 1] }]
      5 0 = some (-(6 / 25), 2, 3 / 4, 1) := by
  simp [MonomialLearner.BestFeature, monomialLearner, monomialSpace, monomialPoints,
    MonomialLearner.weightedSum, List.range, List.range.loop, finite, Point.GetRawFeature,
    MonomialLearner.Gradient, gTolerance]
  norm_num [abs_of_pos, abs_of_neg]

/-- Second round of `BestFeature` on the fixture: covariate 0. -/
theorem monomial_round2 :
    (monomialLearner ℚ).BestFeature (fun x => x) (fun x => x)
      [1 / 4, 3 / 2, 2, 0] [1, 1, 1] (monomialSpace ℚ)
      [{ id := 2, finalized := false, probability_weight := 1.5, raw_features := [0.5, -0.5, 1] },
       { id := 3, finalized := false, probability_weight := 2.0, raw_features := [-1, 0.0, 1] },
       { id := 3, finalized := false, probability_weight := 2.0, raw_features := [-1, 0.0, 1] }]
      5 1 = some (29 / 100, 0, -(1 / 5), -(1 / 2)) := by
  simp [MonomialLearner.BestFeature, monomialLearner, monomialSpace, monomialPoints,
    MonomialLearner.weightedSum, List.range, List.range.loop, finite, Point.GetRawFeature,
    MonomialLearner.Gradient, gTolerance]
  norm_num [abs_of_pos, abs_of_neg]

/-- Third round of `BestFeature` on the fixture: covariate 2 again, with a
smaller gradient. -/
theorem monomial_round3 :
    (monomialLearner ℚ).BestFeature (fun x => x) (fun x => x)
      [1 / 4, 3 / 4, -2, 0] [1 / 2, -1, -1] (monomialSpace ℚ)
      [{ id := 2, finalized := false, probability_weight := 1.5, raw_features := [0.5, -0.5, 1] },
       { id := 3, finalized := false, probability_weight := 2.0, raw_features := [-1, 0.0, 1] },
       { id := 3, finalized := false, probability_weight := 2.0, raw_features := [-1, 0.0, 1] }]
      5 2 = some (53 / 200, 2, -(9 / 40), -(1 / 2)) := by
  simp [MonomialLearner.BestFeature, monomialLearner, monomialSpace, monomialPoints,
    MonomialLearner.weightedSum, List.range, List.range.loop, finite, Point.GetRawFeature,
    MonomialLearner.Gradient, gTolerance]
  norm_num [abs_of_pos, abs_of_neg]

/-- The run of `MonomialLearner::Train` on the fixture of `MonomialLearnerTest`
with `alpha = 0` and the identity in the place of `sqrt` and `log`: two rounds
are accepted (covariate 2, then covariate 0), the third is not, and the feature
returned has powers (1, 0, 1), sample expectation -1/2 and population
expectation -1/5. -/
theorem monomial_Train_fixture :
    (monomialLearner ℚ).Train (fun x => x) (fun x => x) (monomialSpace ℚ) (monomialSample ℚ) 3 =
      Run.ok ({ powers := [1, 0, 1], complexity := 4,
                sample_expectation := -(1 / 2), population_expectation := -(1 / 5) },
        29 / 100) := by
  have hn : (monomialSpace ℚ).points.foldl
      (fun normalizer point => normalizer + point.GetProbWeight) 0 = 5 := by
    norm_num [monomialSpace, monomialPoints, Point.GetProbWeight]
  have hv : (monomialSpace ℚ).points.map Point.GetProbWeight = [1 / 2, 3 / 2, 2, 1] := by
    norm_num [monomialSpace, monomialPoints, Point.GetProbWeight]
  have hm : List.replicate (monomialLearner ℚ).num_features.toNat (0 : Int) = [0, 0, 0] := rfl
  have c1 : |(-(6 / 25) : ℚ)| > |(0 : ℚ)| + gTolerance := by
    norm_num [gTolerance, abs_of_neg]
  have c2 : |(29 / 100 : ℚ)| > |(-(6 / 25) : ℚ)| + gTolerance := by
    norm_num [gTolerance, abs_of_neg, abs_of_pos]
  have c3 : ¬ |(53 / 200 : ℚ)| > |(29 / 100 : ℚ)| + gTolerance := by
    norm_num [gTolerance, abs_of_pos]
  have z1 : List.zipWith (fun v (point : Point ℚ) => v * finite (point.GetRawFeature 2))
      [1 / 2, 3 / 2, 2, 1] (monomialSpace ℚ).points = [1 / 4, 3 / 2, 2, 0] := by
    norm_num [monomialSpace, monomialPoints, finite, Point.GetRawFeature,
      show Int.toNat 2 = 2 from rfl]
  have z2 : List.zipWith (fun v (point : Point ℚ) => v * finite (point.GetRawFeature 0))
      [1 / 4, 3 / 2, 2, 0] (monomialSpace ℚ).points = [1 / 4, 3 / 4, -2, 0] := by
    norm_num [monomialSpace, monomialPoints, finite, Point.GetRawFeature]
  have y1 : List.zipWith (fun v (point : Point ℚ) => v * finite (point.GetRawFeature 2))
      [1, 1, 1]
      [{ id := 2, finalized := false, probability_weight := 1.5, raw_features := [0.5, -0.5, 1] },
       { id := 3, finalized := false, probability_weight := 2.0, raw_features := [-1, 0.0, 1] },
       { id := 3, finalized := false, probability_weight := 2.0, raw_features := [-1, 0.0, 1] }] =
      [1, 1, 1] := by
    norm_num [finite, Point.GetRawFeature, show Int.toNat 2 = 2 from rfl]
  have y2 : List.zipWith (fun v (point : Point ℚ) => v * finite (point.GetRawFeature 0))
      [1, 1, 1]
      [{ id := 2, finalized := false, probability_weight := 1.5, raw_features := [0.5, -0.5, 1] },
       { id := 3, finalized := false, probability_weight := 2.0, raw_features := [-1, 0.0, 1] },
       { id := 3, finalized := false, probability_weight := 2.0, raw_features := [-1, 0.0, 1] }] =
      [1 / 2, -1, -1] := by
    norm_num [finite, Point.GetRawFeature]
  have r1 : (0 : Int) ≤ 2 ∧ Int.toNat 2 < ([0, 0, 0] : List Int).length := by decide
  have r2 : (0 : Int) ≤ 0 ∧ Int.toNat 0 < ([0, 0, 1] : List Int).length := by decide
  have m1 : List.modify (fun p : Int => p + 1) (Int.toNat 2) [0, 0, 0] = [0, 0, 1] := rfl
  have m2 : List.modify (fun p : Int => p + 1) (Int.toNat 0) [0, 0, 1] = [1, 0, 1] := rfl
  have p1 : (0 : Int) + 1 = 1 := rfl
  have p2 : (1 : Int) + 1 = 2 := rfl
  unfold MonomialLearner.Train
  rw [monomialSample_points]
  simp only [hn, hv, hm, List.length_cons, List.length_nil, List.replicate]
  rw [MonomialLearner.TrainLoop]
  simp only [monomial_round1, if_pos c1, if_pos r1, m1, z1, y1, p1]
  rw [MonomialLearner.TrainLoop]
  simp only [monomial_round2, if_pos c2, if_pos r2, m2, z2, y2, p2]
  rw [MonomialLearner.TrainLoop]
  simp only [monomial_round3, if_neg c3, List.length_cons, List.length_nil, MonomialFeature.new,
    MonomialFeature.SetComplexity, MonomialFeature.MonomialExpectations]
  norm_num [MonomialLearner.MonomialComplexity, monomialLearner]

/-- Claim C19 at the fixture of `MonomialLearnerTest` (learner
`MonomialLearner(3, 0, 0.01, 1.0)`, non-empty sample, two accepted rounds):
`Train` returns the monomial of powers (1, 0, 1) with the stored population
expectation -1/5, which is the sum over the space of
`probability_weight * FeatureMap`, namely -1, divided by the total weight 5; the
value that `ComputeUnnormalizedPopulationExpectation` would store is -1, so the
stored expectation is not the unnormalized one that the claim requires. -/
theorem MonomialLearner_Train_population_expectation :
    ∃ (f : MonomialFeature ℚ) (g : ℚ),
      (monomialLearner ℚ).Train (fun x => x) (fun x => x) (monomialSpace ℚ)
        (monomialSample ℚ) 3 = Run.ok (f, g) ∧
      f.powers = [1, 0, 1] ∧
      f.toFeature.GetUnnormalizedPopulationExpectation = -(1 / 5) ∧
      (f.toFeature.ComputeUnnormalizedPopulationExpectation
        (monomialSpace ℚ)).GetUnnormalizedPopulationExpectation = -1 ∧
      ((monomialSpace ℚ).points.map
        (fun p => p.GetProbWeight * f.toFeature.FeatureMap p)).sum = -1 ∧
      f.toFeature.GetUnnormalizedPopulationExpectation ≠
        (f.toFeature.ComputeUnnormalizedPopulationExpectation
          (monomialSpace ℚ)).GetUnnormalizedPopulationExpectation := by
  refine ⟨_, _, monomial_Train_fixture, rfl, rfl, ?_, ?_, ?_⟩
  · norm_num [Feature.ComputeUnnormalizedPopulationExpectation, MonomialFeature.toFeature,
      Feature.GetUnnormalizedPopulationExpectation, MonomialFeature.FeatureMap, monomialSpace,
      monomialPoints, Point.GetProbWeight, finite, Point.GetRawFeature, List.enum, List.enumFrom]
  · norm_num [MonomialFeature.toFeature, MonomialFeature.FeatureMap, monomialSpace,
      monomialPoints, Point.GetProbWeight, finite, Point.GetRawFeature, List.enum, List.enumFrom]
  · norm_num [Feature.ComputeUnnormalizedPopulationExpectation, MonomialFeature.toFeature,
      Feature.GetUnnormalizedPopulationExpectation, MonomialFeature.FeatureMap, monomialSpace,
      monomialPoints, Point.GetProbWeight, finite, Point.GetRawFeature, List.enum, List.enumFrom]

end MonomialFacts

/-! ## Properties of the tree model -/

section TreeFacts

variable {α : Type} [LinearOrderedField α]

/-- `AddPoint` on a node. -/
theorem AddPoint_mk (f : Int) (t v : α) (l r : Node α) (w : α) (p s : List (Point α))
    (point : Point α) :
    (Node.mk f t v l r w p s).AddPoint point =
      Node.mk f t v l r (w + point.GetProbWeight) (p ++ [point]) s := rfl

/-- `AddSample` on a node. -/
theorem AddSample_mk {β : Type} (f : Int) (t v : β) (l r : Node β) (w : β)
    (p s : List (Point β)) (point : Point β) :
    (Node.mk f t v l r w p s).AddSample point = Node.mk f t v l r w p (s ++ [point]) := rfl

/-- The loop of `GrowTree` over the points, on two nodes. -/
theorem GrowTree_points (feature_index : Int) (threshold : α) (points : List (Point α)) :
    ∀ (f1 : Int) (t1 v1 : α) (l1 r1 : Node α) (w1 : α) (p1 s1 : List (Point α))
      (f2 : Int) (t2 v2 : α) (l2 r2 : Node α) (w2 : α) (p2 s2 : List (Point α)),
      points.foldl
        (fun (children : Node α × Node α) point =>
          if point.RawFeatureLess feature_index threshold then
            (children.1.AddPoint point, children.2)
          else
            (children.1, children.2.AddPoint point))
        (Node.mk f1 t1 v1 l1 r1 w1 p1 s1, Node.mk f2 t2 v2 l2 r2 w2 p2 s2) =
      (Node.mk f1 t1 v1 l1 r1
          (w1 + ((points.filter (fun p => p.RawFeatureLess feature_index threshold)).map
            Point.GetProbWeight).sum)
          (p1 ++ points.filter (fun p => p.RawFeatureLess feature_index threshold)) s1,
        Node.mk f2 t2 v2 l2 r2
          (w2 + ((points.filter (fun p => !p.RawFeatureLess feature_index threshold)).map
            Point.GetProbWeight).sum)
          (p2 ++ points.filter (fun p => !p.RawFeatureLess feature_index threshold)) s2) := by
  induction points with
  | nil => intros; simp
  | cons p rest ih =>
    intros
    by_cases h : p.RawFeatureLess feature_index threshold = true
    · simp only [List.foldl_cons, h, if_true, AddPoint_mk, ih]
      simp [h, add_assoc]
    · simp only [Bool.not_eq_true] at h
      simp only [List.foldl_cons, h, AddPoint_mk, ih, Bool.false_eq_true, if_false]
      simp [h, add_assoc]

/-- The loop of `GrowTree` over the sample points, on two nodes. -/
theorem GrowTree_samples (feature_index : Int) (threshold : α) (samples : List (Point α)) :
    ∀ (f1 : Int) (t1 v1 : α) (l1 r1 : Node α) (w1 : α) (p1 s1 : List (Point α))
      (f2 : Int) (t2 v2 : α) (l2 r2 : Node α) (w2 : α) (p2 s2 : List (Point α)),
      samples.foldl
        (fun (children : Node α × Node α) point =>
          if point.RawFeatureLess feature_index threshold then
            (children.1.AddSample point, children.2)
          else
            (children.1, children.2.AddSample point))
        (Node.mk f1 t1 v1 l1 r1 w1 p1 s1, Node.mk f2 t2 v2 l2 r2 w2 p2 s2) =
      (Node.mk f1 t1 v1 l1 r1 w1 p1
          (s1 ++ samples.filter (fun p => p.RawFeatureLess feature_index threshold)),
        Node.mk f2 t2 v2 l2 r2 w2 p2
          (s2 ++ samples.filter (fun p => !p.RawFeatureLess feature_index threshold))) := by
  induction samples with
  | nil => intros; simp
  | cons p rest ih =>
    intros
    by_cases h : p.RawFeatureLess feature_index threshold = true
    · simp only [List.foldl_cons, h, if_true, AddSample_mk, ih]
      simp [h]
    · simp only [Bool.not_eq_true] at h
      simp only [List.foldl_cons, h, AddSample_mk, ih, Bool.false_eq_true, if_false]
      simp [h]

/-- `GrowTree` on a leaf: the node gets the threshold and the feature, hands its
points and sample points to two new leaves, and keeps its value. -/
theorem GrowTree_leaf (feature : Int) (threshold0 value weight : α)
    (points samples : List (Point α)) (threshold : α) (feature_index left_val : Int) :
    TreeLearner.GrowTree (Node.mk feature threshold0 value Node.null Node.null weight points
      samples) threshold feature_index left_val =
    Node.mk feature_index threshold value
      (Node.mk 0 0 (left_val : α) Node.null Node.null
        (0 + ((points.filter (fun p => p.RawFeatureLess feature_index threshold)).map
          Point.GetProbWeight).sum)
        ([] ++ points.filter (fun p => p.RawFeatureLess feature_index threshold))
        ([] ++ samples.filter (fun p => p.RawFeatureLess feature_index threshold)))
      (Node.mk 0 0 ((1 - left_val : Int) : α) Node.null Node.null
        (0 + ((points.filter (fun p => !p.RawFeatureLess feature_index threshold)).map
          Point.GetProbWeight).sum)
        ([] ++ points.filter (fun p => !p.RawFeatureLess feature_index threshold))
        ([] ++ samples.filter (fun p => !p.RawFeatureLess feature_index threshold)))
      0 [] [] := by
  simp only [TreeLearner.GrowTree, Node.new, Node.SetValue, Node.Points, Node.Samples,
    GrowTree_points, GrowTree_samples, Node.SetThreshold, Node.SetFeature, Node.SetLeftChild,
    Node.SetRightChild, Node.ClearPoints, Node.ClearSamples]

/-- The first loop of `TreeLearner::Train`: the points of the space go to the
root. -/
theorem foldl_AddPoint (points : List (Point α)) :
    ∀ (f : Int) (t v : α) (l r : Node α) (w : α) (p s : List (Point α)),
      points.foldl Node.AddPoint (Node.mk f t v l r w p s) =
        Node.mk f t v l r (w + (points.map Point.GetProbWeight).sum) (p ++ points) s := by
  induction points with
  | nil => intros; simp
  | cons x rest ih =>
    intros
    simp only [List.foldl_cons, AddPoint_mk, ih, List.map_cons, List.sum_cons, add_assoc,
      List.append_assoc, List.singleton_append]

/-- The second loop of `TreeLearner::Train`: the sample goes to the root. -/
theorem foldl_AddSample {β : Type} (samples : List (Point β)) :
    ∀ (f : Int) (t v : β) (l r : Node β) (w : β) (p s : List (Point β)),
      samples.foldl Node.AddSample (Node.mk f t v l r w p s) =
        Node.mk f t v l r w p (s ++ samples) := by
  induction samples with
  | nil => intros; simp
  | cons x rest ih =>
    intros
    simp only [List.foldl_cons, AddSample_mk, ih, List.append_assoc, List.singleton_append]

/-- The root that `TreeLearner::Train` builds before its loop. -/
theorem Train_root (points examples : List (Point α)) :
    (examples.foldl Node.AddSample (points.foldl Node.AddPoint Node.new)).SetValue 0 =
      Node.mk 0 0 0 Node.null Node.null (0 + (points.map Point.GetProbWeight).sum)
        ([] ++ points) ([] ++ examples) := by
  simp only [Node.new, foldl_AddPoint, foldl_AddSample, Node.SetValue]

end TreeFacts

section PathFacts

variable {α : Type}

/-- The empty path. -/
theorem sub_nil (n : Node α) : n.sub [] = n := by
  cases n <;> rfl

/-- A write at the empty path. -/
theorem modify_nil (g : Node α → Node α) (n : Node α) : n.modify g [] = g n := by
  cases n <;> rfl

/-- No path leads out of `NULL`. -/
theorem sub_null (p : List Bool) : (Node.null : Node α).sub p = Node.null := by
  cases p <;> rfl

/-- A path followed by a path. -/
theorem sub_append (n : Node α) (p q : List Bool) : n.sub (p ++ q) = (n.sub p).sub q := by
  induction p generalizing n with
  | nil => rw [sub_nil, List.nil_append]
  | cons b p ih =>
    cases n with
    | null => simp [Node.sub, sub_null]
    | mk f t v l r w ps ss =>
      simp only [List.cons_append, Node.sub]
      split_ifs <;> exact ih _

/-- A leaf is not `NULL`, and its children are. -/
theorem leaf_eq (n : Node α) (h : n.IsLeaf = some true) :
    ∃ f t v w ps ss, n = Node.mk f t v Node.null Node.null w ps ss := by
  cases n with
  | null => simp [Node.IsLeaf] at h
  | mk f t v l r w ps ss =>
    cases l <;> cases r <;> simp [Node.IsLeaf, Node.isNull] at h
    exact ⟨f, t, v, w, ps, ss, rfl⟩

/-- Below a leaf there is no node. -/
theorem sub_leaf_cons (n : Node α) (h : n.IsLeaf = some true) (b : Bool) (p : List Bool) :
    n.sub (b :: p) = Node.null := by
  obtain ⟨f, t, v, w, ps, ss, rfl⟩ := leaf_eq n h
  cases b <;> simp [Node.sub, sub_null]

/-- `NULL` is not a leaf. -/
theorem null_not_leaf : (Node.null : Node α).IsLeaf ≠ some true := by
  simp [Node.IsLeaf]

/-- A write at a leaf leaves every other leaf where it is. -/
theorem sub_modify_other (g : Node α → Node α) (p : List Bool) :
    ∀ (n : Node α) (q : List Bool), p ≠ q → (n.sub p).IsLeaf = some true →
      (n.sub q).IsLeaf = some true → (n.modify g p).sub q = n.sub q := by
  induction p with
  | nil =>
    intro n q hne hp hq
    rw [sub_nil] at hp
    cases q with
    | nil => exact absurd rfl hne
    | cons c q =>
      rw [sub_leaf_cons n hp] at hq
      exact absurd hq null_not_leaf
  | cons b p ih =>
    intro n q hne hp hq
    cases q with
    | nil =>
      rw [sub_nil] at hq
      rw [sub_leaf_cons n hq] at hp
      exact absurd hp null_not_leaf
    | cons c q =>
      cases n with
      | null => exact absurd hp (by simp [Node.sub, Node.IsLeaf])
      | mk f t v l r w ps ss =>
        cases b <;> cases c <;> simp only [Node.sub, Node.modify, Bool.false_eq_true, if_false,
          if_true] at hp hq ⊢
        · exact ih l q (fun h => hne (by rw [h])) hp hq
        · exact ih r q (fun h => hne (by rw [h])) hp hq

/-- A write at a leaf changes the leaf. -/
theorem sub_modify_self (g : Node α → Node α) (p : List Bool) :
    ∀ n : Node α, (n.sub p).IsLeaf = some true → (n.modify g p).sub p = g (n.sub p) := by
  induction p with
  | nil =>
    intro n _
    rw [modify_nil, sub_nil, sub_nil]
  | cons b p ih =>
    intro n hp
    cases n with
    | null => exact absurd hp (by simp [Node.sub, Node.IsLeaf])
    | mk f t v l r w ps ss =>
      cases b <;> simp only [Node.sub, Node.modify, Bool.false_eq_true, if_false, if_true] at hp ⊢
      · exact ih l hp
      · exact ih r hp

end PathFacts

section HoldsFacts

variable {α : Type} [LinearOrderedField α]

/-- A tree that holds points is not `NULL`. -/
theorem Holds_isNull (n : Node α) (P S : List (Point α)) (h : n.Holds P S) :
    n.isNull = false := by
  cases n with
  | null => exact absurd h (by simp [Node.Holds])
  | mk f t v l r w ps ss => rfl

/-- `GrowTree` at a leaf of a tree that holds `P` and `S` gives a tree that holds
them. -/
theorem Holds_modify (threshold : α) (feature_index left_val : Int) (p : List Bool) :
    ∀ (n : Node α) (P S : List (Point α)), n.Holds P S → (n.sub p).IsLeaf = some true →
      (n.modify (fun m => TreeLearner.GrowTree m threshold feature_index left_val) p).Holds
        P S := by
  induction p with
  | nil =>
    intro n P S h hp
    rw [sub_nil] at hp
    obtain ⟨f, t, v, w, ps, ss, rfl⟩ := leaf_eq n hp
    rw [modify_nil, GrowTree_leaf]
    simp only [Node.Holds, Node.isNull, Bool.and_self, if_true] at h
    obtain ⟨h1, h2, _⟩ := h
    subst h1
    subst h2
    simp [Node.Holds, Node.isNull]
  | cons b p ih =>
    intro n P S h hp
    cases n with
    | null => exact absurd h (by simp [Node.Holds])
    | mk f t v l r w ps ss =>
      by_cases hleaf : (l.isNull && r.isNull) = true
      · rw [sub_leaf_cons _ (by simp [Node.IsLeaf, hleaf])] at hp
        exact absurd hp null_not_leaf
      · simp only [Node.Holds, hleaf, if_false, Bool.false_eq_true] at h
        cases b
        · simp only [Node.sub, Bool.false_eq_true, if_false] at hp
          have hl := ih l _ _ h.1 hp
          simp only [Node.modify, Bool.false_eq_true, if_false, Node.Holds,
            Holds_isNull _ _ _ hl, Bool.false_and]
          exact ⟨hl, h.2⟩
        · simp only [Node.sub, if_true] at hp
          have hr := ih r _ _ h.2 hp
          simp only [Node.modify, if_true, Node.Holds, Holds_isNull _ _ _ hr, Bool.and_false,
            Bool.false_eq_true, if_false]
          exact ⟨h.1, hr⟩

/-- `GrowTree` at a leaf adds two nodes to the tree. -/
theorem count_modify (threshold : α) (feature_index left_val : Int) (p : List Bool) :
    ∀ n : Node α, (n.sub p).IsLeaf = some true →
      (n.modify (fun m => TreeLearner.GrowTree m threshold feature_index left_val) p).count =
        n.count + 2 := by
  induction p with
  | nil =>
    intro n hp
    rw [sub_nil] at hp
    obtain ⟨f, t, v, w, ps, ss, rfl⟩ := leaf_eq n hp
    rw [modify_nil, GrowTree_leaf]
    simp [Node.count]
  | cons b p ih =>
    intro n hp
    cases n with
    | null => exact absurd hp (by simp [Node.sub, Node.IsLeaf])
    | mk f t v l r w ps ss =>
      cases b <;> simp only [Node.sub, Node.modify, Bool.false_eq_true, if_false, if_true,
        Node.count] at hp ⊢
      · rw [ih l hp]
        omega
      · rw [ih r hp]
        omega

/-- `GrowTree` at a leaf adds one split to the tree. -/
theorem splits_modify (threshold : α) (feature_index left_val : Int) (p : List Bool) :
    ∀ (n : Node α) (P S : List (Point α)), n.Holds P S → (n.sub p).IsLeaf = some true →
      (n.modify (fun m => TreeLearner.GrowTree m threshold feature_index left_val) p).splits =
        n.splits + 1 := by
  induction p with
  | nil =>
    intro n P S _ hp
    rw [sub_nil] at hp
    obtain ⟨f, t, v, w, ps, ss, rfl⟩ := leaf_eq n hp
    rw [modify_nil, GrowTree_leaf]
    simp [Node.splits, Node.isNull]
  | cons b p ih =>
    intro n P S h hp
    cases n with
    | null => exact absurd h (by simp [Node.Holds])
    | mk f t v l r w ps ss =>
      by_cases hleaf : (l.isNull && r.isNull) = true
      · rw [sub_leaf_cons _ (by simp [Node.IsLeaf, hleaf])] at hp
        exact absurd hp null_not_leaf
      · simp only [Node.Holds, hleaf, if_false, Bool.false_eq_true] at h
        cases b
        · simp only [Node.sub, Bool.false_eq_true, if_false] at hp
          have hl := Holds_modify threshold feature_index left_val p l _ _ h.1 hp
          simp only [Node.modify, Bool.false_eq_true, if_false, Node.splits,
            Holds_isNull _ _ _ hl, Holds_isNull _ _ _ h.1, Bool.false_and, ih l _ _ h.1 hp]
          omega
        · simp only [Node.sub, if_true] at hp
          have hr := Holds_modify threshold feature_index left_val p r _ _ h.2 hp
          simp only [Node.modify, if_true, Node.splits, Holds_isNull _ _ _ hr,
            Holds_isNull _ _ _ h.2, Bool.and_false, ih r _ _ h.2 hp]
          omega

/-- A tree that holds points has one node more than twice its splits. -/
theorem count_eq_splits (n : Node α) :
    ∀ P S : List (Point α), n.Holds P S → n.count = 1 + 2 * n.splits := by
  induction n with
  | null => intro P S h; exact absurd h (by simp [Node.Holds])
  | mk f t v l r w ps ss ihl ihr =>
    intro P S h
    by_cases hleaf : (l.isNull && r.isNull) = true
    · have hl : l = Node.null := by
        cases l
        · rfl
        · simp [Node.isNull] at hleaf
      have hr : r = Node.null := by
        cases r
        · rfl
        · simp [Node.isNull] at hleaf
      subst hl
      subst hr
      simp [Node.count, Node.splits, Node.isNull]
    · simp only [Node.Holds, hleaf, if_false, Bool.false_eq_true] at h
      simp only [Node.count, Node.splits, hleaf, if_false, Bool.false_eq_true,
        ihl _ _ h.1, ihr _ _ h.2]
      omega

end HoldsFacts

section SumFacts

variable {α : Type} [LinearOrderedField α]

/-- A sum over a list splits along a test. -/
theorem sum_filter_split {β : Type} (c : β → Bool) (g h k : β → α) (l : List β)
    (hpos : ∀ x, c x = true → g x = h x) (hneg : ∀ x, c x = false → g x = k x) :
    (l.map g).sum = ((l.filter c).map h).sum + ((l.filter (fun x => !c x)).map k).sum := by
  induction l with
  | nil => simp
  | cons x rest ih =>
    cases hx : c x
    · simp [hx, ih, hneg x hx]
      ring
    · simp [hx, ih, hpos x hx]
      ring

/-- The length of a list splits along a test. -/
theorem length_filter_split {β : Type} (c : β → Bool) (l : List β) :
    ((l.filter c).length : α) + ((l.filter (fun x => !c x)).length : α) = (l.length : α) := by
  induction l with
  | nil => simp
  | cons x rest ih =>
    cases hx : c x
    · simp [hx, ← ih]
      ring
    · simp [hx, ← ih]
      ring

/-- The accumulation `expectation += g(p)` from 0 is the sum. -/
theorem foldl_add_eq_sum {β : Type} (g : β → α) (l : List β) (acc : α) :
    l.foldl (fun expectation p => expectation + g p) acc = acc + (l.map g).sum := by
  induction l generalizing acc with
  | nil => simp
  | cons x rest ih => simp [ih, add_assoc]

/-- The accumulation `count++; sum += g(e)` gives the sum and the length. -/
theorem foldl_pair_eq {β : Type} (g : β → α) (l : List β) (acc : α × Nat) :
    l.foldl (fun (st : α × Nat) e => (st.1 + g e, st.2 + 1)) acc =
      (acc.1 + (l.map g).sum, acc.2 + l.length) := by
  induction l generalizing acc with
  | nil => simp
  | cons x rest ih =>
    simp only [List.foldl_cons, ih, List.map_cons, List.sum_cons, List.length_cons]
    ext
    · simp [add_assoc]
    · simp
      omega

/-- In a tree that holds `P` and `S`, the sums over the leaves are the sums over
`P` and `S` of the value of the leaf that the walk of `FeatureMap` reaches. -/
theorem leafSums_eq (n : Node α) :
    ∀ P S : List (Point α), n.Holds P S →
      n.leafSums =
        ((P.map (fun p => p.GetProbWeight * finite (TreeFeature.walk n p))).sum,
          (S.map (fun p => finite (TreeFeature.walk n p))).sum, (S.length : α)) := by
  induction n with
  | null => intro P S h; exact absurd h (by simp [Node.Holds])
  | mk f t v l r w ps ss ihl ihr =>
    intro P S h
    by_cases hleaf : (l.isNull && r.isNull) = true
    · simp only [Node.Holds, hleaf, if_true] at h
      obtain ⟨_, h2, h3⟩ := h
      subst h2
      simp only [Node.leafSums, hleaf, if_true, TreeFeature.walk, finite, Option.getD_some, h3,
        List.sum_map_mul_right, List.map_const', List.sum_replicate, nsmul_eq_mul]
      refine Prod.ext (mul_comm _ _) (Prod.ext (mul_comm _ _) rfl)
    · simp only [Node.Holds, hleaf, if_false, Bool.false_eq_true] at h
      simp only [Node.leafSums, hleaf, if_false, Bool.false_eq_true, ihl _ _ h.1, ihr _ _ h.2]
      refine Prod.ext ?_ (Prod.ext ?_ ?_)
      · exact (sum_filter_split (fun p => p.RawFeatureLess f t)
          (fun p => p.GetProbWeight * finite (TreeFeature.walk (Node.mk f t v l r w ps ss) p))
          (fun p => p.GetProbWeight * finite (TreeFeature.walk l p))
          (fun p => p.GetProbWeight * finite (TreeFeature.walk r p)) P
          (fun x hx => by simp only [TreeFeature.walk, hleaf, hx, if_true, if_false,
            Bool.false_eq_true])
          (fun x hx => by simp only [TreeFeature.walk, hleaf, hx, if_true, if_false,
            Bool.false_eq_true])).symm
      · exact (sum_filter_split (fun p => p.RawFeatureLess f t)
          (fun p => finite (TreeFeature.walk (Node.mk f t v l r w ps ss) p))
          (fun p => finite (TreeFeature.walk l p))
          (fun p => finite (TreeFeature.walk r p)) S
          (fun x hx => by simp only [TreeFeature.walk, hleaf, hx, if_true, if_false,
            Bool.false_eq_true])
          (fun x hx => by simp only [TreeFeature.walk, hleaf, hx, if_true, if_false,
            Bool.false_eq_true])).symm
      · exact @length_filter_split α _ (Point α) (fun p => p.RawFeatureLess f t) S

end SumFacts

section QueueFacts

/-- The loop of `ComputeTreeExpectations` returns, with the sums over the leaves
of the trees in its queue added to its sums, when every tree in the queue holds
points. -/
theorem expectationsLoop_eq {α : Type} [LinearOrderedField α] (q : List (Node α))
    (sums : α × α × α) :
    (∀ n ∈ q, ∃ P S, n.Holds P S) →
    TreeFeature.expectationsLoop q sums =
      some (sums.1 + (q.map (fun n => n.leafSums.1)).sum,
        sums.2.1 + (q.map (fun n => n.leafSums.2.1)).sum,
        sums.2.2 + (q.map (fun n => n.leafSums.2.2)).sum) := by
  induction q, sums using TreeFeature.expectationsLoop.induct with
  | case1 sums =>
    intro _
    simp [TreeFeature.expectationsLoop]
  | case2 tail sums =>
    intro h
    obtain ⟨P, S, hn⟩ := h Node.null (List.mem_cons_self _ _)
    exact absurd hn (by simp [Node.Holds])
  | case3 f t v l r w ps ss q sums hleaf ih =>
    intro h
    rw [TreeFeature.expectationsLoop, if_pos hleaf,
      ih (fun n hn => h n (List.mem_cons_of_mem _ hn))]
    simp only [Node.leafSums, hleaf, if_true, List.map_cons, List.sum_cons, add_assoc]
  | case4 f t v l r w ps ss q sums hleaf ih =>
    intro h
    have hroot := h _ (List.mem_cons_self _ _)
    obtain ⟨P, S, hn⟩ := hroot
    simp only [Node.Holds, hleaf, if_false, Bool.false_eq_true] at hn
    rw [TreeFeature.expectationsLoop, if_neg hleaf, ih (by
      intro n hn1
      rcases List.mem_append.1 hn1 with hq | hc
      · exact h n (List.mem_cons_of_mem _ hq)
      · simp only [List.mem_cons, List.mem_singleton, List.not_mem_nil, or_false] at hc
        rcases hc with rfl | rfl
        · exact ⟨_, _, hn.1⟩
        · exact ⟨_, _, hn.2⟩)]
    simp only [Node.leafSums, hleaf, if_false, Bool.false_eq_true, List.map_cons, List.sum_cons,
      List.map_append, List.sum_append, List.map_nil, List.sum_nil, add_zero]
    refine congrArg some (Prod.ext ?_ (Prod.ext ?_ ?_)) <;> simp only <;> ring

/-- The loop of `TreeSize` returns, with the number of nodes of the trees in its
queue added to its count, when no pointer in the queue is `NULL`. -/
theorem sizeLoop_eq {α : Type} (q : List (Node α)) (tree_size : Int) :
    (∀ n ∈ q, n.isNull = false) →
    TreeFeature.sizeLoop q tree_size =
      some (tree_size + ((q.map (fun n => n.count)).sum : Nat)) := by
  induction q, tree_size using TreeFeature.sizeLoop.induct with
  | case1 tree_size =>
    intro _
    simp [TreeFeature.sizeLoop]
  | case2 tail tree_size =>
    intro h
    exact absurd (h Node.null (List.mem_cons_self _ _)) (by simp [Node.isNull])
  | case3 f t v l r w ps ss q tree_size ih =>
    intro h
    rw [TreeFeature.sizeLoop, ih (by
      intro n hn1
      rcases List.mem_append.1 hn1 with hq | hc
      · exact h n (List.mem_cons_of_mem _ hq)
      · simp only [Node.pushed, List.mem_append] at hc
        rcases hc with hc | hc
        · split_ifs at hc with hl
          · simp at hc
          · rw [List.mem_singleton.1 hc]
            simpa using hl
        · split_ifs at hc with hr
          · simp at hc
          · rw [List.mem_singleton.1 hc]
            simpa using hr)]
    have hpushed : ((Node.pushed l r).map (fun n => n.count)).sum = l.count + r.count := by
      cases l <;> cases r <;> simp [Node.pushed, Node.isNull, Node.count]
    simp only [List.map_append, List.sum_append, hpushed, List.map_cons, List.sum_cons,
      Node.count]
    congr 1
    push_cast
    ring

end QueueFacts

section TrainLoopFacts

variable {α : Type} [LinearOrderedField α] [FloorRing α]

/-- One pass through the body of the loop of `TreeLearner::Train` keeps what the
loop relies on: the tree holds the points and the sample, the queue holds
distinct leaves, and `tree_size` is the number of nodes; the pass either splits
one leaf, adding two nodes, or leaves the tree as it is. -/
theorem TrainStep_sound (sqrt log : α → α) (normalizer : α) (sample_size : Int)
    (st st1 : TreeLearner.State α) (node : List Bool) (q : List (List Bool))
    (P S : List (Point α)) (hH : st.root.Holds P S) (hN : (node :: q).Nodup)
    (hL : ∀ p ∈ node :: q, (st.root.sub p).IsLeaf = some true)
    (hC : st.tree_size = (st.root.count : Int))
    (hstep : TreeLearner.TrainStep sqrt log normalizer sample_size st node q = some st1) :
    st1.root.Holds P S ∧ st1.q.Nodup ∧ (∀ p ∈ st1.q, (st1.root.sub p).IsLeaf = some true) ∧
      st1.tree_size = (st1.root.count : Int) ∧
      ((st1.root.splits = st.root.splits + 1 ∧ st1.tree_size = st.tree_size + 2) ∨
        (st1.root = st.root ∧ st1.tree_size = st.tree_size)) := by
  have hnode := hL node (List.mem_cons_self _ _)
  have hNq : q.Nodup := (List.nodup_cons.1 hN).2
  have hnq : node ∉ q := (List.nodup_cons.1 hN).1
  unfold TreeLearner.TrainStep at hstep
  split at hstep
  · exact absurd hstep (by simp)
  · rename_i best_gradient best L1 _
    split_ifs at hstep with hsplit
    · split at hstep
      · exact absurd hstep (by simp)
      · rename_i best_threshold best_feature_index best_left_val best_diff
        have hst1 := (Option.some.inj hstep).symm
        subst hst1
        simp only
        refine ⟨Holds_modify _ _ _ node _ _ _ hH hnode, ?_, ?_, ?_, Or.inl ⟨?_, trivial⟩⟩
        · rw [List.nodup_append]
          refine ⟨hNq, by simp, ?_⟩
          intro a ha hb
          simp only [List.mem_cons, List.mem_singleton, List.not_mem_nil, or_false] at hb
          have hleafa := hL a (List.mem_cons_of_mem _ ha)
          rcases hb with rfl | rfl
          · rw [sub_append, sub_leaf_cons _ hnode] at hleafa
            exact absurd hleafa null_not_leaf
          · rw [sub_append, sub_leaf_cons _ hnode] at hleafa
            exact absurd hleafa null_not_leaf
        · intro p hp
          rcases List.mem_append.1 hp with hpq | hpn
          · rw [sub_modify_other _ node _ p (fun h => hnq (h ▸ hpq)) hnode
              (hL p (List.mem_cons_of_mem _ hpq))]
            exact hL p (List.mem_cons_of_mem _ hpq)
          · simp only [List.mem_cons, List.mem_singleton, List.not_mem_nil, or_false] at hpn
            obtain ⟨f, t, v, w, ps, ss, hn⟩ := leaf_eq _ hnode
            rcases hpn with rfl | rfl
            · rw [sub_append, sub_modify_self _ node _ hnode, hn, GrowTree_leaf]
              simp [Node.sub, Node.IsLeaf, Node.isNull, sub_nil]
            · rw [sub_append, sub_modify_self _ node _ hnode, hn, GrowTree_leaf]
              simp [Node.sub, Node.IsLeaf, Node.isNull, sub_nil]
        · rw [count_modify _ _ _ node _ hnode, hC]
          push_cast
          ring
        · exact splits_modify _ _ _ node _ _ _ hH hnode
    · have hst1 := (Option.some.inj hstep).symm
      subst hst1
      exact ⟨hH, hNq, fun p hp => hL p (List.mem_cons_of_mem _ hp), hC, Or.inr ⟨rfl, rfl⟩⟩

/-- The loop of `TreeLearner::Train` keeps what `TrainStep_sound` lists, and
ends with an empty queue. -/
theorem TrainLoop_sound (sqrt log : α → α) (normalizer : α) (sample_size : Int)
    (P S : List (Point α)) (bound : Nat) :
    ∀ st st1 : TreeLearner.State α, st.root.Holds P S → st.q.Nodup →
      (∀ p ∈ st.q, (st.root.sub p).IsLeaf = some true) →
      st.tree_size = (st.root.count : Int) →
      TreeLearner.TrainLoop sqrt log normalizer sample_size bound st = Run.ok st1 →
      st1.root.Holds P S ∧ st1.tree_size = (st1.root.count : Int) := by
  induction bound with
  | zero =>
    intro st st1 hH _ _ hC hrun
    unfold TreeLearner.TrainLoop at hrun
    split at hrun
    · cases hrun
      exact ⟨hH, hC⟩
    · exact absurd hrun (by simp)
  | succ bound ih =>
    intro st st1 hH hN hL hC hrun
    unfold TreeLearner.TrainLoop at hrun
    split at hrun
    · cases hrun
      exact ⟨hH, hC⟩
    · rename_i node q hq
      simp only at hrun
      split at hrun
      · exact absurd hrun (by simp)
      · rename_i st2 hstep
        rw [hq] at hN hL
        obtain ⟨h1, h2, h3, h4, _⟩ :=
          TrainStep_sound sqrt log normalizer sample_size st st2 node q P S hH hN hL hC hstep
        exact ih st2 st1 h1 h2 h3 h4 hrun

/-- What a returning call of `TreeLearner::Train` has computed: the last state of
its loop, with a tree that holds the space and the sample and has `tree_size`
nodes, and the feature built from that state. -/
theorem Train_ok (sqrt log : α → α) (L : TreeLearner α) (space : Space α) (sample : Sample α)
    (examples : List (Point α)) (bound : Nat) (f : TreeFeature α) (g : α) (L1 : TreeLearner α)
    (hres : Sample.points space sample = some examples)
    (hrun : L.Train sqrt log space sample bound = Run.ok (f, g, L1)) :
    ∃ st : TreeLearner.State α,
      st.root.Holds space.points examples ∧ st.tree_size = (st.root.count : Int) ∧
      f = { root := st.root,
            complexity := st.learner.TreeComplexity sqrt log st.tree_size (examples.length : Int),
            sample_expectation := st.root.leafSums.2.1 / st.root.leafSums.2.2,
            population_expectation := st.root.leafSums.1 } ∧
      g = st.old_gradient ∧ L1 = st.learner := by
  unfold TreeLearner.Train at hrun
  rw [hres] at hrun
  simp only [Train_root, Node.GetPopulationWeight] at hrun
  split at hrun
  · rename_i st hloop
    have hsound := TrainLoop_sound sqrt log _ _ space.points examples bound _ st
      (by simp [Node.Holds, Node.isNull]) (by simp)
      (by simp [sub_nil, Node.IsLeaf, Node.isNull]) (by simp [Node.count]) hloop
    have hexp := expectationsLoop_eq [st.root] (0, 0, 0) (by
      intro n hn
      rw [List.mem_singleton.1 hn]
      exact ⟨_, _, hsound.1⟩)
    simp only [TreeFeature.ComputeTreeExpectations, TreeFeature.new, hexp, List.map_cons,
      List.map_nil, List.sum_cons, List.sum_nil, add_zero, zero_add] at hrun
    refine ⟨st, hsound.1, hsound.2, ?_⟩
    simp only [TreeFeature.SetComplexity, Run.ok.injEq, Prod.mk.injEq] at hrun
    exact ⟨hrun.1.symm, hrun.2.1.symm, hrun.2.2.symm⟩
  · exact absurd hrun (by simp)
  · exact absurd hrun (by simp)

end TrainLoopFacts

/-! ## `TreeLearner::Train` does not depend on what lookups wrote to the learner -/

section AgreeFacts

variable {α : Type} [LinearOrderedField α]

/-- Every state agrees with itself. -/
theorem Agree_refl (L : TreeLearner α) : L.Agree L := ⟨rfl, rfl, rfl, fun _ _ => rfl⟩

/-- Agreement is symmetric. -/
theorem Agree_symm {L L1 : TreeLearner α} (h : L.Agree L1) : L1.Agree L :=
  ⟨h.1.symm, h.2.1.symm, h.2.2.1.symm, fun i v => (h.2.2.2 i v).symm⟩

/-- Agreement is transitive. -/
theorem Agree_trans {L L1 L2 : TreeLearner α} (h : L.Agree L1) (h1 : L1.Agree L2) :
    L.Agree L2 :=
  ⟨h.1.trans h1.1, h.2.1.trans h1.2.1, h.2.2.1.trans h1.2.2.1,
    fun i v => (h.2.2.2 i v).trans (h1.2.2.2 i v)⟩

/-- A key inserted into a map that did not hold it is found, and no other key is
affected. -/
theorem mapFind_mapInsert {β : Type} (m : List (α × β)) (k : α) (x : β) (u : α)
    (h : mapFind m k = none) :
    mapFind (mapInsert m k x) u = if u = k then some x else mapFind m u := by
  induction m with
  | nil =>
    simp only [mapInsert, mapFind]
    by_cases huk : u = k
    · simp [huk]
    · have hku : ¬ k = u := fun h => huk h.symm
      simp [huk, hku]
  | cons e rest ih =>
    simp only [mapFind] at h
    split_ifs at h with hek
    have hrest := ih h
    simp only [mapInsert]
    split_ifs with hlt huk huk
    · simp [mapFind, huk]
    · have hku : ¬ k = u := fun h => huk h.symm
      simp [mapFind, hku]
    · subst huk
      simp [mapFind, hek, hrest]
    · simp [mapFind, hrest, huk]

/-- The learner after the insertion of a missing key with value 0 agrees with the
learner before. -/
theorem Agree_insert (L : TreeLearner α) (i : Nat) (m : List (α × α)) (v : α)
    (hm : L.value_to_thresholds[i]? = some m) (hv : mapFind m v = none) :
    L.Agree { L with value_to_thresholds := L.value_to_thresholds.set i (mapInsert m v 0) } := by
  refine ⟨rfl, rfl, rfl, fun j u => ?_⟩
  simp only [TreeLearner.lookup, List.getElem?_set]
  by_cases hij : i = j
  · subst hij
    have hlt : i < L.value_to_thresholds.length := by
      by_contra hc
      rw [List.getElem?_eq_none (not_lt.1 hc)] at hm
      exact absurd hm (by simp)
    simp only [if_true, hlt, hm, Option.map_some', mapFind_mapInsert m v 0 u hv]
    by_cases huv : u = v
    · subst huv
      simp [hv]
    · simp [huv]
  · simp [hij]

/-- What a lookup returns: the answer of the state, and a state that agrees. -/
theorem thresholdOf_spec (L : TreeLearner α) (index : Int) (value : Option α) (threshold : α)
    (L1 : TreeLearner α) (h : L.thresholdOf index value = some (threshold, L1)) :
    L.Agree L1 ∧ 0 ≤ index ∧ ∃ v, value = some v ∧ L.lookup index.toNat v = some threshold := by
  unfold TreeLearner.thresholdOf at h
  cases value with
  | none => exact absurd h (by simp)
  | some v =>
    simp only at h
    split_ifs at h with hi
    cases hm : L.value_to_thresholds[index.toNat]? with
    | none =>
      rw [hm] at h
      exact absurd h (by simp)
    | some m =>
      rw [hm] at h
      simp only at h
      cases hv : mapFind m v with
      | none =>
        rw [hv] at h
        simp only [Option.some.injEq, Prod.mk.injEq] at h
        obtain ⟨h1, h2⟩ := h
        subst h1
        subst h2
        exact ⟨Agree_insert L _ m v hm hv, hi, v, rfl, by simp [TreeLearner.lookup, hm, hv]⟩
      | some t =>
        rw [hv] at h
        simp only [Option.some.injEq, Prod.mk.injEq] at h
        obtain ⟨h1, h2⟩ := h
        subst h1
        subst h2
        exact ⟨Agree_refl L, hi, v, rfl, by simp [TreeLearner.lookup, hm, hv]⟩

/-- A lookup returns whenever the state has an answer. -/
theorem thresholdOf_total (L : TreeLearner α) (index : Int) (v threshold : α)
    (hi : 0 ≤ index) (h : L.lookup index.toNat v = some threshold) :
    ∃ L1, L.thresholdOf index (some v) = some (threshold, L1) := by
  unfold TreeLearner.lookup at h
  unfold TreeLearner.thresholdOf
  simp only [if_pos hi]
  cases hm : L.value_to_thresholds[index.toNat]? with
  | none =>
    rw [hm] at h
    exact absurd h (by simp)
  | some m =>
    rw [hm] at h
    simp only [Option.map_some', Option.some.injEq] at h
    cases hv : mapFind m v with
    | none =>
      rw [hv] at h
      simp only [Option.getD_none] at h
      subst h
      simp only [hv]
      exact ⟨_, rfl⟩
    | some t =>
      rw [hv] at h
      simp only [Option.getD_some] at h
      subst h
      simp only [hv]
      exact ⟨_, rfl⟩

/-- A lookup leaves a state that agrees with the state before, and it gives the
same threshold from every state that agrees. -/
theorem thresholdOf_agree (L L2 : TreeLearner α) (hA : L.Agree L2) (index : Int)
    (value : Option α) (threshold : α) (L1 : TreeLearner α)
    (h : L.thresholdOf index value = some (threshold, L1)) :
    L.Agree L1 ∧ ∃ L3, L2.thresholdOf index value = some (threshold, L3) ∧ L2.Agree L3 := by
  obtain ⟨h1, hi, v, rfl, hl⟩ := thresholdOf_spec L index value threshold L1 h
  rw [hA.2.2.2] at hl
  obtain ⟨L3, h3⟩ := thresholdOf_total L2 index v threshold hi hl
  exact ⟨h1, L3, h3, (thresholdOf_spec L2 index _ threshold L3 h3).1⟩

/-- The first loop of `BuildThresholdToWeightsMap` from two states that agree. -/
theorem addPoints_agree (index : Int) (points : List (Point α)) :
    ∀ (m r : List (α × (α × Int))) (L L2 L1 : TreeLearner α), L.Agree L2 →
      TreeLearner.addPoints index points m L = some (r, L1) →
      L.Agree L1 ∧ ∃ L3, TreeLearner.addPoints index points m L2 = some (r, L3) ∧
        L2.Agree L3 := by
  induction points with
  | nil =>
    intro m r L L2 L1 hA h
    simp only [TreeLearner.addPoints, Option.some.injEq, Prod.mk.injEq] at h
    obtain ⟨h1, h2⟩ := h
    subst h1
    subst h2
    exact ⟨Agree_refl _, L2, rfl, Agree_refl _⟩
  | cons point rest ih =>
    intro m r L L2 L1 hA h
    simp only [TreeLearner.addPoints] at h
    cases hth : L.thresholdOf index (point.GetRawFeature index) with
    | none =>
      rw [hth] at h
      exact absurd h (by simp)
    | some tl =>
      obtain ⟨t, La⟩ := tl
      rw [hth] at h
      simp only at h
      obtain ⟨hLa, Lb, hb, hLb⟩ := thresholdOf_agree L L2 hA index _ t La hth
      have hab : La.Agree Lb := Agree_trans (Agree_trans (Agree_symm hLa) hA) hLb
      obtain ⟨h1, L3, h3, hL3⟩ := ih _ r La Lb L1 hab h
      refine ⟨Agree_trans hLa h1, L3, ?_, Agree_trans hLb hL3⟩
      simp only [TreeLearner.addPoints, hb]
      exact h3

/-- The second loop of `BuildThresholdToWeightsMap` from two states that agree. -/
theorem addSamples_agree (index : Int) (points : List (Point α)) :
    ∀ (m r : List (α × (α × Int))) (L L2 L1 : TreeLearner α), L.Agree L2 →
      TreeLearner.addSamples index points m L = some (r, L1) →
      L.Agree L1 ∧ ∃ L3, TreeLearner.addSamples index points m L2 = some (r, L3) ∧
        L2.Agree L3 := by
  induction points with
  | nil =>
    intro m r L L2 L1 hA h
    simp only [TreeLearner.addSamples, Option.some.injEq, Prod.mk.injEq] at h
    obtain ⟨h1, h2⟩ := h
    subst h1
    subst h2
    exact ⟨Agree_refl _, L2, rfl, Agree_refl _⟩
  | cons point rest ih =>
    intro m r L L2 L1 hA h
    simp only [TreeLearner.addSamples] at h
    cases hth : L.thresholdOf index (point.GetRawFeature index) with
    | none =>
      rw [hth] at h
      exact absurd h (by simp)
    | some tl =>
      obtain ⟨t, La⟩ := tl
      rw [hth] at h
      simp only at h
      obtain ⟨hLa, Lb, hb, hLb⟩ := thresholdOf_agree L L2 hA index _ t La hth
      have hab : La.Agree Lb := Agree_trans (Agree_trans (Agree_symm hLa) hA) hLb
      obtain ⟨h1, L3, h3, hL3⟩ := ih _ r La Lb L1 hab h
      refine ⟨Agree_trans hLa h1, L3, ?_, Agree_trans hLb hL3⟩
      simp only [TreeLearner.addSamples, hb]
      exact h3

/-- `BuildThresholdToWeightsMap` from two states that agree: the same map. -/
theorem BuildThresholdToWeightsMap_agree (L L2 L1 : TreeLearner α) (hA : L.Agree L2)
    (node : Node α) (index : Int) (r : List (α × (α × Int)))
    (h : L.BuildThresholdToWeightsMap node index = some (r, L1)) :
    L.Agree L1 ∧ ∃ L3, L2.BuildThresholdToWeightsMap node index = some (r, L3) ∧
      L2.Agree L3 := by
  unfold TreeLearner.BuildThresholdToWeightsMap at h
  cases hp : TreeLearner.addPoints index node.Points [] L with
  | none =>
    rw [hp] at h
    exact absurd h (by simp)
  | some ml =>
    obtain ⟨m, La⟩ := ml
    rw [hp] at h
    simp only at h
    obtain ⟨hLa, Lb, hb, hLb⟩ := addPoints_agree index _ _ m L L2 La hA hp
    have hab : La.Agree Lb := Agree_trans (Agree_trans (Agree_symm hLa) hA) hLb
    obtain ⟨h1, L3, h3, hL3⟩ := addSamples_agree index _ _ r La Lb L1 hab h
    refine ⟨Agree_trans hLa h1, L3, ?_, Agree_trans hLb hL3⟩
    simp only [TreeLearner.BuildThresholdToWeightsMap, hb]
    exact h3

/-- States that agree compute the same gradients. -/
theorem Gradient_agree (sqrt log : α → α) (L L2 : TreeLearner α) (hA : L.Agree L2) :
    L.Gradient sqrt log = L2.Gradient sqrt log := by
  funext tree_size sample_size d
  simp only [TreeLearner.Gradient, TreeLearner.TreeComplexity, hA.1, hA.2.1, hA.2.2.1]

/-- States that agree scan an entry of the map alike. -/
theorem scanEntry_agree (sqrt log : α → α) (L L2 : TreeLearner α) (hA : L.Agree L2) :
    TreeLearner.scanEntry sqrt log L = TreeLearner.scanEntry sqrt log L2 := by
  funext value old_diff normalizer sample_size tree_size s elem
  simp only [TreeLearner.scanEntry, Gradient_agree sqrt log L L2 hA]

/-- `BestThreshold` from two states that agree: the same outputs. -/
theorem BestThreshold_agree (sqrt log : α → α) (L L2 L1 : TreeLearner α) (hA : L.Agree L2)
    (feature_index : Int) (node : Node α) (old_diff normalizer : α)
    (sample_size tree_size : Int) (r : Option (α × α × α × α))
    (h : L.BestThreshold sqrt log feature_index node old_diff normalizer sample_size tree_size =
      some (r, L1)) :
    L.Agree L1 ∧ ∃ L3, L2.BestThreshold sqrt log feature_index node old_diff normalizer
      sample_size tree_size = some (r, L3) ∧ L2.Agree L3 := by
  unfold TreeLearner.BestThreshold at h
  split at h
  · rename_i m La weight sample_count value hm hw hc hv
    obtain ⟨hLa, Lb, hb, hLb⟩ := BuildThresholdToWeightsMap_agree L L2 La hA node _ m hm
    have hab : La.Agree Lb := Agree_trans (Agree_trans (Agree_symm hLa) hA) hLb
    simp only [Option.some.injEq, Prod.mk.injEq] at h
    obtain ⟨h1, h2⟩ := h
    subst h2
    refine ⟨hLa, Lb, ?_, hLb⟩
    unfold TreeLearner.BestThreshold
    rw [hb, hw, hc, hv]
    simp only [Option.some.injEq, Prod.mk.injEq, and_true]
    rw [← h1, scanEntry_agree sqrt log La Lb hab]
  · exact absurd h (by simp)

/-- The loop over the features from two states that agree: the same best split. -/
theorem featureLoop_agree (sqrt log : α → α) (node : Node α) (old_diff normalizer : α)
    (sample_size tree_size : Int) (features : List Nat) :
    ∀ (best r : α × Option (α × Int × α × α)) (L L2 L1 : TreeLearner α), L.Agree L2 →
      TreeLearner.featureLoop sqrt log node old_diff normalizer sample_size tree_size features
        best L = some (r, L1) →
      L.Agree L1 ∧ ∃ L3, TreeLearner.featureLoop sqrt log node old_diff normalizer sample_size
        tree_size features best L2 = some (r, L3) ∧ L2.Agree L3 := by
  induction features with
  | nil =>
    intro best r L L2 L1 hA h
    simp only [TreeLearner.featureLoop, Option.some.injEq, Prod.mk.injEq] at h
    obtain ⟨h1, h2⟩ := h
    subst h1
    subst h2
    exact ⟨Agree_refl _, L2, rfl, Agree_refl _⟩
  | cons feature_index rest ih =>
    intro best r L L2 L1 hA h
    unfold TreeLearner.featureLoop at h
    split at h
    · exact absurd h (by simp)
    · exact absurd h (by simp)
    · rename_i threshold gradient left_val diff La hbt
      obtain ⟨hLa, Lb, hb, hLb⟩ := BestThreshold_agree sqrt log L L2 La hA _ node old_diff
        normalizer sample_size tree_size _ hbt
      have hab : La.Agree Lb := Agree_trans (Agree_trans (Agree_symm hLa) hA) hLb
      split_ifs at h with hg
      · obtain ⟨h1, L3, h3, hL3⟩ := ih _ r La Lb L1 hab h
        refine ⟨Agree_trans hLa h1, L3, ?_, Agree_trans hLb hL3⟩
        unfold TreeLearner.featureLoop
        rw [hb]
        simp only [if_pos hg]
        exact h3
      · obtain ⟨h1, L3, h3, hL3⟩ := ih _ r La Lb L1 hab h
        refine ⟨Agree_trans hLa h1, L3, ?_, Agree_trans hLb hL3⟩
        unfold TreeLearner.featureLoop
        rw [hb]
        simp only [if_neg hg]
        exact h3

end AgreeFacts

section TrainAgreeFacts

variable {α : Type} [LinearOrderedField α] [FloorRing α]

/-- One pass through the body of the loop of `Train` from two states that differ
in learner states that agree: the same pass. -/
theorem TrainStep_agree (sqrt log : α → α) (normalizer : α) (sample_size : Int)
    (st st1 : TreeLearner.State α) (L2 : TreeLearner α) (hA : st.learner.Agree L2)
    (node : List Bool) (q : List (List Bool))
    (h : TreeLearner.TrainStep sqrt log normalizer sample_size st node q = some st1) :
    st.learner.Agree st1.learner ∧
      ∃ L3, TreeLearner.TrainStep sqrt log normalizer sample_size
          { st with learner := L2 } node q = some { st1 with learner := L3 } ∧
        L2.Agree L3 := by
  unfold TreeLearner.TrainStep at h
  split at h
  · exact absurd h (by simp)
  · rename_i best_gradient best La hfl
    rw [hA.1] at hfl
    obtain ⟨hLa, Lb, hb, hLb⟩ := featureLoop_agree sqrt log _ _ _ _ _ _ _ _ st.learner L2 La
      hA hfl
    split_ifs at h with hsplit
    · split at h
      · exact absurd h (by simp)
      · have hst1 := (Option.some.inj h).symm
        subst hst1
        refine ⟨hLa, Lb, ?_, hLb⟩
        unfold TreeLearner.TrainStep
        simp only [hb, if_pos hsplit]
    · have hst1 := (Option.some.inj h).symm
      subst hst1
      refine ⟨hLa, Lb, ?_, hLb⟩
      unfold TreeLearner.TrainStep
      simp only [hb, if_neg hsplit]

/-- The loop of `Train` from two states that differ in learner states that
agree: the same run. -/
theorem TrainLoop_agree (sqrt log : α → α) (normalizer : α) (sample_size : Int) (bound : Nat) :
    ∀ (st st1 : TreeLearner.State α) (L2 : TreeLearner α), st.learner.Agree L2 →
      TreeLearner.TrainLoop sqrt log normalizer sample_size bound st = Run.ok st1 →
      st.learner.Agree st1.learner ∧
        ∃ L3, TreeLearner.TrainLoop sqrt log normalizer sample_size bound
            { st with learner := L2 } = Run.ok { st1 with learner := L3 } ∧
          L2.Agree L3 := by
  induction bound with
  | zero =>
    intro st st1 L2 hA h
    unfold TreeLearner.TrainLoop at h
    split at h
    · rename_i hq
      cases h
      refine ⟨Agree_refl _, L2, ?_, Agree_refl _⟩
      unfold TreeLearner.TrainLoop
      simp only [hq]
    · exact absurd h (by simp)
  | succ bound ih =>
    intro st st1 L2 hA h
    unfold TreeLearner.TrainLoop at h
    split at h
    · rename_i hq
      cases h
      refine ⟨Agree_refl _, L2, ?_, Agree_refl _⟩
      unfold TreeLearner.TrainLoop
      simp only [hq]
    · rename_i node q hq
      simp only at h
      split at h
      · exact absurd h (by simp)
      · rename_i st2 hstep
        obtain ⟨hLa, Lb, hb, hLb⟩ := TrainStep_agree sqrt log normalizer sample_size st st2 L2
          hA node q hstep
        have hab : st2.learner.Agree Lb := Agree_trans (Agree_trans (Agree_symm hLa) hA) hLb
        obtain ⟨h1, L3, h3, hL3⟩ := ih st2 st1 Lb hab h
        refine ⟨Agree_trans hLa h1, L3, ?_, Agree_trans hLb hL3⟩
        unfold TreeLearner.TrainLoop
        simp only [hq] at hb ⊢
        rw [hb]
        exact h3

/-- `TreeLearner::Train` from two learner states that agree: the same feature and
the same gradient, and the learner after the call agrees with the learner
before. -/
theorem Train_agree (sqrt log : α → α) (L L2 L1 : TreeLearner α) (hA : L.Agree L2)
    (space : Space α) (sample : Sample α) (bound : Nat) (f : TreeFeature α) (g : α)
    (h : L.Train sqrt log space sample bound = Run.ok (f, g, L1)) :
    L.Agree L1 ∧ ∃ L3, L2.Train sqrt log space sample bound = Run.ok (f, g, L3) ∧
      L2.Agree L3 := by
  unfold TreeLearner.Train at h
  split at h
  · exact absurd h (by simp)
  · rename_i examples hres
    simp only at h
    split at h
    · exact absurd h (by simp)
    · rename_i normalizer hnorm
      split at h
      · rename_i st hloop
        obtain ⟨hLa, Lb, hb, hLb⟩ := TrainLoop_agree sqrt log normalizer _ bound _ st L2 hA hloop
        split at h
        · exact absurd h (by simp)
        · rename_i tfeature hexp
          simp only [Run.ok.injEq, Prod.mk.injEq] at h
          obtain ⟨h1, h2, h3⟩ := h
          subst h1
          subst h2
          subst h3
          simp only at hb hLa
          have hnf : Lb.num_features = st.learner.num_features := by
            rw [← hLb.1, ← hA.1, hLa.1]
          refine ⟨hLa, Lb, ?_, hLb⟩
          unfold TreeLearner.Train
          simp only [hres, hnorm, hb, hexp, TreeLearner.TreeComplexity, hnf]
      · exact absurd h (by simp)
      · exact absurd h (by simp)

end TrainAgreeFacts

/-! ## The loop of `TreeLearner::Train` ends -/

section LoadFacts

variable {α : Type} [LinearOrderedField α]

/-- The two children that `GrowTree` gives a leaf share its load. -/
theorem load_GrowTree (n : Node α) (hn : n.IsLeaf = some true) (threshold : α)
    (feature_index left_val : Int) :
    ((TreeLearner.GrowTree n threshold feature_index left_val).sub [false]).load +
      ((TreeLearner.GrowTree n threshold feature_index left_val).sub [true]).load = n.load := by
  obtain ⟨f, t, v, w, ps, ss, rfl⟩ := leaf_eq n hn
  rw [GrowTree_leaf]
  simp only [Node.sub, Bool.false_eq_true, if_false, if_true, Node.load, Node.Points,
    Node.Samples, List.nil_append]
  have h1 := @List.length_eq_length_filter_add _ ps
    (fun p => p.RawFeatureLess feature_index threshold)
  have h2 := @List.length_eq_length_filter_add _ ss
    (fun p => p.RawFeatureLess feature_index threshold)
  omega

/-- On a leaf that stores nothing, with at least one feature to try, the loop
over the features reads a gradient that `BestThreshold` has not written. -/
theorem featureLoop_empty (sqrt log : α → α) (n : Node α) (hn : n.IsLeaf = some true)
    (hload : n.load = 0) (old_diff normalizer : α) (sample_size tree_size : Int)
    (k : Nat) (hk : 0 < k) (best : α × Option (α × Int × α × α)) (L : TreeLearner α) :
    TreeLearner.featureLoop sqrt log n old_diff normalizer sample_size tree_size (List.range k)
      best L = none := by
  obtain ⟨f, t, v, w, ps, ss, rfl⟩ := leaf_eq n hn
  simp only [Node.load, Node.Points, Node.Samples, Nat.add_eq_zero, List.length_eq_zero] at hload
  obtain ⟨h1, h2⟩ := hload
  subst h1
  subst h2
  obtain ⟨j, rfl⟩ : ∃ j, k = j + 1 := ⟨k - 1, by omega⟩
  rw [List.range_succ_eq_map]
  simp [TreeLearner.featureLoop, TreeLearner.BestThreshold,
    TreeLearner.BuildThresholdToWeightsMap, Node.Points, Node.Samples, TreeLearner.addPoints,
    TreeLearner.addSamples, Node.GetPopulationWeight, Node.GetSampleCount, Node.GetValue]

end LoadFacts

section TrainBoundFacts

variable {α : Type} [LinearOrderedField α] [FloorRing α]

/-- A pass through the body of the loop of `Train` either splits the node taken
from the queue with `GrowTree`, which needs a feature to have been tried, and
pushes its two children, or changes neither the tree nor the rest of the queue;
the learner after the pass agrees with the learner before. -/
theorem TrainStep_cases (sqrt log : α → α) (normalizer : α) (sample_size : Int)
    (st st1 : TreeLearner.State α) (node : List Bool) (q : List (List Bool))
    (h : TreeLearner.TrainStep sqrt log normalizer sample_size st node q = some st1) :
    st.learner.Agree st1.learner ∧
      ((∃ (threshold : α) (feature_index left_val : Int),
          st1.root = st.root.modify
            (fun n => TreeLearner.GrowTree n threshold feature_index left_val) node ∧
          st1.q = q ++ [node ++ [false], node ++ [true]] ∧ 0 < st.learner.num_features) ∨
        (st1.root = st.root ∧ st1.q = q)) := by
  refine ⟨(TrainStep_agree sqrt log normalizer sample_size st st1 st.learner (Agree_refl _)
    node q h).1, ?_⟩
  unfold TreeLearner.TrainStep at h
  split at h
  · exact absurd h (by simp)
  · rename_i best_gradient best L1 hfl
    split_ifs at h with hsplit
    · split at h
      · exact absurd h (by simp)
      · rename_i best_threshold best_feature_index best_left_val best_diff
        have hst1 := (Option.some.inj h).symm
        subst hst1
        refine Or.inl ⟨_, _, _, rfl, rfl, ?_⟩
        by_contra hc
        have hz : st.learner.num_features.toNat = 0 := by
          rw [Int.toNat_eq_zero]
          exact not_lt.1 hc
        rw [hz] at hfl
        simp [TreeLearner.featureLoop] at hfl
    · have hst1 := (Option.some.inj h).symm
      subst hst1
      exact Or.inr ⟨rfl, rfl⟩

/-- With a leaf that stores nothing in the queue and a feature to try, the loop
of `Train` does not go on past that leaf: it reads an unwritten gradient there. -/
theorem TrainLoop_empty_node (sqrt log : α → α) (normalizer : α) (sample_size : Int)
    (P S : List (Point α)) (pre : List (List Bool)) :
    ∀ (st : TreeLearner.State α) (e : List Bool) (post : List (List Bool)) (bound : Nat),
      st.q = pre ++ e :: post → st.root.Holds P S → st.q.Nodup →
      (∀ p ∈ st.q, (st.root.sub p).IsLeaf = some true) →
      st.tree_size = (st.root.count : Int) →
      0 < st.learner.num_features → (st.root.sub e).load = 0 → pre.length + 1 ≤ bound →
      TreeLearner.TrainLoop sqrt log normalizer sample_size bound st ≠ Run.exhausted := by
  induction pre with
  | nil =>
    intro st e post bound hq hH hN hL hC hnf hload hb
    obtain ⟨b, rfl⟩ : ∃ b, bound = b + 1 := ⟨bound - 1, by omega⟩
    simp only [List.nil_append] at hq
    have hnone : TreeLearner.TrainStep sqrt log normalizer sample_size st e post = none := by
      unfold TreeLearner.TrainStep
      rw [featureLoop_empty sqrt log _ (hL e (by rw [hq]; simp)) hload _ _ _ _ _ (by omega)]
    unfold TreeLearner.TrainLoop
    simp only [hq, hnone]
    simp
  | cons p pre ih =>
    intro st e post bound hq hH hN hL hC hnf hload hb
    obtain ⟨b, rfl⟩ : ∃ b, bound = b + 1 := ⟨bound - 1, by omega⟩
    simp only [List.cons_append] at hq
    rw [hq] at hN hL
    have hp : (st.root.sub p).IsLeaf = some true := hL p (List.mem_cons_self _ _)
    have he : (st.root.sub e).IsLeaf = some true := hL e (by simp)
    have hpe : p ≠ e := by
      intro h
      subst h
      have := (List.nodup_cons.1 hN).1
      simp at this
    unfold TreeLearner.TrainLoop
    simp only [hq]
    cases hstep : TreeLearner.TrainStep sqrt log normalizer sample_size st p
        (pre ++ e :: post) with
    | none => simp
    | some st1 =>
      simp only
      obtain ⟨h1, h2, h3, h4, _⟩ := TrainStep_sound sqrt log normalizer sample_size st st1 p
        (pre ++ e :: post) P S hH hN hL hC hstep
      obtain ⟨hA, hcase⟩ := TrainStep_cases sqrt log normalizer sample_size st st1 p
        (pre ++ e :: post) hstep
      have hnf1 : 0 < st1.learner.num_features := by
        rw [← hA.1]
        exact hnf
      have hb1 : pre.length + 1 ≤ b := by
        simp only [List.length_cons] at hb
        omega
      rcases hcase with ⟨thr, fi, lv, hroot, hq1, _⟩ | ⟨hroot, hq1⟩
      · refine ih st1 e (post ++ [p ++ [false], p ++ [true]]) b ?_ h1 h2 h3 h4 hnf1 ?_ hb1
        · rw [hq1]
          simp
        · rw [hroot, sub_modify_other _ p _ e hpe hp he]
          exact hload
      · refine ih st1 e post b hq1 h1 h2 h3 h4 hnf1 ?_ hb1
        rw [hroot]
        exact hload

/-- A list is not longer than the sum of `2 * f x - 1` over it when `f` is at
least 1 on it. -/
theorem length_le_sum {γ : Type} (f : γ → Nat) (l : List γ) (h : ∀ x ∈ l, 1 ≤ f x) :
    l.length ≤ (l.map (fun x => 2 * f x - 1)).sum := by
  induction l with
  | nil => simp
  | cons x rest ih =>
    have hx := h x (List.mem_cons_self _ _)
    have hrest := ih (fun y hy => h y (List.mem_cons_of_mem _ hy))
    simp only [List.length_cons, List.map_cons, List.sum_cons]
    omega

/-- The loop of `TreeLearner::Train` ends within a number of passes that the
loads of the leaves in its queue bound: a pass takes a leaf from the queue and
either puts nothing back, or two leaves that share its load. -/
theorem TrainLoop_bound (sqrt log : α → α) (normalizer : α) (sample_size : Int)
    (P S : List (Point α)) (bound : Nat) :
    ∀ st : TreeLearner.State α, st.root.Holds P S → st.q.Nodup →
      (∀ p ∈ st.q, (st.root.sub p).IsLeaf = some true) →
      st.tree_size = (st.root.count : Int) →
      (∀ p ∈ st.q, 1 ≤ (st.root.sub p).load) →
      2 * (st.q.map (fun p => 2 * (st.root.sub p).load - 1)).sum + 1 ≤ bound →
      TreeLearner.TrainLoop sqrt log normalizer sample_size bound st ≠ Run.exhausted := by
  induction bound with
  | zero =>
    intro st _ _ _ _ _ hb
    exact absurd hb (by omega)
  | succ b ih =>
    intro st hH hN hL hC hload hb
    unfold TreeLearner.TrainLoop
    cases hq : st.q with
    | nil => simp
    | cons node rest =>
      simp only
      rw [hq] at hN hL hload hb
      cases hstep : TreeLearner.TrainStep sqrt log normalizer sample_size st node rest with
      | none => simp
      | some st1 =>
        simp only
        obtain ⟨h1, h2, h3, h4, _⟩ := TrainStep_sound sqrt log normalizer sample_size st st1
          node rest P S hH hN hL hC hstep
        obtain ⟨hA, hcase⟩ := TrainStep_cases sqrt log normalizer sample_size st st1 node rest
          hstep
        have hnode : (st.root.sub node).IsLeaf = some true := hL node (List.mem_cons_self _ _)
        have hs : 1 ≤ (st.root.sub node).load := hload node (List.mem_cons_self _ _)
        have hlen : rest.length ≤ (rest.map (fun p => 2 * (st.root.sub p).load - 1)).sum :=
          length_le_sum (fun p => (st.root.sub p).load) rest
            (fun p hp => hload p (List.mem_cons_of_mem _ hp))
        simp only [List.map_cons, List.sum_cons] at hb
        rcases hcase with ⟨thr, fi, lv, hroot, hq1, hnf⟩ | ⟨hroot, hq1⟩
        · have hnf1 : 0 < st1.learner.num_features := by
            rw [← hA.1]
            exact hnf
          have hrest : ∀ p ∈ rest, st1.root.sub p = st.root.sub p := by
            intro p hp
            rw [hroot]
            exact sub_modify_other _ node _ p
              (fun h => (List.nodup_cons.1 hN).1 (h ▸ hp)) hnode
              (hL p (List.mem_cons_of_mem _ hp))
          have hsum : (rest.map (fun p => 2 * (st1.root.sub p).load - 1)).sum =
              (rest.map (fun p => 2 * (st.root.sub p).load - 1)).sum := by
            congr 1
            apply List.map_congr_left
            intro p hp
            rw [hrest p hp]
          have hleft : st1.root.sub (node ++ [false]) =
              (TreeLearner.GrowTree (st.root.sub node) thr fi lv).sub [false] := by
            rw [hroot, sub_append, sub_modify_self _ node _ hnode]
          have hright : st1.root.sub (node ++ [true]) =
              (TreeLearner.GrowTree (st.root.sub node) thr fi lv).sub [true] := by
            rw [hroot, sub_append, sub_modify_self _ node _ hnode]
          have hshare := load_GrowTree (st.root.sub node) hnode thr fi lv
          rw [← hleft, ← hright] at hshare
          by_cases ha : (st1.root.sub (node ++ [false])).load = 0
          · exact TrainLoop_empty_node sqrt log normalizer sample_size P S rest st1
              (node ++ [false]) [node ++ [true]] b (by rw [hq1]) h1 h2 h3 h4 hnf1 ha
              (by omega)
          · by_cases hc : (st1.root.sub (node ++ [true])).load = 0
            · exact TrainLoop_empty_node sqrt log normalizer sample_size P S
                (rest ++ [node ++ [false]]) st1 (node ++ [true]) [] b (by rw [hq1]; simp) h1 h2
                h3 h4 hnf1 hc (by simp only [List.length_append, List.length_singleton]; omega)
            · refine ih st1 h1 h2 h3 h4 ?_ ?_
              · intro p hp
                rw [hq1] at hp
                rcases List.mem_append.1 hp with hpr | hpn
                · rw [hrest p hpr]
                  exact hload p (List.mem_cons_of_mem _ hpr)
                · simp only [List.mem_cons, List.mem_singleton, List.not_mem_nil,
                    or_false] at hpn
                  rcases hpn with rfl | rfl
                  · omega
                  · omega
              · rw [hq1]
                simp only [List.map_append, List.sum_append, List.map_cons, List.map_nil,
                  List.sum_cons, List.sum_nil, hsum]
                omega
        · refine ih st1 h1 h2 h3 h4 ?_ ?_
          · intro p hp
            rw [hq1] at hp
            rw [hroot]
            exact hload p (List.mem_cons_of_mem _ hp)
          · rw [hq1, hroot]
            omega

end TrainBoundFacts

/-! ## The claims about `TreeLearner::Train` -/

section TrainFacts

variable {α : Type} [LinearOrderedField α] [FloorRing α]

/-- A run of the loop of `Train` that ends gives the same state under every
larger bound. -/
theorem TrainLoop_mono (sqrt log : α → α) (normalizer : α) (sample_size : Int) (bound : Nat) :
    ∀ (st st1 : TreeLearner.State α) (k : Nat),
      TreeLearner.TrainLoop sqrt log normalizer sample_size bound st = Run.ok st1 →
      TreeLearner.TrainLoop sqrt log normalizer sample_size (bound + k) st = Run.ok st1 := by
  induction bound with
  | zero =>
    intro st st1 k h
    unfold TreeLearner.TrainLoop at h ⊢
    split at h
    · rename_i hq
      exact h
    · exact absurd h (by simp)
  | succ bound ih =>
    intro st st1 k h
    have hk : bound + 1 + k = (bound + k) + 1 := by omega
    rw [hk]
    unfold TreeLearner.TrainLoop at h ⊢
    split at h
    · exact h
    · rename_i node q hq
      simp only at h ⊢
      split at h
      · exact absurd h (by simp)
      · rename_i st2 hstep
        exact ih st2 st1 k h

/-- A call of `Train` that returns gives the same result under every larger
bound. -/
theorem Train_mono (sqrt log : α → α) (L : TreeLearner α) (space : Space α) (sample : Sample α)
    (bound bound1 : Nat) (r : TreeFeature α × α × TreeLearner α) (hb : bound ≤ bound1)
    (h : L.Train sqrt log space sample bound = Run.ok r) :
    L.Train sqrt log space sample bound1 = Run.ok r := by
  obtain ⟨k, rfl⟩ : ∃ k, bound1 = bound + k := ⟨bound1 - bound, by omega⟩
  unfold TreeLearner.Train at h ⊢
  split at h
  · exact absurd h (by simp)
  · rename_i examples hres
    simp only at h ⊢
    split at h
    · exact absurd h (by simp)
    · rename_i normalizer hnorm
      split at h
      · rename_i st hloop
        simp only [TrainLoop_mono sqrt log normalizer _ bound _ st k hloop]
        exact h
      · exact absurd h (by simp)
      · exact absurd h (by simp)

/-- The loop of `Train` on a queue of one leaf that stores nothing ends in one
pass. -/
theorem TrainLoop_empty_root (sqrt log : α → α) (normalizer : α) (sample_size : Int)
    (P S : List (Point α)) (st : TreeLearner.State α) (bound : Nat) (hq : st.q = [[]])
    (hH : st.root.Holds P S) (hC : st.tree_size = (st.root.count : Int))
    (hleaf : st.root.IsLeaf = some true) (hload : st.root.load = 0) (hb : 1 ≤ bound) :
    TreeLearner.TrainLoop sqrt log normalizer sample_size bound st ≠ Run.exhausted := by
  have hN : st.q.Nodup := by rw [hq]; simp
  have hL : ∀ p ∈ st.q, (st.root.sub p).IsLeaf = some true := by
    intro p hp
    rw [hq, List.mem_singleton] at hp
    rw [hp, sub_nil]
    exact hleaf
  by_cases hnf : 0 < st.learner.num_features
  · exact TrainLoop_empty_node sqrt log normalizer sample_size P S [] st [] [] bound
      (by rw [hq]; rfl) hH hN hL hC hnf (by rw [sub_nil]; exact hload) (by simpa using hb)
  · obtain ⟨b, rfl⟩ : ∃ b, bound = b + 1 := ⟨bound - 1, by omega⟩
    unfold TreeLearner.TrainLoop
    simp only [hq]
    cases hstep : TreeLearner.TrainStep sqrt log normalizer sample_size st [] [] with
    | none => simp
    | some st1 =>
      simp only
      obtain ⟨_, hcase⟩ := TrainStep_cases sqrt log normalizer sample_size st st1 [] [] hstep
      rcases hcase with ⟨_, _, _, _, _, h0⟩ | ⟨_, hq1⟩
      · exact absurd h0 hnf
      · unfold TreeLearner.TrainLoop
        simp [hq1]

/-- The call of `Train` does not run out of a bound of four passes through its
loop for every point of the space and of the sample, and one more. -/
theorem Train_bound (sqrt log : α → α) (L : TreeLearner α) (space : Space α) (sample : Sample α)
    (examples : List (Point α)) (bound : Nat)
    (hres : Sample.points space sample = some examples)
    (hb : 4 * (space.points.length + examples.length) + 1 ≤ bound) :
    L.Train sqrt log space sample bound ≠ Run.exhausted := by
  unfold TreeLearner.Train
  rw [hres]
  simp only [Train_root, Node.GetPopulationWeight]
  have hloop : TreeLearner.TrainLoop sqrt log (0 + (space.points.map Point.GetProbWeight).sum)
      (examples.length : Int) bound
      { learner := L
        root := Node.mk 0 0 0 Node.null Node.null
          (0 + (space.points.map Point.GetProbWeight).sum) ([] ++ space.points) ([] ++ examples)
        q := [[]]
        old_diff := 0.0
        tree_size := 1
        old_gradient := 0.0 } ≠ Run.exhausted := by
    by_cases hload : space.points.length + examples.length = 0
    · exact TrainLoop_empty_root sqrt log _ _ space.points examples _ bound rfl
        (by simp [Node.Holds, Node.isNull]) (by simp [Node.count])
        (by simp [Node.IsLeaf, Node.isNull])
        (by simpa [Node.load, Node.Points, Node.Samples] using hload) (by omega)
    · exact TrainLoop_bound sqrt log _ _ space.points examples bound _
        (by simp [Node.Holds, Node.isNull]) (by simp)
        (by simp [sub_nil, Node.IsLeaf, Node.isNull]) (by simp [Node.count])
        (by
          intro p hp
          simp only [List.mem_singleton] at hp
          subst hp
          simp only [sub_nil, Node.load, Node.Points, Node.Samples, List.nil_append]
          omega)
        (by
          simp only [List.map_cons, List.map_nil, List.sum_cons, List.sum_nil, sub_nil,
            Node.load, Node.Points, Node.Samples, List.nil_append]
          omega)
  split
  · split
    · simp
    · simp
  · simp
  · rename_i hex
    exact absurd hex hloop

/-- The walk of `FeatureMap` in a tree that holds points reaches a leaf. -/
theorem walk_isSome {β : Type} [LinearOrderedField β] (n : Node β) :
    ∀ (P S : List (Point β)), n.Holds P S → ∀ point, TreeFeature.walk n point ≠ none := by
  induction n with
  | null => intro P S h; exact absurd h (by simp [Node.Holds])
  | mk f t v l r w ps ss ihl ihr =>
    intro P S h point
    by_cases hleaf : (l.isNull && r.isNull) = true
    · simp [TreeFeature.walk, hleaf]
    · simp only [Node.Holds, hleaf, if_false, Bool.false_eq_true] at h
      simp only [TreeFeature.walk, hleaf, if_false, Bool.false_eq_true]
      split_ifs
      · exact ihl _ _ h.1 point
      · exact ihr _ _ h.2 point

/-- Claim C16: for every space and non-empty sample, the call of
`TreeLearner::Train` ends (it does not run out of a bound of four passes through
its loop for every point of the space and of the sample and one more, and a
result does not depend on the bound), and the feature `f` that it returns has its cached
expectations equal to the directly computed ones:
`GetUnnormalizedPopulationExpectation()` is the sum over the space points `p` of
`probability_weight(p) * f.FeatureMap(p)`, which is what
`ComputeUnnormalizedPopulationExpectation(space)` would store, and
`GetSampleExpectation()` is the arithmetic mean of `f.FeatureMap` over the sample
(a sum divided by a count that is not 0), which is what
`ComputeSampleExpectation(sample)` would store; the walk of `FeatureMap` reaches a
leaf for every point. -/
theorem Train_expectations (sqrt log : α → α) (L : TreeLearner α) (space : Space α)
    (sample : Sample α) (examples : List (Point α)) (bound : Nat) (f : TreeFeature α) (g : α)
    (L1 : TreeLearner α) (hres : Sample.points space sample = some examples)
    (hne : examples ≠ [])
    (hrun : L.Train sqrt log space sample bound = Run.ok (f, g, L1)) :
    (∀ bound1, 4 * (space.points.length + examples.length) + 1 ≤ bound1 →
      L.Train sqrt log space sample bound1 ≠ Run.exhausted) ∧
    (∀ bound1, bound ≤ bound1 → L.Train sqrt log space sample bound1 = Run.ok (f, g, L1)) ∧
    (∀ point, f.FeatureMap point ≠ none) ∧
    f.toFeature.GetUnnormalizedPopulationExpectation =
      (space.points.map (fun p => p.GetProbWeight * f.toFeature.FeatureMap p)).sum ∧
    f.toFeature.GetUnnormalizedPopulationExpectation =
      (f.toFeature.ComputeUnnormalizedPopulationExpectation
        space).GetUnnormalizedPopulationExpectation ∧
    f.toFeature.GetSampleExpectation =
      (examples.map f.toFeature.FeatureMap).sum / (examples.length : α) ∧
    (examples.length : α) ≠ 0 ∧
    f.toFeature.GetSampleExpectation =
      (f.toFeature.ComputeSampleExpectation examples).GetSampleExpectation := by
  obtain ⟨st, hH, _, hf, _, _⟩ := Train_ok sqrt log L space sample examples bound f g L1 hres hrun
  have hsums := leafSums_eq st.root _ _ hH
  have hpop : f.toFeature.GetUnnormalizedPopulationExpectation =
      (space.points.map (fun p => p.GetProbWeight * f.toFeature.FeatureMap p)).sum := by
    rw [hf]
    simp only [Feature.GetUnnormalizedPopulationExpectation, TreeFeature.toFeature,
      TreeFeature.FeatureMap, hsums]
  have hsam : f.toFeature.GetSampleExpectation =
      (examples.map f.toFeature.FeatureMap).sum / (examples.length : α) := by
    rw [hf]
    simp only [Feature.GetSampleExpectation, TreeFeature.toFeature, TreeFeature.FeatureMap,
      hsums]
  refine ⟨fun bound1 hb => Train_bound sqrt log L space sample examples bound1 hres hb,
    fun bound1 hb => Train_mono sqrt log L space sample bound bound1 _ hb hrun, ?_, hpop, ?_,
    hsam, ?_, ?_⟩
  · intro point
    rw [hf]
    exact walk_isSome st.root _ _ hH point
  · rw [hpop]
    simp only [Feature.ComputeUnnormalizedPopulationExpectation,
      Feature.GetUnnormalizedPopulationExpectation, foldl_add_eq_sum, zero_add]
  · exact Nat.cast_ne_zero.2 (fun h => hne (List.length_eq_zero.1 h))
  · rw [hsam]
    simp only [Feature.ComputeSampleExpectation, Feature.GetSampleExpectation, foldl_pair_eq,
      zero_add]

/-- Claim C17: for every space and sample, the call of `TreeLearner::Train` ends
(as in claim C16), and the feature that it returns satisfies
`Complexity() = TreeComplexity(TreeSize(), sample size)`, where `TreeSize()`
returns the number of nodes of the returned tree, which is 1 + 2 * (number of
splits): the nodes with children, each made by one call of `GrowTree`
(`TrainStep_sound`). -/
theorem Train_complexity (sqrt log : α → α) (L : TreeLearner α) (space : Space α)
    (sample : Sample α) (examples : List (Point α)) (bound : Nat) (f : TreeFeature α) (g : α)
    (L1 : TreeLearner α) (hres : Sample.points space sample = some examples)
    (hrun : L.Train sqrt log space sample bound = Run.ok (f, g, L1)) :
    (∀ bound1, 4 * (space.points.length + examples.length) + 1 ≤ bound1 →
      L.Train sqrt log space sample bound1 ≠ Run.exhausted) ∧
    (∀ bound1, bound ≤ bound1 → L.Train sqrt log space sample bound1 = Run.ok (f, g, L1)) ∧
    ∃ tree_size : Int, f.TreeSize = some tree_size ∧ tree_size = (f.root.count : Int) ∧
      tree_size = 1 + 2 * (f.root.splits : Int) ∧
      f.toFeature.Complexity = L.TreeComplexity sqrt log tree_size (examples.length : Int) := by
  refine ⟨fun bound1 hb => Train_bound sqrt log L space sample examples bound1 hres hb,
    fun bound1 hb => Train_mono sqrt log L space sample bound bound1 _ hb hrun, ?_⟩
  obtain ⟨st, hH, hC, hf, _, hL1⟩ :=
    Train_ok sqrt log L space sample examples bound f g L1 hres hrun
  have hA := (Train_agree sqrt log L L L1 (Agree_refl L) space sample bound f g hrun).1
  have hsize := sizeLoop_eq [st.root] 0 (by
    intro n hn
    rw [List.mem_singleton.1 hn]
    exact Holds_isNull _ _ _ hH)
  have hcount := count_eq_splits st.root _ _ hH
  refine ⟨st.tree_size, ?_, ?_, ?_, ?_⟩
  · rw [hf]
    simp only [TreeFeature.TreeSize, hsize, List.map_cons, List.map_nil, List.sum_cons,
      List.sum_nil, add_zero, zero_add, hC]
  · rw [hf]
    exact hC
  · rw [hf, hC, hcount]
    push_cast
    ring
  · rw [hf]
    simp only [TreeFeature.toFeature, TreeLearner.TreeComplexity, ← hL1, ← hA.1]

/-- Claim C18: `TreeLearner::Train` is idempotent on frozen inputs.  When a call
on a learner with a space and a sample returns a feature and a gradient, the
learner after the call agrees with the learner before (the lookups have only
created entries with the value that a missing key reads as), the next call on
the same learner with the same space and sample returns the same feature (the
same tree, hence the same `FeatureMap` and tree size, the same complexity and
expectations) and the same gradient, and so does a call on any learner state that
agrees with the first. -/
theorem Train_idempotent (sqrt log : α → α) (L : TreeLearner α) (space : Space α)
    (sample : Sample α) (bound : Nat) (f : TreeFeature α) (g : α) (L1 : TreeLearner α)
    (hrun : L.Train sqrt log space sample bound = Run.ok (f, g, L1)) :
    L.Agree L1 ∧
    (∃ L2, L1.Train sqrt log space sample bound = Run.ok (f, g, L2) ∧ L1.Agree L2) ∧
    (∀ L3, L.Agree L3 → ∃ L4, L3.Train sqrt log space sample bound = Run.ok (f, g, L4)) := by
  have hA := (Train_agree sqrt log L L L1 (Agree_refl L) space sample bound f g hrun).1
  refine ⟨hA, (Train_agree sqrt log L L1 L1 hA space sample bound f g hrun).2, ?_⟩
  intro L3 h3
  obtain ⟨L4, h4, _⟩ := (Train_agree sqrt log L L3 L1 h3 space sample bound f g hrun).2
  exact ⟨L4, h4⟩

end TrainFacts

/-! ## `TreeLearner::Train` on the second fixture of `TreeLearnerTest.TestTrain` -/

section TrainOnFixture

/-- The run of `TreeLearner::Train` on the second fixture of `TestTrain`, with the
identity in the place of `sqrt` and `log`: the root is split on covariate 0 and
its right child on covariate 1, so the tree has 5 nodes, and the feature has the
sample expectation 1, the population expectation 0 and the gradient -1 that the
test expects. -/
theorem tree_Train_fixture :
    (treeLearner ℚ).Train (fun x : ℚ => x) (fun x : ℚ => x) (treeSpace ℚ) (treeSample ℚ) 5 =
      Run.ok
        ({ root := Node.mk 0 0 0
              (Node.mk 0 0 0 Node.null Node.null 2
                [{ id := 1, finalized := true, probability_weight := 1, raw_features := [-1, -1] },
                 { id := 2, finalized := true, probability_weight := 1, raw_features := [-1, 1] }]
                [])
              (Node.mk 1 0 1
                (Node.mk 0 0 1 Node.null Node.null 0
                  [{ id := 3, finalized := true, probability_weight := 0,
                     raw_features := [1, -1] }]
                  [{ id := 3, finalized := false, probability_weight := 0,
                     raw_features := [1, -1] }])
                (Node.mk 0 0 0 Node.null Node.null 1
                  [{ id := 4, finalized := true, probability_weight := 1,
                     raw_features := [1, 1] }]
                  [])
                0 [] [])
              0 [] [],
           complexity := 88, sample_expectation := 1, population_expectation := 0 },
          -1, treeLearner ℚ) := by
  norm_num [TreeLearner.Train, Sample.points, Example.deref, treeSample, treeSpace, treePoints,
    Node.new, AddPoint_mk, AddSample_mk, Node.SetValue, TreeLearner.TrainLoop,
    TreeLearner.TrainStep,
    TreeLearner.featureLoop, TreeLearner.BestThreshold,
    TreeLearner.BuildThresholdToWeightsMap, TreeLearner.addPoints, TreeLearner.addSamples,
    TreeLearner.thresholdOf, mapFind, mapInsert, mapUpdate, TreeLearner.scanEntry,
    TreeLearner.Gradient, gTolerance, treeLearner, Node.Points, Node.Samples,
    Node.GetPopulationWeight, Node.GetSampleCount, Node.GetValue, Point.GetRawFeature,
    Point.GetProbWeight, abs_of_pos, abs_of_neg, Node.sub, Node.modify, TreeLearner.GrowTree,
    truncate, Point.RawFeatureLess, Node.SetThreshold, Node.SetFeature, Node.SetLeftChild,
    Node.SetRightChild, Node.ClearPoints, Node.ClearSamples, List.range, List.range.loop,
    TreeFeature.ComputeTreeExpectations, TreeFeature.expectationsLoop, TreeFeature.new,
    TreeFeature.SetComplexity, TreeLearner.TreeComplexity, Node.isNull]

/-- Claim C16 on the second fixture of `TestTrain`: the call returns, and the
cached expectations of the feature, 0 and 1, are the directly computed ones. -/
theorem Train_expectations_witness :
    ∃ (f : TreeFeature ℚ) (g : ℚ) (L1 : TreeLearner ℚ),
      (treeLearner ℚ).Train (fun x : ℚ => x) (fun x : ℚ => x) (treeSpace ℚ) (treeSample ℚ) 5 =
        Run.ok (f, g, L1) ∧
      f.toFeature.GetUnnormalizedPopulationExpectation = 0 ∧
      f.toFeature.GetSampleExpectation = 1 ∧
      f.toFeature.GetUnnormalizedPopulationExpectation =
        (f.toFeature.ComputeUnnormalizedPopulationExpectation
          (treeSpace ℚ)).GetUnnormalizedPopulationExpectation ∧
      f.toFeature.GetSampleExpectation =
        (f.toFeature.ComputeSampleExpectation
          [{ id := 3, finalized := false, probability_weight := 0,
             raw_features := [1, -1] }]).GetSampleExpectation :=
  ⟨_, _, _, tree_Train_fixture, rfl, rfl,
    (Train_expectations (fun x : ℚ => x) (fun x : ℚ => x) (treeLearner ℚ) (treeSpace ℚ)
      (treeSample ℚ) _ 5 _ _ _ rfl (by simp) tree_Train_fixture).2.2.2.2.1,
    (Train_expectations (fun x : ℚ => x) (fun x : ℚ => x) (treeLearner ℚ) (treeSpace ℚ)
      (treeSample ℚ) _ 5 _ _ _ rfl (by simp) tree_Train_fixture).2.2.2.2.2.2.2⟩

/-- Claim C17 on the second fixture of `TestTrain`: the tree has 5 nodes and 2
splits, and the complexity is that of a tree of size 5 on a sample of size 1. -/
theorem Train_complexity_witness :
    ∃ (f : TreeFeature ℚ) (g : ℚ) (L1 : TreeLearner ℚ),
      (treeLearner ℚ).Train (fun x : ℚ => x) (fun x : ℚ => x) (treeSpace ℚ) (treeSample ℚ) 5 =
        Run.ok (f, g, L1) ∧
      f.root.splits = 2 ∧
      ∃ tree_size : Int, f.TreeSize = some tree_size ∧ tree_size = (f.root.count : Int) ∧
        tree_size = 1 + 2 * (f.root.splits : Int) ∧
        f.toFeature.Complexity = (treeLearner ℚ).TreeComplexity (fun x : ℚ => x)
          (fun x : ℚ => x) tree_size
          (([{ id := 3, finalized := false, probability_weight := 0,
               raw_features := [1, -1] }] : List (Point ℚ)).length : Int) :=
  ⟨_, _, _, tree_Train_fixture, rfl,
    (Train_complexity (fun x : ℚ => x) (fun x : ℚ => x) (treeLearner ℚ) (treeSpace ℚ)
      (treeSample ℚ) _ 5 _ _ _ rfl tree_Train_fixture).2.2⟩

/-- Claim C18 on the second fixture of `TestTrain`: a second call returns the
feature and the gradient of the first. -/
theorem Train_idempotent_witness :
    ∃ (f : TreeFeature ℚ) (g : ℚ) (L1 L2 : TreeLearner ℚ),
      (treeLearner ℚ).Train (fun x : ℚ => x) (fun x : ℚ => x) (treeSpace ℚ) (treeSample ℚ) 5 =
        Run.ok (f, g, L1) ∧
      L1.Train (fun x : ℚ => x) (fun x : ℚ => x) (treeSpace ℚ) (treeSample ℚ) 5 =
        Run.ok (f, g, L2) :=
  let ⟨L2, h2, _⟩ := (Train_idempotent (fun x : ℚ => x) (fun x : ℚ => x) (treeLearner ℚ)
    (treeSpace ℚ) (treeSample ℚ) 5 _ _ _ tree_Train_fixture).2.1
  ⟨_, _, _, L2, tree_Train_fixture, h2⟩

end TrainOnFixture

/-! ## `TreeComplexity` and `MonomialComplexity` -/

section ComplexityFacts

/-- For `0 < x < y`, `log (1 + y) / y < log (1 + x) / x`: the logarithm is
strictly concave. -/
theorem log_one_add_div_anti (x y : ℝ) (hx : 0 < x) (hxy : x < y) :
    Real.log (y + 1) / y < Real.log (x + 1) / x := by
  have hy : 0 < y := lt_trans hx hxy
  have hconc := strictConcaveOn_log_Ioi.2 (show (1 : ℝ) ∈ Set.Ioi (0 : ℝ) by norm_num [Set.mem_Ioi])
    (show y + 1 ∈ Set.Ioi (0 : ℝ) by
      rw [Set.mem_Ioi]
      linarith)
    (show (1 : ℝ) ≠ y + 1 by linarith)
    (show 0 < 1 - x / y by
      rw [sub_pos, div_lt_one hy]
      exact hxy)
    (show 0 < x / y by positivity)
    (show 1 - x / y + x / y = 1 by ring)
  have hpoint : (1 - x / y) • (1 : ℝ) + (x / y) • (y + 1) = x + 1 := by
    simp only [smul_eq_mul]
    field_simp
    ring
  rw [hpoint, Real.log_one] at hconc
  simp only [smul_eq_mul, mul_zero, zero_add] at hconc
  rw [div_lt_div_iff₀ hy hx]
  have h2 : x / y * Real.log (y + 1) * y = Real.log (y + 1) * x := by
    field_simp
    ring
  nlinarith [mul_lt_mul_of_pos_right hconc hy]

/-- The factor of `TreeComplexity` that does not depend on the tree size is
positive. -/
theorem TreeComplexity_factor_pos (nf : ℝ) (hnf : 0 ≤ nf) (s : ℝ) (hs : 1 ≤ s) :
    0 < Real.log (nf + 2.0) / Real.log 2.0 * Real.log (s + 1.0) / s := by
  have h2 : (0 : ℝ) < Real.log 2.0 := Real.log_pos (by norm_num)
  have h1 : (0 : ℝ) < Real.log (nf + 2.0) := Real.log_pos (by norm_num; linarith)
  have h3 : (0 : ℝ) < Real.log (s + 1.0) := Real.log_pos (by norm_num; linarith)
  have h4 : (0 : ℝ) < s := by linarith
  positivity

/-- Claim C21: with the square root and the natural logarithm of the reals,
`TreeComplexity(tree_size, sample_size)` is
`sqrt((4*tree_size + 2) * log2(num_features + 2) * ln(sample_size + 1) / sample_size)`,
and for every `num_features >= 0` it is strictly increasing in `tree_size >= 0`
for each fixed `sample_size >= 1`, and strictly decreasing in `sample_size` over
the integers `sample_size >= 1` for each fixed `tree_size >= 0`. -/
theorem TreeComplexity_monotone (L : TreeLearner ℝ) (hnf : 0 ≤ L.num_features) :
    (∀ tree_size sample_size : Int,
      L.TreeComplexity Real.sqrt Real.log tree_size sample_size =
        Real.sqrt ((4 * (tree_size : ℝ) + 2) * Real.logb 2 ((L.num_features : ℝ) + 2) *
          Real.log ((sample_size : ℝ) + 1) / (sample_size : ℝ))) ∧
    (∀ sample_size : Int, 1 ≤ sample_size → ∀ tree_size tree_size2 : Int,
      0 ≤ tree_size → tree_size < tree_size2 →
      L.TreeComplexity Real.sqrt Real.log tree_size sample_size <
        L.TreeComplexity Real.sqrt Real.log tree_size2 sample_size) ∧
    (∀ tree_size : Int, 0 ≤ tree_size → ∀ sample_size sample_size2 : Int,
      1 ≤ sample_size → sample_size < sample_size2 →
      L.TreeComplexity Real.sqrt Real.log tree_size sample_size2 <
        L.TreeComplexity Real.sqrt Real.log tree_size sample_size) := by
  have hnfR : (0 : ℝ) ≤ (L.num_features : ℝ) := by exact_mod_cast hnf
  refine ⟨fun tree_size sample_size => ?_, fun sample_size hs t1 t2 ht1 ht => ?_,
    fun tree_size hts s1 s2 hs1 hs => ?_⟩
  · unfold TreeLearner.TreeComplexity
    congr 1
    rw [Real.logb]
    push_cast
    norm_num
  · have hsR : (1 : ℝ) ≤ (sample_size : ℝ) := by exact_mod_cast hs
    have hpos := TreeComplexity_factor_pos (L.num_features : ℝ) hnfR (sample_size : ℝ) hsR
    have ht1R : (0 : ℝ) ≤ (t1 : ℝ) := by exact_mod_cast ht1
    have htR : (t1 : ℝ) < (t2 : ℝ) := by exact_mod_cast ht
    have hform : ∀ t : Int, ((4 * t + 2 : Int) : ℝ) *
        (Real.log ((L.num_features : ℝ) + 2.0) / Real.log 2.0) *
        Real.log ((sample_size : ℝ) + 1.0) / (sample_size : ℝ) =
        (4 * (t : ℝ) + 2) * (Real.log ((L.num_features : ℝ) + 2.0) / Real.log 2.0 *
          Real.log ((sample_size : ℝ) + 1.0) / (sample_size : ℝ)) := by
      intro t
      push_cast
      ring
    unfold TreeLearner.TreeComplexity
    rw [hform t1, hform t2]
    apply Real.sqrt_lt_sqrt
    · exact mul_nonneg (by linarith) (le_of_lt hpos)
    · exact mul_lt_mul_of_pos_right (by linarith) hpos
  · have hs1R : (1 : ℝ) ≤ (s1 : ℝ) := by exact_mod_cast hs1
    have hsR : (s1 : ℝ) < (s2 : ℝ) := by exact_mod_cast hs
    have htsR : (0 : ℝ) ≤ (tree_size : ℝ) := by exact_mod_cast hts
    have hanti := log_one_add_div_anti (s1 : ℝ) (s2 : ℝ) (by linarith) hsR
    have h2 : (0 : ℝ) < Real.log 2.0 := Real.log_pos (by norm_num)
    have h1 : (0 : ℝ) < Real.log ((L.num_features : ℝ) + 2.0) :=
      Real.log_pos (by norm_num; linarith)
    have hc : (0 : ℝ) < (4 * (tree_size : ℝ) + 2) *
        (Real.log ((L.num_features : ℝ) + 2.0) / Real.log 2.0) := by
      have h0 : (0 : ℝ) < 4 * (tree_size : ℝ) + 2 := by linarith
      positivity
    have h3 : (0 : ℝ) ≤ Real.log ((s2 : ℝ) + 1) / (s2 : ℝ) := by
      have h4 : (0 : ℝ) < Real.log ((s2 : ℝ) + 1) := Real.log_pos (by linarith)
      have h5 : (0 : ℝ) < (s2 : ℝ) := by linarith
      positivity
    have hform : ∀ s : Int, ((4 * tree_size + 2 : Int) : ℝ) *
        (Real.log ((L.num_features : ℝ) + 2.0) / Real.log 2.0) *
        Real.log ((s : ℝ) + 1.0) / (s : ℝ) =
        (4 * (tree_size : ℝ) + 2) * (Real.log ((L.num_features : ℝ) + 2.0) / Real.log 2.0) *
          (Real.log ((s : ℝ) + 1) / (s : ℝ)) := by
      intro s
      push_cast
      norm_num
      ring
    unfold TreeLearner.TreeComplexity
    rw [hform s1, hform s2]
    apply Real.sqrt_lt_sqrt
    · exact mul_nonneg (le_of_lt hc) h3
    · exact mul_lt_mul_of_pos_left hanti hc

/-- Claim C21 at the learner of `TreeLearnerTest` with two covariates: tree
sizes 11 and 13 at sample size 75, and sample sizes 75 and 239 at tree size
11. -/
theorem TreeComplexity_monotone_witness :
    (treeLearner ℝ).TreeComplexity Real.sqrt Real.log 11 75 <
      (treeLearner ℝ).TreeComplexity Real.sqrt Real.log 13 75 ∧
    (treeLearner ℝ).TreeComplexity Real.sqrt Real.log 11 239 <
      (treeLearner ℝ).TreeComplexity Real.sqrt Real.log 11 75 :=
  ⟨(TreeComplexity_monotone (treeLearner ℝ) (by norm_num [treeLearner])).2.1 75 (by norm_num)
      11 13 (by norm_num) (by norm_num),
    (TreeComplexity_monotone (treeLearner ℝ) (by norm_num [treeLearner])).2.2 11 (by norm_num)
      75 239 (by norm_num) (by norm_num)⟩

end ComplexityFacts

/-! ## The complexity that a round of `MonomialLearner::Train` penalizes with -/

section MonomialRoundFacts

variable {α : Type} [LinearOrderedField α]

/-- A pass through the body of the loop of `MonomialLearner::Train` that accepts
its candidate goes on from the state that `MonomialLearner.Round.next` names. -/
theorem TrainLoop_accept (sqrt log : α → α) (L : MonomialLearner α) (space : Space α)
    (sample : List (Point α)) (normalizer : α) (bound : Nat) (st : MonomialLearner.State α)
    (candidate_gradient : α) (candidate_feature : Int)
    (candidate_population_expectation candidate_sample_expectation : α)
    (hbest : L.BestFeature sqrt log st.point_values st.sample_values space sample normalizer
      st.power = some (candidate_gradient, candidate_feature, candidate_population_expectation,
        candidate_sample_expectation))
    (hgrad : |candidate_gradient| > |st.best_gradient| + gTolerance)
    (h0 : 0 ≤ candidate_feature) (hlen : candidate_feature.toNat < st.monomial.length) :
    MonomialLearner.TrainLoop sqrt log L space sample normalizer (bound + 1) st =
      MonomialLearner.TrainLoop sqrt log L space sample normalizer bound
        { monomial := st.monomial.modify (fun p => p + 1) candidate_feature.toNat
          point_values := List.zipWith
            (fun v (point : Point α) => v * finite (point.GetRawFeature candidate_feature))
            st.point_values space.points
          sample_values := List.zipWith
            (fun v (point : Point α) => v * finite (point.GetRawFeature candidate_feature))
            st.sample_values sample
          best_gradient := candidate_gradient
          expectations :=
            some (candidate_population_expectation, candidate_sample_expectation)
          power := st.power + 1 } := by
  rw [MonomialLearner.TrainLoop]
  simp only [hbest]
  rw [if_pos hgrad, if_pos ⟨h0, hlen⟩]

/-- `GetPower` is the sum of the powers. -/
theorem GetPower_eq_sum (pwrs : List Int) :
    (MonomialFeature.new pwrs : MonomialFeature α).GetPower = pwrs.sum := by
  have h : ∀ (l : List Int) (acc : Int), l.foldl (fun sum p => sum + p) acc = acc + l.sum := by
    intro l
    induction l with
    | nil => intro acc; simp
    | cons p rest ih =>
      intro acc
      rw [List.foldl_cons, ih, List.sum_cons]
      ring
  unfold MonomialFeature.GetPower MonomialFeature.new
  simp only
  rw [h, zero_add]

/-- Adding one to an entry of a list adds one to its sum. -/
theorem sum_modify_succ (l : List Int) (k : Nat) (hk : k < l.length) :
    (l.modify (fun p => p + 1) k).sum = l.sum + 1 := by
  induction l generalizing k with
  | nil => simp at hk
  | cons p rest ih =>
    cases k with
    | zero =>
      simp only [List.modify_zero_cons, List.sum_cons]
      ring
    | succ k =>
      simp only [List.modify_succ_cons, List.sum_cons]
      rw [ih k (by simpa using hk)]
      ring

/-- In every round, the local `power` is the total power of the current
monomial. -/
theorem Round_power (sqrt log : α → α) (L : MonomialLearner α) (space : Space α)
    (sample : List (Point α)) (normalizer : α) (st : MonomialLearner.State α)
    (h : MonomialLearner.Round sqrt log L space sample normalizer st) :
    st.power = (MonomialFeature.new st.monomial : MonomialFeature α).GetPower := by
  rw [GetPower_eq_sum]
  induction h with
  | first => simp
  | next st cg cf cp cs _ _ _ _ hlen ih =>
    simp only
    rw [sum_modify_succ _ _ hlen, ih]

/-- `MonomialLearner::Gradient` is the penalized gradient with the complexity
`beta + alpha * MonomialComplexity(power, sample_size)`. -/
theorem MonomialGradient_eq (sqrt log : α → α) (L : MonomialLearner α) (power sample_size : Int)
    (d : α) :
    L.Gradient sqrt log power sample_size d =
      penalizedGradient (L.model_parameter_beta +
        L.model_parameter_alpha * L.MonomialComplexity sqrt log power sample_size) d := by
  unfold MonomialLearner.Gradient penalizedGradient sgn
  simp only
  split_ifs <;> simp

/-- Claim C22, as amended: in a round of `MonomialLearner::Train`, the local
`power` is the total power p of the current monomial, the learner evaluates
`MonomialComplexity(p + 1, sample_size)`, which is
`sqrt(2 * feature_bound * (p + 1) * log(num_features) / sample_size)`, and
`BestFeature` penalizes the expectation difference of every candidate covariate
with `beta + alpha *` that complexity. -/
theorem BestFeature_complexity (sqrt log : α → α) (L : MonomialLearner α) (space : Space α)
    (sample : List (Point α)) (normalizer : α) (st : MonomialLearner.State α)
    (h : MonomialLearner.Round sqrt log L space sample normalizer st) :
    st.power = (MonomialFeature.new st.monomial : MonomialFeature α).GetPower ∧
    L.MonomialComplexity sqrt log (st.power + 1) (sample.length : Int) =
      sqrt (2 * L.feature_bound *
        (((MonomialFeature.new st.monomial : MonomialFeature α).GetPower : α) + 1) *
        log (L.num_features : α) / (sample.length : α)) ∧
    L.BestFeature sqrt log st.point_values st.sample_values space sample normalizer st.power =
      (List.range L.num_features.toNat).foldl
        (fun (candidate : Option (α × Int × α × α)) (feature : Nat) =>
          match candidate,
            MonomialLearner.weightedSum (feature : Int) st.point_values space.points 0,
            MonomialLearner.weightedSum (feature : Int) st.sample_values sample 0 with
          | some c, some population_sum, some sample_sum =>
            if |penalizedGradient (L.model_parameter_beta + L.model_parameter_alpha *
                sqrt (2 * L.feature_bound *
                  (((MonomialFeature.new st.monomial : MonomialFeature α).GetPower : α) + 1) *
                  log (L.num_features : α) / (sample.length : α)))
                (population_sum / normalizer - sample_sum / (sample.length : α))| >
                |c.1| + gTolerance then
              some (penalizedGradient (L.model_parameter_beta + L.model_parameter_alpha *
                  sqrt (2 * L.feature_bound *
                    (((MonomialFeature.new st.monomial : MonomialFeature α).GetPower : α) + 1) *
                    log (L.num_features : α) / (sample.length : α)))
                  (population_sum / normalizer - sample_sum / (sample.length : α)),
                (feature : Int), population_sum / normalizer, sample_sum / (sample.length : α))
            else
              some c
          | _, _, _ => none)
        (some (0, 0, 0, 0)) := by
  have hpow := Round_power sqrt log L space sample normalizer st h
  have hcomp : L.MonomialComplexity sqrt log (st.power + 1) (sample.length : Int) =
      sqrt (2 * L.feature_bound *
        (((MonomialFeature.new st.monomial : MonomialFeature α).GetPower : α) + 1) *
        log (L.num_features : α) / (sample.length : α)) := by
    unfold MonomialLearner.MonomialComplexity
    rw [← hpow]
    push_cast
    rfl
  refine ⟨hpow, hcomp, ?_⟩
  unfold MonomialLearner.BestFeature
  simp only [MonomialGradient_eq, hcomp]

/-- The amended claim C22 in the first round of `MonomialLearner::Train` on the
fixture of `MonomialLearnerTest` with the learner `MonomialLearner(3, 0.1, 0.01,
1.0)`, with the identity in the place of `sqrt` and `log`: the complexity is
`2 * 1 * (0 + 1) * 3 / 3 = 2`, the penalty `0.01 + 0.1 * 2`, and the candidate is
covariate 2, whose difference `0.75 - 1` gives the gradient `-0.25 + 0.21`. -/
theorem BestFeature_complexity_witness :
    (monomialTestLearner ℚ).MonomialComplexity (fun x : ℚ => x) (fun x : ℚ => x) (0 + 1)
      (3 : Nat) = 2 ∧
    (monomialTestLearner ℚ).BestFeature (fun x : ℚ => x) (fun x : ℚ => x)
      ((monomialSpace ℚ).points.map Point.GetProbWeight) (List.replicate 3 1) (monomialSpace ℚ)
      [{ id := 2, finalized := false, probability_weight := 1.5, raw_features := [0.5, -0.5, 1] },
       { id := 3, finalized := false, probability_weight := 2.0, raw_features := [-1, 0.0, 1] },
       { id := 3, finalized := false, probability_weight := 2.0, raw_features := [-1, 0.0, 1] }]
      5 0 = some (-1 / 25, 2, 3 / 4, 1) := by
  obtain ⟨h1, h2, h3⟩ := BestFeature_complexity (fun x : ℚ => x) (fun x : ℚ => x)
    (monomialTestLearner ℚ) (monomialSpace ℚ)
    [{ id := 2, finalized := false, probability_weight := 1.5, raw_features := [0.5, -0.5, 1] },
     { id := 3, finalized := false, probability_weight := 2.0, raw_features := [-1, 0.0, 1] },
     { id := 3, finalized := false, probability_weight := 2.0, raw_features := [-1, 0.0, 1] }]
    5 _ MonomialLearner.Round.first
  rw [← h1] at h2 h3
  refine ⟨h2.trans ?_, h3.trans ?_⟩
  · norm_num [monomialTestLearner]
  · simp [monomialTestLearner, monomialSpace, monomialPoints, MonomialLearner.weightedSum,
      List.range, List.range.loop, finite, Point.GetRawFeature, Point.GetProbWeight,
      penalizedGradient, sgn, gTolerance]
    norm_num [abs_of_pos, abs_of_neg]

/-- Claim C22 as stated fails: in the first round (the monomial is empty, of
total power 0, and `power` is 0) with the learner `MonomialLearner(3, 0.1, 0.01,
1.0)` and a sample of three points, `sqrt(2 * feature_bound * 0 * log(3) / 3)`
is 0, while the complexity that `BestFeature` evaluates,
`MonomialComplexity(0 + 1, 3)`, is positive; and the gradient of the difference
-0.25 is not the -0.24 that the penalty `0.01 + 0.1 * 0` would give. -/
theorem BestFeature_complexity_counterexample :
    Real.sqrt (2 * (monomialTestLearner ℝ).feature_bound * ((0 : Int) : ℝ) *
      Real.log ((monomialTestLearner ℝ).num_features : ℝ) / ((3 : Int) : ℝ)) = 0 ∧
    0 < (monomialTestLearner ℝ).MonomialComplexity Real.sqrt Real.log (0 + 1) 3 ∧
    (monomialTestLearner ℝ).Gradient Real.sqrt Real.log (0 + 1) 3 (-0.25) ≠ -0.24 := by
  have hlog : (0 : ℝ) < Real.log 3 := Real.log_pos (by norm_num)
  have hpos : 0 < (monomialTestLearner ℝ).MonomialComplexity Real.sqrt Real.log (0 + 1) 3 := by
    unfold MonomialLearner.MonomialComplexity
    apply Real.sqrt_pos.2
    norm_num [monomialTestLearner]
    exact hlog
  refine ⟨by norm_num, hpos, ?_⟩
  unfold MonomialLearner.Gradient
  simp only
  split_ifs with h1 h2
  · norm_num
  · norm_num at h2
  · norm_num [monomialTestLearner] at hpos ⊢
    intro h
    linarith

end MonomialRoundFacts

/-! ## Points and spaces: keys, `GetPoint`, `Finalize` -/

section SpaceFacts

variable {α : Type}

/-- `AddPoint` on a space that is not finalized. -/
theorem AddPoint_open (s : Space α) (point : Point α) (hs : s.finalized = false) :
    s.AddPoint point =
      ((s.points.length : Int), { finalized := false, points := s.points ++ [point] }) := by
  unfold Space.AddPoint
  rw [hs]
  simp only [Bool.false_eq_true, if_false, List.length_append, List.length_singleton]
  refine Prod.ext ?_ ?_
  · simp
  · cases s
    simp only at hs
    simp [hs]

/-- A run of `AddPoint` on a space that is not finalized appends the points. -/
theorem Space_foldl_AddPoint (added : List (Point α)) (s : Space α) (hs : s.finalized = false) :
    added.foldl (fun X p => (X.AddPoint p).2) s =
      { finalized := false, points := s.points ++ added } := by
  induction added generalizing s with
  | nil =>
    cases s
    simp only at hs
    simp [hs]
  | cons p rest ih =>
    rw [List.foldl_cons, AddPoint_open s p hs]
    simp only
    rw [ih _ rfl]
    simp

/-- `GetPoint` at a key that is the index of a point. -/
theorem GetPoint_index (s : Space α) (k : Nat) (point : Point α) (h : s.points[k]? = some point) :
    s.GetPoint (k : Int) = Except.ok point := by
  unfold Space.GetPoint
  rw [if_pos (Int.natCast_nonneg k)]
  simp only [Int.toNat_ofNat, h]

/-- `GetPoint` at a key that is not the index of a point throws. -/
theorem GetPoint_out_of_range (s : Space α) (key : Int)
    (h : ¬ (0 ≤ key ∧ key < (s.NumPoints : Int))) :
    s.GetPoint key = Except.error Thrown.out_of_range := by
  unfold Space.GetPoint
  by_cases h0 : 0 ≤ key
  · rw [if_pos h0]
    have hlen : s.points.length ≤ key.toNat := by
      have h1 : ¬ key < (s.points.length : Int) := fun hlt => h ⟨h0, hlt⟩
      omega
    rw [List.getElem?_eq_none hlen]
  · rw [if_neg h0]

/-- Claim C23: on a space that is not finalized, `AddPoint` returns the number
of points held before the call and increases `NumPoints` by one, whatever the
id of the point; so the points of a run of additions get the keys `NumPoints`,
`NumPoints + 1`, ... in insertion order; for every key `k` with
`0 <= k < NumPoints`, `GetPoint(k)` returns the `k`-th point that the space
holds, which after a run of additions to a new space is the `k`-th added point
(the same id, covariates and weight); for every other key, the negative ones
included, `GetPoint` throws `std::out_of_range`. -/
theorem Space_AddPoint_GetPoint (s : Space α) (hs : s.finalized = false) :
    (∀ point : Point α,
      (s.AddPoint point).1 = (s.NumPoints : Int) ∧
      (s.AddPoint point).2.NumPoints = s.NumPoints + 1 ∧
      (s.AddPoint point).2.finalized = false ∧
      (s.AddPoint point).2.GetPoint (s.AddPoint point).1 = Except.ok point ∧
      (∀ key : Int, key < (s.NumPoints : Int) →
        (s.AddPoint point).2.GetPoint key = s.GetPoint key)) ∧
    (∀ added : List (Point α),
      (added.foldl (fun X p => (X.AddPoint p).2) s).points = s.points ++ added ∧
      (added.foldl (fun X p => (X.AddPoint p).2) s).NumPoints = s.NumPoints + added.length ∧
      (∀ (k : Nat) (point : Point α), added[k]? = some point →
        (((added.take k).foldl (fun X p => (X.AddPoint p).2) s).AddPoint point).1 =
          ((s.NumPoints + k : Nat) : Int) ∧
        (added.foldl (fun X p => (X.AddPoint p).2) s).GetPoint ((s.NumPoints + k : Nat) : Int) =
          Except.ok point)) ∧
    (∀ added : List (Point α), ∀ (k : Nat) (point : Point α), added[k]? = some point →
      (added.foldl (fun X p => (X.AddPoint p).2) (Space.new : Space α)).GetPoint (k : Int) =
        Except.ok point) ∧
    (∀ key : Int, 0 ≤ key → key < (s.NumPoints : Int) →
      ∃ point, s.points[key.toNat]? = some point ∧ s.GetPoint key = Except.ok point) ∧
    (∀ key : Int, ¬ (0 ≤ key ∧ key < (s.NumPoints : Int)) →
      s.GetPoint key = Except.error Thrown.out_of_range) := by
  refine ⟨fun point => ?_, fun added => ?_, fun added k point hk => ?_,
    fun key h0 hlt => ?_, fun key h => GetPoint_out_of_range s key h⟩
  · rw [AddPoint_open s point hs]
    refine ⟨rfl, ?_, rfl, ?_, fun key hlt => ?_⟩
    · simp [Space.NumPoints]
    · exact GetPoint_index _ _ _ (by simp)
    · unfold Space.GetPoint
      by_cases h0 : 0 ≤ key
      · have hk : key.toNat < s.points.length := by
          simp only [Space.NumPoints] at hlt
          omega
        simp only [if_pos h0, List.getElem?_append_left hk]
      · simp only [if_neg h0]
  · rw [Space_foldl_AddPoint added s hs]
    refine ⟨rfl, ?_, fun k point hk => ?_⟩
    · simp [Space.NumPoints]
    · rw [Space_foldl_AddPoint (added.take k) s hs]
      have hlt : k < added.length := (List.getElem?_eq_some_iff.1 hk).1
      refine ⟨?_, ?_⟩
      · rw [AddPoint_open _ _ rfl]
        simp only [Space.NumPoints, List.length_append, List.length_take]
        rw [min_eq_left (le_of_lt hlt)]
      · apply GetPoint_index
        simp only [Space.NumPoints]
        rw [List.getElem?_append_right (Nat.le_add_right _ _)]
        simpa using hk
  · rw [Space_foldl_AddPoint added Space.new rfl]
    apply GetPoint_index
    simpa [Space.new] using hk
  · have hk : key.toNat < s.points.length := by
      simp only [Space.NumPoints] at hlt
      omega
    refine ⟨s.points[key.toNat], List.getElem?_eq_getElem hk, ?_⟩
    unfold Space.GetPoint
    rw [if_pos h0]
    simp only [List.getElem?_eq_getElem hk]

/-- Claim C23 on `SpaceTest.TestAddGetPoint`: the points with the ids 1, 7 and
99 get the keys 0, 1 and 2, `GetPoint(1)` is the point with the id 7, and the keys
3 and -1 throw. -/
theorem Space_AddPoint_GetPoint_witness :
    ((Space.new : Space ℚ).AddPoint (Point.new 1)).1 = 0 ∧
    ((((Space.new : Space ℚ).AddPoint (Point.new 1)).2.AddPoint (Point.new 7)).2.AddPoint
      (Point.new 99)).1 = 2 ∧
    ([Point.new 1, Point.new 7, Point.new 99].foldl (fun X p => (X.AddPoint p).2)
      (Space.new : Space ℚ)).GetPoint 1 = Except.ok (Point.new 7) ∧
    ([Point.new 1, Point.new 7, Point.new 99].foldl (fun X p => (X.AddPoint p).2)
      (Space.new : Space ℚ)).GetPoint 3 = Except.error Thrown.out_of_range ∧
    ([Point.new 1, Point.new 7, Point.new 99].foldl (fun X p => (X.AddPoint p).2)
      (Space.new : Space ℚ)).GetPoint (-1) = Except.error Thrown.out_of_range := by
  have h := Space_AddPoint_GetPoint (Space.new : Space ℚ) rfl
  refine ⟨(h.1 (Point.new 1)).1, ?_, ?_, ?_, ?_⟩
  · exact ((h.2.1 [Point.new 1, Point.new 7, Point.new 99]).2.2 2 (Point.new 99) rfl).1
  · exact h.2.2.1 [Point.new 1, Point.new 7, Point.new 99] 1 (Point.new 7) rfl
  · exact (Space_AddPoint_GetPoint ([Point.new 1, Point.new 7, Point.new 99].foldl
      (fun X p => (X.AddPoint p).2) (Space.new : Space ℚ)) rfl).2.2.2.2 3 (by decide)
  · exact (Space_AddPoint_GetPoint ([Point.new 1, Point.new 7, Point.new 99].foldl
      (fun X p => (X.AddPoint p).2) (Space.new : Space ℚ)) rfl).2.2.2.2 (-1) (by decide)

end SpaceFacts

section FinalizeFacts

variable {α : Type}

/-- `AddRawFeature` on a finalized point. -/
theorem AddRawFeature_finalized (p : Point α) (value : α) (hp : p.finalized = true) :
    p.AddRawFeature value = (-1, p) := by
  unfold Point.AddRawFeature
  rw [if_pos hp]

/-- `GetPoint` on the finalized space returns the finalized point. -/
theorem GetPoint_Finalize (X : Space α) (key : Int) :
    X.Finalize.GetPoint key = (X.GetPoint key).map Point.Finalize := by
  unfold Space.GetPoint Space.Finalize
  by_cases h0 : 0 ≤ key
  · simp only [if_pos h0, List.getElem?_map]
    cases X.points[key.toNat]? <;> rfl
  · simp only [if_neg h0]
    rfl

/-- A space that a run of `AddPoint` and `Finalize` (`none`) builds from a new
space holds only finalized points once it is finalized. -/
theorem finalized_run (ops : List (Option (Point α))) :
    ∀ X : Space α, (X.finalized = true → ∀ q ∈ X.points, q.finalized = true) →
      (ops.foldl (fun (X : Space α) op =>
        match op with
        | some point => (X.AddPoint point).2
        | none => X.Finalize) X).finalized = true →
      ∀ q ∈ (ops.foldl (fun (X : Space α) op =>
        match op with
        | some point => (X.AddPoint point).2
        | none => X.Finalize) X).points, q.finalized = true := by
  induction ops with
  | nil => exact fun X hX => hX
  | cons op rest ih =>
    intro X hX
    rw [List.foldl_cons]
    apply ih
    cases op with
    | none =>
      intro _ q hq
      simp only [Space.Finalize, List.mem_map] at hq
      obtain ⟨r, _, rfl⟩ := hq
      rfl
    | some point =>
      simp only
      unfold Space.AddPoint
      by_cases hf : X.finalized = true
      · rw [if_pos hf]
        exact hX
      · rw [if_neg hf]
        intro h
        exact absurd h hf

/-- Claim C24: on a finalized point `AddRawFeature` returns -1 and leaves the
point as it is, `NumRawFeatures` and every covariate included; on a finalized
space `AddPoint` returns -1 and leaves the space as it is, `NumPoints` and every
point included; `Point::Finalize` and `Space::Finalize` set the flag and keep the
covariates and the number of points; `Space::Finalize` finalizes every point of
the space, so `AddRawFeature` returns -1 on every point that `GetPoint` returns
from the finalized space, which is the point of the space before, finalized; and
in a space built from a new one by `AddPoint` and `Finalize` every point is
finalized once the space is. -/
theorem Finalize_sentinels (p : Point α) (s : Space α) (hp : p.finalized = true)
    (hs : s.finalized = true) (value : α) (point : Point α) :
    ((p.AddRawFeature value).1 = -1 ∧ (p.AddRawFeature value).2 = p ∧
      (p.AddRawFeature value).2.NumRawFeatures = p.NumRawFeatures ∧
      (p.AddRawFeature value).2.raw_features = p.raw_features) ∧
    ((s.AddPoint point).1 = -1 ∧ (s.AddPoint point).2 = s ∧
      (s.AddPoint point).2.NumPoints = s.NumPoints ∧
      (s.AddPoint point).2.points = s.points) ∧
    (∀ q : Point α, q.Finalize.finalized = true ∧ q.Finalize.raw_features = q.raw_features ∧
      q.Finalize.id = q.id ∧ q.Finalize.probability_weight = q.probability_weight ∧
      (q.Finalize.AddRawFeature value).1 = -1 ∧
      (q.Finalize.AddRawFeature value).2 = q.Finalize) ∧
    (∀ X : Space α, X.Finalize.finalized = true ∧ X.Finalize.NumPoints = X.NumPoints ∧
      (X.Finalize.AddPoint point).1 = -1 ∧ (X.Finalize.AddPoint point).2 = X.Finalize ∧
      (∀ q ∈ X.Finalize.points, q.finalized = true) ∧
      (∀ key : Int, X.Finalize.GetPoint key = (X.GetPoint key).map Point.Finalize) ∧
      (∀ (key : Int) (q : Point α), X.Finalize.GetPoint key = Except.ok q →
        (q.AddRawFeature value).1 = -1 ∧ (q.AddRawFeature value).2 = q)) ∧
    (∀ ops : List (Option (Point α)),
      (ops.foldl (fun (X : Space α) op =>
        match op with
        | some point => (X.AddPoint point).2
        | none => X.Finalize) Space.new).finalized = true →
      ∀ q ∈ (ops.foldl (fun (X : Space α) op =>
        match op with
        | some point => (X.AddPoint point).2
        | none => X.Finalize) Space.new).points, (q.AddRawFeature value).1 = -1) := by
  have hadd : s.AddPoint point = (-1, s) := by
    unfold Space.AddPoint
    rw [if_pos hs]
  have hfin : ∀ X : Space α, ∀ q ∈ X.Finalize.points, q.finalized = true := by
    intro X q hq
    simp only [Space.Finalize, List.mem_map] at hq
    obtain ⟨r, _, rfl⟩ := hq
    rfl
  refine ⟨?_, ?_, fun q => ?_, fun X => ?_, fun ops hops q hq => ?_⟩
  · rw [AddRawFeature_finalized p value hp]
    exact ⟨rfl, rfl, rfl, rfl⟩
  · rw [hadd]
    exact ⟨rfl, rfl, rfl, rfl⟩
  · rw [AddRawFeature_finalized q.Finalize value rfl]
    exact ⟨rfl, rfl, rfl, rfl, rfl, rfl⟩
  · refine ⟨rfl, ?_, rfl, rfl, hfin X, GetPoint_Finalize X, fun key q hq => ?_⟩
    · simp [Space.Finalize, Space.NumPoints]
    · have hmem : q ∈ X.Finalize.points := by
        unfold Space.GetPoint at hq
        by_cases h0 : 0 ≤ key
        · rw [if_pos h0] at hq
          cases hk : X.Finalize.points[key.toNat]? with
          | none =>
            rw [hk] at hq
            cases hq
          | some r =>
            rw [hk] at hq
            cases hq
            exact List.getElem?_mem hk
        · rw [if_neg h0] at hq
          cases hq
      rw [AddRawFeature_finalized q value (hfin X q hmem)]
      exact ⟨rfl, rfl⟩
  · have hq2 := finalized_run ops Space.new (fun h => by cases h) hops q hq
    rw [AddRawFeature_finalized q value hq2]

/-- Claim C24 on `SpaceTest.TestAddRawFeatureFailsAfterPointIsFinalized` and
`SpaceTest.TestAddGetPointFailsAfterSpaceIsFinalized`: the finalized point keeps
its one covariate and returns -1, and the finalized space keeps its two points,
returns -1 for the point with the id 99, and returns a point with the id 1 that
returns -1 and keeps no covariate. -/
theorem Finalize_sentinels_witness :
    ((((Point.new 1 : Point ℚ).AddRawFeature 0.0).2.Finalize.AddRawFeature 0.1).1 = -1 ∧
      (((Point.new 1 : Point ℚ).AddRawFeature 0.0).2.Finalize.AddRawFeature 0.1).2.NumRawFeatures
        = 1) ∧
    (([Point.new 1, Point.new 7].foldl (fun X p => (X.AddPoint p).2)
        (Space.new : Space ℚ)).Finalize.AddPoint (Point.new 99)).1 = -1 ∧
    (([Point.new 1, Point.new 7].foldl (fun X p => (X.AddPoint p).2)
        (Space.new : Space ℚ)).Finalize.AddPoint (Point.new 99)).2.NumPoints = 2 ∧
    ([Point.new 1, Point.new 7].foldl (fun X p => (X.AddPoint p).2)
        (Space.new : Space ℚ)).Finalize.GetPoint 0 = Except.ok (Point.new 1 : Point ℚ).Finalize ∧
    ((Point.new 1 : Point ℚ).Finalize.AddRawFeature 0.0).1 = -1 ∧
    ((Point.new 1 : Point ℚ).Finalize.AddRawFeature 0.0).2.NumRawFeatures = 0 := by
  have h := Finalize_sentinels ((Point.new 1 : Point ℚ).AddRawFeature 0.0).2.Finalize
    ([Point.new 1, Point.new 7].foldl (fun X p => (X.AddPoint p).2)
      (Space.new : Space ℚ)).Finalize rfl rfl 0.1 (Point.new 99)
  have h2 := Finalize_sentinels (Point.new 1 : Point ℚ).Finalize
    ([Point.new 1, Point.new 7].foldl (fun X p => (X.AddPoint p).2)
      (Space.new : Space ℚ)).Finalize rfl rfl 0.0 (Point.new 99)
  refine ⟨⟨h.1.1, ?_⟩, h.2.1.1, ?_, ?_, h2.1.1, ?_⟩
  · rw [h.1.2.2.1]
    rfl
  · rw [h.2.1.2.2.1]
    rfl
  · rfl
  · rw [h2.1.2.2.1]
    rfl

end FinalizeFacts

/-! ## Missing covariates -/

section RawFeatureRuns

variable {α : Type}

/-- A run of `AddRawFeature` on a point that is not finalized appends the
values. -/
theorem foldl_AddRawFeature (values : List α) (p : Point α) (hp : p.finalized = false) :
    values.foldl (fun q v => (q.AddRawFeature v).2) p =
      { p with raw_features := p.raw_features ++ values } := by
  induction values generalizing p with
  | nil => simp
  | cons v rest ih =>
    rw [List.foldl_cons]
    have hstep : (p.AddRawFeature v).2 = { p with raw_features := p.raw_features ++ [v] } := by
      unfold Point.AddRawFeature
      rw [hp]
      rfl
    rw [hstep, ih { p with raw_features := p.raw_features ++ [v] } hp]
    simp

end RawFeatureRuns

section MissingCovariates

variable {α : Type} [LinearOrderedField α]

/-- Claim C25: `GetRawFeature(i)` never fails; for a point with n covariates it
is the covariate at `i` when `0 <= i < n`, which on a point built by
`AddRawFeature` from a new point is the `i`-th added value, and it is
not-a-number for every other index, the negative ones included;
`ThresholdFeature::FeatureMap` is 1 if the covariate is present and strictly
greater than the threshold and 0 otherwise, so 0 for a missing covariate;
`RawFeature::FeatureMap` is the covariate and `ProductFeature::FeatureMap` the
product of its two covariates, each not-a-number whenever a covariate that it
reads is missing; and the features of the engine read these values with 0 in the
place of not-a-number. -/
theorem missing_covariates (point : Point α) (index second_index : Int) (threshold : α) :
    ((0 ≤ index ∧ index < point.NumRawFeatures) →
      ∃ v, point.raw_features[index.toNat]? = some v ∧ point.GetRawFeature index = some v) ∧
    (¬ (0 ≤ index ∧ index < point.NumRawFeatures) → point.GetRawFeature index = none) ∧
    (∀ (point_id : Int) (values : List α) (k : Nat),
      (values.foldl (fun q v => (q.AddRawFeature v).2)
        (Point.new point_id : Point α)).GetRawFeature (k : Int) = values[k]? ∧
      (values.foldl (fun q v => (q.AddRawFeature v).2)
        (Point.new point_id : Point α)).NumRawFeatures = (values.length : Int)) ∧
    ((ThresholdFeature.FeatureMap index threshold point = some 1 ↔
        ∃ v, point.GetRawFeature index = some v ∧ threshold < v) ∧
      (ThresholdFeature.FeatureMap index threshold point = some 0 ↔
        ¬ ∃ v, point.GetRawFeature index = some v ∧ threshold < v) ∧
      (point.GetRawFeature index = none →
        ThresholdFeature.FeatureMap index threshold point = some 0)) ∧
    (RawFeature.FeatureMap index point = point.GetRawFeature index ∧
      (¬ (0 ≤ index ∧ index < point.NumRawFeatures) →
        RawFeature.FeatureMap index point = none)) ∧
    ((∀ a b : α, point.GetRawFeature index = some a →
        point.GetRawFeature second_index = some b →
        ProductFeature.FeatureMap index second_index point = some (a * b)) ∧
      (point.GetRawFeature index = none ∨ point.GetRawFeature second_index = none →
        ProductFeature.FeatureMap index second_index point = none)) ∧
    (∀ complexity : α,
      (RawFeature index complexity).FeatureMap point =
        finite (RawFeature.FeatureMap index point) ∧
      (ProductFeature index second_index complexity).FeatureMap point =
        finite (ProductFeature.FeatureMap index second_index point) ∧
      (ThresholdFeature index threshold complexity).FeatureMap point =
        finite (ThresholdFeature.FeatureMap index threshold point)) := by
  have hnone : ¬ (0 ≤ index ∧ index < point.NumRawFeatures) →
      point.GetRawFeature index = none := by
    intro h
    unfold Point.GetRawFeature
    by_cases h0 : 0 ≤ index
    · rw [if_pos h0]
      apply List.getElem?_eq_none
      have h1 : ¬ index < (point.raw_features.length : Int) := fun hlt => h ⟨h0, hlt⟩
      omega
    · rw [if_neg h0]
  refine ⟨fun h => ?_, hnone, fun point_id values k => ?_, ⟨?_, ?_, fun h => ?_⟩,
    ⟨rfl, hnone⟩, ⟨fun a b ha hb => ?_, fun h => ?_⟩, fun complexity => ⟨rfl, ?_, ?_⟩⟩
  · have hk : index.toNat < point.raw_features.length := by
      have h1 : index < (point.raw_features.length : Int) := h.2
      omega
    refine ⟨point.raw_features[index.toNat], List.getElem?_eq_getElem hk, ?_⟩
    unfold Point.GetRawFeature
    rw [if_pos h.1, List.getElem?_eq_getElem hk]
  · rw [foldl_AddRawFeature values (Point.new point_id) rfl]
    refine ⟨?_, ?_⟩
    · unfold Point.GetRawFeature
      rw [if_pos (Int.natCast_nonneg k)]
      simp [Point.new]
    · simp [Point.NumRawFeatures, Point.new]
  · unfold ThresholdFeature.FeatureMap
    cases hv : point.GetRawFeature index with
    | none => simp
    | some v =>
      by_cases hgt : v > threshold
      · simp [hgt]
      · simp [hgt]
  · unfold ThresholdFeature.FeatureMap
    cases hv : point.GetRawFeature index with
    | none => simp
    | some v =>
      by_cases hgt : v > threshold
      · simp [hgt]
      · simp [hgt]
  · unfold ThresholdFeature.FeatureMap
    rw [h]
  · unfold ProductFeature.FeatureMap
    rw [ha, hb]
  · unfold ProductFeature.FeatureMap
    rcases h with h | h
    · rw [h]
    · rw [h]
      cases point.GetRawFeature index <;> rfl
  · unfold ProductFeature ProductFeature.FeatureMap finite
    cases h1 : point.GetRawFeature index <;> cases h2 : point.GetRawFeature second_index <;>
      simp [h1, h2]
  · unfold ThresholdFeature ThresholdFeature.FeatureMap finite
    cases h1 : point.GetRawFeature index with
    | none => simp [h1]
    | some v =>
      by_cases hgt : v > threshold
      · simp [h1, hgt]
      · simp [h1, hgt]

/-- Claim C25 on the point of `FeatureTest.TestRawFeatureMap`, whose covariates
are -10, 0.5 and 123: the raw features 1 and 3 are 0.5 and not-a-number, the
negative index -1 is not-a-number, the products (1, 2) and (3, 1) are 61.5 and
not-a-number, and the threshold features (1, 0), (2, 200) and (3, 1) are 1, 0 and
0. -/
theorem missing_covariates_witness :
    RawFeature.FeatureMap 1 (featureTestPoint ℚ 1 0.5) = some 0.5 ∧
    RawFeature.FeatureMap 3 (featureTestPoint ℚ 1 0.5) = none ∧
    (featureTestPoint ℚ 1 0.5).GetRawFeature (-1) = none ∧
    ProductFeature.FeatureMap 1 2 (featureTestPoint ℚ 1 0.5) = some 61.5 ∧
    ProductFeature.FeatureMap 3 1 (featureTestPoint ℚ 1 0.5) = none ∧
    ThresholdFeature.FeatureMap 1 0 (featureTestPoint ℚ 1 0.5) = some 1 ∧
    ThresholdFeature.FeatureMap 2 200 (featureTestPoint ℚ 1 0.5) = some 0 ∧
    ThresholdFeature.FeatureMap 3 1 (featureTestPoint ℚ 1 0.5) = some 0 := by
  have hraw : ∀ k : Nat, (featureTestPoint ℚ 1 0.5).GetRawFeature (k : Int) =
      [-10, 0.5, 123][k]? := fun k =>
    ((missing_covariates (featureTestPoint ℚ 1 0.5) 0 0 0).2.2.1 1 [-10, 0.5, 123] k).1
  have h1 : (featureTestPoint ℚ 1 0.5).GetRawFeature 1 = some 0.5 := hraw 1
  have h2 : (featureTestPoint ℚ 1 0.5).GetRawFeature 2 = some 123 := hraw 2
  have h3 : (featureTestPoint ℚ 1 0.5).GetRawFeature 3 = none := hraw 3
  refine ⟨h1, h3, ?_, ?_, ?_, ?_, ?_, ?_⟩
  · exact (missing_covariates (featureTestPoint ℚ 1 0.5) (-1) 0 0).2.1 (by decide)
  · rw [(missing_covariates (featureTestPoint ℚ 1 0.5) 1 2 0).2.2.2.2.2.1.1 0.5 123 h1 h2]
    norm_num
  · exact (missing_covariates (featureTestPoint ℚ 1 0.5) 3 1 0).2.2.2.2.2.1.2 (Or.inl h3)
  · exact (missing_covariates (featureTestPoint ℚ 1 0.5) 1 0 0).2.2.2.1.1.2
      ⟨0.5, h1, by norm_num⟩
  · refine (missing_covariates (featureTestPoint ℚ 1 0.5) 2 0 200).2.2.2.1.2.1.2 ?_
    rintro ⟨v, hv, hlt⟩
    rw [h2] at hv
    cases hv
    norm_num at hlt
  · exact (missing_covariates (featureTestPoint ℚ 1 0.5) 3 0 1).2.2.2.1.2.2 h3

end MissingCovariates

/-! ## The walk of `TreeFeature::FeatureMap` -/

section TreeWalk

variable {α : Type} [LinearOrderedField α]

/-- In a tree in which each node has no child or both, the walk from a node
ends with the value of the leaf at the end of the path that the specification
describes, and no other path that follows the rule ends in a leaf. -/
theorem walk_route (n : Node α) (point : Point α) (h : n.Full) :
    ∃ v, TreeFeature.walk n point = some v ∧
      (n.sub (n.route point)).IsLeaf = some true ∧
      (n.sub (n.route point)).GetValue = some v ∧
      n.Follows point (n.route point) ∧
      (∀ path, n.Follows point path → (n.sub path).IsLeaf = some true →
        path = n.route point) ∧
      (∀ k : Nat, (n.sub ((n.route point).take k)).isNull = false) := by
  induction n with
  | null => exact absurd h (by simp [Node.Full])
  | mk f t v l r w ps ss ihl ihr =>
    by_cases hleaf : (l.isNull && r.isNull) = true
    · refine ⟨v, ?_, ?_, ?_, ?_, ?_, ?_⟩
      · simp [TreeFeature.walk, hleaf]
      · simp [Node.route, hleaf, Node.sub, Node.IsLeaf]
      · simp [Node.route, hleaf, Node.sub, Node.GetValue]
      · simp [Node.route, hleaf, Node.Follows]
      · intro path hfollows _
        cases path with
        | nil => simp [Node.route, hleaf]
        | cons b rest =>
          simp only [Node.Follows, hleaf] at hfollows
          exact absurd hfollows.1 (by simp)
      · intro k
        simp only [Node.route, hleaf, if_true, List.take_nil]
        rfl
    · have hfull : l.Full ∧ r.Full := by
        simp only [Node.Full] at h
        rcases h with h | h
        · exact absurd (by simp [h.1, h.2]) hleaf
        · exact h
      have hleaf2 : (l.isNull && r.isNull) = false := by simpa using hleaf
      by_cases hless : point.RawFeatureLess f t = true
      · obtain ⟨u, h1, h2, h3, h4, h5, h6⟩ := ihl hfull.1
        have hroute : (Node.mk f t v l r w ps ss).route point = false :: l.route point := by
          simp [Node.route, hleaf2, hless]
        refine ⟨u, ?_, ?_, ?_, ?_, ?_, ?_⟩
        · simpa [TreeFeature.walk, hleaf2, hless] using h1
        · rw [hroute]
          simpa [Node.sub] using h2
        · rw [hroute]
          simpa [Node.sub] using h3
        · rw [hroute]
          simp only [Node.Follows, hleaf2, hless]
          exact ⟨trivial, by simp, by simpa using h4⟩
        · intro path hfollows hend
          cases path with
          | nil => simp [Node.sub, Node.IsLeaf, hleaf2] at hend
          | cons b rest =>
            simp only [Node.Follows, hless] at hfollows
            obtain ⟨_, hb, hrest⟩ := hfollows
            have hb2 : b = false := by simpa using hb
            subst hb2
            simp only [Bool.false_eq_true, if_false] at hrest
            simp only [Node.sub, Bool.false_eq_true, if_false] at hend
            rw [hroute, h5 rest hrest hend]
        · intro k
          rw [hroute]
          cases k with
          | zero => rfl
          | succ k => simpa [Node.sub] using h6 k
      · have hless2 : point.RawFeatureLess f t = false := by simpa using hless
        obtain ⟨u, h1, h2, h3, h4, h5, h6⟩ := ihr hfull.2
        have hroute : (Node.mk f t v l r w ps ss).route point = true :: r.route point := by
          simp [Node.route, hleaf2, hless2]
        refine ⟨u, ?_, ?_, ?_, ?_, ?_, ?_⟩
        · simpa [TreeFeature.walk, hleaf2, hless2] using h1
        · rw [hroute]
          simpa [Node.sub] using h2
        · rw [hroute]
          simpa [Node.sub] using h3
        · rw [hroute]
          simp only [Node.Follows, hleaf2, hless2]
          exact ⟨trivial, by simp, by simpa using h4⟩
        · intro path hfollows hend
          cases path with
          | nil => simp [Node.sub, Node.IsLeaf, hleaf2] at hend
          | cons b rest =>
            simp only [Node.Follows, hless2] at hfollows
            obtain ⟨_, hb, hrest⟩ := hfollows
            have hb2 : b = true := by simpa using hb
            subst hb2
            simp only [if_true] at hrest
            simp only [Node.sub, if_true] at hend
            rw [hroute, h5 rest hrest hend]
        · intro k
          rw [hroute]
          cases k with
          | zero => rfl
          | succ k => simpa [Node.sub] using h6 k

/-- Claim C26: in a finite tree in which each node has either no child or both
children, for every point, `TreeFeature::FeatureMap` ends and returns a value,
without reaching a null pointer; the value is the value of the leaf at the end of
the path from the root that goes, at each node with children, to the left child
if and only if the covariate of the point at the feature index of the node is
present and strictly less than the threshold of the node, and to the right child
otherwise (so also for a missing covariate); that path is the only one by this
rule that ends in a leaf; and a node is a leaf if and only if both of its
children are absent. -/
theorem FeatureMap_route (f : TreeFeature α) (point : Point α) (h : f.root.Full) :
    (∃ v, f.FeatureMap point = some v ∧
      (f.root.sub (f.root.route point)).IsLeaf = some true ∧
      (f.root.sub (f.root.route point)).GetValue = some v ∧
      f.root.Follows point (f.root.route point) ∧
      (∀ path, f.root.Follows point path → (f.root.sub path).IsLeaf = some true →
        path = f.root.route point) ∧
      (∀ k : Nat, (f.root.sub ((f.root.route point).take k)).isNull = false)) ∧
    (∀ (index : Int) (threshold : α),
      (point.RawFeatureLess index threshold = true ↔
        ∃ v, point.GetRawFeature index = some v ∧ v < threshold) ∧
      (point.GetRawFeature index = none → point.RawFeatureLess index threshold = false)) ∧
    (∀ n : Node α, n.IsLeaf = some true ↔
      n.GetLeftChild = some Node.null ∧ n.GetRightChild = some Node.null) := by
  refine ⟨walk_route f.root point h, fun index threshold => ⟨?_, fun hnone => ?_⟩, fun n => ?_⟩
  · unfold Point.RawFeatureLess
    cases hv : point.GetRawFeature index with
    | none => simp
    | some v => simp
  · unfold Point.RawFeatureLess
    rw [hnone]
  · cases n with
    | null => simp [Node.IsLeaf, Node.GetLeftChild]
    | mk f t v l r w ps ss =>
      cases l <;> cases r <;> simp [Node.IsLeaf, Node.isNull, Node.GetLeftChild,
        Node.GetRightChild]

/-- Claim C26 on the tree of `FeatureTest.TestTreeFeatureMap` and its first
point, with the covariates 1, -1, 0 and 123: the walk goes left twice and returns
1; and on a point with the covariate 1 only, whose other covariates are missing,
it goes right twice and returns 1. -/
theorem FeatureMap_route_witness :
    (featureTestTree ℚ).Full ∧
    (TreeFeature.new (featureTestTree ℚ)).FeatureMap
      { id := 1, finalized := false, probability_weight := 1, raw_features := [1, -1, 0, 123] } =
        some 1 ∧
    (featureTestTree ℚ).route
      { id := 1, finalized := false, probability_weight := 1, raw_features := [1, -1, 0, 123] } =
        [false, false] ∧
    (featureTestTree ℚ).route
      { id := 1, finalized := false, probability_weight := 1, raw_features := [1] } =
        [true, true] ∧
    (TreeFeature.new (featureTestTree ℚ)).FeatureMap
      { id := 1, finalized := false, probability_weight := 1, raw_features := [1] } = some 1 := by
  have hfull : (featureTestTree ℚ).Full := by
    simp [featureTestTree, Node.Full, Node.isNull]
  have hr1 : (featureTestTree ℚ).route
      { id := 1, finalized := false, probability_weight := 1, raw_features := [1, -1, 0, 123] } =
        [false, false] := by
    norm_num [featureTestTree, Node.route, Node.isNull, Point.RawFeatureLess,
      Point.GetRawFeature, Int.toNat]
  have hr2 : (featureTestTree ℚ).route
      { id := 1, finalized := false, probability_weight := 1, raw_features := [1] } =
        [true, true] := by
    norm_num [featureTestTree, Node.route, Node.isNull, Point.RawFeatureLess,
      Point.GetRawFeature, Int.toNat]
  obtain ⟨v, h1, _, h3, _⟩ := (FeatureMap_route (TreeFeature.new (featureTestTree ℚ))
    { id := 1, finalized := false, probability_weight := 1, raw_features := [1, -1, 0, 123] }
    hfull).1
  obtain ⟨u, g1, _, g3, _⟩ := (FeatureMap_route (TreeFeature.new (featureTestTree ℚ))
    { id := 1, finalized := false, probability_weight := 1, raw_features := [1] } hfull).1
  have hv : v = 1 := by
    have h4 := h3
    simp only [TreeFeature.new] at h4
    rw [hr1] at h4
    simpa [featureTestTree, Node.sub, Node.GetValue] using h4.symm
  have hu : u = 1 := by
    have g4 := g3
    simp only [TreeFeature.new] at g4
    rw [hr2] at g4
    simpa [featureTestTree, Node.sub, Node.GetValue] using g4.symm
  refine ⟨hfull, ?_, hr1, hr2, ?_⟩
  · rw [h1, hv]
  · rw [g1, hu]

end TreeWalk

/-! ## The two expectations of a feature -/

section ExpectationFacts

variable {α : Type} [LinearOrderedField α]

/-- Claim C27: for every feature (a record of the virtual `FeatureMap` and
`Complexity`, so every class of features) and every non-empty sample,
`ComputeSampleExpectation` stores in `sample_expectation` the sum of `FeatureMap`
over the observations of the sample divided by their number, which is not 0; an
observation that occurs k times is counted k times, and the order of the
observations does not matter; `population_expectation`, `FeatureMap` and
`Complexity` are as before.  The function of the embedding returns the feature
only: no point is written. -/
theorem ComputeSampleExpectation_mean (f : Feature α) (examples : List (Point α))
    (hne : examples ≠ []) :
    (f.ComputeSampleExpectation examples).GetSampleExpectation =
      (examples.map f.FeatureMap).sum / (examples.length : α) ∧
    (examples.length : α) ≠ 0 ∧
    (∀ (p : Point α) (k : Nat) (rest : List (Point α)),
      (f.ComputeSampleExpectation (List.replicate k p ++ rest)).GetSampleExpectation =
        ((k : α) * f.FeatureMap p + (rest.map f.FeatureMap).sum) /
          ((k : α) + (rest.length : α))) ∧
    (∀ examples2 : List (Point α), examples.Perm examples2 →
      (f.ComputeSampleExpectation examples2).GetSampleExpectation =
        (f.ComputeSampleExpectation examples).GetSampleExpectation) ∧
    (f.ComputeSampleExpectation examples).GetUnnormalizedPopulationExpectation =
      f.GetUnnormalizedPopulationExpectation ∧
    (f.ComputeSampleExpectation examples).FeatureMap = f.FeatureMap ∧
    (f.ComputeSampleExpectation examples).Complexity = f.Complexity := by
  have hmean : ∀ l : List (Point α), (f.ComputeSampleExpectation l).GetSampleExpectation =
      (l.map f.FeatureMap).sum / (l.length : α) := by
    intro l
    unfold Feature.ComputeSampleExpectation Feature.GetSampleExpectation
    simp only [foldl_pair_eq, zero_add]
  refine ⟨hmean examples, ?_, fun p k rest => ?_, fun examples2 hperm => ?_, rfl, rfl, rfl⟩
  · exact_mod_cast (Nat.pos_iff_ne_zero.1 (List.length_pos.2 hne))
  · rw [hmean]
    simp only [List.map_append, List.map_replicate, List.sum_append, List.sum_replicate,
      List.length_append, List.length_replicate, nsmul_eq_mul]
    push_cast
    rfl
  · rw [hmean, hmean, (hperm.map f.FeatureMap).sum_eq, hperm.length_eq]

/-- Claim C27 on `FeatureTest.TestComputeGetSampleExpectationOfRawFeature`: the
raw feature 1 over the sample `point`, `point2`, `point3`, `point2`, whose
covariates 1 are 0.5, 1, 1.5 and 1, has the sample expectation 1. -/
theorem ComputeSampleExpectation_mean_witness :
    featureTestSample ℚ ≠ [] ∧
    ((RawFeature 1 0).ComputeSampleExpectation (featureTestSample ℚ)).GetSampleExpectation = 1 := by
  have hne : featureTestSample ℚ ≠ [] := by simp [featureTestSample]
  refine ⟨hne, ?_⟩
  rw [(ComputeSampleExpectation_mean (RawFeature 1 0) (featureTestSample ℚ) hne).1]
  norm_num [featureTestSample, featureTestPoint, Point.new, Point.AddRawFeature, RawFeature,
    finite, Point.GetRawFeature]

/-- Claim C28: for every feature (a record of the virtual `FeatureMap`, so every
class of features) and every space, `ComputeUnnormalizedPopulationExpectation`
stores in `population_expectation` the sum over the points of the space of
`probability_weight * FeatureMap`, which is 0 for an empty space, and which is
not divided by the total weight: it is the total weight times the expectation
under the normalized weights; `sample_expectation`, `FeatureMap` and `Complexity`
are as before.  The function of the embedding returns the feature only: no point
weight is written. -/
theorem ComputeUnnormalizedPopulationExpectation_sum (f : Feature α) (space : Space α) :
    (f.ComputeUnnormalizedPopulationExpectation space).GetUnnormalizedPopulationExpectation =
      (space.points.map (fun p => p.probability_weight * f.FeatureMap p)).sum ∧
    (space.points = [] →
      (f.ComputeUnnormalizedPopulationExpectation space).GetUnnormalizedPopulationExpectation
        = 0) ∧
    ((space.points.map Point.GetProbWeight).sum ≠ 0 →
      (f.ComputeUnnormalizedPopulationExpectation space).GetUnnormalizedPopulationExpectation =
        (space.points.map Point.GetProbWeight).sum *
          (space.points.map (fun p =>
            p.probability_weight / (space.points.map Point.GetProbWeight).sum *
              f.FeatureMap p)).sum) ∧
    (f.ComputeUnnormalizedPopulationExpectation space).GetSampleExpectation =
      f.GetSampleExpectation ∧
    (f.ComputeUnnormalizedPopulationExpectation space).FeatureMap = f.FeatureMap ∧
    (f.ComputeUnnormalizedPopulationExpectation space).Complexity = f.Complexity := by
  have hsum : (f.ComputeUnnormalizedPopulationExpectation
      space).GetUnnormalizedPopulationExpectation =
      (space.points.map (fun p => p.probability_weight * f.FeatureMap p)).sum := by
    unfold Feature.ComputeUnnormalizedPopulationExpectation
      Feature.GetUnnormalizedPopulationExpectation
    simp only [foldl_add_eq_sum, zero_add]
    rfl
  refine ⟨hsum, fun hempty => ?_, fun htotal => ?_, rfl, rfl, rfl⟩
  · rw [hsum, hempty]
    rfl
  · rw [hsum, ← List.sum_map_mul_left]
    congr 1
    apply List.map_congr_left
    intro p _
    field_simp

/-- Claim C28 on `FeatureTest.TestGetComputePopulationExpectationOfRawFeature`:
the raw feature 1 over the finalized space of three points with the weights 2,
100 and 2 / 1.5 and the covariates 1 equal to 0.5, 1 and 1.5 has the
unnormalized population expectation 103. -/
theorem ComputeUnnormalizedPopulationExpectation_sum_witness :
    ((RawFeature 1 0).ComputeUnnormalizedPopulationExpectation
      ([((((Point.new 1 : Point ℚ).AddRawFeature (-1)).2.AddRawFeature 0.5).2.AddRawFeature
          123).2.SetProbWeight 2,
        ((((Point.new 2 : Point ℚ).AddRawFeature 0.0).2.AddRawFeature 1.0).2.AddRawFeature
          123).2.SetProbWeight 100,
        ((((Point.new 3 : Point ℚ).AddRawFeature 1).2.AddRawFeature 1.5).2.AddRawFeature
          123).2.SetProbWeight (2 / 1.5)].foldl
        (fun X p => (X.AddPoint p).2) Space.new).Finalize).GetUnnormalizedPopulationExpectation
      = 103 := by
  rw [(ComputeUnnormalizedPopulationExpectation_sum (RawFeature 1 0) _).1]
  norm_num [Point.new, Point.AddRawFeature, Point.SetProbWeight, Space.AddPoint, Space.new,
    Space.Finalize, Point.Finalize, RawFeature, finite, Point.GetRawFeature]

end ExpectationFacts

/-! ## The bookkeeping of a node -/

section NodeBookkeeping

variable {α : Type} [LinearOrderedField α]

/-- The bookkeeping of a node that is not `NULL`: the cached weight is the
accumulated weight of the point list. -/
theorem bookkeeping_step (n : Node α) (op : NodeOp α)
    (h : n.isNull = false ∧ n.GetPopulationWeight =
      some ((n.Points.map Point.GetProbWeight).foldl (fun total w => total + w) 0)) :
    (n.apply op).isNull = false ∧ (n.apply op).GetPopulationWeight =
      some (((n.apply op).Points.map Point.GetProbWeight).foldl (fun total w => total + w) 0) := by
  cases n with
  | null => exact absurd h.1 (by simp [Node.isNull])
  | mk f t v l r w ps ss =>
    have hw : w = (ps.map Point.GetProbWeight).foldl (fun total w => total + w) 0 := by
      simpa [Node.GetPopulationWeight, Node.Points] using h.2
    cases op with
    | AddPoint point =>
      refine ⟨rfl, ?_⟩
      simp only [Node.apply, Node.AddPoint, Node.GetPopulationWeight, Node.Points,
        List.map_append, List.foldl_append, List.map_cons, List.map_nil, List.foldl_cons,
        List.foldl_nil, ← hw]
    | AddSample point => exact ⟨rfl, h.2⟩
    | ClearPoints =>
      refine ⟨rfl, ?_⟩
      simp [Node.apply, Node.ClearPoints, Node.GetPopulationWeight, Node.Points]
    | ClearSamples => exact ⟨rfl, h.2⟩

/-- The bookkeeping holds after every run of calls. -/
theorem bookkeeping_run (ops : List (NodeOp α)) :
    ∀ n : Node α, (n.isNull = false ∧ n.GetPopulationWeight =
      some ((n.Points.map Point.GetProbWeight).foldl (fun total w => total + w) 0)) →
    ((ops.foldl Node.apply n).isNull = false ∧ (ops.foldl Node.apply n).GetPopulationWeight =
      some (((ops.foldl Node.apply n).Points.map Point.GetProbWeight).foldl
        (fun total w => total + w) 0)) := by
  induction ops with
  | nil => exact fun n h => h
  | cons op rest ih =>
    intro n h
    rw [List.foldl_cons]
    exact ih _ (bookkeeping_step n op h)

/-- The point list and the sample list after a run of calls: the points added
since the last `ClearPoints`, and the sample points added since the last
`ClearSamples`, in the order of the calls. -/
theorem lists_run (ops : List (NodeOp α)) :
    ∀ n : Node α, n.isNull = false →
      (ops.foldl Node.apply n).Points = ops.foldl (fun held op =>
        match op with
        | NodeOp.AddPoint point => held ++ [point]
        | NodeOp.ClearPoints => []
        | _ => held) n.Points ∧
      (ops.foldl Node.apply n).Samples = ops.foldl (fun held op =>
        match op with
        | NodeOp.AddSample point => held ++ [point]
        | NodeOp.ClearSamples => []
        | _ => held) n.Samples := by
  induction ops with
  | nil => exact fun n _ => ⟨rfl, rfl⟩
  | cons op rest ih =>
    intro n hn
    cases n with
    | null => exact absurd hn (by simp [Node.isNull])
    | mk f t v l r w ps ss =>
      rw [List.foldl_cons, List.foldl_cons, List.foldl_cons]
      cases op <;> exact ih _ rfl

/-- Claim C29: after every sequence of `AddPoint`, `AddSample`, `ClearPoints` and
`ClearSamples` applied to a new node, `GetPopulationWeight()` is the sum of the
weights, as read when added, of the points that the point list holds, accumulated
in insertion order, and `GetSampleCount()` is the length of the sample list; the
point list holds the points added since the last `ClearPoints`, and the sample
list the sample points added since the last `ClearSamples`; on every node,
`AddSample` and `ClearSamples` change neither the weight nor the point list,
`AddPoint` appends the point and adds its weight without touching the samples,
and `ClearPoints` empties the point list and resets the weight to 0 without
touching the samples. -/
theorem Node_bookkeeping (ops : List (NodeOp α)) :
    (ops.foldl Node.apply (Node.new : Node α)).GetPopulationWeight =
      some (((ops.foldl Node.apply (Node.new : Node α)).Points.map Point.GetProbWeight).foldl
        (fun total w => total + w) 0) ∧
    (ops.foldl Node.apply (Node.new : Node α)).GetPopulationWeight =
      some (((ops.foldl Node.apply (Node.new : Node α)).Points.map Point.GetProbWeight).sum) ∧
    (ops.foldl Node.apply (Node.new : Node α)).GetSampleCount =
      some (((ops.foldl Node.apply (Node.new : Node α)).Samples.length : Nat) : Int) ∧
    (ops.foldl Node.apply (Node.new : Node α)).Points = ops.foldl (fun held op =>
      match op with
      | NodeOp.AddPoint point => held ++ [point]
      | NodeOp.ClearPoints => []
      | _ => held) [] ∧
    (ops.foldl Node.apply (Node.new : Node α)).Samples = ops.foldl (fun held op =>
      match op with
      | NodeOp.AddSample point => held ++ [point]
      | NodeOp.ClearSamples => []
      | _ => held) [] ∧
    (∀ (n : Node α) (point : Point α),
      ((n.AddSample point).GetPopulationWeight = n.GetPopulationWeight ∧
        (n.AddSample point).Points = n.Points ∧
        (n.isNull = false → (n.AddSample point).Samples = n.Samples ++ [point])) ∧
      (n.ClearSamples.GetPopulationWeight = n.GetPopulationWeight ∧
        n.ClearSamples.Points = n.Points ∧ n.ClearSamples.Samples = []) ∧
      (n.ClearPoints.Points = [] ∧
        (n.isNull = false → n.ClearPoints.GetPopulationWeight = some 0) ∧
        n.ClearPoints.Samples = n.Samples ∧
        n.ClearPoints.GetSampleCount = n.GetSampleCount) ∧
      ((n.isNull = false → (n.AddPoint point).Points = n.Points ++ [point]) ∧
        (∀ w, n.GetPopulationWeight = some w →
          (n.AddPoint point).GetPopulationWeight = some (w + point.GetProbWeight)) ∧
        (n.AddPoint point).Samples = n.Samples)) := by
  have hnew : (Node.new : Node α).isNull = false ∧ (Node.new : Node α).GetPopulationWeight =
      some (((Node.new : Node α).Points.map Point.GetProbWeight).foldl
        (fun total w => total + w) 0) := ⟨rfl, rfl⟩
  have hrun := bookkeeping_run ops Node.new hnew
  have hlists := lists_run ops (Node.new : Node α) rfl
  refine ⟨hrun.2, ?_, ?_, hlists.1, hlists.2, fun n point => ?_⟩
  · rw [hrun.2, foldl_add_eq_sum (fun w : α => w), zero_add]
    congr 2
    exact List.map_id _
  · cases hn : ops.foldl Node.apply (Node.new : Node α) with
    | null =>
      rw [hn] at hrun
      exact absurd hrun.1 (by simp [Node.isNull])
    | mk f t v l r w ps ss => rfl
  · cases n with
    | null =>
      refine ⟨⟨rfl, rfl, fun h => ?_⟩, ⟨rfl, rfl, rfl⟩, ⟨rfl, fun h => ?_, rfl, rfl⟩,
        ⟨fun h => ?_, fun w hw => ?_, rfl⟩⟩
      · exact absurd h (by simp [Node.isNull])
      · exact absurd h (by simp [Node.isNull])
      · exact absurd h (by simp [Node.isNull])
      · simp [Node.GetPopulationWeight] at hw
    | mk f t v l r w ps ss =>
      refine ⟨⟨rfl, rfl, fun _ => rfl⟩, ⟨rfl, rfl, rfl⟩, ⟨rfl, fun _ => rfl, rfl, rfl⟩,
        ⟨fun _ => rfl, fun w2 hw => ?_, rfl⟩⟩
      simp only [Node.GetPopulationWeight, Option.some.injEq] at hw
      simp [Node.AddPoint, Node.GetPopulationWeight, hw]

/-- Claim C29 on `TreeTest.TestAddingGettingClearingPointsAndSamples`: after the
points of the weights 2, 0 and 3 the weight is 5 and the sample count 0; after
`ClearPoints` and four sample points the weight is 0, the point list is empty and
the sample count is 4. -/
theorem Node_bookkeeping_witness :
    ([NodeOp.AddPoint ((Point.new 1 : Point ℚ).SetProbWeight 2.0),
      NodeOp.AddPoint ((Point.new 7 : Point ℚ).SetProbWeight 0.0),
      NodeOp.AddPoint ((Point.new 99 : Point ℚ).SetProbWeight 3.0)].foldl Node.apply
        (Node.new : Node ℚ)).GetPopulationWeight = some 5 ∧
    ([NodeOp.AddPoint ((Point.new 1 : Point ℚ).SetProbWeight 2.0),
      NodeOp.AddPoint ((Point.new 7 : Point ℚ).SetProbWeight 0.0),
      NodeOp.AddPoint ((Point.new 99 : Point ℚ).SetProbWeight 3.0),
      NodeOp.ClearPoints,
      NodeOp.AddSample ((Point.new 1 : Point ℚ).SetProbWeight 2.0),
      NodeOp.AddSample ((Point.new 1 : Point ℚ).SetProbWeight 2.0),
      NodeOp.AddSample ((Point.new 7 : Point ℚ).SetProbWeight 0.0),
      NodeOp.AddSample ((Point.new 99 : Point ℚ).SetProbWeight 3.0)].foldl Node.apply
        (Node.new : Node ℚ)).GetPopulationWeight = some 0 ∧
    ([NodeOp.AddPoint ((Point.new 1 : Point ℚ).SetProbWeight 2.0),
      NodeOp.AddPoint ((Point.new 7 : Point ℚ).SetProbWeight 0.0),
      NodeOp.AddPoint ((Point.new 99 : Point ℚ).SetProbWeight 3.0),
      NodeOp.ClearPoints,
      NodeOp.AddSample ((Point.new 1 : Point ℚ).SetProbWeight 2.0),
      NodeOp.AddSample ((Point.new 1 : Point ℚ).SetProbWeight 2.0),
      NodeOp.AddSample ((Point.new 7 : Point ℚ).SetProbWeight 0.0),
      NodeOp.AddSample ((Point.new 99 : Point ℚ).SetProbWeight 3.0)].foldl Node.apply
        (Node.new : Node ℚ)).GetSampleCount = some 4 := by
  refine ⟨?_, ?_, ?_⟩
  · rw [(Node_bookkeeping _).2.1, (Node_bookkeeping _).2.2.2.1]
    norm_num [Point.GetProbWeight, Point.SetProbWeight, Point.new]
  · rw [(Node_bookkeeping _).2.1, (Node_bookkeeping _).2.2.2.1]
    norm_num [Point.GetProbWeight, Point.SetProbWeight, Point.new]
  · rw [(Node_bookkeeping _).2.2.1, (Node_bookkeeping _).2.2.2.2.1]
    norm_num

end NodeBookkeeping

/-! ## `GrowTree` on a leaf -/

section GrowTreeFacts

variable {α : Type} [LinearOrderedField α]

/-- Claim C30, as amended: for every leaf, threshold `t`, covariate index `j` and
integer left value `v`, `GrowTree` makes the node internal with the split rule
`(j, t)` (`Child` sends a point left exactly when its covariate `j` is strictly
less than `t`) and two new leaves as children, gives the left child the value `v`
and the right child the value `1 - v`, moves to the left child exactly the points
and the sample points of the node whose covariate `j` is strictly less than `t`
and to the right child all others, each in the order that they had, and leaves
the parent with empty lists and weight 0; the sample counts of the children sum
to the former sample count of the parent, and their weights sum to the sum of the
current weights of the former points of the parent, which is the former weight
of the parent if that weight was the sum of the current weights of its
points. -/
theorem GrowTree_split (n : Node α) (threshold : α) (feature_index left_val : Int)
    (hleaf : n.IsLeaf = some true) :
    (TreeLearner.GrowTree n threshold feature_index left_val).IsLeaf = some false ∧
    (TreeLearner.GrowTree n threshold feature_index left_val).GetLeftChild =
      some ((TreeLearner.GrowTree n threshold feature_index left_val).sub [false]) ∧
    (TreeLearner.GrowTree n threshold feature_index left_val).GetRightChild =
      some ((TreeLearner.GrowTree n threshold feature_index left_val).sub [true]) ∧
    (∀ point : Point α,
      (TreeLearner.GrowTree n threshold feature_index left_val).Child point =
        some ((TreeLearner.GrowTree n threshold feature_index left_val).sub
          [!point.RawFeatureLess feature_index threshold])) ∧
    (((TreeLearner.GrowTree n threshold feature_index left_val).sub [false]).IsLeaf = some true ∧
      ((TreeLearner.GrowTree n threshold feature_index left_val).sub [true]).IsLeaf =
        some true) ∧
    (((TreeLearner.GrowTree n threshold feature_index left_val).sub [false]).GetValue =
        some (left_val : α) ∧
      ((TreeLearner.GrowTree n threshold feature_index left_val).sub [true]).GetValue =
        some (1 - (left_val : α))) ∧
    (((TreeLearner.GrowTree n threshold feature_index left_val).sub [false]).Points =
        n.Points.filter (fun p => p.RawFeatureLess feature_index threshold) ∧
      ((TreeLearner.GrowTree n threshold feature_index left_val).sub [true]).Points =
        n.Points.filter (fun p => !p.RawFeatureLess feature_index threshold) ∧
      ((TreeLearner.GrowTree n threshold feature_index left_val).sub [false]).Samples =
        n.Samples.filter (fun p => p.RawFeatureLess feature_index threshold) ∧
      ((TreeLearner.GrowTree n threshold feature_index left_val).sub [true]).Samples =
        n.Samples.filter (fun p => !p.RawFeatureLess feature_index threshold)) ∧
    ((TreeLearner.GrowTree n threshold feature_index left_val).Points = [] ∧
      (TreeLearner.GrowTree n threshold feature_index left_val).Samples = [] ∧
      (TreeLearner.GrowTree n threshold feature_index left_val).GetPopulationWeight = some 0 ∧
      (TreeLearner.GrowTree n threshold feature_index left_val).GetValue = n.GetValue) ∧
    (∃ left_count right_count : Int,
      ((TreeLearner.GrowTree n threshold feature_index left_val).sub [false]).GetSampleCount =
        some left_count ∧
      ((TreeLearner.GrowTree n threshold feature_index left_val).sub [true]).GetSampleCount =
        some right_count ∧
      n.GetSampleCount = some (left_count + right_count)) ∧
    (∃ left_weight right_weight : α,
      ((TreeLearner.GrowTree n threshold feature_index left_val).sub
        [false]).GetPopulationWeight = some left_weight ∧
      ((TreeLearner.GrowTree n threshold feature_index left_val).sub
        [true]).GetPopulationWeight = some right_weight ∧
      left_weight = ((n.Points.filter
        (fun p => p.RawFeatureLess feature_index threshold)).map Point.GetProbWeight).sum ∧
      right_weight = ((n.Points.filter
        (fun p => !p.RawFeatureLess feature_index threshold)).map Point.GetProbWeight).sum ∧
      left_weight + right_weight = (n.Points.map Point.GetProbWeight).sum ∧
      (n.GetPopulationWeight = some ((n.Points.map Point.GetProbWeight).sum) →
        n.GetPopulationWeight = some (left_weight + right_weight))) := by
  obtain ⟨f, t, v, w, ps, ss, rfl⟩ := leaf_eq n hleaf
  rw [GrowTree_leaf]
  have hsum := sum_filter_split (fun p : Point α => p.RawFeatureLess feature_index threshold)
    Point.GetProbWeight Point.GetProbWeight Point.GetProbWeight ps (fun _ _ => rfl)
    (fun _ _ => rfl)
  have hlen := @List.length_eq_length_filter_add _ ss
    (fun p => p.RawFeatureLess feature_index threshold)
  refine ⟨rfl, rfl, rfl, fun point => ?_, ⟨rfl, rfl⟩, ⟨rfl, ?_⟩, ⟨?_, ?_, ?_, ?_⟩,
    ⟨rfl, rfl, rfl, rfl⟩, ⟨_, _, rfl, rfl, ?_⟩, ⟨_, _, rfl, rfl, ?_, ?_, ?_, fun h => ?_⟩⟩
  · cases hless : point.RawFeatureLess feature_index threshold <;>
      simp [Node.Child, Node.sub, hless]
  · simp [Node.sub, Node.GetValue]
  · simp [Node.sub, Node.Points]
  · simp [Node.sub, Node.Points]
  · simp [Node.sub, Node.Samples]
  · simp [Node.sub, Node.Samples]
  · simp only [Node.sub, Node.GetSampleCount, Bool.false_eq_true, if_false, if_true,
      List.nil_append, Option.some.injEq]
    have hlen2 : ss.length =
        (ss.filter (fun p => p.RawFeatureLess feature_index threshold)).length +
        (ss.filter (fun p => !p.RawFeatureLess feature_index threshold)).length := by
      rw [hlen]
    exact_mod_cast hlen2
  · simp [Node.Points]
  · simp [Node.Points]
  · simp only [zero_add, Node.Points]
    exact hsum.symm
  · rw [h]
    simp only [zero_add, Node.Points]
    rw [hsum]

/-- The amended claim C30 on the root of the second part of
`TreeLearnerTest.TestTrain`, which holds the four points of the space and the
sample point `point3`, split at the covariate 0 and the threshold 0 with the left
value 1: the points 1 and 2 go left and the points 3 and 4 right, the sample
point goes right, and the weights 2 and 1 of the children sum to the weight 3 of
the root. -/
theorem GrowTree_split_witness :
    (((treePoints ℚ).foldl Node.AddPoint (Node.new : Node ℚ)).AddSample
      { id := 3, finalized := false, probability_weight := 0, raw_features := [1, -1] }).IsLeaf =
        some true ∧
    (((treePoints ℚ).foldl Node.AddPoint (Node.new : Node ℚ)).AddSample
      { id := 3, finalized := false, probability_weight := 0,
        raw_features := [1, -1] }).GetPopulationWeight = some 3 ∧
    (((TreeLearner.GrowTree (((treePoints ℚ).foldl Node.AddPoint (Node.new : Node ℚ)).AddSample
      { id := 3, finalized := false, probability_weight := 0, raw_features := [1, -1] })
      0 0 1).sub [false]).Points.map Point.id) = [1, 2] ∧
    ((TreeLearner.GrowTree (((treePoints ℚ).foldl Node.AddPoint (Node.new : Node ℚ)).AddSample
      { id := 3, finalized := false, probability_weight := 0, raw_features := [1, -1] })
      0 0 1).sub [false]).GetPopulationWeight = some 2 ∧
    ((TreeLearner.GrowTree (((treePoints ℚ).foldl Node.AddPoint (Node.new : Node ℚ)).AddSample
      { id := 3, finalized := false, probability_weight := 0, raw_features := [1, -1] })
      0 0 1).sub [true]).GetPopulationWeight = some 1 ∧
    ((TreeLearner.GrowTree (((treePoints ℚ).foldl Node.AddPoint (Node.new : Node ℚ)).AddSample
      { id := 3, finalized := false, probability_weight := 0, raw_features := [1, -1] })
      0 0 1).sub [true]).GetValue = some 0 := by
  have hleaf : (((treePoints ℚ).foldl Node.AddPoint (Node.new : Node ℚ)).AddSample
      { id := 3, finalized := false, probability_weight := 0, raw_features := [1, -1] }).IsLeaf =
        some true := by
    simp [treePoints, Node.new, Node.AddPoint, Node.AddSample, Node.IsLeaf, Node.isNull]
  have hpoints : (((treePoints ℚ).foldl Node.AddPoint (Node.new : Node ℚ)).AddSample
      { id := 3, finalized := false, probability_weight := 0, raw_features := [1, -1] }).Points =
        treePoints ℚ := by
    simp [treePoints, Node.new, Node.AddPoint, Node.AddSample, Node.Points]
  obtain ⟨_, _, _, _, _, hval, hlists, _, _, wl, wr, hl, hr, hwl, hwr, _⟩ :=
    GrowTree_split (((treePoints ℚ).foldl Node.AddPoint (Node.new : Node ℚ)).AddSample
      { id := 3, finalized := false, probability_weight := 0, raw_features := [1, -1] })
      0 0 1 hleaf
  rw [hpoints] at hlists hwl hwr
  refine ⟨hleaf, ?_, ?_, ?_, ?_, ?_⟩
  · norm_num [treePoints, Node.new, Node.AddPoint, Node.AddSample, Node.GetPopulationWeight,
      Point.GetProbWeight]
  · rw [hlists.1]
    norm_num [treePoints, Point.RawFeatureLess, Point.GetRawFeature]
  · rw [hl, hwl]
    norm_num [treePoints, Point.RawFeatureLess, Point.GetRawFeature, Point.GetProbWeight]
  · rw [hr, hwr]
    norm_num [treePoints, Point.RawFeatureLess, Point.GetRawFeature, Point.GetProbWeight]
  · rw [hval.2]
    norm_num

/-- Claim C30 as stated fails: the leaf that holds one point, added with the
weight 1 and given the weight 5 afterwards, has the weight 1; after `GrowTree`
with the threshold 0, the covariate 0 and the left value 1 the point, which has no
covariate, is in the right child, and the weights 0 and 5 of the children do not
sum to 1. -/
theorem GrowTree_split_counterexample :
    (((Node.new : Node ℚ).AddPoint (Point.new 1)).reweigh 0 5).IsLeaf = some true ∧
    (((Node.new : Node ℚ).AddPoint (Point.new 1)).reweigh 0 5).GetPopulationWeight = some 1 ∧
    ((TreeLearner.GrowTree (((Node.new : Node ℚ).AddPoint (Point.new 1)).reweigh 0 5)
      0 0 1).sub [false]).GetPopulationWeight = some 0 ∧
    ((TreeLearner.GrowTree (((Node.new : Node ℚ).AddPoint (Point.new 1)).reweigh 0 5)
      0 0 1).sub [true]).GetPopulationWeight = some 5 ∧
    (0 : ℚ) + 5 ≠ 1 := by
  have hleaf : ((Node.new : Node ℚ).AddPoint (Point.new 1)).reweigh 0 5 =
      Node.mk 0 0 0 Node.null Node.null 1
        [({ id := 1, finalized := false, probability_weight := 5, raw_features := [] } :
          Point ℚ)] [] := by
    norm_num [Node.new, Node.AddPoint, Node.reweigh, Point.new, Point.GetProbWeight,
      Point.SetProbWeight]
  rw [hleaf, GrowTree_leaf]
  refine ⟨rfl, rfl, ?_, ?_, by norm_num⟩
  · norm_num [Node.sub, Node.GetPopulationWeight, Point.RawFeatureLess, Point.GetRawFeature]
  · norm_num [Node.sub, Node.GetPopulationWeight, Point.RawFeatureLess, Point.GetRawFeature,
      Point.GetProbWeight]

end GrowTreeFacts

/-! ## The denominator of `FindStepSize1` -/

section DenominatorFacts

variable {α : Type} [LinearOrderedField α]

/-- Claim C33: in `FindStepSize1`, with an exponential that is positive, if
`lambda > 0` and `P = population_expectation / normalizer` of the selected feature
satisfies `-lambda <= P <= lambda`, then for every weight the denominator
`(lambda + P) * exp(-2 * weight * lambda) - (P - lambda)` of the formula of `beta`
is strictly positive, so that `beta` is the quotient that the formula names
(`beta` times the denominator is the numerator); and with an exponential that
maps 0 to 1, for `lambda = 0` the denominator is 0 for every weight and every
`P`. -/
theorem FindStepSize1_denominator (exp : α → α) (hpos : ∀ x, 0 < exp x) (hexp0 : exp 0 = 1)
    (m : DMaxEntModel α) (feature : Feature α) :
    (0 < m.lambda →
      -m.lambda ≤ feature.GetUnnormalizedPopulationExpectation / m.normalizer →
      feature.GetUnnormalizedPopulationExpectation / m.normalizer ≤ m.lambda →
      ∀ feature_weight : α,
        0 < (m.lambda + feature.GetUnnormalizedPopulationExpectation / m.normalizer) *
            exp (-2 * feature_weight * m.lambda) -
          (feature.GetUnnormalizedPopulationExpectation / m.normalizer - m.lambda) ∧
        m.beta1 exp feature_weight feature *
          ((m.lambda + feature.GetUnnormalizedPopulationExpectation / m.normalizer) *
            exp (-2 * feature_weight * m.lambda) -
          (feature.GetUnnormalizedPopulationExpectation / m.normalizer - m.lambda)) =
          (m.lambda + feature.GetUnnormalizedPopulationExpectation / m.normalizer) *
            (-m.lambda + feature.GetSampleExpectation) * exp (-2 * feature_weight * m.lambda) -
          (m.lambda + feature.GetSampleExpectation) *
            (-m.lambda + feature.GetUnnormalizedPopulationExpectation / m.normalizer)) ∧
    (m.lambda = 0 →
      ∀ feature_weight : α,
        (m.lambda + feature.GetUnnormalizedPopulationExpectation / m.normalizer) *
            exp (-2 * feature_weight * m.lambda) -
          (feature.GetUnnormalizedPopulationExpectation / m.normalizer - m.lambda) = 0) := by
  refine ⟨fun hl hlo hhi feature_weight => ?_, fun hl feature_weight => ?_⟩
  · have he := hpos (-2 * feature_weight * m.lambda)
    have hden : 0 < (m.lambda + feature.GetUnnormalizedPopulationExpectation / m.normalizer) *
        exp (-2 * feature_weight * m.lambda) -
        (feature.GetUnnormalizedPopulationExpectation / m.normalizer - m.lambda) := by
      rcases eq_or_lt_of_le hlo with heq | hlt
      · rw [← heq]
        have h2 : (0 : α) < m.lambda + m.lambda := by linarith
        nlinarith
      · have h1 : 0 < m.lambda + feature.GetUnnormalizedPopulationExpectation / m.normalizer := by
          linarith
        have h2 := mul_pos h1 he
        linarith
    refine ⟨hden, ?_⟩
    unfold DMaxEntModel.beta1
    simp only
    have hform : (m.lambda + feature.GetUnnormalizedPopulationExpectation / m.normalizer) *
        exp (-2 * feature_weight * m.lambda) -
        (-m.lambda + feature.GetUnnormalizedPopulationExpectation / m.normalizer) =
        (m.lambda + feature.GetUnnormalizedPopulationExpectation / m.normalizer) *
        exp (-2 * feature_weight * m.lambda) -
        (feature.GetUnnormalizedPopulationExpectation / m.normalizer - m.lambda) := by ring
    rw [hform, div_mul_cancel₀ _ (ne_of_gt hden)]
  · rw [hl, mul_zero, hexp0]
    ring

/-- Claim C33 on the fixture model over the reals, with the third feature
selected: `lambda = 1` and `P = 1 / 2`, so the denominator is positive at the
weights 0 and -3. -/
theorem FindStepSize1_denominator_witness :
    0 < (fixtureSelected ℝ 0 0).lambda ∧
    (0 : ℝ) < (1 + 1 / 2) * Real.exp (-2 * 0 * 1) - (1 / 2 - 1) ∧
    (0 : ℝ) < (1 + 1 / 2) * Real.exp (-2 * -3 * 1) - (1 / 2 - 1) := by
  have hl : (fixtureSelected ℝ 0 0).lambda = 1 := by
    simp [fixtureSelected, fixtureModel, DMaxEntModel.mk0]
  have hP : ((fixtureThreshold3 ℝ).ComputeUnnormalizedPopulationExpectation
      (fixtureSpace ℝ)).GetUnnormalizedPopulationExpectation /
      (fixtureSelected ℝ 0 0).normalizer = 1 / 2 := by
    norm_num [fixtureSelected, fixtureModel, DMaxEntModel.mk0, fixtureThreshold3,
      Feature.ComputeUnnormalizedPopulationExpectation,
      Feature.GetUnnormalizedPopulationExpectation, fixtureSpace, fixturePoint1, fixturePoint2,
      Point.GetProbWeight, Space.NumPoints]
  have h := (FindStepSize1_denominator Real.exp Real.exp_pos Real.exp_zero
    (fixtureSelected ℝ 0 0)
    ((fixtureThreshold3 ℝ).ComputeUnnormalizedPopulationExpectation (fixtureSpace ℝ))).1
    (by rw [hl]; norm_num) (by rw [hl, hP]; norm_num) (by rw [hl, hP]; norm_num)
  rw [hl, hP] at h
  exact ⟨by rw [hl]; norm_num, (h 0).1, (h (-3)).1⟩

end DenominatorFacts

/-! ## `LogLoss` -/

section LogLossFacts

variable {α : Type} [LinearOrderedField α]

/-- No term of a list of positive terms exceeds the sum. -/
theorem le_sum_of_mem_pos {β : Type} (w : β → α) (l : List β) (hw : ∀ p ∈ l, 0 < w p) :
    ∀ p ∈ l, w p ≤ (l.map w).sum := by
  induction l with
  | nil => intro p hp; simp at hp
  | cons a t ih =>
    intro p hp
    have hnn : 0 ≤ (t.map w).sum :=
      List.sum_nonneg (fun x hx => by
        obtain ⟨q, hq, rfl⟩ := List.mem_map.1 hx
        exact le_of_lt (hw q (List.mem_cons_of_mem _ hq)))
    simp only [List.map_cons, List.sum_cons]
    rcases List.mem_cons.1 hp with rfl | hp
    · linarith
    · have h1 := ih (fun q hq => hw q (List.mem_cons_of_mem _ hq)) p hp
      have h2 := hw a (List.mem_cons_self _ _)
      linarith

/-- Claim C34: `LogLoss(sample)` is the sum over the observations of the sample,
with multiplicity, of `log(normalizer / probability_weight(observation))`, and 0
for the empty sample; with a logarithm that is non-negative from 1 on, it is
non-negative whenever every point of the space has a positive
`probability_weight`, the normalizer is the sum of those weights, and every
observation is a point of the space. -/
theorem LogLoss_sum (log : α → α) (m : DMaxEntModel α) (sample : Sample α)
    (examples : List (Point α)) (hres : Sample.points m.space sample = some examples) :
    m.LogLoss log sample =
      some ((examples.map (fun e => log (m.normalizer / e.GetProbWeight))).sum) ∧
    m.LogLoss log [] = some 0 ∧
    ((∀ x, 1 ≤ x → 0 ≤ log x) →
      (∀ p ∈ m.space.points, 0 < p.probability_weight) →
      m.normalizer = (m.space.points.map Point.GetProbWeight).sum →
      (∀ e ∈ examples, e ∈ m.space.points) →
      ∃ loss, m.LogLoss log sample = some loss ∧ 0 ≤ loss) := by
  have hsum : m.LogLoss log sample =
      some ((examples.map (fun e => log (m.normalizer / e.GetProbWeight))).sum) := by
    unfold DMaxEntModel.LogLoss
    rw [hres]
    simp only [foldl_add_eq_sum, zero_add]
  refine ⟨hsum, rfl, fun hlog hw hn hmem => ⟨_, hsum, ?_⟩⟩
  apply List.sum_nonneg
  intro x hx
  obtain ⟨e, he, rfl⟩ := List.mem_map.1 hx
  apply hlog
  have hpos : 0 < e.GetProbWeight := hw e (hmem e he)
  rw [le_div_iff₀ hpos, one_mul, hn]
  exact le_sum_of_mem_pos Point.GetProbWeight m.space.points hw e (hmem e he)

/-- Claim C34 on the fixture model before `Fit`, over the reals: the sample of
`TestLogLoss` (the point 0 twice and the point 1 three times, both of weight 1
under the normalizer 2) has the loss `5 * log 2`, which is not negative. -/
theorem LogLoss_sum_witness :
    (fixtureModel ℝ 1 1 []).LogLoss Real.log
      [Example.inSpace 0, Example.inSpace 0, Example.inSpace 1, Example.inSpace 1,
        Example.inSpace 1] = some (5 * Real.log 2) ∧
    ∃ loss, (fixtureModel ℝ 1 1 []).LogLoss Real.log
      [Example.inSpace 0, Example.inSpace 0, Example.inSpace 1, Example.inSpace 1,
        Example.inSpace 1] = some loss ∧ 0 ≤ loss := by
  have hres : Sample.points (fixtureModel ℝ 1 1 []).space
      [Example.inSpace 0, Example.inSpace 0, Example.inSpace 1, Example.inSpace 1,
        Example.inSpace 1] =
      some [fixturePoint1 ℝ true, fixturePoint1 ℝ true, fixturePoint2 ℝ true,
        fixturePoint2 ℝ true, fixturePoint2 ℝ true] := rfl
  obtain ⟨h1, _, h3⟩ := LogLoss_sum Real.log (fixtureModel ℝ 1 1 []) _ _ hres
  refine ⟨?_, h3 (fun x hx => Real.log_nonneg hx) ?_ ?_ ?_⟩
  · rw [h1]
    norm_num [fixtureModel, DMaxEntModel.mk0, fixtureSpace, fixturePoint1, fixturePoint2,
      Point.GetProbWeight, Space.NumPoints]
    ring
  · intro p hp
    simp only [fixtureModel, DMaxEntModel.mk0, fixtureSpace, List.mem_cons, List.mem_singleton,
      List.not_mem_nil, or_false] at hp
    rcases hp with rfl | rfl <;> norm_num [fixturePoint1, fixturePoint2]
  · norm_num [fixtureModel, DMaxEntModel.mk0, fixtureSpace, fixturePoint1, fixturePoint2,
      Point.GetProbWeight, Space.NumPoints]
  · intro e he
    simp only [List.mem_cons, List.mem_singleton, List.not_mem_nil, or_false] at he
    simp only [fixtureModel, DMaxEntModel.mk0, fixtureSpace, List.mem_cons, List.mem_singleton,
      List.not_mem_nil, or_false]
    rcases he with rfl | rfl | rfl | rfl | rfl <;> simp

end LogLossFacts

/-! ## The step of version 2 as a soft threshold -/

section SoftThreshold

/-- The soft threshold `sign(b) * max(|b| - c, 0)` as a difference of two
maxima. -/
theorem soft_threshold_eq (c b : ℝ) (hc : 0 ≤ c) :
    ((SignType.sign b : SignType) : ℝ) * max (|b| - c) 0 = max (b - c) 0 - max (-b - c) 0 := by
  rcases lt_trichotomy b 0 with hneg | hzero | hpos
  · rw [sign_neg hneg, abs_of_neg hneg, max_eq_right (show b - c ≤ 0 by linarith)]
    simp
  · subst hzero
    rw [sign_zero, max_eq_right (show (0 : ℝ) - c ≤ 0 by linarith),
      max_eq_right (show -(0 : ℝ) - c ≤ 0 by linarith)]
    simp
  · rw [sign_pos hpos, abs_of_pos hpos, max_eq_right (show -b - c ≤ 0 by linarith)]
    simp

/-- The three branches of `FindStepSize2` add up to the soft threshold. -/
theorem soft_threshold_branches (w lam c d : ℝ) (hl : lam ≠ 0) (hc : 0 ≤ c) :
    w + (if |w * lam * lam - d| ≤ c then -w
        else if w * lam * lam - d > c then -(c + d) / (lam * lam)
        else -(-c + d) / (lam * lam)) =
      ((SignType.sign (w * lam * lam - d) : SignType) : ℝ) *
        max (|w * lam * lam - d| - c) 0 / (lam * lam) := by
  have hl2 : lam * lam ≠ 0 := mul_ne_zero hl hl
  split_ifs with h1 h2
  · rw [max_eq_right (by linarith)]
    simp
  · have hpos : 0 < w * lam * lam - d := by linarith
    rw [sign_pos hpos, abs_of_pos hpos, max_eq_left (by linarith)]
    field_simp
    ring
  · have hlt : w * lam * lam - d < -c := by
      rcases lt_or_le (w * lam * lam - d) 0 with hn | hn
      · rw [abs_of_neg hn] at h1
        linarith
      · rw [abs_of_nonneg hn] at h1
        exact absurd (not_le.1 h1) h2
    have hneg : w * lam * lam - d < 0 := by linarith
    rw [sign_neg hneg, abs_of_neg hneg, max_eq_left (by linarith)]
    field_simp
    ring

/-- Claim C35: for `lambda != 0` and `beta_k >= 0`, with
`b = w * lambda^2 - diff` for the weight `w` of the selected feature,
`FindStepSize2` followed by `UpdateModel` returns and leaves the selected feature
with the weight `sign(b) * max(|b| - beta_k, 0) / lambda^2`, which is 0 if and
only if `|b| <= beta_k`; the step size is that weight minus `w`, a continuous
function of `diff`. -/
theorem FindStepSize2_soft_threshold (exp : ℝ → ℝ) (m : DMaxEntModel ℝ) (w : ℝ)
    (f : Feature ℝ) (hget : m.weighted_features[m.direction]? = some (w, f))
    (hl : m.lambda ≠ 0) (hb : 0 ≤ m.beta_k f) :
    m.beta2 w f = w * m.lambda ^ 2 - m.diff_expectations f ∧
    (∃ m1 m2, m.FindStepSize2 = some m1 ∧ m1.UpdateModel exp = some m2 ∧
      m2.weighted_features[m.direction]? =
        some (((SignType.sign (m.beta2 w f) : SignType) : ℝ) *
          max (|m.beta2 w f| - m.beta_k f) 0 / m.lambda ^ 2, f) ∧
      m1.step_size = ((SignType.sign (m.beta2 w f) : SignType) : ℝ) *
          max (|m.beta2 w f| - m.beta_k f) 0 / m.lambda ^ 2 - w) ∧
    (((SignType.sign (m.beta2 w f) : SignType) : ℝ) *
        max (|m.beta2 w f| - m.beta_k f) 0 / m.lambda ^ 2 = 0 ↔
      |m.beta2 w f| ≤ m.beta_k f) ∧
    Continuous (fun diff : ℝ =>
      ((SignType.sign (w * m.lambda ^ 2 - diff) : SignType) : ℝ) *
        max (|w * m.lambda ^ 2 - diff| - m.beta_k f) 0 / m.lambda ^ 2 - w) := by
  have hb2 : m.beta2 w f = w * m.lambda ^ 2 - m.diff_expectations f := by
    unfold DMaxEntModel.beta2
    ring
  have hlt : m.direction < m.weighted_features.length := by
    by_contra hge
    rw [List.getElem?_eq_none (not_lt.1 hge)] at hget
    exact Option.noConfusion hget
  have hgetE : m.weighted_features.get ⟨m.direction, hlt⟩ = (w, f) := by
    have h1 := List.getElem?_eq_getElem hlt
    rw [hget] at h1
    exact (Option.some.inj h1).symm
  obtain ⟨s, hs, hsv⟩ := FindStepSize2_eq_some m w f hget
  have hnew : w + s = ((SignType.sign (m.beta2 w f) : SignType) : ℝ) *
      max (|m.beta2 w f| - m.beta_k f) 0 / m.lambda ^ 2 := by
    have h4 : m.beta2 w f = w * m.lambda * m.lambda - m.diff_expectations f := rfl
    rw [hsv, h4, sq]
    exact soft_threshold_branches w m.lambda (m.beta_k f) (m.diff_expectations f) hl hb
  have hl2 : m.lambda ^ 2 ≠ 0 := pow_ne_zero 2 hl
  refine ⟨hb2, ⟨_, _, hs, UpdateModel_eq_some exp { m with step_size := s } hlt, ?_, ?_⟩, ?_, ?_⟩
  · simp only [hgetE, List.getElem?_set_self hlt, hnew]
  · show s = _
    rw [← hnew]
    ring
  · constructor
    · intro h0
      by_contra hgt
      have hgt2 : m.beta_k f < |m.beta2 w f| := not_le.1 hgt
      have hne : m.beta2 w f ≠ 0 := by
        intro hz
        rw [hz, abs_zero] at hgt2
        linarith
      have hmax : max (|m.beta2 w f| - m.beta_k f) 0 = |m.beta2 w f| - m.beta_k f :=
        max_eq_left (by linarith)
      rw [hmax, div_eq_zero_iff] at h0
      rcases h0 with h0 | h0
      · rcases mul_eq_zero.1 h0 with h1 | h1
        · rcases lt_or_gt_of_ne hne with hn | hp
          · rw [sign_neg hn] at h1
            norm_num at h1
          · rw [sign_pos hp] at h1
            norm_num at h1
        · linarith
      · exact hl2 h0
    · intro hle
      rw [max_eq_right (by linarith)]
      simp
  · have hform : (fun diff : ℝ =>
        ((SignType.sign (w * m.lambda ^ 2 - diff) : SignType) : ℝ) *
          max (|w * m.lambda ^ 2 - diff| - m.beta_k f) 0 / m.lambda ^ 2 - w) =
        (fun diff : ℝ => (max (w * m.lambda ^ 2 - diff - m.beta_k f) 0 -
          max (-(w * m.lambda ^ 2 - diff) - m.beta_k f) 0) / m.lambda ^ 2 - w) := by
      funext diff
      rw [soft_threshold_eq _ _ hb]
    rw [hform]
    fun_prop

/-- Claim C35 on the fixture model over the reals with the third feature selected
at the weight 1: `lambda = 1`, `beta_k = 0.07` and `diff = 0.25`, so `b = 0.75` and
the weight after the step is `0.68`. -/
theorem FindStepSize2_soft_threshold_witness :
    (fixtureSelected ℝ 1 0).lambda ≠ 0 ∧
    ∃ m1 m2, (fixtureSelected ℝ 1 0).FindStepSize2 = some m1 ∧
      m1.UpdateModel Real.exp = some m2 ∧
      (m2.weighted_features[2]?).map Prod.fst = some (17 / 25 : ℝ) := by
  have hl : (fixtureSelected ℝ 1 0).lambda = 1 := by
    simp [fixtureSelected, fixtureModel, DMaxEntModel.mk0]
  have hk : (fixtureSelected ℝ 1 0).beta_k ((fixtureThreshold3 ℝ).ComputeUnnormalizedPopulationExpectation
      (fixtureSpace ℝ)) = 7 / 100 := by
    norm_num [DMaxEntModel.beta_k, fixtureSelected, fixtureModel, DMaxEntModel.mk0,
      fixtureThreshold3, Feature.ComputeUnnormalizedPopulationExpectation]
  have hb : (fixtureSelected ℝ 1 0).beta2 1 ((fixtureThreshold3 ℝ).ComputeUnnormalizedPopulationExpectation
      (fixtureSpace ℝ)) = 3 / 4 := by
    norm_num [DMaxEntModel.beta2, DMaxEntModel.diff_expectations, fixtureSelected, fixtureModel,
      DMaxEntModel.mk0, fixtureThreshold3, Feature.ComputeUnnormalizedPopulationExpectation,
      Feature.GetUnnormalizedPopulationExpectation, Feature.GetSampleExpectation, fixtureSpace,
      fixturePoint1, fixturePoint2, Point.GetProbWeight, Space.NumPoints]
  obtain ⟨_, ⟨m1, m2, h1, h2, h3, _⟩, _, _⟩ := FindStepSize2_soft_threshold Real.exp
    (fixtureSelected ℝ 1 0) 1
    ((fixtureThreshold3 ℝ).ComputeUnnormalizedPopulationExpectation (fixtureSpace ℝ)) rfl
    (by rw [hl]; norm_num) (by rw [hk]; norm_num)
  refine ⟨by rw [hl]; norm_num, m1, m2, h1, h2, ?_⟩
  have hd : (fixtureSelected ℝ 1 0).direction = 2 := rfl
  rw [hd, hb, hk, hl] at h3
  rw [h3]
  have hs : ((SignType.sign (3 / 4 : ℝ) : SignType) : ℝ) = 1 := by
    rw [sign_pos (by norm_num)]
    rfl
  simp only [Option.map_some', hs]
  norm_num [abs_of_pos]

end SoftThreshold

/-! ## The two step-size routines at an inactive coordinate -/

section InactiveCoordinate

variable {α : Type} [LinearOrderedField α]

/-- Claim C36: with an exponential that maps 0 to 1 and `lambda != 0`, when the
selected feature has the weight 0, the `beta` of `FindStepSize1`,
`(Phi_pt * Phi_m - Phi_p * Phi_mt) / (Phi_pt - Phi_mt)`, is
`sample_expectation - population_expectation / normalizer`, which is the
`beta = weight * lambda^2 - diff` of `FindStepSize2`; and when `|diff| < beta_k`
both routines return with the step size 0 and change nothing else. -/
theorem step_versions_agree (exp log : α → α) (hexp0 : exp 0 = 1) (m : DMaxEntModel α)
    (f : Feature α) (hget : m.weighted_features[m.direction]? = some (0, f))
    (hl : m.lambda ≠ 0) :
    m.beta1 exp 0 f =
      ((m.lambda + f.GetUnnormalizedPopulationExpectation / m.normalizer) *
          (-m.lambda + f.GetSampleExpectation) -
        (m.lambda + f.GetSampleExpectation) *
          (-m.lambda + f.GetUnnormalizedPopulationExpectation / m.normalizer)) /
        ((m.lambda + f.GetUnnormalizedPopulationExpectation / m.normalizer) -
          (-m.lambda + f.GetUnnormalizedPopulationExpectation / m.normalizer)) ∧
    m.beta1 exp 0 f =
      f.GetSampleExpectation - f.GetUnnormalizedPopulationExpectation / m.normalizer ∧
    m.beta2 0 f = 0 * m.lambda ^ 2 - m.diff_expectations f ∧
    m.beta2 0 f =
      f.GetSampleExpectation - f.GetUnnormalizedPopulationExpectation / m.normalizer ∧
    m.beta1 exp 0 f = m.beta2 0 f ∧
    (|m.diff_expectations f| < m.beta_k f →
      m.FindStepSize1 exp log = some { m with step_size := 0 } ∧
      m.FindStepSize2 = some { m with step_size := 0 }) := by
  have hform : m.beta1 exp 0 f =
      ((m.lambda + f.GetUnnormalizedPopulationExpectation / m.normalizer) *
          (-m.lambda + f.GetSampleExpectation) -
        (m.lambda + f.GetSampleExpectation) *
          (-m.lambda + f.GetUnnormalizedPopulationExpectation / m.normalizer)) /
        ((m.lambda + f.GetUnnormalizedPopulationExpectation / m.normalizer) -
          (-m.lambda + f.GetUnnormalizedPopulationExpectation / m.normalizer)) := by
    unfold DMaxEntModel.beta1
    simp only [mul_zero, zero_mul, hexp0, mul_one]
  have h1 : m.beta1 exp 0 f =
      f.GetSampleExpectation - f.GetUnnormalizedPopulationExpectation / m.normalizer := by
    rw [hform]
    have hden : (m.lambda + f.GetUnnormalizedPopulationExpectation / m.normalizer) -
        (-m.lambda + f.GetUnnormalizedPopulationExpectation / m.normalizer) ≠ 0 := by
      intro h
      apply hl
      linarith
    rw [div_eq_iff hden]
    ring
  have h2 : m.beta2 0 f =
      f.GetSampleExpectation - f.GetUnnormalizedPopulationExpectation / m.normalizer := by
    unfold DMaxEntModel.beta2 DMaxEntModel.diff_expectations
    ring
  have h3 : m.beta2 0 f = 0 * m.lambda ^ 2 - m.diff_expectations f := by
    unfold DMaxEntModel.beta2
    ring
  refine ⟨hform, h1, h3, h2, by rw [h1, h2], fun hlt => ?_⟩
  have habs : |m.beta2 0 f| < m.beta_k f := by
    rw [h3, zero_mul, zero_sub, abs_neg]
    exact hlt
  constructor
  · unfold DMaxEntModel.FindStepSize1
    rw [hget]
    simp only
    rw [if_pos (by rw [h1, ← h2]; exact habs), neg_zero]
  · unfold DMaxEntModel.FindStepSize2
    rw [hget]
    simp only
    rw [if_pos (le_of_lt habs), neg_zero]

/-- Claim C36 on the fixture model over the reals with the second feature
selected at the weight 0: both `beta` are `0.0775 - 0.145 = -0.0675`, within
`beta_k = 0.07`, and both routines return the step size 0. -/
theorem step_versions_agree_witness :
    (fixtureProductSelected ℝ 0).lambda ≠ 0 ∧
    (fixtureProductSelected ℝ 0).beta1 Real.exp 0
      ((fixtureProduct12 ℝ).ComputeUnnormalizedPopulationExpectation (fixtureSpace ℝ)) =
        -(27 / 400) ∧
    (fixtureProductSelected ℝ 0).beta2 0
      ((fixtureProduct12 ℝ).ComputeUnnormalizedPopulationExpectation (fixtureSpace ℝ)) =
        -(27 / 400) ∧
    (fixtureProductSelected ℝ 0).FindStepSize1 Real.exp Real.log =
      some { fixtureProductSelected ℝ 0 with step_size := 0 } ∧
    (fixtureProductSelected ℝ 0).FindStepSize2 =
      some { fixtureProductSelected ℝ 0 with step_size := 0 } := by
  have hl : (fixtureProductSelected ℝ 0).lambda ≠ 0 := by
    simp [fixtureProductSelected, fixtureModel, DMaxEntModel.mk0]
  have hd : (fixtureProductSelected ℝ 0).diff_expectations
      ((fixtureProduct12 ℝ).ComputeUnnormalizedPopulationExpectation (fixtureSpace ℝ)) =
        27 / 400 := by
    norm_num [DMaxEntModel.diff_expectations, fixtureProductSelected, fixtureModel,
      DMaxEntModel.mk0, fixtureProduct12, Feature.ComputeUnnormalizedPopulationExpectation,
      Feature.GetUnnormalizedPopulationExpectation, Feature.GetSampleExpectation, fixtureSpace,
      fixturePoint1, fixturePoint2, Point.GetProbWeight, Space.NumPoints]
  have hk : (fixtureProductSelected ℝ 0).beta_k
      ((fixtureProduct12 ℝ).ComputeUnnormalizedPopulationExpectation (fixtureSpace ℝ)) =
        7 / 100 := by
    norm_num [DMaxEntModel.beta_k, fixtureProductSelected, fixtureModel, DMaxEntModel.mk0,
      fixtureProduct12, Feature.ComputeUnnormalizedPopulationExpectation]
  obtain ⟨_, _, h3, _, h5, h6⟩ := step_versions_agree Real.exp Real.log Real.exp_zero
    (fixtureProductSelected ℝ 0)
    ((fixtureProduct12 ℝ).ComputeUnnormalizedPopulationExpectation (fixtureSpace ℝ)) rfl hl
  have hb2 : (fixtureProductSelected ℝ 0).beta2 0
      ((fixtureProduct12 ℝ).ComputeUnnormalizedPopulationExpectation (fixtureSpace ℝ)) =
        -(27 / 400) := by
    rw [h3, hd]
    ring
  have hboth := h6 (by rw [hd, hk]; norm_num [abs_of_pos])
  exact ⟨hl, by rw [h5, hb2], hb2, hboth.1, hboth.2⟩

end InactiveCoordinate

/-! ## Positive weights -/

section PositiveWeights

variable {α : Type} [LinearOrderedField α]

/-- A model whose space is not empty, whose points have positive weights, and
whose normalizer is the sum of the weights: the weights divided by the normalizer
are positive and sum to 1. -/
theorem full_support (m : DMaxEntModel α) (hne : m.space.points ≠ [])
    (hw : ∀ p ∈ m.space.points, 0 < p.probability_weight)
    (hn : m.normalizer = (m.space.points.map Point.GetProbWeight).sum) :
    0 < m.normalizer ∧ (∀ p ∈ m.space.points, 0 < p.probability_weight / m.normalizer) ∧
      (m.space.points.map (fun p => p.probability_weight / m.normalizer)).sum = 1 := by
  have hpos : 0 < m.normalizer := by
    rw [hn]
    cases hp : m.space.points with
    | nil => exact absurd hp hne
    | cons a t =>
      rw [hp] at hw
      have ha : 0 < a.GetProbWeight := hw a (List.mem_cons_self _ _)
      have ht : 0 ≤ (t.map Point.GetProbWeight).sum :=
        List.sum_nonneg (fun x hx => by
          obtain ⟨q, hq, rfl⟩ := List.mem_map.1 hx
          exact le_of_lt (hw q (List.mem_cons_of_mem _ hq)))
      simp only [List.map_cons, List.sum_cons]
      linarith
  exact ⟨hpos, fun p hp => div_pos (hw p hp) hpos,
    sum_map_div_eq_one Point.GetProbWeight m.space.points m.normalizer (ne_of_gt hpos) hn⟩

/-- The update loop keeps the space non-empty and the weights positive when the
exponential is positive. -/
theorem updatePoints_pos (exp : α → α) (hpos : ∀ x, 0 < exp x) (step_size : α)
    (feature : Feature α) (points : List (Point α)) (hne : points ≠ [])
    (hw : ∀ p ∈ points, 0 < p.probability_weight) :
    (DMaxEntModel.updatePoints exp step_size feature points 0).1 ≠ [] ∧
      ∀ p ∈ (DMaxEntModel.updatePoints exp step_size feature points 0).1,
        0 < p.probability_weight := by
  rw [updatePoints_fst]
  refine ⟨by simpa using hne, fun p hp => ?_⟩
  obtain ⟨q, hq, rfl⟩ := List.mem_map.1 hp
  exact mul_pos (hw q hq) (hpos _)

/-- One iteration of `Fit` keeps the space non-empty and the weights positive,
and leaves the normalizer equal to the sum of the weights. -/
theorem FitIteration_pos (exp log : α → α) (hpos : ∀ x, 0 < exp x) (m m1 : DMaxEntModel α)
    (hne : m.space.points ≠ []) (hw : ∀ p ∈ m.space.points, 0 < p.probability_weight)
    (h : m.FitIteration exp log = some m1) :
    m1.space.points ≠ [] ∧ (∀ p ∈ m1.space.points, 0 < p.probability_weight) ∧
      m1.normalizer = (m1.space.points.map Point.GetProbWeight).sum := by
  by_cases hlt : m.FindDescentDirection.direction < m.FindDescentDirection.weighted_features.length
  · obtain ⟨s, w, f, _, heq⟩ := FitIteration_eq_some exp log m hlt
    rw [heq] at h
    have h1 := Option.some.inj h
    subst h1
    obtain ⟨h2, h3⟩ := updatePoints_pos exp hpos s f m.space.points hne hw
    refine ⟨h2, h3, ?_⟩
    simpa using updatePoints_snd exp s f m.space.points 0
  · rw [FitIteration_eq_none exp log m hlt] at h
    exact Option.noConfusion h

/-- Every number of iterations of `Fit` keeps what `FitIteration_pos` lists. -/
theorem afterIterations_pos (exp log : α → α) (hpos : ∀ x, 0 < exp x) (k : Nat) :
    ∀ m s : DMaxEntModel α, m.space.points ≠ [] →
      (∀ p ∈ m.space.points, 0 < p.probability_weight) →
      m.normalizer = (m.space.points.map Point.GetProbWeight).sum →
      m.afterIterations exp log k = some s →
      s.space.points ≠ [] ∧ (∀ p ∈ s.space.points, 0 < p.probability_weight) ∧
        s.normalizer = (s.space.points.map Point.GetProbWeight).sum := by
  induction k with
  | zero =>
    intro m s hne hw hn h
    have h1 : m = s := Option.some.inj h
    subst h1
    exact ⟨hne, hw, hn⟩
  | succ k ih =>
    intro m s hne hw hn h
    rw [afterIterations_succ] at h
    cases hit : m.FitIteration exp log with
    | none =>
      rw [hit] at h
      exact Option.noConfusion h
    | some m2 =>
      rw [hit] at h
      obtain ⟨h1, h2, h3⟩ := FitIteration_pos exp log hpos m m2 hne hw hit
      exact ih m2 s h1 h2 h3 h

/-- Claim C37: with an exponential that is positive, if the space is not empty
and every point has a positive `probability_weight` before `UpdateModel`, then
for every step size and every feature map, `UpdateModel` (which returns when the
direction is in range) leaves every point with a positive weight and a positive
normalizer, the sum of the weights; hence after any number of iterations of `Fit`
from a model constructed over a non-empty space of unit weights, and when `Fit`
returns, `probability_weight / normalizer` is positive at every point and sums to
1 over the space. -/
theorem UpdateModel_positive [FloorRing α] (exp log : α → α) (hpos : ∀ x, 0 < exp x) :
    (∀ m : DMaxEntModel α, m.direction < m.weighted_features.length →
      ∃ m1, m.UpdateModel exp = some m1) ∧
    (∀ m m1 : DMaxEntModel α, m.space.points ≠ [] →
      (∀ p ∈ m.space.points, 0 < p.probability_weight) →
      m.UpdateModel exp = some m1 →
      m1.space.points ≠ [] ∧ (∀ p ∈ m1.space.points, 0 < p.probability_weight) ∧
        0 < m1.normalizer ∧
        m1.normalizer = (m1.space.points.map Point.GetProbWeight).sum) ∧
    (∀ (alpha beta max_steps : α) (ver : Int) (l : α) (stop_on_convergence : Bool)
      (X : Space α) (S : Sample α) (features : List (Feature α)) (learners : List (WLearner α))
      (test : Sample α), X.points ≠ [] → (∀ p ∈ X.points, p.probability_weight = 1) →
      (∀ k s, (DMaxEntModel.mk0 alpha beta max_steps ver l stop_on_convergence X S features
          learners test).afterIterations exp log k = some s →
        0 < s.normalizer ∧ (∀ p ∈ s.space.points, 0 < p.probability_weight / s.normalizer) ∧
          (s.space.points.map (fun p => p.probability_weight / s.normalizer)).sum = 1) ∧
      (∀ s, (DMaxEntModel.mk0 alpha beta max_steps ver l stop_on_convergence X S features
          learners test).Fit exp log = some s →
        0 < s.normalizer ∧ (∀ p ∈ s.space.points, 0 < p.probability_weight / s.normalizer) ∧
          (s.space.points.map (fun p => p.probability_weight / s.normalizer)).sum = 1)) := by
  refine ⟨fun m hlt => ⟨_, UpdateModel_eq_some exp m hlt⟩, fun m m1 hne hw h => ?_, ?_⟩
  · have hn := UpdateModel_normalizer exp m m1 h
    have hlt : m.direction < m.weighted_features.length := by
      by_contra hge
      unfold DMaxEntModel.UpdateModel at h
      rw [List.getElem?_eq_none (not_lt.1 hge)] at h
      exact Option.noConfusion h
    rw [UpdateModel_eq_some exp m hlt] at h
    have h1 := Option.some.inj h
    have hpts : m1.space.points = (DMaxEntModel.updatePoints exp m.step_size
        (m.weighted_features.get ⟨m.direction, hlt⟩).2 m.space.points 0).1 := by
      rw [← h1]
    obtain ⟨h2, h3⟩ := updatePoints_pos exp hpos m.step_size
      (m.weighted_features.get ⟨m.direction, hlt⟩).2 m.space.points hne hw
    rw [← hpts] at h2 h3
    exact ⟨h2, h3, (full_support m1 h2 h3 hn).1, hn⟩
  · intro alpha beta max_steps ver l stop_on_convergence X S features learners test hne hone
    have hw0 : ∀ p ∈ (DMaxEntModel.mk0 alpha beta max_steps ver l stop_on_convergence X S features
        learners test).space.points, 0 < p.probability_weight := by
      intro p hp
      rw [hone p hp]
      exact one_pos
    have hn0 : (DMaxEntModel.mk0 alpha beta max_steps ver l stop_on_convergence X S features
        learners test).normalizer = ((DMaxEntModel.mk0 alpha beta max_steps ver l
        stop_on_convergence X S features learners test).space.points.map
          Point.GetProbWeight).sum :=
      (sum_unit_weights X.points hone).symm
    have hall : ∀ k s, (DMaxEntModel.mk0 alpha beta max_steps ver l stop_on_convergence X S
        features learners test).afterIterations exp log k = some s →
        0 < s.normalizer ∧ (∀ p ∈ s.space.points, 0 < p.probability_weight / s.normalizer) ∧
          (s.space.points.map (fun p => p.probability_weight / s.normalizer)).sum = 1 := by
      intro k s hs
      obtain ⟨h1, h2, h3⟩ := afterIterations_pos exp log hpos k _ s hne hw0 hn0 hs
      exact full_support s h1 h2 h3
    refine ⟨hall, fun s hs => ?_⟩
    unfold DMaxEntModel.Fit DMaxEntModel.FitCount at hs
    cases hr : DMaxEntModel.FitLoop exp log ⌈(DMaxEntModel.mk0 alpha beta max_steps ver l
        stop_on_convergence X S features learners test).max_descent_steps⌉₊ 0
        (DMaxEntModel.mk0 alpha beta max_steps ver l stop_on_convergence X S features
          learners test) with
    | none =>
      rw [hr] at hs
      exact Option.noConfusion hs
    | some r =>
      rw [hr] at hs
      have h1 : r.1 = s := Option.some.inj hs
      obtain ⟨k, hk⟩ := FitLoop_result exp log _ 0 _ r hr
      rw [h1] at hk
      exact hall k s hk

/-- Claim C37 on the fixture model over the reals with the third feature selected
and the step size -2: after `UpdateModel` the two weights are `exp(-2)` and 1, both
positive, and the normalizer is positive. -/
theorem UpdateModel_positive_witness :
    (fixtureSelected ℝ 0 (-2)).space.points ≠ [] ∧
    ∃ m1, (fixtureSelected ℝ 0 (-2)).UpdateModel Real.exp = some m1 ∧
      (∀ p ∈ m1.space.points, 0 < p.probability_weight) ∧ 0 < m1.normalizer := by
  have hne : (fixtureSelected ℝ 0 (-2)).space.points ≠ [] := by
    simp [fixtureSelected, fixtureModel, DMaxEntModel.mk0, fixtureSpace]
  have hw : ∀ p ∈ (fixtureSelected ℝ 0 (-2)).space.points, 0 < p.probability_weight := by
    intro p hp
    simp only [fixtureSelected, fixtureModel, DMaxEntModel.mk0, fixtureSpace, List.mem_cons,
      List.mem_singleton, List.not_mem_nil, or_false] at hp
    rcases hp with rfl | rfl <;> norm_num [fixturePoint1, fixturePoint2]
  obtain ⟨hret, hkeep, _⟩ := @UpdateModel_positive ℝ _ _ Real.exp Real.log Real.exp_pos
  obtain ⟨m1, h1⟩ := hret (fixtureSelected ℝ 0 (-2)) (by
    simp [fixtureSelected, fixtureModel, DMaxEntModel.mk0])
  obtain ⟨_, h3, h4, _⟩ := hkeep _ m1 hne hw h1
  exact ⟨hne, m1, h1, h3, h4⟩

end PositiveWeights

/-! ## The buckets of `BuildThresholdToWeightsMap` -/

section MapFacts

variable {α : Type} [LinearOrderedField α]

/-- A key is not found exactly when no entry has it. -/
theorem mapFind_eq_none {β : Type} (m : List (α × β)) (k : α) :
    mapFind m k = none ↔ k ∉ m.map Prod.fst := by
  induction m with
  | nil => simp [mapFind]
  | cons e rest ih =>
    simp only [mapFind, List.map_cons, List.mem_cons, not_or]
    by_cases hek : e.1 = k
    · simp [hek]
    · simp only [if_neg hek, ih]
      exact ⟨fun h => ⟨fun hke => hek hke.symm, h⟩, fun h => h.2⟩

/-- The keys after an insertion. -/
theorem mapInsert_keys {β : Type} (m : List (α × β)) (k : α) (x : β) (u : α) :
    u ∈ (mapInsert m k x).map Prod.fst ↔ u = k ∨ u ∈ m.map Prod.fst := by
  induction m with
  | nil => simp [mapInsert]
  | cons e rest ih =>
    simp only [mapInsert]
    split_ifs with hlt
    · simp
    · simp only [List.map_cons, List.mem_cons, ih]
      tauto

/-- An insertion of a new key keeps the keys in increasing order. -/
theorem mapInsert_sorted {β : Type} (m : List (α × β)) (k : α) (x : β)
    (hs : (m.map Prod.fst).Pairwise (fun a b => a < b)) (hk : k ∉ m.map Prod.fst) :
    ((mapInsert m k x).map Prod.fst).Pairwise (fun a b => a < b) := by
  induction m with
  | nil => simp [mapInsert]
  | cons e rest ih =>
    simp only [List.map_cons, List.pairwise_cons] at hs
    simp only [List.map_cons, List.mem_cons, not_or] at hk
    simp only [mapInsert]
    split_ifs with hlt
    · simp only [List.map_cons, List.pairwise_cons, List.mem_cons]
      refine ⟨?_, hs.1, hs.2⟩
      intro a ha
      rcases ha with rfl | ha
      · exact hlt
      · exact lt_trans hlt (hs.1 a ha)
    · simp only [List.map_cons, List.pairwise_cons]
      refine ⟨?_, ih hs.2 hk.2⟩
      intro a ha
      rcases (mapInsert_keys rest k x a).1 ha with rfl | ha
      · exact lt_of_le_of_ne (not_lt.1 hlt) (fun h => hk.1 h.symm)
      · exact hs.1 a ha

/-- The keys after `m[k] = f(m[k])`. -/
theorem mapUpdate_keys {β : Type} (zero : β) (f : β → β) (m : List (α × β)) (k u : α) :
    u ∈ (mapUpdate zero f m k).map Prod.fst ↔ u = k ∨ u ∈ m.map Prod.fst := by
  unfold mapUpdate
  cases hfind : mapFind m k with
  | none => exact mapInsert_keys m k _ u
  | some b =>
    have hk : k ∈ m.map Prod.fst := by
      by_contra hc
      rw [(mapFind_eq_none m k).2 hc] at hfind
      exact Option.noConfusion hfind
    have hkeys : (m.map (fun e => if e.1 = k then (e.1, f e.2) else e)).map Prod.fst =
        m.map Prod.fst := by
      rw [List.map_map]
      apply List.map_congr_left
      intro e _
      simp only [Function.comp]
      split_ifs <;> rfl
    simp only [hkeys]
    constructor
    · exact fun h => Or.inr h
    · rintro (rfl | h)
      · exact hk
      · exact h

/-- `m[k] = f(m[k])` keeps the keys in increasing order. -/
theorem mapUpdate_sorted {β : Type} (zero : β) (f : β → β) (m : List (α × β)) (k : α)
    (hs : (m.map Prod.fst).Pairwise (fun a b => a < b)) :
    ((mapUpdate zero f m k).map Prod.fst).Pairwise (fun a b => a < b) := by
  unfold mapUpdate
  cases hfind : mapFind m k with
  | none => exact mapInsert_sorted m k _ hs ((mapFind_eq_none m k).1 hfind)
  | some b =>
    have hkeys : (m.map (fun e => if e.1 = k then (e.1, f e.2) else e)).map Prod.fst =
        m.map Prod.fst := by
      rw [List.map_map]
      apply List.map_congr_left
      intro e _
      simp only [Function.comp]
      split_ifs <;> rfl
    simp only [hkeys]
    exact hs

/-- The sum of a measure over the entries whose keys pass a test, after the
insertion of a key. -/
theorem mapInsert_sum {β : Type} (c : α → Bool) (mu : β → α) (m : List (α × β)) (k : α)
    (x : β) :
    (((mapInsert m k x).filter (fun e => c e.1)).map (fun e => mu e.2)).sum =
      ((m.filter (fun e => c e.1)).map (fun e => mu e.2)).sum +
        (if c k = true then mu x else 0) := by
  induction m with
  | nil => cases hck : c k <;> simp [mapInsert, List.filter_cons, hck]
  | cons e rest ih =>
    simp only [mapInsert]
    by_cases hlt : k < e.1
    · rw [if_pos hlt]
      cases hck : c k <;> cases hce : c e.1 <;> simp [List.filter_cons, hck, hce] <;> ring
    · rw [if_neg hlt]
      cases hck : c k <;> cases hce : c e.1 <;> simp [List.filter_cons, hck, hce] at ih ⊢ <;>
        (rw [ih]; try ring)

/-- The sum of a measure over the entries whose keys pass a test, after
`m[k] = f(m[k])` on distinct keys, when `f` adds `delta` to the measure. -/
theorem mapUpdate_sum {β : Type} (c : α → Bool) (mu : β → α) (delta : α) (zero : β)
    (f : β → β) (hzero : mu zero = 0) (hf : ∀ x, mu (f x) = mu x + delta)
    (m : List (α × β)) (k : α) (hs : (m.map Prod.fst).Pairwise (fun a b => a < b)) :
    (((mapUpdate zero f m k).filter (fun e => c e.1)).map (fun e => mu e.2)).sum =
      ((m.filter (fun e => c e.1)).map (fun e => mu e.2)).sum +
        (if c k = true then delta else 0) := by
  unfold mapUpdate
  cases hfind : mapFind m k with
  | none =>
    simp only
    rw [mapInsert_sum, hf, hzero, zero_add]
  | some b =>
    simp only
    have hk : k ∈ m.map Prod.fst := by
      by_contra hc
      rw [(mapFind_eq_none m k).2 hc] at hfind
      exact Option.noConfusion hfind
    clear hfind
    induction m with
    | nil => simp at hk
    | cons e rest ih =>
      simp only [List.map_cons, List.pairwise_cons] at hs
      by_cases hek : e.1 = k
      · have hrest : k ∉ rest.map Prod.fst := by
          intro hmem
          have := hs.1 k hmem
          rw [hek] at this
          exact lt_irrefl _ this
        have hsame : rest.map (fun e => if e.1 = k then (e.1, f e.2) else e) = rest := by
          conv_rhs => rw [← List.map_id rest]
          apply List.map_congr_left
          intro a ha
          have hne : a.1 ≠ k := by
            intro h
            apply hrest
            rw [← h]
            exact List.mem_map_of_mem _ ha
          simp [hne]
        rw [List.map_cons, if_pos hek, hsame]
        cases hck : c k
        · have hce : c e.1 = false := by rw [hek]; exact hck
          simp [List.filter_cons, hck, hce]
        · have hce : c e.1 = true := by rw [hek]; exact hck
          simp [List.filter_cons, hck, hce, hf]
          ring
      · have hk2 : k ∈ rest.map Prod.fst := by
          simp only [List.map_cons, List.mem_cons] at hk
          rcases hk with h | h
          · exact absurd h.symm hek
          · exact h
        have ih2 := ih hs.2 hk2
        rw [List.map_cons, if_neg hek]
        cases hce : c e.1
        · simp only [List.filter_cons, hce, Bool.false_eq_true, if_false]
          exact ih2
        · simp only [List.filter_cons, hce, if_true, List.map_cons, List.sum_cons, ih2]
          ring

end MapFacts

section BucketFacts

variable {α : Type} [LinearOrderedField α]

/-- States that agree put every point into the same bucket. -/
theorem bucket_agree (L L1 : TreeLearner α) (hA : L.Agree L1) (index : Int) (p : Point α) :
    L.bucket index p = L1.bucket index p := by
  unfold TreeLearner.bucket
  cases p.GetRawFeature index with
  | none => rfl
  | some v => simp only [Option.bind, hA.2.2.2]

/-- Where the lookup has an answer, it returns the bucket of the point and a state
that agrees. -/
theorem thresholdOf_bucket (L0 L : TreeLearner α) (hA : L0.Agree L) (index : Int)
    (hi : 0 ≤ index) (p : Point α)
    (hp : ∃ v t, p.GetRawFeature index = some v ∧ L0.lookup index.toNat v = some t) :
    ∃ L1, L.thresholdOf index (p.GetRawFeature index) = some (L0.bucket index p, L1) ∧
      L0.Agree L1 := by
  obtain ⟨v, t, hv, ht⟩ := hp
  have hb : L0.bucket index p = t := by
    unfold TreeLearner.bucket
    rw [hv]
    simp only [Option.bind, ht, Option.getD_some]
  rw [hb, hv]
  have ht2 : L.lookup index.toNat v = some t := by
    rw [← hA.2.2.2]
    exact ht
  obtain ⟨L1, h1⟩ := thresholdOf_total L index v t hi ht2
  exact ⟨L1, h1, Agree_trans hA (thresholdOf_spec L index _ t L1 h1).1⟩

/-- The first loop of `BuildThresholdToWeightsMap` where the lookups have answers:
every point adds its weight to its bucket. -/
theorem addPoints_eq (L0 : TreeLearner α) (index : Int) (points : List (Point α)) :
    ∀ (M : List (α × (α × Int))) (L : TreeLearner α), L0.Agree L → L0.Answers index points →
      ∃ L1, TreeLearner.addPoints index points M L =
          some (points.foldl (fun M p =>
            mapUpdate (0, 0) (fun e => (e.1 + p.GetProbWeight, e.2)) M (L0.bucket index p)) M,
            L1) ∧
        L0.Agree L1 := by
  induction points with
  | nil => exact fun M L hA _ => ⟨L, rfl, hA⟩
  | cons p rest ih =>
    intro M L hA hans
    obtain ⟨L1, h1, hA1⟩ := thresholdOf_bucket L0 L hA index hans.1 p
      (hans.2 p (List.mem_cons_self _ _))
    obtain ⟨L2, h2, hA2⟩ := ih
      (mapUpdate (0, 0) (fun e => (e.1 + p.GetProbWeight, e.2)) M (L0.bucket index p)) L1 hA1
      ⟨hans.1, fun q hq => hans.2 q (List.mem_cons_of_mem _ hq)⟩
    refine ⟨L2, ?_, hA2⟩
    unfold TreeLearner.addPoints
    simp only [h1, List.foldl_cons]
    exact h2

/-- The second loop of `BuildThresholdToWeightsMap` where the lookups have
answers: every sample point adds one to its bucket. -/
theorem addSamples_eq (L0 : TreeLearner α) (index : Int) (points : List (Point α)) :
    ∀ (M : List (α × (α × Int))) (L : TreeLearner α), L0.Agree L → L0.Answers index points →
      ∃ L1, TreeLearner.addSamples index points M L =
          some (points.foldl (fun M p =>
            mapUpdate (0, 0) (fun e => (e.1, e.2 + 1)) M (L0.bucket index p)) M, L1) ∧
        L0.Agree L1 := by
  induction points with
  | nil => exact fun M L hA _ => ⟨L, rfl, hA⟩
  | cons p rest ih =>
    intro M L hA hans
    obtain ⟨L1, h1, hA1⟩ := thresholdOf_bucket L0 L hA index hans.1 p
      (hans.2 p (List.mem_cons_self _ _))
    obtain ⟨L2, h2, hA2⟩ := ih
      (mapUpdate (0, 0) (fun e => (e.1, e.2 + 1)) M (L0.bucket index p)) L1 hA1
      ⟨hans.1, fun q hq => hans.2 q (List.mem_cons_of_mem _ hq)⟩
    refine ⟨L2, ?_, hA2⟩
    unfold TreeLearner.addSamples
    simp only [h1, List.foldl_cons]
    exact h2

/-- A run of `m[b(p)] = f_p(m[b(p)])` over points: the keys stay in increasing
order, the keys are the old keys and the buckets of the points, and the sum of a
measure over the entries whose keys pass a test grows by the sum of what the points
with buckets that pass the test add. -/
theorem foldl_mapUpdate (c : α → Bool) (mu : α × Int → α) (hzero : mu (0, 0) = 0)
    (b : Point α → α) (f : Point α → α × Int → α × Int) (delta : Point α → α)
    (hf : ∀ p x, mu (f p x) = mu x + delta p) (points : List (Point α)) :
    ∀ M : List (α × (α × Int)), (M.map Prod.fst).Pairwise (fun a b => a < b) →
      ((points.foldl (fun M p => mapUpdate (0, 0) (f p) M (b p)) M).map
        Prod.fst).Pairwise (fun a b => a < b) ∧
      (∀ u, u ∈ (points.foldl (fun M p => mapUpdate (0, 0) (f p) M (b p)) M).map Prod.fst ↔
        u ∈ M.map Prod.fst ∨ ∃ p ∈ points, b p = u) ∧
      (((points.foldl (fun M p => mapUpdate (0, 0) (f p) M (b p)) M).filter
          (fun e => c e.1)).map (fun e => mu e.2)).sum =
        ((M.filter (fun e => c e.1)).map (fun e => mu e.2)).sum +
          ((points.filter (fun p => c (b p))).map delta).sum := by
  induction points with
  | nil => intro M hs; simp [hs]
  | cons p rest ih =>
    intro M hs
    have hs1 := mapUpdate_sorted (0, 0) (f p) M (b p) hs
    obtain ⟨h1, h2, h3⟩ := ih (mapUpdate (0, 0) (f p) M (b p)) hs1
    refine ⟨h1, fun u => ?_, ?_⟩
    · rw [List.foldl_cons, h2, mapUpdate_keys]
      simp only [List.mem_cons, exists_eq_or_imp]
      constructor
      · rintro ((rfl | h) | h)
        · exact Or.inr (Or.inl rfl)
        · exact Or.inl h
        · exact Or.inr (Or.inr h)
      · rintro (h | h | h)
        · exact Or.inl (Or.inr h)
        · exact Or.inl (Or.inl h.symm)
        · exact Or.inr h
    · rw [List.foldl_cons, h3, mapUpdate_sum c mu (delta p) (0, 0) (f p) hzero (hf p) M (b p) hs]
      cases hc : c (b p)
      · simp [List.filter_cons, hc]
      · simp [List.filter_cons, hc]
        ring

/-- With keys in increasing order, the entries up to an entry are the entries
whose keys are at most its key. -/
theorem take_eq_filter {β : Type} (M : List (α × β))
    (hs : (M.map Prod.fst).Pairwise (fun a b => a < b)) :
    ∀ (k : Nat) (hk : k < M.length),
      M.take (k + 1) = M.filter (fun e => decide (e.1 ≤ (M.get ⟨k, hk⟩).1)) := by
  induction M with
  | nil => intro k hk; simp at hk
  | cons e rest ih =>
    intro k hk
    simp only [List.map_cons, List.pairwise_cons] at hs
    cases k with
    | zero =>
      have hrest : rest.filter (fun x => decide (x.1 ≤ e.1)) = [] := by
        rw [List.filter_eq_nil_iff]
        intro a ha
        have hlt := hs.1 a.1 (List.mem_map_of_mem _ ha)
        simp only [decide_eq_true_eq, not_le]
        exact hlt
      simp [List.filter_cons, hrest]
    | succ k =>
      have hk2 : k < rest.length := by simpa using hk
      have hlt : e.1 < (rest.get ⟨k, hk2⟩).1 :=
        hs.1 _ (List.mem_map_of_mem _ (List.get_mem _ _ _))
      have hget : ((e :: rest).get ⟨k + 1, hk⟩) = rest.get ⟨k, hk2⟩ := rfl
      rw [hget, List.take_succ_cons, ih hs.2 k hk2, List.filter_cons,
        if_pos (by simpa using le_of_lt hlt)]

/-- The four sums that the loop of `BestThreshold` keeps, after the passes for a
list of entries. -/
theorem scanEntry_foldl (sqrt log : α → α) (L : TreeLearner α)
    (value old_diff normalizer : α) (sample_size tree_size : Int)
    (entries : List (α × (α × Int))) :
    ∀ s : TreeLearner.Scan α,
      (entries.foldl (TreeLearner.scanEntry sqrt log L value old_diff normalizer sample_size
          tree_size) s).left_population_weight =
        s.left_population_weight + (entries.map (fun e => e.2.1)).sum ∧
      (entries.foldl (TreeLearner.scanEntry sqrt log L value old_diff normalizer sample_size
          tree_size) s).right_population_weight =
        s.right_population_weight - (entries.map (fun e => e.2.1)).sum ∧
      (entries.foldl (TreeLearner.scanEntry sqrt log L value old_diff normalizer sample_size
          tree_size) s).left_sample_count =
        s.left_sample_count + (entries.map (fun e => (e.2.2 : α))).sum ∧
      (entries.foldl (TreeLearner.scanEntry sqrt log L value old_diff normalizer sample_size
          tree_size) s).right_sample_count =
        s.right_sample_count - (entries.map (fun e => (e.2.2 : α))).sum := by
  induction entries with
  | nil => intro s; simp
  | cons e rest ih =>
    intro s
    obtain ⟨h1, h2, h3, h4⟩ := ih (TreeLearner.scanEntry sqrt log L value old_diff normalizer
      sample_size tree_size s e)
    have hstep : (TreeLearner.scanEntry sqrt log L value old_diff normalizer sample_size
          tree_size s e).left_population_weight = s.left_population_weight + e.2.1 ∧
        (TreeLearner.scanEntry sqrt log L value old_diff normalizer sample_size
          tree_size s e).right_population_weight = s.right_population_weight - e.2.1 ∧
        (TreeLearner.scanEntry sqrt log L value old_diff normalizer sample_size
          tree_size s e).left_sample_count = s.left_sample_count + (e.2.2 : α) ∧
        (TreeLearner.scanEntry sqrt log L value old_diff normalizer sample_size
          tree_size s e).right_sample_count = s.right_sample_count - (e.2.2 : α) := by
      unfold TreeLearner.scanEntry
      simp only
      split_ifs <;> exact ⟨rfl, rfl, rfl, rfl⟩
    simp only [List.foldl_cons, List.map_cons, List.sum_cons, h1, h2, h3, h4, hstep.1,
      hstep.2.1, hstep.2.2.1, hstep.2.2.2]
    refine ⟨by ring, by ring, by ring, by ring⟩

end BucketFacts

section BuildFacts

variable {α : Type} [LinearOrderedField α]

/-- `BuildThresholdToWeightsMap` where the lookups have answers: it returns a map
with keys in increasing order, the buckets of the points and the sample points of
the node, in which the weights and the counts of the entries whose keys pass a
test sum to the weight of the points and the number of the sample points whose
buckets pass the test; the learner after the call agrees with the learner
before. -/
theorem BuildThresholdToWeightsMap_spec (L0 L : TreeLearner α) (hA : L0.Agree L)
    (node : Node α) (index : Int) (hp : L0.Answers index node.Points)
    (hs : L0.Answers index node.Samples) :
    ∃ M L1, L.BuildThresholdToWeightsMap node index = some (M, L1) ∧ L0.Agree L1 ∧
      (M.map Prod.fst).Pairwise (fun a b => a < b) ∧
      (∀ u, u ∈ M.map Prod.fst ↔ ∃ p ∈ node.Points ++ node.Samples, L0.bucket index p = u) ∧
      ∀ c : α → Bool,
        ((M.filter (fun e => c e.1)).map (fun e => e.2.1)).sum =
          ((node.Points.filter (fun p => c (L0.bucket index p))).map Point.GetProbWeight).sum ∧
        ((M.filter (fun e => c e.1)).map (fun e => (e.2.2 : α))).sum =
          ((node.Samples.filter (fun p => c (L0.bucket index p))).length : α) := by
  obtain ⟨L1, h1, hA1⟩ := addPoints_eq L0 index node.Points [] L hA hp
  obtain ⟨L2, h2, hA2⟩ := addSamples_eq L0 index node.Samples
    (node.Points.foldl (fun M p =>
      mapUpdate (0, 0) (fun e => (e.1 + p.GetProbWeight, e.2)) M (L0.bucket index p)) []) L1
    hA1 hs
  refine ⟨node.Samples.foldl (fun M p =>
      mapUpdate (0, 0) (fun e => (e.1, e.2 + 1)) M (L0.bucket index p))
    (node.Points.foldl (fun M p =>
      mapUpdate (0, 0) (fun e => (e.1 + p.GetProbWeight, e.2)) M (L0.bucket index p)) []),
    L2, ?_, hA2, ?_, ?_, ?_⟩
  · unfold TreeLearner.BuildThresholdToWeightsMap
    simp only [h1]
    exact h2
  · have hP := (foldl_mapUpdate (fun _ => true) (fun e : α × Int => e.1) rfl (L0.bucket index)
      (fun p e => (e.1 + p.GetProbWeight, e.2)) Point.GetProbWeight (fun _ _ => rfl)
      node.Points [] (by simp)).1
    exact (foldl_mapUpdate (fun _ => true) (fun e : α × Int => e.1) rfl (L0.bucket index)
      (fun _ e => (e.1, e.2 + 1)) (fun _ => 0) (fun _ _ => by simp) node.Samples _ hP).1
  · intro u
    have hP := foldl_mapUpdate (fun _ => true) (fun e : α × Int => e.1) rfl (L0.bucket index)
      (fun p e => (e.1 + p.GetProbWeight, e.2)) Point.GetProbWeight (fun _ _ => rfl)
      node.Points [] (by simp)
    have hS := foldl_mapUpdate (fun _ => true) (fun e : α × Int => e.1) rfl (L0.bucket index)
      (fun _ e => (e.1, e.2 + 1)) (fun _ => 0) (fun _ _ => by simp) node.Samples _ hP.1
    rw [hS.2.1, hP.2.1]
    simp only [List.map_nil, List.not_mem_nil, false_or, List.mem_append]
    constructor
    · rintro (⟨p, hp1, hp2⟩ | ⟨p, hp1, hp2⟩)
      · exact ⟨p, Or.inl hp1, hp2⟩
      · exact ⟨p, Or.inr hp1, hp2⟩
    · rintro ⟨p, hp1 | hp1, hp2⟩
      · exact Or.inl ⟨p, hp1, hp2⟩
      · exact Or.inr ⟨p, hp1, hp2⟩
  · intro c
    have hP := foldl_mapUpdate c (fun e : α × Int => e.1) rfl (L0.bucket index)
      (fun p e => (e.1 + p.GetProbWeight, e.2)) Point.GetProbWeight (fun _ _ => rfl)
      node.Points [] (by simp)
    have hPc := foldl_mapUpdate c (fun e : α × Int => (e.2 : α)) (by simp) (L0.bucket index)
      (fun p e => (e.1 + p.GetProbWeight, e.2)) (fun _ => 0) (fun _ _ => by simp)
      node.Points [] (by simp)
    have hS := foldl_mapUpdate c (fun e : α × Int => e.1) rfl (L0.bucket index)
      (fun _ e => (e.1, e.2 + 1)) (fun _ => 0) (fun _ _ => by simp) node.Samples _ hP.1
    have hSc := foldl_mapUpdate c (fun e : α × Int => (e.2 : α)) (by simp) (L0.bucket index)
      (fun _ e => (e.1, e.2 + 1)) (fun _ => 1) (fun _ _ => by simp) node.Samples _ hP.1
    refine ⟨?_, ?_⟩
    · rw [hS.2.2, hP.2.2]
      simp
    · rw [hSc.2.2, hPc.2.2]
      simp

/-- Under `NextThreshold`, the bucket of a point is at most the bucket of another
point exactly when its covariate is strictly less than that bucket. -/
theorem bucket_le_iff (L : TreeLearner α) (index : Int) (points : List (Point α))
    (hnext : L.NextThreshold index points) (p q : Point α) (hp : p ∈ points)
    (hq : q ∈ points) :
    L.bucket index p ≤ L.bucket index q ↔ p.RawFeatureLess index (L.bucket index q) = true := by
  obtain ⟨v, t, hv, ht, hvt, hmin⟩ := hnext.2 p hp
  obtain ⟨u, s, hu, hs, _, _⟩ := hnext.2 q hq
  have hbp : L.bucket index p = t := by
    simp only [TreeLearner.bucket, hv, Option.bind, ht, Option.getD_some]
  have hbq : L.bucket index q = s := by
    simp only [TreeLearner.bucket, hu, Option.bind, hs, Option.getD_some]
  rw [hbp, hbq]
  simp only [Point.RawFeatureLess, hv, decide_eq_true_eq]
  exact ⟨fun h => lt_of_lt_of_le hvt h, fun h => hmin q hq u s hu hs h⟩

/-- `NextThreshold` gives every lookup an answer. -/
theorem NextThreshold_answers (L : TreeLearner α) (index : Int) (points : List (Point α))
    (hnext : L.NextThreshold index points) : L.Answers index points :=
  ⟨hnext.1, fun p hp => by
    obtain ⟨v, t, hv, ht, _⟩ := hnext.2 p hp
    exact ⟨v, t, hv, ht⟩⟩

/-- `Answers` and `NextThreshold` pass to sublists. -/
theorem Answers_mono (L : TreeLearner α) (index : Int) (points sub : List (Point α))
    (h : L.Answers index points) (hsub : ∀ p ∈ sub, p ∈ points) : L.Answers index sub :=
  ⟨h.1, fun p hp => h.2 p (hsub p hp)⟩

/-- `NextThreshold` passes to sublists. -/
theorem NextThreshold_mono (L : TreeLearner α) (index : Int) (points sub : List (Point α))
    (h : L.NextThreshold index points) (hsub : ∀ p ∈ sub, p ∈ points) :
    L.NextThreshold index sub :=
  ⟨h.1, fun p hp => by
    obtain ⟨v, t, hv, ht, hvt, hmin⟩ := h.2 p (hsub p hp)
    exact ⟨v, t, hv, ht, hvt, fun q hq => hmin q (hsub q hq)⟩⟩

end BuildFacts

/-! ## The loop of `BestThreshold` -/

section ScanFacts

variable {α : Type} [LinearOrderedField α]

/-- One pass through the body of the loop of `BestThreshold`, in terms of the
locals that it leaves: it writes when the new gradient beats the best one by more
than `gTolerance`. -/
theorem scanEntry_out (sqrt log : α → α) (L : TreeLearner α) (value old_diff normalizer : α)
    (sample_size tree_size : Int) (s : TreeLearner.Scan α) (e : α × (α × Int)) :
    (|(TreeLearner.scanEntry sqrt log L value old_diff normalizer sample_size tree_size s
          e).new_gradient sqrt log L value old_diff normalizer sample_size tree_size| >
        s.best_gradient + gTolerance →
      (TreeLearner.scanEntry sqrt log L value old_diff normalizer sample_size tree_size s
          e).best_gradient =
        |(TreeLearner.scanEntry sqrt log L value old_diff normalizer sample_size tree_size s
          e).new_gradient sqrt log L value old_diff normalizer sample_size tree_size| ∧
      (TreeLearner.scanEntry sqrt log L value old_diff normalizer sample_size tree_size s
          e).out =
        some (e.1,
          (TreeLearner.scanEntry sqrt log L value old_diff normalizer sample_size tree_size s
            e).new_gradient sqrt log L value old_diff normalizer sample_size tree_size,
          (TreeLearner.scanEntry sqrt log L value old_diff normalizer sample_size tree_size s
            e).new_left_val sqrt log L value old_diff normalizer sample_size tree_size,
          (TreeLearner.scanEntry sqrt log L value old_diff normalizer sample_size tree_size s
            e).new_diff sqrt log L value old_diff normalizer sample_size tree_size)) ∧
    (¬ |(TreeLearner.scanEntry sqrt log L value old_diff normalizer sample_size tree_size s
          e).new_gradient sqrt log L value old_diff normalizer sample_size tree_size| >
        s.best_gradient + gTolerance →
      (TreeLearner.scanEntry sqrt log L value old_diff normalizer sample_size tree_size s
          e).best_gradient = s.best_gradient ∧
      (TreeLearner.scanEntry sqrt log L value old_diff normalizer sample_size tree_size s
          e).out = s.out) := by
  unfold TreeLearner.Scan.new_gradient TreeLearner.Scan.new_left_val TreeLearner.Scan.new_diff
    TreeLearner.Scan.new_left_gradient TreeLearner.Scan.new_right_gradient
    TreeLearner.Scan.led TreeLearner.Scan.red TreeLearner.scanEntry
  simp only
  split_ifs <;> simp_all

/-- The new gradient of a pass is the gradient of the difference that the pass
would write, and neither side beats it by more than `gTolerance`. -/
theorem new_gradient_facts (sqrt log : α → α) (L : TreeLearner α)
    (value old_diff normalizer : α) (sample_size tree_size : Int) (s : TreeLearner.Scan α) :
    s.new_gradient sqrt log L value old_diff normalizer sample_size tree_size =
        L.Gradient sqrt log (tree_size + 2) sample_size
          (s.new_diff sqrt log L value old_diff normalizer sample_size tree_size) ∧
      |s.new_left_gradient sqrt log L value old_diff normalizer sample_size tree_size| ≤
        |s.new_gradient sqrt log L value old_diff normalizer sample_size tree_size| +
          gTolerance ∧
      |s.new_right_gradient sqrt log L value old_diff normalizer sample_size tree_size| ≤
        |s.new_gradient sqrt log L value old_diff normalizer sample_size tree_size| +
          gTolerance := by
  have htol : (0 : α) < gTolerance := gTolerance_pos
  unfold TreeLearner.Scan.new_gradient TreeLearner.Scan.new_diff
  split_ifs with h
  · refine ⟨rfl, by linarith, by linarith [abs_nonneg (s.new_right_gradient sqrt log L value
      old_diff normalizer sample_size tree_size)]⟩
  · exact ⟨rfl, not_lt.1 h, by linarith⟩

end ScanFacts

/-! ## The best candidate of `BestThreshold` -/

section ScanInvariant

variable {α : Type} [LinearOrderedField α]

/-- The loop of `BestThreshold` from any locals, over any entries: the best
gradient does not fall, the new gradient of no pass exceeds the final best
gradient by more than `gTolerance`, and the outputs are those of the start or
those that one of the passes wrote, with the best gradient of that pass. -/
theorem scan_foldl_invariant (sqrt log : α → α) (L : TreeLearner α)
    (value old_diff normalizer : α) (sample_size tree_size : Int) :
    ∀ (l : List (α × (α × Int))) (s : TreeLearner.Scan α),
      s.best_gradient ≤
        (l.foldl (TreeLearner.scanEntry sqrt log L value old_diff normalizer sample_size
          tree_size) s).best_gradient ∧
      (∀ k : Nat, k < l.length →
        |((l.take (k + 1)).foldl (TreeLearner.scanEntry sqrt log L value old_diff normalizer
            sample_size tree_size) s).new_gradient sqrt log L value old_diff normalizer
            sample_size tree_size| ≤
          (l.foldl (TreeLearner.scanEntry sqrt log L value old_diff normalizer sample_size
            tree_size) s).best_gradient + gTolerance) ∧
      (((l.foldl (TreeLearner.scanEntry sqrt log L value old_diff normalizer sample_size
            tree_size) s).best_gradient = s.best_gradient ∧
          (l.foldl (TreeLearner.scanEntry sqrt log L value old_diff normalizer sample_size
            tree_size) s).out = s.out) ∨
        ∃ (k : Nat) (hk : k < l.length),
          (l.foldl (TreeLearner.scanEntry sqrt log L value old_diff normalizer sample_size
              tree_size) s).best_gradient =
            |((l.take (k + 1)).foldl (TreeLearner.scanEntry sqrt log L value old_diff
              normalizer sample_size tree_size) s).new_gradient sqrt log L value old_diff
              normalizer sample_size tree_size| ∧
          (l.foldl (TreeLearner.scanEntry sqrt log L value old_diff normalizer sample_size
              tree_size) s).out =
            some ((l.get ⟨k, hk⟩).1,
              ((l.take (k + 1)).foldl (TreeLearner.scanEntry sqrt log L value old_diff
                normalizer sample_size tree_size) s).new_gradient sqrt log L value old_diff
                normalizer sample_size tree_size,
              ((l.take (k + 1)).foldl (TreeLearner.scanEntry sqrt log L value old_diff
                normalizer sample_size tree_size) s).new_left_val sqrt log L value old_diff
                normalizer sample_size tree_size,
              ((l.take (k + 1)).foldl (TreeLearner.scanEntry sqrt log L value old_diff
                normalizer sample_size tree_size) s).new_diff sqrt log L value old_diff
                normalizer sample_size tree_size)) := by
  have htol : (0 : α) < gTolerance := gTolerance_pos
  intro l
  induction l with
  | nil =>
    intro s
    simp
  | cons e rest ih =>
    intro s
    obtain ⟨h1, h2, h3⟩ := ih
      (TreeLearner.scanEntry sqrt log L value old_diff normalizer sample_size tree_size s e)
    have hstep := scanEntry_out sqrt log L value old_diff normalizer sample_size tree_size s e
    simp only [List.foldl_cons]
    by_cases hc : |(TreeLearner.scanEntry sqrt log L value old_diff normalizer sample_size
        tree_size s e).new_gradient sqrt log L value old_diff normalizer sample_size
        tree_size| > s.best_gradient + gTolerance
    · obtain ⟨hb, ho⟩ := hstep.1 hc
      refine ⟨by linarith, ?_, ?_⟩
      · intro k hk
        cases k with
        | zero =>
          simp only [zero_add, List.take_succ_cons, List.take_zero, List.foldl_cons,
            List.foldl_nil]
          linarith
        | succ k =>
          simp only [List.take_succ_cons, List.foldl_cons]
          exact h2 k (by simpa using hk)
      · right
        rcases h3 with ⟨hb1, ho1⟩ | ⟨k, hk, hb1, ho1⟩
        · refine ⟨0, by simp, ?_, ?_⟩
          · simp only [zero_add, List.take_succ_cons, List.take_zero, List.foldl_cons,
              List.foldl_nil]
            rw [hb1, hb]
          · simp only [zero_add, List.take_succ_cons, List.take_zero, List.foldl_cons,
              List.foldl_nil]
            rw [ho1, ho]
            rfl
        · exact ⟨k + 1, by simpa using hk, by simpa using hb1, by simpa using ho1⟩
    · obtain ⟨hb, ho⟩ := hstep.2 hc
      refine ⟨by linarith, ?_, ?_⟩
      · intro k hk
        cases k with
        | zero =>
          simp only [zero_add, List.take_succ_cons, List.take_zero, List.foldl_cons,
            List.foldl_nil]
          linarith [not_lt.1 hc]
        | succ k =>
          simp only [List.take_succ_cons, List.foldl_cons]
          exact h2 k (by simpa using hk)
      · rcases h3 with ⟨hb1, ho1⟩ | ⟨k, hk, hb1, ho1⟩
        · left
          exact ⟨hb1.trans hb, ho1.trans ho⟩
        · right
          exact ⟨k + 1, by simpa using hk, by simpa using hb1, by simpa using ho1⟩

end ScanInvariant

/-! ## The sums of the loop of `BestThreshold` and the split of `GrowTree` -/

section ScanSums

variable {α : Type} [LinearOrderedField α]

/-- Under `NextThreshold`, after the pass of the loop of `BestThreshold` for an
entry of the map, the left sums are the weight of the points and the number of the
sample points of the node whose covariate is strictly less than the key of the
entry, and the right sums are what is left of the weight and the sample count that
the loop started with. -/
theorem scanAfter_sums (sqrt log : α → α) (L0 L L1 L2 : TreeLearner α) (hA : L0.Agree L)
    (node : Node α) (index : Int) (M : List (α × (α × Int)))
    (hbuild : L.BuildThresholdToWeightsMap node index = some (M, L1))
    (hnext : L0.NextThreshold index (node.Points ++ node.Samples))
    (value old_diff normalizer : α) (sample_size tree_size : Int) (weight : α)
    (sample_count : Int) (k : Nat) (hk : k < M.length) :
    (L2.scanAfter sqrt log value old_diff normalizer sample_size tree_size weight sample_count
        (M.take (k + 1))).left_population_weight =
      ((node.Points.filter (fun p => p.RawFeatureLess index (M.get ⟨k, hk⟩).1)).map
        Point.GetProbWeight).sum ∧
    (L2.scanAfter sqrt log value old_diff normalizer sample_size tree_size weight sample_count
        (M.take (k + 1))).right_population_weight =
      weight - ((node.Points.filter (fun p => p.RawFeatureLess index (M.get ⟨k, hk⟩).1)).map
        Point.GetProbWeight).sum ∧
    (L2.scanAfter sqrt log value old_diff normalizer sample_size tree_size weight sample_count
        (M.take (k + 1))).left_sample_count =
      ((node.Samples.filter (fun p => p.RawFeatureLess index (M.get ⟨k, hk⟩).1)).length : α) ∧
    (L2.scanAfter sqrt log value old_diff normalizer sample_size tree_size weight sample_count
        (M.take (k + 1))).right_sample_count =
      (sample_count : α) -
        ((node.Samples.filter (fun p => p.RawFeatureLess index (M.get ⟨k, hk⟩).1)).length : α) := by
  have hans := NextThreshold_answers L0 index _ hnext
  obtain ⟨M1, L3, hb1, _, hsorted, hkeys, hsums⟩ := BuildThresholdToWeightsMap_spec L0 L hA node
    index (Answers_mono L0 index _ _ hans (fun p hp => List.mem_append_left _ hp))
    (Answers_mono L0 index _ _ hans (fun p hp => List.mem_append_right _ hp))
  rw [hbuild] at hb1
  simp only [Option.some.injEq, Prod.mk.injEq] at hb1
  obtain ⟨hM, _⟩ := hb1
  subst hM
  obtain ⟨q, hq, hqt⟩ := (hkeys (M.get ⟨k, hk⟩).1).1
    (List.mem_map_of_mem _ (List.get_mem _ _ _))
  obtain ⟨hw, hc⟩ := hsums (fun u => decide (u ≤ (M.get ⟨k, hk⟩).1))
  have hP : node.Points.filter (fun p => decide (L0.bucket index p ≤ (M.get ⟨k, hk⟩).1)) =
      node.Points.filter (fun p => p.RawFeatureLess index (M.get ⟨k, hk⟩).1) := by
    apply List.filter_congr
    intro p hp
    have := bucket_le_iff L0 index _ hnext p q (List.mem_append_left _ hp) hq
    rw [hqt] at this
    by_cases h : L0.bucket index p ≤ (M.get ⟨k, hk⟩).1
    · rw [this.1 h, decide_eq_true h]
    · have h2 : p.RawFeatureLess index (M.get ⟨k, hk⟩).1 = false := by
        cases hless : p.RawFeatureLess index (M.get ⟨k, hk⟩).1
        · rfl
        · exact absurd (this.2 hless) h
      rw [h2, decide_eq_false h]
  have hS : node.Samples.filter (fun p => decide (L0.bucket index p ≤ (M.get ⟨k, hk⟩).1)) =
      node.Samples.filter (fun p => p.RawFeatureLess index (M.get ⟨k, hk⟩).1) := by
    apply List.filter_congr
    intro p hp
    have := bucket_le_iff L0 index _ hnext p q (List.mem_append_right _ hp) hq
    rw [hqt] at this
    by_cases h : L0.bucket index p ≤ (M.get ⟨k, hk⟩).1
    · rw [this.1 h, decide_eq_true h]
    · have h2 : p.RawFeatureLess index (M.get ⟨k, hk⟩).1 = false := by
        cases hless : p.RawFeatureLess index (M.get ⟨k, hk⟩).1
        · rfl
        · exact absurd (this.2 hless) h
      rw [h2, decide_eq_false h]
  rw [hP] at hw
  rw [hS] at hc
  obtain ⟨h1, h2, h3, h4⟩ := scanEntry_foldl sqrt log L2 value old_diff normalizer sample_size
    tree_size (M.take (k + 1))
    { best_gradient := -1.0
      left_population_weight := 0.0
      right_population_weight := weight
      left_sample_count := 0.0
      right_sample_count := (sample_count : α)
      out := none }
  have hzero : (0.0 : α) = 0 := by norm_num
  rw [take_eq_filter M hsorted k hk, hw] at h1 h2
  rw [take_eq_filter M hsorted k hk, hc] at h3 h4
  unfold TreeLearner.scanAfter
  rw [take_eq_filter M hsorted k hk]
  simp only [hzero, zero_add] at h1 h2 h3 h4 ⊢
  exact ⟨h1, h2, h3, h4⟩

end ScanSums

section BestThresholdFacts

variable {α : Type} [LinearOrderedField α]

/-- `BestThreshold` is the loop `scanAfter` over the map that
`BuildThresholdToWeightsMap` returns, for every learner state that agrees with
the state before the call. -/
theorem BestThreshold_eq_scanAfter (sqrt log : α → α) (L L1 L2 : TreeLearner α)
    (hA : L2.Agree L1) (feature_index : Int) (f : Int) (t v : α) (l r : Node α) (w : α)
    (ps ss : List (Point α)) (old_diff normalizer : α) (sample_size tree_size : Int)
    (M : List (α × (α × Int)))
    (hbuild : L.BuildThresholdToWeightsMap (Node.mk f t v l r w ps ss) feature_index =
      some (M, L1)) :
    L.BestThreshold sqrt log feature_index (Node.mk f t v l r w ps ss) old_diff normalizer
        sample_size tree_size =
      some ((L2.scanAfter sqrt log v old_diff normalizer sample_size tree_size w
        (ss.length : Int) M).out, L1) := by
  unfold TreeLearner.BestThreshold TreeLearner.scanAfter
  rw [hbuild]
  simp only [Node.GetPopulationWeight, Node.GetSampleCount, Node.GetValue,
    scanEntry_agree sqrt log L2 L1 hA]

end BestThresholdFacts

section TreeRootFacts

/-- The root of the fixture: a leaf of value 0 and weight 3 with the four points
and the sample point. -/
theorem treeRoot_eq :
    treeRoot ℚ = Node.mk 0 0 0 Node.null Node.null 3 (treePoints ℚ) (treeExamples ℚ) := by
  unfold treeRoot
  rw [Train_root]
  norm_num [treePoints, Point.GetProbWeight]

/-- The map of the fixture sends the covariates -1 and 1 of its points to the next
thresholds 0 and 2. -/
theorem treeLearner_next (index : Int) (h0 : 0 ≤ index) (h2 : index < 2) :
    (treeLearner ℚ).NextThreshold index (treePoints ℚ ++ treeExamples ℚ) := by
  have hcases : index = 0 ∨ index = 1 := by omega
  have hval : ∀ q ∈ treePoints ℚ ++ treeExamples ℚ, ∀ u s : ℚ,
      q.GetRawFeature index = some u → (treeLearner ℚ).lookup index.toNat u = some s →
      (u = -1 ∧ s = 0) ∨ (u = 1 ∧ s = 2) := by
    intro q hq u s hu hs
    simp only [treePoints, treeExamples, List.cons_append, List.nil_append, List.mem_cons,
      List.mem_singleton, List.not_mem_nil, or_false] at hq
    rcases hcases with rfl | rfl <;> rcases hq with rfl | rfl | rfl | rfl | rfl <;>
      simp [Point.GetRawFeature] at hu <;> subst hu <;>
      norm_num [TreeLearner.lookup, treeLearner, mapFind] at hs <;> simp [hs]
  have hex : ∀ p ∈ treePoints ℚ ++ treeExamples ℚ, ∃ v t : ℚ,
      p.GetRawFeature index = some v ∧ (treeLearner ℚ).lookup index.toNat v = some t := by
    intro p hp
    simp only [treePoints, treeExamples, List.cons_append, List.nil_append, List.mem_cons,
      List.mem_singleton, List.not_mem_nil, or_false] at hp
    rcases hcases with rfl | rfl <;> rcases hp with rfl | rfl | rfl | rfl | rfl <;>
      first
      | (refine ⟨-1, 0, ?_, ?_⟩
         · simp [Point.GetRawFeature]
         · norm_num [TreeLearner.lookup, treeLearner, mapFind])
      | (refine ⟨1, 2, ?_, ?_⟩
         · simp [Point.GetRawFeature]
         · norm_num [TreeLearner.lookup, treeLearner, mapFind])
  refine ⟨h0, fun p hp => ?_⟩
  obtain ⟨v, t, hv, ht⟩ := hex p hp
  refine ⟨v, t, hv, ht, ?_, ?_⟩
  · rcases hval p hp v t hv ht with ⟨h1, h2⟩ | ⟨h1, h2⟩ <;> rw [h1, h2] <;> norm_num
  · intro q hq u s hu hs hlt
    rcases hval p hp v t hv ht with ⟨h1, h2⟩ | ⟨h1, h2⟩ <;>
      rcases hval q hq u s hu hs with ⟨h3, h4⟩ | ⟨h3, h4⟩ <;> rw [h2, h4] <;>
      rw [h1, h4] at hlt <;> norm_num at hlt ⊢

end TreeRootFacts

section BestThresholdWitness

end BestThresholdWitness

section BucketSplit

variable {α : Type} [LinearOrderedField α]

/-- Claim C31, as amended: if the value-to-threshold map of the covariate `index`
sends every value of the covariate that occurs in a leaf to the smallest threshold
strictly greater than it, then `BuildThresholdToWeightsMap` returns a map with
keys in increasing order that the loop of `BestThreshold` scans, and for every
entry of the map, with the key `t`, the cumulative left weight and left sample
count of its pass (the sums over the entries with keys at most `t`) are the total
`probability_weight` of the points of the node and the number of its sample points
whose covariate is strictly less than `t`, which are the weight and the sample
count of the left child that `GrowTree` with the threshold `t` makes; the counts of
the buckets sum to the sample count of the node, and their weights to the total
current `probability_weight` of its points, which is the population weight of the
node if that weight is the sum of the current weights of its points. -/
theorem BestThreshold_buckets (sqrt log : α → α) (L : TreeLearner α) (index : Int)
    (node : Node α) (old_diff normalizer : α) (sample_size tree_size left_val : Int)
    (hleaf : node.IsLeaf = some true)
    (hnext : L.NextThreshold index (node.Points ++ node.Samples)) :
    ∃ (M : List (α × (α × Int))) (L1 : TreeLearner α) (weight value : α),
      L.BuildThresholdToWeightsMap node index = some (M, L1) ∧
      node.GetPopulationWeight = some weight ∧ node.GetValue = some value ∧
      L.BestThreshold sqrt log index node old_diff normalizer sample_size tree_size =
        some ((L.scanAfter sqrt log value old_diff normalizer sample_size tree_size weight
          (node.Samples.length : Int) M).out, L1) ∧
      (M.map Prod.fst).Pairwise (fun a b => a < b) ∧
      (∀ (k : Nat) (hk : k < M.length),
        (L.scanAfter sqrt log value old_diff normalizer sample_size tree_size weight
            (node.Samples.length : Int) (M.take (k + 1))).left_population_weight =
          ((M.filter (fun e => decide (e.1 ≤ (M.get ⟨k, hk⟩).1))).map (fun e => e.2.1)).sum ∧
        (L.scanAfter sqrt log value old_diff normalizer sample_size tree_size weight
            (node.Samples.length : Int) (M.take (k + 1))).left_sample_count =
          ((M.filter (fun e => decide (e.1 ≤ (M.get ⟨k, hk⟩).1))).map
            (fun e => (e.2.2 : α))).sum ∧
        (L.scanAfter sqrt log value old_diff normalizer sample_size tree_size weight
            (node.Samples.length : Int) (M.take (k + 1))).left_population_weight =
          ((node.Points.filter (fun p => p.RawFeatureLess index (M.get ⟨k, hk⟩).1)).map
            Point.GetProbWeight).sum ∧
        (L.scanAfter sqrt log value old_diff normalizer sample_size tree_size weight
            (node.Samples.length : Int) (M.take (k + 1))).left_sample_count =
          ((node.Samples.filter
            (fun p => p.RawFeatureLess index (M.get ⟨k, hk⟩).1)).length : α) ∧
        ((TreeLearner.GrowTree node (M.get ⟨k, hk⟩).1 index left_val).sub
            [false]).GetPopulationWeight =
          some (L.scanAfter sqrt log value old_diff normalizer sample_size tree_size weight
            (node.Samples.length : Int) (M.take (k + 1))).left_population_weight ∧
        ∃ left_count : Int,
          ((TreeLearner.GrowTree node (M.get ⟨k, hk⟩).1 index left_val).sub
            [false]).GetSampleCount = some left_count ∧
          (left_count : α) =
            (L.scanAfter sqrt log value old_diff normalizer sample_size tree_size weight
              (node.Samples.length : Int) (M.take (k + 1))).left_sample_count) ∧
      (M.map (fun e => (e.2.2 : α))).sum = (node.Samples.length : α) ∧
      (M.map (fun e => e.2.1)).sum = (node.Points.map Point.GetProbWeight).sum ∧
      (weight = (node.Points.map Point.GetProbWeight).sum →
        (M.map (fun e => e.2.1)).sum = weight) := by
  have hans := NextThreshold_answers L index _ hnext
  obtain ⟨M, L1, hbuild, hA, hsorted, _, hsums⟩ :=
    BuildThresholdToWeightsMap_spec L L (Agree_refl L) node index
      (Answers_mono L index _ _ hans (fun p hp => List.mem_append_left _ hp))
      (Answers_mono L index _ _ hans (fun p hp => List.mem_append_right _ hp))
  obtain ⟨f, t, v, w, ps, ss, rfl⟩ := leaf_eq node hleaf
  obtain ⟨hw, hc⟩ := hsums (fun _ => true)
  simp only [List.filter_true] at hw hc
  refine ⟨M, L1, w, v, hbuild, rfl, rfl,
    BestThreshold_eq_scanAfter sqrt log L L1 L hA index f t v _ _ w ps ss old_diff normalizer
      sample_size tree_size M hbuild, hsorted, fun k hk => ?_, hc, hw, fun h => ?_⟩
  · obtain ⟨h1, _, h3, _⟩ := scanAfter_sums sqrt log L L L1 L (Agree_refl L) _ index M hbuild
      hnext v old_diff normalizer sample_size tree_size w (ss.length : Int) k hk
    obtain ⟨h5, _, h7, _⟩ := scanEntry_foldl sqrt log L v old_diff normalizer sample_size
      tree_size (M.take (k + 1))
      { best_gradient := -1.0
        left_population_weight := 0.0
        right_population_weight := w
        left_sample_count := 0.0
        right_sample_count := ((ss.length : Int) : α)
        out := none }
    have hzero : (0.0 : α) = 0 := by norm_num
    simp only [hzero, zero_add, take_eq_filter M hsorted k hk] at h5 h7
    simp only [Node.Points, Node.Samples] at h1 h3 ⊢
    refine ⟨?_, ?_, h1, h3, ?_, ?_⟩
    · unfold TreeLearner.scanAfter
      simp only [hzero, take_eq_filter M hsorted k hk]
      exact h5
    · unfold TreeLearner.scanAfter
      simp only [hzero, take_eq_filter M hsorted k hk]
      exact h7
    · rw [h1, GrowTree_leaf]
      simp [Node.sub, Node.GetPopulationWeight]
    · rw [h3, GrowTree_leaf]
      exact ⟨_, rfl, by simp⟩
  · rw [hw, h]
    rfl

end BucketSplit

section BucketSplitWitness

/-- The amended claim C31 on the root of the second part of
`TreeLearnerTest.TestTrain` and the covariate 0: the map has the bucket of the key
0 with the weight 2 of the points 1 and 2 and the bucket of the key 2 with the
weight 1 of the points 3 and 4 and the sample point; the weights sum to the weight
3 of the root, and the left child that `GrowTree` makes with the threshold 0 has
the weight 2 of the first bucket. -/
theorem BestThreshold_buckets_witness :
    (treeLearner ℚ).BuildThresholdToWeightsMap (treeRoot ℚ) 0 =
      some ([(0, (2, 0)), (2, (1, 1))], treeLearner ℚ) ∧
    (treeRoot ℚ).GetPopulationWeight = some 3 ∧
    ((TreeLearner.GrowTree (treeRoot ℚ) 0 0 0).sub [false]).GetPopulationWeight = some 2 ∧
    ∃ (M : List (ℚ × (ℚ × Int))) (L1 : TreeLearner ℚ) (weight value : ℚ),
      (treeLearner ℚ).BuildThresholdToWeightsMap (treeRoot ℚ) 0 = some (M, L1) ∧
      (treeRoot ℚ).GetPopulationWeight = some weight ∧ (treeRoot ℚ).GetValue = some value ∧
      (treeLearner ℚ).BestThreshold (fun x : ℚ => x) (fun x : ℚ => x) 0 (treeRoot ℚ) 0 3 1 1 =
        some (((treeLearner ℚ).scanAfter (fun x : ℚ => x) (fun x : ℚ => x) value 0 3 1 1 weight
          ((treeRoot ℚ).Samples.length : Int) M).out, L1) ∧
      (M.map Prod.fst).Pairwise (fun a b => a < b) ∧
      (∀ (k : Nat) (hk : k < M.length),
        ((treeLearner ℚ).scanAfter (fun x : ℚ => x) (fun x : ℚ => x) value 0 3 1 1 weight
            ((treeRoot ℚ).Samples.length : Int) (M.take (k + 1))).left_population_weight =
          ((M.filter (fun e => decide (e.1 ≤ (M.get ⟨k, hk⟩).1))).map (fun e => e.2.1)).sum ∧
        ((treeLearner ℚ).scanAfter (fun x : ℚ => x) (fun x : ℚ => x) value 0 3 1 1 weight
            ((treeRoot ℚ).Samples.length : Int) (M.take (k + 1))).left_sample_count =
          ((M.filter (fun e => decide (e.1 ≤ (M.get ⟨k, hk⟩).1))).map
            (fun e => (e.2.2 : ℚ))).sum ∧
        ((treeLearner ℚ).scanAfter (fun x : ℚ => x) (fun x : ℚ => x) value 0 3 1 1 weight
            ((treeRoot ℚ).Samples.length : Int) (M.take (k + 1))).left_population_weight =
          (((treeRoot ℚ).Points.filter (fun p => p.RawFeatureLess 0 (M.get ⟨k, hk⟩).1)).map
            Point.GetProbWeight).sum ∧
        ((treeLearner ℚ).scanAfter (fun x : ℚ => x) (fun x : ℚ => x) value 0 3 1 1 weight
            ((treeRoot ℚ).Samples.length : Int) (M.take (k + 1))).left_sample_count =
          (((treeRoot ℚ).Samples.filter
            (fun p => p.RawFeatureLess 0 (M.get ⟨k, hk⟩).1)).length : ℚ) ∧
        ((TreeLearner.GrowTree (treeRoot ℚ) (M.get ⟨k, hk⟩).1 0 0).sub
            [false]).GetPopulationWeight =
          some ((treeLearner ℚ).scanAfter (fun x : ℚ => x) (fun x : ℚ => x) value 0 3 1 1 weight
            ((treeRoot ℚ).Samples.length : Int) (M.take (k + 1))).left_population_weight ∧
        ∃ left_count : Int,
          ((TreeLearner.GrowTree (treeRoot ℚ) (M.get ⟨k, hk⟩).1 0 0).sub
            [false]).GetSampleCount = some left_count ∧
          (left_count : ℚ) =
            ((treeLearner ℚ).scanAfter (fun x : ℚ => x) (fun x : ℚ => x) value 0 3 1 1 weight
              ((treeRoot ℚ).Samples.length : Int) (M.take (k + 1))).left_sample_count) ∧
      (M.map (fun e => (e.2.2 : ℚ))).sum = ((treeRoot ℚ).Samples.length : ℚ) ∧
      (M.map (fun e => e.2.1)).sum = ((treeRoot ℚ).Points.map Point.GetProbWeight).sum ∧
      (weight = ((treeRoot ℚ).Points.map Point.GetProbWeight).sum →
        (M.map (fun e => e.2.1)).sum = weight) := by
  refine ⟨?_, ?_, ?_, BestThreshold_buckets (fun x : ℚ => x) (fun x : ℚ => x) (treeLearner ℚ) 0
    (treeRoot ℚ) 0 3 1 1 0 ?_ ?_⟩
  · rw [treeRoot_eq]
    norm_num [treePoints, treeExamples, TreeLearner.BuildThresholdToWeightsMap,
      TreeLearner.addPoints, TreeLearner.addSamples, TreeLearner.thresholdOf, mapFind,
      mapInsert, mapUpdate, treeLearner, Node.Points, Node.Samples, Point.GetRawFeature,
      Point.GetProbWeight]
  · rw [treeRoot_eq]
    rfl
  · rw [treeRoot_eq, GrowTree_leaf]
    norm_num [treePoints, Node.sub, Node.GetPopulationWeight, Point.RawFeatureLess,
      Point.GetRawFeature, Point.GetProbWeight]
  · rw [treeRoot_eq]
    rfl
  · rw [treeRoot_eq]
    exact treeLearner_next 0 (by norm_num) (by norm_num)

/-- Claim C31 as stated fails in its last part: the leaf that holds one point with
the covariate 0, added with the weight 1 and given the weight 5 afterwards, has
the population weight 1, and for the map that sends 0 to the next threshold 1,
`BuildThresholdToWeightsMap` returns one bucket of the weight 5. -/
theorem BestThreshold_buckets_counterexample :
    (({ num_features := 1, model_parameter_alpha := 0, model_parameter_beta := 0,
        value_to_thresholds := [[(0, 1)]] } : TreeLearner ℚ).NextThreshold 0
      ((((Node.new : Node ℚ).AddPoint
        { id := 1, finalized := true, probability_weight := 1, raw_features := [0] }).reweigh
          0 5).Points ++
        (((Node.new : Node ℚ).AddPoint
          { id := 1, finalized := true, probability_weight := 1, raw_features := [0] }).reweigh
            0 5).Samples)) ∧
    (((Node.new : Node ℚ).AddPoint
      { id := 1, finalized := true, probability_weight := 1, raw_features := [0] }).reweigh
        0 5).IsLeaf = some true ∧
    (((Node.new : Node ℚ).AddPoint
      { id := 1, finalized := true, probability_weight := 1, raw_features := [0] }).reweigh
        0 5).GetPopulationWeight = some 1 ∧
    ({ num_features := 1, model_parameter_alpha := 0, model_parameter_beta := 0,
       value_to_thresholds := [[(0, 1)]] } : TreeLearner ℚ).BuildThresholdToWeightsMap
      (((Node.new : Node ℚ).AddPoint
        { id := 1, finalized := true, probability_weight := 1, raw_features := [0] }).reweigh
          0 5) 0 =
      some ([(1, (5, 0))],
        { num_features := 1, model_parameter_alpha := 0, model_parameter_beta := 0,
          value_to_thresholds := [[(0, 1)]] }) ∧
    (([(1, (5, 0))] : List (ℚ × (ℚ × Int))).map (fun e => e.2.1)).sum ≠ 1 := by
  have hleaf : ((Node.new : Node ℚ).AddPoint
      { id := 1, finalized := true, probability_weight := 1, raw_features := [0] }).reweigh
        0 5 =
      Node.mk 0 0 0 Node.null Node.null 1
        [({ id := 1, finalized := true, probability_weight := 5, raw_features := [0] } :
          Point ℚ)] [] := by
    norm_num [Node.new, Node.AddPoint, Node.reweigh, Point.GetProbWeight, Point.SetProbWeight]
  rw [hleaf]
  refine ⟨⟨le_refl _, ?_⟩, rfl, rfl, ?_, by norm_num⟩
  · intro p hp
    simp only [Node.Points, Node.Samples, List.append_nil, List.mem_singleton] at hp
    subst hp
    refine ⟨0, 1, by simp [Point.GetRawFeature], by simp [TreeLearner.lookup, mapFind],
      by norm_num, ?_⟩
    intro q hq u s hu hs _
    simp only [Node.Points, Node.Samples, List.append_nil, List.mem_singleton] at hq
    subst hq
    simp [Point.GetRawFeature] at hu
    subst hu
    simp [TreeLearner.lookup, mapFind] at hs
    rw [← hs]
  · norm_num [TreeLearner.BuildThresholdToWeightsMap, TreeLearner.addPoints,
      TreeLearner.addSamples, TreeLearner.thresholdOf, mapFind, mapInsert, mapUpdate,
      Node.Points, Node.Samples, Point.GetRawFeature, Point.GetProbWeight]

end BucketSplitWitness

/-! ## One pass through the loop of `TreeLearner::Train` -/

section TrainPass

variable {α : Type} [LinearOrderedField α]

/-- The loop over the features returns the best it started with, or the outputs
of a call of `BestThreshold` for one of the features, which the learner of the
start computes as well. -/
theorem featureLoop_spec (sqrt log : α → α) (node : Node α) (old_diff normalizer : α)
    (sample_size tree_size : Int) (features : List Nat) :
    ∀ (best r : α × Option (α × Int × α × α)) (L L1 : TreeLearner α),
      TreeLearner.featureLoop sqrt log node old_diff normalizer sample_size tree_size features
        best L = some (r, L1) →
      r = best ∨ ∃ j ∈ features, ∃ (t lv d : α) (L2 : TreeLearner α),
        L.BestThreshold sqrt log (j : Int) node old_diff normalizer sample_size tree_size =
          some (some (t, r.1, lv, d), L2) ∧
        r.2 = some (t, (j : Int), lv, d) := by
  induction features with
  | nil =>
    intro best r L L1 h
    simp only [TreeLearner.featureLoop, Option.some.injEq, Prod.mk.injEq] at h
    exact Or.inl h.1.symm
  | cons j rest ih =>
    intro best r L L1 h
    unfold TreeLearner.featureLoop at h
    cases hbt : L.BestThreshold sqrt log (j : Int) node old_diff normalizer sample_size
      tree_size with
    | none =>
      rw [hbt] at h
      exact absurd h (by simp)
    | some res =>
      obtain ⟨out, La⟩ := res
      rw [hbt] at h
      cases out with
      | none => exact absurd h (by simp)
      | some w =>
        obtain ⟨t, g, lv, d⟩ := w
        have hA : L.Agree La := (BestThreshold_agree sqrt log L L La (Agree_refl L) (j : Int)
          node old_diff normalizer sample_size tree_size _ hbt).1
        have transfer : ∀ (j1 : Nat) (t1 g1 lv1 d1 : α) (L2 : TreeLearner α),
            La.BestThreshold sqrt log (j1 : Int) node old_diff normalizer sample_size
              tree_size = some (some (t1, g1, lv1, d1), L2) →
            ∃ L3, L.BestThreshold sqrt log (j1 : Int) node old_diff normalizer sample_size
              tree_size = some (some (t1, g1, lv1, d1), L3) := by
          intro j1 t1 g1 lv1 d1 L2 h1
          obtain ⟨_, L3, h3, _⟩ := BestThreshold_agree sqrt log La L L2 (Agree_symm hA) (j1 : Int)
            node old_diff normalizer sample_size tree_size _ h1
          exact ⟨L3, h3⟩
        simp only at h
        split_ifs at h with hc
        · rcases ih _ r La L1 h with hr | ⟨j1, hj1, t1, lv1, d1, L2, h1, h2⟩
          · right
            refine ⟨j, List.mem_cons_self _ _, t, lv, d, La, ?_, ?_⟩
            · rw [hr]
              exact hbt
            · rw [hr]
          · right
            obtain ⟨L3, h3⟩ := transfer j1 t1 r.1 lv1 d1 L2 h1
            exact ⟨j1, List.mem_cons_of_mem _ hj1, t1, lv1, d1, L3, h3, h2⟩
        · rcases ih _ r La L1 h with hr | ⟨j1, hj1, t1, lv1, d1, L2, h1, h2⟩
          · exact Or.inl hr
          · right
            obtain ⟨L3, h3⟩ := transfer j1 t1 r.1 lv1 d1 L2 h1
            exact ⟨j1, List.mem_cons_of_mem _ hj1, t1, lv1, d1, L3, h3, h2⟩

variable [FloorRing α]

/-- A pass through the body of the loop of `TreeLearner::Train` changes neither
the tree nor the accumulators, or it splits the node with the outputs of a call
of `BestThreshold` for a feature of the learner, whose gradient exceeds the
recorded one by more than `gTolerance` in absolute value and is recorded. -/
theorem TrainStep_spec (sqrt log : α → α) (normalizer : α) (sample_size : Int)
    (st st1 : TreeLearner.State α) (node : List Bool) (q : List (List Bool))
    (h : TreeLearner.TrainStep sqrt log normalizer sample_size st node q = some st1) :
    (st1.root = st.root ∧ st1.q = q ∧ st1.old_diff = st.old_diff ∧
        st1.tree_size = st.tree_size ∧ st1.old_gradient = st.old_gradient) ∨
      ∃ (j : Nat) (t lv d : α) (L2 : TreeLearner α),
        (j : Int) < st.learner.num_features ∧
        st.learner.BestThreshold sqrt log (j : Int) (st.root.sub node) st.old_diff normalizer
          sample_size st.tree_size = some (some (t, st1.old_gradient, lv, d), L2) ∧
        |st1.old_gradient| > |st.old_gradient| + gTolerance ∧
        st1.root = st.root.modify
          (fun n => TreeLearner.GrowTree n t (j : Int) (truncate lv)) node ∧
        st1.q = q ++ [node ++ [false], node ++ [true]] ∧ st1.old_diff = d ∧
        st1.tree_size = st.tree_size + 2 := by
  unfold TreeLearner.TrainStep at h
  split at h
  · exact absurd h (by simp)
  · rename_i best_gradient best L1 hfl
    split_ifs at h with hc
    · have htol : (0 : α) < gTolerance := gTolerance_pos
      rcases featureLoop_spec sqrt log _ _ _ _ _ _ _ _ _ _ hfl with hr |
        ⟨j, hj, t, lv, d, L2, h1, h2⟩
      · exfalso
        have hb : best_gradient = 0.0 := congrArg Prod.fst hr
        rw [hb] at hc
        have h0 : |(0.0 : α)| = 0 := by norm_num
        rw [h0] at hc
        linarith [abs_nonneg st.old_gradient]
      · simp only at h1 h2
        subst h2
        simp only [Option.some.injEq] at h
        subst h
        right
        refine ⟨j, t, lv, d, L2, ?_, h1, hc, rfl, rfl, rfl, rfl⟩
        have hj2 := List.mem_range.1 hj
        omega
    · simp only [Option.some.injEq] at h
      subst h
      exact Or.inl ⟨rfl, rfl, rfl, rfl, rfl⟩

end TrainPass

/-! ## The shape of the trees of `TreeLearner::Train` -/

section TrainedFacts

variable {α : Type} [LinearOrderedField α]

/-- The conversion to `int` of a double that holds an integer. -/
theorem truncate_intCast [FloorRing α] (k : Int) : truncate (k : α) = k := by
  unfold truncate
  split_ifs <;> simp

/-- The left value that `BestThreshold` writes for a node is the value of the
node or 1 minus that value. -/
theorem BestThreshold_left_val (sqrt log : α → α) (L L2 : TreeLearner α) (index : Int)
    (node : Node α) (old_diff normalizer : α) (sample_size tree_size : Int) (t g lv d : α)
    (h : L.BestThreshold sqrt log index node old_diff normalizer sample_size tree_size =
      some (some (t, g, lv, d), L2)) :
    ∃ value, node.GetValue = some value ∧ (lv = 1.0 - value ∨ lv = value) := by
  unfold TreeLearner.BestThreshold at h
  split at h
  · rename_i M L1 weight sample_count value hbuild hw hc hv
    simp only [Option.some.injEq, Prod.mk.injEq] at h
    obtain ⟨hout, _⟩ := h
    refine ⟨value, hv, ?_⟩
    obtain ⟨_, _, h3⟩ := scan_foldl_invariant sqrt log L1 value old_diff normalizer sample_size
      tree_size M
      { best_gradient := -1.0
        left_population_weight := 0.0
        right_population_weight := weight
        left_sample_count := 0.0
        right_sample_count := (sample_count : α)
        out := none }
    rcases h3 with ⟨_, ho⟩ | ⟨k, hk, _, ho⟩
    · rw [hout] at ho
      exact absurd ho (by simp)
    · rw [hout] at ho
      simp only [Option.some.injEq, Prod.mk.injEq] at ho
      obtain ⟨_, _, hlv, _⟩ := ho
      rw [hlv]
      unfold TreeLearner.Scan.new_left_val
      split_ifs
      · exact Or.inl rfl
      · exact Or.inr rfl
  · exact absurd h (by simp)

/-- A leaf of a tree that holds `P` and `S` holds some of them, with their total
weight. -/
theorem Holds_sub (path : List Bool) :
    ∀ (n : Node α) (P S : List (Point α)), n.Holds P S → (n.sub path).IsLeaf = some true →
      ∃ (f : Int) (t v : α) (ps ss : List (Point α)),
        n.sub path = Node.mk f t v Node.null Node.null (ps.map Point.GetProbWeight).sum ps ss ∧
        (∀ p ∈ ps, p ∈ P) ∧ (∀ p ∈ ss, p ∈ S) := by
  induction path with
  | nil =>
    intro n P S h hp
    rw [sub_nil] at hp ⊢
    obtain ⟨f, t, v, w, ps, ss, rfl⟩ := leaf_eq n hp
    simp only [Node.Holds, Node.isNull, Bool.and_self, if_true] at h
    obtain ⟨h1, h2, h3⟩ := h
    subst h1
    subst h2
    subst h3
    exact ⟨f, t, v, ps, ss, rfl, fun _ hp => hp, fun _ hp => hp⟩
  | cons b path ih =>
    intro n P S h hp
    cases n with
    | null => exact absurd h (by simp [Node.Holds])
    | mk f t v l r w ps ss =>
      by_cases hleaf : (l.isNull && r.isNull) = true
      · exfalso
        have hn : (Node.mk f t v l r w ps ss).IsLeaf = some true := by
          simp [Node.IsLeaf, hleaf]
        rw [sub_leaf_cons _ hn] at hp
        exact null_not_leaf hp
      · simp only [Node.Holds, hleaf, if_false, Bool.false_eq_true] at h
        cases b
        · simp only [Node.sub, Bool.false_eq_true, if_false] at hp ⊢
          obtain ⟨f1, t1, v1, ps1, ss1, h1, h2, h3⟩ := ih l _ _ h.1 hp
          exact ⟨f1, t1, v1, ps1, ss1, h1, fun p hp => (List.mem_filter.1 (h2 p hp)).1,
            fun p hp => (List.mem_filter.1 (h3 p hp)).1⟩
        · simp only [Node.sub, if_true] at hp ⊢
          obtain ⟨f1, t1, v1, ps1, ss1, h1, h2, h3⟩ := ih r _ _ h.2 hp
          exact ⟨f1, t1, v1, ps1, ss1, h1, fun p hp => (List.mem_filter.1 (h2 p hp)).1,
            fun p hp => (List.mem_filter.1 (h3 p hp)).1⟩

/-- `GrowTree` with a left value of 0 or 1 at a leaf of a tree that is as `Trained`
says gives such a tree, with the value of the root that it had. -/
theorem Trained_modify (threshold : α) (feature_index left_val : Int)
    (hlv : left_val = 0 ∨ left_val = 1) (p : List Bool) :
    ∀ n : Node α, n.Trained → (n.sub p).IsLeaf = some true →
      (n.modify (fun m => TreeLearner.GrowTree m threshold feature_index left_val) p).Trained ∧
      (n.modify (fun m => TreeLearner.GrowTree m threshold feature_index left_val) p).GetValue =
        n.GetValue := by
  induction p with
  | nil =>
    intro n h hp
    rw [sub_nil] at hp
    obtain ⟨f, t, v, w, ps, ss, rfl⟩ := leaf_eq n hp
    rw [modify_nil, GrowTree_leaf]
    simp only [Node.Trained] at h
    refine ⟨?_, rfl⟩
    simp only [Node.Trained, Node.isNull, Node.GetValue, and_self, true_or, and_true,
      Option.some.injEq, exists_and_left, exists_eq_left', true_and]
    refine ⟨h.1, Or.inr ⟨?_, ?_, ?_⟩⟩
    · rcases hlv with h0 | h1
      · left; rw [h0]; simp
      · right; rw [h1]; simp
    · rcases hlv with h0 | h1
      · right; rw [h0]; simp
      · left; rw [h1]; simp
    · push_cast
      ring
  | cons b p ih =>
    intro n h hp
    cases n with
    | null => exact absurd h (by simp [Node.Trained])
    | mk f t v l r w ps ss =>
      simp only [Node.Trained] at h
      obtain ⟨hv, hch⟩ := h
      rcases hch with ⟨hl, hr⟩ | ⟨hl, hr, hps, hss, a, b1, ha, hb, hab⟩
      · exfalso
        have hn : (Node.mk f t v l r w ps ss).IsLeaf = some true := by
          simp [Node.IsLeaf, hl, hr]
        rw [sub_leaf_cons _ hn] at hp
        exact null_not_leaf hp
      · cases b
        · simp only [Node.sub, Bool.false_eq_true, if_false] at hp
          obtain ⟨h1, h2⟩ := ih l hl hp
          simp only [Node.modify, Bool.false_eq_true, if_false, Node.Trained, Node.GetValue,
            and_true]
          exact ⟨hv, Or.inr ⟨h1, hr, hps, hss, a, b1, h2.trans ha, hb, hab⟩⟩
        · simp only [Node.sub, if_true] at hp
          obtain ⟨h1, h2⟩ := ih r hr hp
          simp only [Node.modify, if_true, Node.Trained, Node.GetValue, and_true]
          exact ⟨hv, Or.inr ⟨hl, h1, hps, hss, a, b1, ha, h2.trans hb, hab⟩⟩

end TrainedFacts

section SoundFacts

variable {α : Type} [LinearOrderedField α]

/-- The nodes of a tree that is as `Trained` says are the roots of such trees. -/
theorem Trained_sub (p : List Bool) :
    ∀ n : Node α, n.Trained → (n.sub p).isNull = false → (n.sub p).Trained := by
  induction p with
  | nil =>
    intro n h _
    rw [sub_nil]
    exact h
  | cons b p ih =>
    intro n h hp
    cases n with
    | null => exact absurd h (by simp [Node.Trained])
    | mk f t v l r w ps ss =>
      simp only [Node.Trained] at h
      rcases h.2 with ⟨hl, hr⟩ | ⟨hl, hr, _⟩
      · exfalso
        have hn : (Node.mk f t v l r w ps ss).IsLeaf = some true := by
          simp [Node.IsLeaf, hl, hr]
        rw [sub_leaf_cons _ hn] at hp
        simp [Node.isNull] at hp
      · cases b
        · simp only [Node.sub, Bool.false_eq_true, if_false] at hp ⊢
          exact ih l hl hp
        · simp only [Node.sub, if_true] at hp ⊢
          exact ih r hr hp

/-- The conversion to `int` of the left value that `BestThreshold` writes for a
node of the value 0 or 1 is exact, and gives 0 or 1. -/
theorem truncate_left_val [FloorRing α] (v lv : α) (hv : v = 0 ∨ v = 1)
    (hlv : lv = 1.0 - v ∨ lv = v) :
    (truncate lv = 0 ∨ truncate lv = 1) ∧ ((truncate lv : Int) : α) = lv := by
  have h01 : lv = ((0 : Int) : α) ∨ lv = ((1 : Int) : α) := by
    rcases hv with h | h <;> rcases hlv with h1 | h1 <;> rw [h1, h] <;> norm_num
  rcases h01 with h | h
  · rw [h, truncate_intCast]
    exact ⟨Or.inl rfl, rfl⟩
  · rw [h, truncate_intCast]
    exact ⟨Or.inr rfl, rfl⟩

/-- The state in which the loop of `TreeLearner::Train` starts, with the root
written out. -/
theorem start_eq (L : TreeLearner α) (P S : List (Point α)) :
    L.start P S =
      { learner := L
        root := Node.mk 0 0 0 Node.null Node.null (P.map Point.GetProbWeight).sum P S
        q := [[]]
        old_diff := 0.0
        tree_size := 1
        old_gradient := 0.0 } := by
  simp only [TreeLearner.start, Train_root, zero_add, List.nil_append]

/-- The state in which the loop of `TreeLearner::Train` starts is as `Sound`
says. -/
theorem start_Sound (L : TreeLearner α) (P S : List (Point α)) :
    (L.start P S).Sound L P S := by
  rw [start_eq]
  unfold TreeLearner.State.Sound
  refine ⟨Agree_refl L, ?_, ?_, ?_, ?_, ?_, ?_⟩
  · simp [Node.Holds, Node.isNull]
  · simp [Node.Trained, Node.isNull]
  · simp
  · intro p hp
    rw [List.mem_singleton.1 hp, sub_nil]
    simp [Node.IsLeaf, Node.isNull]
  · simp [Node.count]
  · intro _
    exact ⟨rfl, by norm_num⟩

variable [FloorRing α]

/-- A pass through the body of the loop of `TreeLearner::Train` keeps what `Sound`
lists; it changes neither the tree nor the accumulators, or it splits a leaf, with
a left value of 0 or 1 that `BestThreshold` has written for a feature of the
learner, and records a gradient that exceeds the one recorded before by more than
`gTolerance` in absolute value. -/
theorem TrainStep_keeps_Sound (sqrt log : α → α) (normalizer : α) (sample_size : Int)
    (L0 : TreeLearner α) (P S : List (Point α)) (st st1 : TreeLearner.State α)
    (node : List Bool) (q : List (List Bool)) (hS : st.Sound L0 P S) (hq : st.q = node :: q)
    (h : TreeLearner.TrainStep sqrt log normalizer sample_size st node q = some st1) :
    st1.Sound L0 P S ∧
      ((st1.root = st.root ∧ st1.old_diff = st.old_diff ∧ st1.tree_size = st.tree_size ∧
          st1.old_gradient = st.old_gradient) ∨
        ∃ (j : Nat) (t lv d v : α) (L2 : TreeLearner α),
          (j : Int) < L0.num_features ∧ (st.root.sub node).IsLeaf = some true ∧
          (st.root.sub node).GetValue = some v ∧ (v = 0 ∨ v = 1) ∧
          st.learner.BestThreshold sqrt log (j : Int) (st.root.sub node) st.old_diff normalizer
            sample_size st.tree_size = some (some (t, st1.old_gradient, lv, d), L2) ∧
          ((truncate lv : Int) : α) = lv ∧
          |st1.old_gradient| > |st.old_gradient| + gTolerance ∧
          st1.root = st.root.modify
            (fun n => TreeLearner.GrowTree n t (j : Int) (truncate lv)) node ∧
          st1.root.splits = st.root.splits + 1 ∧ st1.old_diff = d ∧
          st1.tree_size = st.tree_size + 2) := by
  obtain ⟨hA, hH, hT, hN, hL, hC, h0⟩ := hS
  rw [hq] at hN hL
  have hnode := hL node (List.mem_cons_self _ _)
  obtain ⟨hH1, hN1, hL1, hC1, _⟩ := TrainStep_sound sqrt log normalizer sample_size st st1 node q
    P S hH hN hL hC h
  have hA1 : L0.Agree st1.learner :=
    Agree_trans hA (TrainStep_cases sqrt log normalizer sample_size st st1 node q h).1
  rcases TrainStep_spec sqrt log normalizer sample_size st st1 node q h with
    ⟨hr, _, hd, hts, hg⟩ | ⟨j, t, lv, d, L2, hj, hbt, hgt, hroot, _, hd, hts⟩
  · refine ⟨⟨hA1, hH1, ?_, hN1, hL1, hC1, ?_⟩, Or.inl ⟨hr, hd, hts, hg⟩⟩
    · rw [hr]
      exact hT
    · rw [hr, hg]
      exact h0
  · obtain ⟨v, hv, hlv⟩ := BestThreshold_left_val sqrt log _ _ _ _ _ _ _ _ _ _ _ _ hbt
    have hnn : (st.root.sub node).isNull = false := by
      cases hsub : st.root.sub node with
      | null =>
        rw [hsub] at hnode
        exact absurd hnode null_not_leaf
      | mk _ _ _ _ _ _ _ _ => rfl
    have hTn := Trained_sub node st.root hT hnn
    have hv01 : v = 0 ∨ v = 1 := by
      cases hsub : st.root.sub node with
      | null =>
        rw [hsub] at hnn
        simp [Node.isNull] at hnn
      | mk f1 t1 v1 l1 r1 w1 ps1 ss1 =>
        rw [hsub] at hTn hv
        simp only [Node.GetValue, Option.some.injEq] at hv
        simp only [Node.Trained] at hTn
        rw [← hv]
        exact hTn.1
    obtain ⟨ht01, htc⟩ := truncate_left_val v lv hv01 hlv
    have hsp : st1.root.splits = st.root.splits + 1 := by
      rw [hroot]
      exact splits_modify t (j : Int) (truncate lv) node st.root P S hH hnode
    refine ⟨⟨hA1, hH1, ?_, hN1, hL1, hC1, ?_⟩,
      Or.inr ⟨j, t, lv, d, v, L2, ?_, hnode, hv, hv01, hbt, htc, hgt, hroot, hsp, hd, hts⟩⟩
    · rw [hroot]
      exact (Trained_modify t (j : Int) (truncate lv) ht01 node st.root hT hnode).1
    · intro hzero
      omega
    · rw [hA.1]
      exact hj

/-- Every state that the loop of `TreeLearner::Train` reaches from a state that
is as `Sound` says is so. -/
theorem Reaches_Sound (sqrt log : α → α) (normalizer : α) (sample_size : Int)
    (L0 : TreeLearner α) (P S : List (Point α)) (st0 st : TreeLearner.State α)
    (h0 : st0.Sound L0 P S)
    (h : TreeLearner.Reaches sqrt log normalizer sample_size st0 st) : st.Sound L0 P S := by
  induction h with
  | start => exact h0
  | pass st1 st2 node q _ hq hstep ih =>
    exact (TrainStep_keeps_Sound sqrt log normalizer sample_size L0 P S st1 st2 node q ih hq hstep).1

/-- The state with which the loop of `TreeLearner::Train` ends is one that it
reaches, and its queue is empty. -/
theorem TrainLoop_Reaches (sqrt log : α → α) (normalizer : α) (sample_size : Int)
    (st0 : TreeLearner.State α) (bound : Nat) :
    ∀ st st1 : TreeLearner.State α,
      TreeLearner.Reaches sqrt log normalizer sample_size st0 st →
      TreeLearner.TrainLoop sqrt log normalizer sample_size bound st = Run.ok st1 →
      TreeLearner.Reaches sqrt log normalizer sample_size st0 st1 ∧ st1.q = [] := by
  induction bound with
  | zero =>
    intro st st1 hr hrun
    unfold TreeLearner.TrainLoop at hrun
    split at hrun
    · rename_i hq
      cases hrun
      exact ⟨hr, hq⟩
    · exact absurd hrun (by simp)
  | succ bound ih =>
    intro st st1 hr hrun
    unfold TreeLearner.TrainLoop at hrun
    split at hrun
    · rename_i hq
      cases hrun
      exact ⟨hr, hq⟩
    · rename_i node q hq
      simp only at hrun
      split at hrun
      · exact absurd hrun (by simp)
      · rename_i st2 hstep
        exact ih st2 st1 (TreeLearner.Reaches.pass st st2 node q hr hq hstep) hrun

end SoundFacts

section TrainStructure

variable {α : Type} [LinearOrderedField α]

/-- In a tree that holds points, each node has no child or both. -/
theorem Holds_Full (n : Node α) : ∀ P S : List (Point α), n.Holds P S → n.Full := by
  induction n with
  | null => intro P S h; exact absurd h (by simp [Node.Holds])
  | mk f t v l r w ps ss ihl ihr =>
    intro P S h
    by_cases hleaf : (l.isNull && r.isNull) = true
    · simp only [Bool.and_eq_true] at hleaf
      exact Or.inl hleaf
    · simp only [Node.Holds, hleaf, if_false, Bool.false_eq_true] at h
      exact Or.inr ⟨ihl _ _ h.1, ihr _ _ h.2⟩

/-- The leaves of a tree that holds `P` and `S` hold every point of `P` and of `S`
exactly once. -/
theorem leaf_lists_perm (n : Node α) :
    ∀ P S : List (Point α), n.Holds P S → n.leafPoints.Perm P ∧ n.leafSamples.Perm S := by
  induction n with
  | null => intro P S h; exact absurd h (by simp [Node.Holds])
  | mk f t v l r w ps ss ihl ihr =>
    intro P S h
    by_cases hleaf : (l.isNull && r.isNull) = true
    · simp only [Node.Holds, hleaf, if_true] at h
      simp only [Node.leafPoints, Node.leafSamples, hleaf, if_true, h.1, h.2.1]
      exact ⟨List.Perm.refl _, List.Perm.refl _⟩
    · simp only [Node.Holds, hleaf, if_false, Bool.false_eq_true] at h
      simp only [Node.leafPoints, Node.leafSamples, hleaf, if_false, Bool.false_eq_true]
      obtain ⟨h1, h2⟩ := ihl _ _ h.1
      obtain ⟨h3, h4⟩ := ihr _ _ h.2
      exact ⟨(List.Perm.append h1 h3).trans (List.filter_append_perm _ P),
        (List.Perm.append h2 h4).trans (List.filter_append_perm _ S)⟩

/-- A node of a tree that is as `Trained` says has the value 0 or 1, and it is a
leaf, or it holds nothing and has two children whose values sum to 1. -/
theorem Trained_node (n : Node α) (h : n.Trained) :
    ∃ v, n.GetValue = some v ∧ (v = 0 ∨ v = 1) ∧
      (n.IsLeaf = some true ∨
        (n.IsLeaf = some false ∧ n.Points = [] ∧ n.Samples = [] ∧
          (n.sub [false]).isNull = false ∧ (n.sub [true]).isNull = false ∧
          ∃ a b, (n.sub [false]).GetValue = some a ∧ (n.sub [true]).GetValue = some b ∧
            a + b = 1)) := by
  cases n with
  | null => exact absurd h (by simp [Node.Trained])
  | mk f t v l r w ps ss =>
    simp only [Node.Trained] at h
    refine ⟨v, rfl, h.1, ?_⟩
    rcases h.2 with ⟨hl, hr⟩ | ⟨hl, hr, hps, hss, a, b, ha, hb, hab⟩
    · left
      simp [Node.IsLeaf, hl, hr]
    · right
      have hln : l.isNull = false := by
        cases l with
        | null => exact absurd hl (by simp [Node.Trained])
        | mk _ _ _ _ _ _ _ _ => rfl
      have hrn : r.isNull = false := by
        cases r with
        | null => exact absurd hr (by simp [Node.Trained])
        | mk _ _ _ _ _ _ _ _ => rfl
      refine ⟨by simp [Node.IsLeaf, hln], hps, hss, ?_, ?_, a, b, ?_, ?_, hab⟩
      · simpa [Node.sub, sub_nil] using hln
      · simpa [Node.sub, sub_nil] using hrn
      · simpa [Node.sub, sub_nil] using ha
      · simpa [Node.sub, sub_nil] using hb

variable [FloorRing α]

/-- What a returning call of `TreeLearner::Train` has computed: the state with
which its loop ends is one that the loop reaches from its start, with an empty
queue, and the feature is built from that state. -/
theorem Train_Reaches (sqrt log : α → α) (L : TreeLearner α) (space : Space α)
    (sample : Sample α) (examples : List (Point α)) (bound : Nat) (f : TreeFeature α) (g : α)
    (L1 : TreeLearner α) (hres : Sample.points space sample = some examples)
    (hrun : L.Train sqrt log space sample bound = Run.ok (f, g, L1)) :
    ∃ st : TreeLearner.State α,
      TreeLearner.Reaches sqrt log (space.points.map Point.GetProbWeight).sum
        (examples.length : Int) (L.start space.points examples) st ∧
      st.q = [] ∧ st.Sound L space.points examples ∧
      f = { root := st.root,
            complexity := st.learner.TreeComplexity sqrt log st.tree_size (examples.length : Int),
            sample_expectation := st.root.leafSums.2.1 / st.root.leafSums.2.2,
            population_expectation := st.root.leafSums.1 } ∧
      g = st.old_gradient ∧ L1 = st.learner := by
  unfold TreeLearner.Train at hrun
  rw [hres] at hrun
  simp only [Train_root, Node.GetPopulationWeight, zero_add, List.nil_append] at hrun
  rw [← start_eq] at hrun
  split at hrun
  · rename_i st hloop
    obtain ⟨hreach, hq⟩ := TrainLoop_Reaches sqrt log _ _ (L.start space.points examples) bound
      _ st TreeLearner.Reaches.start hloop
    have hsound := Reaches_Sound sqrt log _ _ L space.points examples _ st
      (start_Sound L space.points examples) hreach
    have hexp := expectationsLoop_eq [st.root] (0, 0, 0) (by
      intro n hn
      rw [List.mem_singleton.1 hn]
      exact ⟨_, _, hsound.2.1⟩)
    simp only [TreeFeature.ComputeTreeExpectations, TreeFeature.new, hexp, List.map_cons,
      List.map_nil, List.sum_cons, List.sum_nil, add_zero, zero_add] at hrun
    refine ⟨st, hreach, hq, hsound, ?_⟩
    simp only [TreeFeature.SetComplexity, Run.ok.injEq, Prod.mk.injEq] at hrun
    exact ⟨hrun.1.symm, hrun.2.1.symm, hrun.2.2.symm⟩
  · exact absurd hrun (by simp)
  · exact absurd hrun (by simp)

/-- Claim C38: for every space and sample, the call of `TreeLearner::Train` ends
(it does not run out of a bound of four passes through its loop for every point
of the space and of the sample and one more, and a result does not depend on the
bound), and the tree of the feature that it returns is a full binary tree (every
node has no child or both), so that the number of its nodes, which `TreeSize()`
returns, is odd (one more than twice the number of splits); every node has the value 0 or 1, and is a leaf or holds no points
and no sample points and has two children whose values sum to 1; the leaves
together hold every point of the space and every point of the sample exactly
once; and when no split was made, the tree is the root alone, a leaf of the value
0, the returned gradient is 0, and `FeatureMap` is 0 for every point. -/
theorem Train_structure (sqrt log : α → α) (L : TreeLearner α) (space : Space α)
    (sample : Sample α) (examples : List (Point α)) (bound : Nat) (f : TreeFeature α) (g : α)
    (L1 : TreeLearner α) (hres : Sample.points space sample = some examples)
    (hrun : L.Train sqrt log space sample bound = Run.ok (f, g, L1)) :
    (∀ bound1, 4 * (space.points.length + examples.length) + 1 ≤ bound1 →
      L.Train sqrt log space sample bound1 ≠ Run.exhausted) ∧
    (∀ bound1, bound ≤ bound1 → L.Train sqrt log space sample bound1 = Run.ok (f, g, L1)) ∧
    f.root.Full ∧ f.root.count = 1 + 2 * f.root.splits ∧ f.root.count % 2 = 1 ∧
    f.TreeSize = some (f.root.count : Int) ∧
    (∀ path : List Bool, (f.root.sub path).isNull = false →
      ∃ v, (f.root.sub path).GetValue = some v ∧ (v = 0 ∨ v = 1) ∧
        ((f.root.sub path).IsLeaf = some true ∨
          ((f.root.sub path).IsLeaf = some false ∧ (f.root.sub path).Points = [] ∧
            (f.root.sub path).Samples = [] ∧
            (f.root.sub (path ++ [false])).isNull = false ∧
            (f.root.sub (path ++ [true])).isNull = false ∧
            ∃ a b, (f.root.sub (path ++ [false])).GetValue = some a ∧
              (f.root.sub (path ++ [true])).GetValue = some b ∧ a + b = 1))) ∧
    f.root.leafPoints.Perm space.points ∧ f.root.leafSamples.Perm examples ∧
    (f.root.splits = 0 →
      f.root.IsLeaf = some true ∧ f.root.GetValue = some 0 ∧ f.root.count = 1 ∧ g = 0 ∧
        ∀ point, f.FeatureMap point = some 0) := by
  obtain ⟨st, _, _, hsound, hf, hg, _⟩ :=
    Train_Reaches sqrt log L space sample examples bound f g L1 hres hrun
  obtain ⟨_, hH, hT, _, _, _, h0⟩ := hsound
  have hroot : f.root = st.root := by rw [hf]
  rw [hroot]
  have hsize := sizeLoop_eq [st.root] 0 (by
    intro n hn
    rw [List.mem_singleton.1 hn]
    exact Holds_isNull _ _ _ hH)
  refine ⟨fun bound1 hb => Train_bound sqrt log L space sample examples bound1 hres hb,
    fun bound1 hb => Train_mono sqrt log L space sample bound bound1 _ hb hrun,
    Holds_Full _ _ _ hH, count_eq_splits _ _ _ hH, ?_, ?_, fun path hp => ?_,
    (leaf_lists_perm _ _ _ hH).1, (leaf_lists_perm _ _ _ hH).2, fun hz => ?_⟩
  · have := count_eq_splits _ _ _ hH
    omega
  · rw [hf]
    simp only [TreeFeature.TreeSize, hsize, List.map_cons, List.map_nil, List.sum_cons,
      List.sum_nil, add_zero, zero_add]
  · have := Trained_node _ (Trained_sub path st.root hT hp)
    simp only [← sub_append] at this
    exact this
  · obtain ⟨hr, hg0⟩ := h0 hz
    rw [hf, hg, hg0, hr]
    refine ⟨by simp [Node.IsLeaf, Node.isNull], rfl, by simp [Node.count], rfl, fun point => ?_⟩
    simp [TreeFeature.FeatureMap, TreeFeature.walk, Node.isNull]

end TrainStructure

section TrainStructureWitness

/-- Claim C38 on the second fixture of `TestTrain`: the call returns a tree of 5
nodes: the root and its right child have two children and hold nothing, the three
leaves hold the four points of the space and the sample point, and the values of
the children of the root, 0 and 1, sum to 1. -/
theorem Train_structure_witness :
    ∃ (f : TreeFeature ℚ) (g : ℚ) (L1 : TreeLearner ℚ),
      (treeLearner ℚ).Train (fun x : ℚ => x) (fun x : ℚ => x) (treeSpace ℚ) (treeSample ℚ) 5 =
        Run.ok (f, g, L1) ∧
      f.root.count = 5 ∧ f.root.splits = 2 ∧ (f.root.sub [false]).GetValue = some 0 ∧
      (f.root.sub [true]).GetValue = some 1 ∧
      f.root.Full ∧ f.root.count = 1 + 2 * f.root.splits ∧ f.root.count % 2 = 1 ∧
      f.TreeSize = some (f.root.count : Int) ∧
      (∀ path : List Bool, (f.root.sub path).isNull = false →
        ∃ v, (f.root.sub path).GetValue = some v ∧ (v = 0 ∨ v = 1) ∧
          ((f.root.sub path).IsLeaf = some true ∨
            ((f.root.sub path).IsLeaf = some false ∧ (f.root.sub path).Points = [] ∧
              (f.root.sub path).Samples = [] ∧
              (f.root.sub (path ++ [false])).isNull = false ∧
              (f.root.sub (path ++ [true])).isNull = false ∧
              ∃ a b, (f.root.sub (path ++ [false])).GetValue = some a ∧
                (f.root.sub (path ++ [true])).GetValue = some b ∧ a + b = 1))) ∧
      f.root.leafPoints.Perm (treeSpace ℚ).points ∧
      f.root.leafSamples.Perm (treeExamples ℚ) := by
  have h := Train_structure (fun x : ℚ => x) (fun x : ℚ => x) (treeLearner ℚ) (treeSpace ℚ)
    (treeSample ℚ) (treeExamples ℚ) 5 _ _ _ rfl tree_Train_fixture
  exact ⟨_, _, _, tree_Train_fixture, rfl, rfl, rfl, rfl, h.2.2.1, h.2.2.2.1, h.2.2.2.2.1,
    h.2.2.2.2.2.1, h.2.2.2.2.2.2.1, h.2.2.2.2.2.2.2.1, h.2.2.2.2.2.2.2.2.1⟩

end TrainStructureWitness

/-! ## The accumulators of `TreeLearner::Train` -/

section AccumulatorFacts

variable {α : Type} [LinearOrderedField α]

/-- `GrowTree` at a leaf of a tree replaces, in the sums over the leaves, the
terms of the leaf by those of the node that `GrowTree` makes of it. -/
theorem leafSums_modify (threshold : α) (feature_index left_val : Int) (p : List Bool) :
    ∀ n : Node α, (n.sub p).IsLeaf = some true →
      (n.modify (fun m => TreeLearner.GrowTree m threshold feature_index left_val) p).isNull =
        false ∧
      (n.modify (fun m => TreeLearner.GrowTree m threshold feature_index left_val)
          p).leafSums.1 =
        n.leafSums.1 - (n.sub p).leafSums.1 +
          (TreeLearner.GrowTree (n.sub p) threshold feature_index left_val).leafSums.1 ∧
      (n.modify (fun m => TreeLearner.GrowTree m threshold feature_index left_val)
          p).leafSums.2.1 =
        n.leafSums.2.1 - (n.sub p).leafSums.2.1 +
          (TreeLearner.GrowTree (n.sub p) threshold feature_index left_val).leafSums.2.1 ∧
      (n.modify (fun m => TreeLearner.GrowTree m threshold feature_index left_val)
          p).leafSums.2.2 =
        n.leafSums.2.2 - (n.sub p).leafSums.2.2 +
          (TreeLearner.GrowTree (n.sub p) threshold feature_index left_val).leafSums.2.2 := by
  induction p with
  | nil =>
    intro n hp
    rw [sub_nil] at hp ⊢
    rw [modify_nil]
    obtain ⟨f, t, v, w, ps, ss, rfl⟩ := leaf_eq n hp
    refine ⟨?_, by ring, by ring, by ring⟩
    rw [GrowTree_leaf]
    rfl
  | cons b p ih =>
    intro n hp
    cases n with
    | null => exact absurd hp (by simp [Node.sub, Node.IsLeaf])
    | mk f t v l r w ps ss =>
      cases b
      · simp only [Node.sub, Bool.false_eq_true, if_false] at hp ⊢
        obtain ⟨h0, h1, h2, h3⟩ := ih l hp
        have hl : l.isNull = false := by
          cases l with
          | null => exact absurd hp (by simp [sub_null, Node.IsLeaf])
          | mk _ _ _ _ _ _ _ _ => rfl
        simp only [Node.modify, Bool.false_eq_true, if_false, Node.leafSums, h0, hl,
          Bool.false_and, h1, h2, h3]
        refine ⟨rfl, by ring, by ring, by ring⟩
      · simp only [Node.sub, if_true] at hp ⊢
        obtain ⟨h0, h1, h2, h3⟩ := ih r hp
        have hr : r.isNull = false := by
          cases r with
          | null => exact absurd hp (by simp [sub_null, Node.IsLeaf])
          | mk _ _ _ _ _ _ _ _ => rfl
        simp only [Node.modify, if_true, Node.leafSums, h0, hr, Bool.and_false, h1, h2, h3,
          Bool.false_eq_true, if_false]
        refine ⟨rfl, by ring, by ring, by ring⟩

/-- What `BestThreshold` writes for a leaf, under `NextThreshold`: the gradient is
that of the written difference, and the left value and the difference are
`1 - value` and `old_diff` plus `(1 - 2 * value)` times the share of the points
below the written threshold in the weight minus their share in the sample, or
`value` and the same for the points that are not below the threshold. -/
theorem BestThreshold_written (sqrt log : α → α) (L0 L L2 : TreeLearner α) (hA : L0.Agree L)
    (index : Int) (f : Int) (t0 v w : α) (ps ss : List (Point α))
    (old_diff normalizer : α) (sample_size tree_size : Int) (t g lv d : α)
    (hnext : L0.NextThreshold index (ps ++ ss))
    (h : L.BestThreshold sqrt log index (Node.mk f t0 v Node.null Node.null w ps ss) old_diff
      normalizer sample_size tree_size = some (some (t, g, lv, d), L2)) :
    g = L0.Gradient sqrt log (tree_size + 2) sample_size d ∧
    ((lv = 1.0 - v ∧
        d = old_diff + (1 - 2 * v) *
          (((ps.filter (fun p => p.RawFeatureLess index t)).map Point.GetProbWeight).sum /
              normalizer -
            ((ss.filter (fun p => p.RawFeatureLess index t)).length : α) /
              (sample_size : α))) ∨
      (lv = v ∧
        d = old_diff + (1 - 2 * v) *
          ((w - ((ps.filter (fun p => p.RawFeatureLess index t)).map
              Point.GetProbWeight).sum) / normalizer -
            ((ss.length : α) - ((ss.filter (fun p => p.RawFeatureLess index t)).length : α)) /
              (sample_size : α)))) := by
  have hans := NextThreshold_answers L0 index _ hnext
  obtain ⟨M, L1, hbuild, hA1, _, _, _⟩ := BuildThresholdToWeightsMap_spec L0 L hA
    (Node.mk f t0 v Node.null Node.null w ps ss) index
    (Answers_mono L0 index _ _ hans (fun p hp => List.mem_append_left _ hp))
    (Answers_mono L0 index _ _ hans (fun p hp => List.mem_append_right _ hp))
  rw [BestThreshold_eq_scanAfter sqrt log L L1 L0 hA1 index f t0 v _ _ w ps ss old_diff normalizer
    sample_size tree_size M hbuild] at h
  simp only [Option.some.injEq, Prod.mk.injEq] at h
  obtain ⟨hout, _⟩ := h
  obtain ⟨_, _, h3⟩ := scan_foldl_invariant sqrt log L0 v old_diff normalizer sample_size
    tree_size M
    { best_gradient := -1.0
      left_population_weight := 0.0
      right_population_weight := w
      left_sample_count := 0.0
      right_sample_count := ((ss.length : Int) : α)
      out := none }
  unfold TreeLearner.scanAfter at hout
  rcases h3 with ⟨_, ho⟩ | ⟨k, hk, _, ho⟩
  · rw [hout] at ho
    exact absurd ho (by simp)
  · rw [hout] at ho
    simp only [Option.some.injEq, Prod.mk.injEq] at ho
    obtain ⟨ht, hg, hlv, hd⟩ := ho
    obtain ⟨s1, s2, s3, s4⟩ := scanAfter_sums sqrt log L0 L L1 L0 hA _ index M hbuild hnext v
      old_diff normalizer sample_size tree_size w (ss.length : Int) k hk
    unfold TreeLearner.scanAfter at s1 s2 s3 s4
    simp only [Node.Points, Node.Samples, ← ht] at s1 s2 s3 s4
    have hfacts := new_gradient_facts sqrt log L0 v old_diff normalizer sample_size tree_size
      ((M.take (k + 1)).foldl (TreeLearner.scanEntry sqrt log L0 v old_diff normalizer
        sample_size tree_size)
        { best_gradient := -1.0
          left_population_weight := 0.0
          right_population_weight := w
          left_sample_count := 0.0
          right_sample_count := ((ss.length : Int) : α)
          out := none })
    refine ⟨?_, ?_⟩
    · rw [hg, hd]
      exact hfacts.1
    · rw [hlv, hd]
      unfold TreeLearner.Scan.new_left_val TreeLearner.Scan.new_diff TreeLearner.Scan.led
        TreeLearner.Scan.red
      rw [s1, s2, s3, s4]
      split_ifs
      · exact Or.inl ⟨rfl, rfl⟩
      · refine Or.inr ⟨rfl, ?_⟩
        push_cast
        rfl

end AccumulatorFacts

section ExactFacts

variable {α : Type} [LinearOrderedField α]

/-- The state in which the loop of `TreeLearner::Train` starts is as `Exact`
says. -/
theorem start_Exact (sqrt log : α → α) (L : TreeLearner α) (P S : List (Point α))
    (normalizer : α) : (L.start P S).Exact sqrt log L S normalizer := by
  rw [start_eq]
  unfold TreeLearner.State.Exact
  simp only [Node.leafSums, Node.isNull, Bool.and_self, if_true, Node.splits]
  refine ⟨by norm_num, fun h => absurd h (by simp), by norm_num⟩

variable [FloorRing α]

/-- A pass through the body of the loop of `TreeLearner::Train` keeps what `Exact`
lists, if the value-to-threshold map of every feature sends the values of the
covariate to the next threshold. -/
theorem TrainStep_keeps_Exact (sqrt log : α → α) (normalizer : α) (L0 : TreeLearner α)
    (P S : List (Point α)) (st st1 : TreeLearner.State α) (node : List Bool)
    (q : List (List Bool))
    (hnext : ∀ j : Nat, (j : Int) < L0.num_features → L0.NextThreshold (j : Int) (P ++ S))
    (hS : st.Sound L0 P S) (hE : st.Exact sqrt log L0 S normalizer) (hq : st.q = node :: q)
    (h : TreeLearner.TrainStep sqrt log normalizer (S.length : Int) st node q = some st1) :
    st1.Exact sqrt log L0 S normalizer := by
  have htol : (0 : α) < gTolerance := gTolerance_pos
  rcases (TrainStep_keeps_Sound sqrt log normalizer (S.length : Int) L0 P S st st1 node q hS hq
    h).2 with ⟨hr, hd, hts, hg⟩ |
    ⟨j, t, lv, d, v, L2, hj, hleaf, hv, _, hbt, htc, hgt, hroot, hsp, hd, hts⟩
  · unfold TreeLearner.State.Exact at hE ⊢
    rw [hr, hd, hts, hg]
    exact hE
  · obtain ⟨f1, t1, v1, ps, ss, hsub, hps, hss⟩ := Holds_sub node st.root P S hS.2.1 hleaf
    rw [hsub] at hbt hv
    simp only [Node.GetValue, Option.some.injEq] at hv
    subst hv
    have hnl : L0.NextThreshold (j : Int) (ps ++ ss) :=
      NextThreshold_mono L0 (j : Int) (P ++ S) (ps ++ ss) (hnext j hj) (fun p hp => by
        rcases List.mem_append.1 hp with h1 | h1
        · exact List.mem_append_left _ (hps p h1)
        · exact List.mem_append_right _ (hss p h1))
    obtain ⟨hg, hcase⟩ := BestThreshold_written sqrt log L0 st.learner L2 hS.1 (j : Int) f1 t1
      v1 _ ps ss st.old_diff normalizer (S.length : Int) st.tree_size t st1.old_gradient lv d
      hnl hbt
    obtain ⟨_, m1, m2, _⟩ := leafSums_modify t (j : Int) (truncate lv) node st.root hleaf
    rw [hsub, GrowTree_leaf] at m1 m2
    simp only [Node.leafSums, Node.isNull, Bool.and_self, if_true, Bool.false_eq_true, if_false,
      Bool.and_false, Bool.false_and, List.nil_append, zero_add, Int.cast_sub, Int.cast_one,
      htc] at m1 m2
    have hsum := sum_filter_split (fun p : Point α => p.RawFeatureLess (j : Int) t)
      Point.GetProbWeight Point.GetProbWeight Point.GetProbWeight ps (fun _ _ => rfl)
      (fun _ _ => rfl)
    have hlen := @length_filter_split α _ _ (fun p : Point α => p.RawFeatureLess (j : Int) t) ss
    obtain ⟨hE1, hE2, hE3⟩ := hE
    unfold TreeLearner.State.Exact
    refine ⟨?_, fun _ => ?_, ?_⟩
    · rw [hd, hroot, m1, m2]
      rcases hcase with ⟨hlv, hdd⟩ | ⟨hlv, hdd⟩
      · rw [hdd, hE1, hlv, hsum, ← hlen]
        simp only [Int.cast_natCast]
        norm_num
        ring
      · rw [hdd, hE1, hlv, hsum, ← hlen]
        simp only [Int.cast_natCast]
        ring
    · rw [hts, hd]
      exact hg
    · rw [hsp]
      push_cast
      linarith

/-- Every state that the loop of `TreeLearner::Train` reaches from its start is
as `Sound` and `Exact` say, under the condition of `TrainStep_keeps_Exact`. -/
theorem Reaches_Exact (sqrt log : α → α) (normalizer : α) (L0 : TreeLearner α)
    (P S : List (Point α)) (st : TreeLearner.State α)
    (hnext : ∀ j : Nat, (j : Int) < L0.num_features → L0.NextThreshold (j : Int) (P ++ S))
    (h : TreeLearner.Reaches sqrt log normalizer (S.length : Int) (L0.start P S) st) :
    st.Sound L0 P S ∧ st.Exact sqrt log L0 S normalizer := by
  induction h with
  | start => exact ⟨start_Sound L0 P S, start_Exact sqrt log L0 P S normalizer⟩
  | pass st1 st2 node q _ hq hstep ih =>
    exact ⟨(TrainStep_keeps_Sound sqrt log normalizer (S.length : Int) L0 P S st1 st2 node q ih.1
      hq hstep).1,
      TrainStep_keeps_Exact sqrt log normalizer L0 P S st1 st2 node q hnext ih.1 ih.2 hq hstep⟩

end ExactFacts

section GradientBound

variable {α : Type} [LinearOrderedField α]

/-- `TreeLearner::Gradient` is the penalized gradient with the complexity
`beta + alpha * TreeComplexity(tree_size, sample_size)`. -/
theorem TreeGradient_eq (sqrt log : α → α) (L : TreeLearner α) (tree_size sample_size : Int)
    (d : α) :
    L.Gradient sqrt log tree_size sample_size d =
      penalizedGradient (L.model_parameter_beta +
        L.model_parameter_alpha * L.TreeComplexity sqrt log tree_size sample_size) d := by
  unfold TreeLearner.Gradient penalizedGradient sgn
  simp only
  split_ifs <;> simp

/-- The walk of `FeatureMap` in a tree that is as `Trained` says ends with 0 or
1. -/
theorem walk_Trained (n : Node α) (point : Point α) :
    n.Trained → TreeFeature.walk n point = some 0 ∨ TreeFeature.walk n point = some 1 := by
  induction n with
  | null => intro h; exact absurd h (by simp [Node.Trained])
  | mk f t v l r w ps ss ihl ihr =>
    intro h
    simp only [Node.Trained] at h
    rcases h.2 with ⟨hl, hr⟩ | ⟨hl, hr, _⟩
    · simp only [TreeFeature.walk, hl, hr, Bool.and_self, if_true, Option.some.injEq]
      exact h.1
    · have hln : l.isNull = false := by
        cases l with
        | null => exact absurd hl (by simp [Node.Trained])
        | mk _ _ _ _ _ _ _ _ => rfl
      simp only [TreeFeature.walk, hln, Bool.false_and, Bool.false_eq_true, if_false]
      split_ifs
      · exact ihl hl
      · exact ihr hr

/-- A sum of terms between 0 and the terms of another sum is between 0 and that
sum. -/
theorem sum_between {β : Type} (g h : β → α) (l : List β)
    (hgh : ∀ x ∈ l, 0 ≤ g x ∧ g x ≤ h x) :
    0 ≤ (l.map g).sum ∧ (l.map g).sum ≤ (l.map h).sum := by
  induction l with
  | nil => simp
  | cons x rest ih =>
    obtain ⟨h1, h2⟩ := ih (fun y hy => hgh y (List.mem_cons_of_mem _ hy))
    obtain ⟨h3, h4⟩ := hgh x (List.mem_cons_self _ _)
    simp only [List.map_cons, List.sum_cons]
    exact ⟨by linarith, by linarith⟩

/-- The expectation difference of a tree that is as `Trained` says and holds
points of non-negative weight, of positive total weight, and a sample that is not
empty, is between -1 and 1. -/
theorem expectation_difference_le_one (n : Node α) (P S : List (Point α)) (hH : n.Holds P S)
    (hT : n.Trained) (hw : ∀ p ∈ P, 0 ≤ p.GetProbWeight)
    (hZ : 0 < (P.map Point.GetProbWeight).sum) (hne : S ≠ []) :
    |n.leafSums.1 / (P.map Point.GetProbWeight).sum - n.leafSums.2.1 / (S.length : α)| ≤ 1 := by
  rw [leafSums_eq n P S hH]
  simp only
  have hn : (0 : α) < (S.length : α) :=
    Nat.cast_pos.2 (List.length_pos.2 hne)
  obtain ⟨p1, p2⟩ := sum_between
    (fun p : Point α => p.GetProbWeight * finite (TreeFeature.walk n p)) Point.GetProbWeight P
    (fun p hp => by
      rcases walk_Trained n p hT with h | h <;> simp [h, finite, hw p hp])
  obtain ⟨s1, s2⟩ := sum_between
    (fun p : Point α => finite (TreeFeature.walk n p)) (fun _ => (1 : α)) S
    (fun p _ => by
      rcases walk_Trained n p hT with h | h <;> simp [h, finite])
  simp only [List.map_const', List.sum_replicate, nsmul_eq_mul, mul_one] at s2
  have a1 : 0 ≤ (P.map (fun p => p.GetProbWeight * finite (TreeFeature.walk n p))).sum /
      (P.map Point.GetProbWeight).sum := div_nonneg p1 (le_of_lt hZ)
  have a2 : (P.map (fun p => p.GetProbWeight * finite (TreeFeature.walk n p))).sum /
      (P.map Point.GetProbWeight).sum ≤ 1 := (div_le_one hZ).2 p2
  have b1 : 0 ≤ (S.map (fun p => finite (TreeFeature.walk n p))).sum / (S.length : α) :=
    div_nonneg s1 (le_of_lt hn)
  have b2 : (S.map (fun p => finite (TreeFeature.walk n p))).sum / (S.length : α) ≤ 1 :=
    (div_le_one hn).2 s2
  rw [abs_le]
  constructor <;> linarith

/-- The gradient that the loop of `TreeLearner::Train` has recorded is at most 1
in absolute value, for non-negative weights of positive total, a sample that is
not empty, and a complexity that is not negative. -/
theorem old_gradient_le_one (sqrt log : α → α) (L0 : TreeLearner α) (P S : List (Point α))
    (st : TreeLearner.State α) (hS : st.Sound L0 P S)
    (hE : st.Exact sqrt log L0 S (P.map Point.GetProbWeight).sum)
    (hw : ∀ p ∈ P, 0 ≤ p.GetProbWeight) (hZ : 0 < (P.map Point.GetProbWeight).sum)
    (hne : S ≠ [])
    (hc : ∀ tree_size : Int, 0 ≤ L0.model_parameter_beta +
      L0.model_parameter_alpha * L0.TreeComplexity sqrt log tree_size (S.length : Int)) :
    |st.old_gradient| ≤ 1 := by
  by_cases hz : st.root.splits = 0
  · rw [(hS.2.2.2.2.2.2 hz).2]
    simp
  · have hpos : 0 < st.root.splits := Nat.pos_of_ne_zero hz
    rw [hE.2.1 hpos, TreeGradient_eq, hE.1]
    exact le_trans (penalizedGradient_facts _ _ (hc st.tree_size)).2.2.1
      (expectation_difference_le_one st.root P S hS.2.1 hS.2.2.1 hw hZ hne)

end GradientBound

section TrainGradient

variable {α : Type} [LinearOrderedField α] [FloorRing α]

/-- Claim C39: for every space of positive total weight `Z`, every sample that is
not empty and every learner whose value-to-threshold maps send each value of a
covariate that occurs to the smallest threshold strictly greater than it, a call
of `TreeLearner::Train` that returns, returns the gradient `Gradient(TreeSize(),
sample size, GetUnnormalizedPopulationExpectation() / Z - GetSampleExpectation())`
of the feature that it returns; and in every state that its loop reaches, the
accumulator `old_diff` is the expectation difference of the tree: the sum over the
space of `probability_weight * FeatureMap`, divided by `Z`, minus the mean of
`FeatureMap` over the sample.  The parameters are those that the specification
admits: the hypothesis `hsplit` holds for every `alpha >= 0` and `beta >= 0` with
a square root that is not negative, since then the complexity
`beta + alpha * TreeComplexity(1, sample size)` is not negative; it also holds,
for any parameters, after at least one split.  The call ends as in claim C16. -/
theorem Train_gradient (sqrt log : α → α) (L : TreeLearner α) (space : Space α)
    (sample : Sample α) (examples : List (Point α)) (bound : Nat) (f : TreeFeature α) (g : α)
    (L1 : TreeLearner α) (hres : Sample.points space sample = some examples)
    (hne : examples ≠ []) (hZ : 0 < (space.points.map Point.GetProbWeight).sum)
    (hnext : ∀ j : Nat, (j : Int) < L.num_features →
      L.NextThreshold (j : Int) (space.points ++ examples))
    (hrun : L.Train sqrt log space sample bound = Run.ok (f, g, L1))
    (hsplit : 0 < f.root.splits ∨ 0 ≤ L.model_parameter_beta +
      L.model_parameter_alpha * L.TreeComplexity sqrt log 1 (examples.length : Int)) :
    (∀ bound1, 4 * (space.points.length + examples.length) + 1 ≤ bound1 →
      L.Train sqrt log space sample bound1 ≠ Run.exhausted) ∧
    (∀ bound1, bound ≤ bound1 → L.Train sqrt log space sample bound1 = Run.ok (f, g, L1)) ∧
    (space.points.map Point.GetProbWeight).sum ≠ 0 ∧ (examples.length : α) ≠ 0 ∧
    (∃ tree_size : Int, f.TreeSize = some tree_size ∧
      g = L.Gradient sqrt log tree_size (examples.length : Int)
        (f.toFeature.GetUnnormalizedPopulationExpectation /
            (space.points.map Point.GetProbWeight).sum -
          f.toFeature.GetSampleExpectation)) ∧
    ∀ st : TreeLearner.State α,
      TreeLearner.Reaches sqrt log (space.points.map Point.GetProbWeight).sum
        (examples.length : Int) (L.start space.points examples) st →
      st.old_diff =
        (space.points.map
            (fun p => p.GetProbWeight * finite (TreeFeature.walk st.root p))).sum /
          (space.points.map Point.GetProbWeight).sum -
        (examples.map (fun p => finite (TreeFeature.walk st.root p))).sum /
          (examples.length : α) := by
  obtain ⟨st, hreach, _, _, hf, hg, _⟩ :=
    Train_Reaches sqrt log L space sample examples bound f g L1 hres hrun
  obtain ⟨hS, hE⟩ := Reaches_Exact sqrt log _ L space.points examples st hnext hreach
  obtain ⟨_, hH, _, _, _, hC, h0⟩ := hS
  obtain ⟨hE1, hE2, _⟩ := hE
  have hsums := leafSums_eq st.root _ _ hH
  have hsize := sizeLoop_eq [st.root] 0 (by
    intro n hn
    rw [List.mem_singleton.1 hn]
    exact Holds_isNull _ _ _ hH)
  refine ⟨fun bound1 hb => Train_bound sqrt log L space sample examples bound1 hres hb,
    fun bound1 hb => Train_mono sqrt log L space sample bound bound1 _ hb hrun,
    ne_of_gt hZ, Nat.cast_ne_zero.2 (fun h => hne (List.length_eq_zero.1 h)),
    ⟨st.tree_size, ?_, ?_⟩, fun st2 hreach2 => ?_⟩
  · rw [hf]
    simp only [TreeFeature.TreeSize, hsize, List.map_cons, List.map_nil, List.sum_cons,
      List.sum_nil, add_zero, zero_add, hC]
  · have hdiff : f.toFeature.GetUnnormalizedPopulationExpectation /
          (space.points.map Point.GetProbWeight).sum - f.toFeature.GetSampleExpectation =
        st.old_diff := by
      rw [hf, hE1]
      simp only [Feature.GetUnnormalizedPopulationExpectation, Feature.GetSampleExpectation,
        TreeFeature.toFeature, hsums]
    rw [hdiff, hg]
    by_cases hz : st.root.splits = 0
    · have hc : 0 ≤ L.model_parameter_beta +
          L.model_parameter_alpha * L.TreeComplexity sqrt log 1 (examples.length : Int) := by
        rcases hsplit with h | h
        · rw [hf] at h
          simp only at h
          omega
        · exact h
      obtain ⟨hr, hg0⟩ := h0 hz
      have hd0 : st.old_diff = 0 := by
        rw [hE1, hr]
        simp [Node.leafSums, Node.isNull]
      have hts : st.tree_size = 1 := by
        rw [hC, hr]
        simp [Node.count]
      rw [hg0, hd0, hts, TreeGradient_eq, penalizedGradient_zero _ hc]
    · exact hE2 (Nat.pos_of_ne_zero hz)
  · obtain ⟨hS2, hE2⟩ := Reaches_Exact sqrt log _ L space.points examples st2 hnext hreach2
    rw [hE2.1, leafSums_eq st2.root _ _ hS2.2.1]

end TrainGradient

section TrainGradientWitness

/-- Claim C39 on the second fixture of `TestTrain`, whose learner has
`alpha = beta = 0`: the call returns after two splits with the gradient -1, which
is the gradient of the expectation difference `0 / 3 - 1` of the feature for its
tree size 5. -/
theorem Train_gradient_witness :
    ∃ (f : TreeFeature ℚ) (g : ℚ) (L1 : TreeLearner ℚ),
      (treeLearner ℚ).Train (fun x : ℚ => x) (fun x : ℚ => x) (treeSpace ℚ) (treeSample ℚ) 5 =
        Run.ok (f, g, L1) ∧
      g = -1 ∧ f.root.splits = 2 ∧
      f.toFeature.GetUnnormalizedPopulationExpectation = 0 ∧
      f.toFeature.GetSampleExpectation = 1 ∧
      ∃ tree_size : Int, f.TreeSize = some tree_size ∧
        g = (treeLearner ℚ).Gradient (fun x : ℚ => x) (fun x : ℚ => x) tree_size
          ((treeExamples ℚ).length : Int)
          (f.toFeature.GetUnnormalizedPopulationExpectation /
              ((treeSpace ℚ).points.map Point.GetProbWeight).sum -
            f.toFeature.GetSampleExpectation) :=
  ⟨_, _, _, tree_Train_fixture, rfl, rfl, rfl, rfl,
    (Train_gradient (fun x : ℚ => x) (fun x : ℚ => x) (treeLearner ℚ) (treeSpace ℚ)
      (treeSample ℚ) (treeExamples ℚ) 5 _ _ _ rfl (by simp [treeExamples])
      (by norm_num [treeSpace, treePoints, Point.GetProbWeight])
      (fun j hj => treeLearner_next (j : Int) (by omega) (by simpa [treeLearner] using hj))
      tree_Train_fixture (Or.inr (by norm_num [treeLearner]))).2.2.2.2.1⟩

end TrainGradientWitness

section NegativeBeta

/-- Outside the parameters that the specification admits, the condition on the
complexity in `Train_gradient` cannot be dropped: the learner with one feature,
`alpha = 0`, the negative `beta = -1 / 2 ^ 24` and the map that sends the value 0 to
the next threshold 1, on the space of one point of the weight 1 with the covariate
0 and the sample of that point, makes no split, since the gradient `-1 / 2 ^ 24` of
the only candidate does not exceed `gTolerance` in absolute value; `Train` returns
the gradient 0 and the root alone, with both expectations 0, and
`Gradient(1, 1, 0 / 1 - 0)` is `-1 / 2 ^ 24`. -/
theorem Train_negative_beta :
    ∃ (L : TreeLearner ℝ) (space : Space ℝ) (sample : Sample ℝ) (f : TreeFeature ℝ),
      L = { num_features := 1, model_parameter_alpha := 0,
            model_parameter_beta := -(1 / 2 ^ 24), value_to_thresholds := [[(0, 1)]] } ∧
      space = { finalized := true,
                points := [{ id := 1, finalized := true, probability_weight := 1,
                             raw_features := [0] }] } ∧
      sample = [Example.inSpace 0] ∧
      Sample.points space sample = some space.points ∧
      0 < (space.points.map Point.GetProbWeight).sum ∧
      (∀ j : Nat, (j : Int) < L.num_features →
        L.NextThreshold (j : Int) (space.points ++ space.points)) ∧
      L.Train Real.sqrt Real.log space sample 1 = Run.ok (f, 0, L) ∧
      f.TreeSize = some 1 ∧
      f.toFeature.GetUnnormalizedPopulationExpectation = 0 ∧
      f.toFeature.GetSampleExpectation = 0 ∧
      L.Gradient Real.sqrt Real.log 1 (space.points.length : Int)
        (f.toFeature.GetUnnormalizedPopulationExpectation /
            (space.points.map Point.GetProbWeight).sum -
          f.toFeature.GetSampleExpectation) = -(1 / 2 ^ 24) ∧
      (0 : ℝ) ≠ -(1 / 2 ^ 24) := by
  refine ⟨_, _, _,
    { root := Node.mk 0 0 0 Node.null Node.null 1
        [{ id := 1, finalized := true, probability_weight := 1, raw_features := [0] }]
        [{ id := 1, finalized := true, probability_weight := 1, raw_features := [0] }]
      complexity := TreeLearner.TreeComplexity Real.sqrt Real.log
        { num_features := 1, model_parameter_alpha := 0,
          model_parameter_beta := -(1 / 2 ^ 24), value_to_thresholds := [[(0, 1)]] } 1 1
      sample_expectation := 0
      population_expectation := 0 }, rfl, rfl, rfl, rfl, ?_, ?_, ?_, ?_, rfl, rfl, ?_, ?_⟩
  · norm_num [Point.GetProbWeight]
  · intro j hj
    have hj0 : j = 0 := by
      simp only at hj
      omega
    subst hj0
    refine ⟨le_refl _, fun p hp => ?_⟩
    simp only [List.cons_append, List.nil_append, List.mem_cons, List.mem_singleton,
      List.not_mem_nil, or_false, or_self] at hp
    subst hp
    refine ⟨0, 1, by simp [Point.GetRawFeature], by simp [TreeLearner.lookup, mapFind],
      by norm_num, ?_⟩
    intro q hq u s hu hs _
    simp only [List.cons_append, List.nil_append, List.mem_cons, List.mem_singleton,
      List.not_mem_nil, or_false, or_self] at hq
    subst hq
    simp [Point.GetRawFeature] at hu
    subst hu
    simp [TreeLearner.lookup, mapFind] at hs
    rw [← hs]
  · norm_num [TreeLearner.Train, Sample.points, Example.deref,
      Node.new, AddPoint_mk, AddSample_mk, Node.SetValue, TreeLearner.TrainLoop,
      TreeLearner.TrainStep,
      TreeLearner.featureLoop, TreeLearner.BestThreshold,
      TreeLearner.BuildThresholdToWeightsMap, TreeLearner.addPoints, TreeLearner.addSamples,
      TreeLearner.thresholdOf, mapFind, mapInsert, mapUpdate, TreeLearner.scanEntry,
      TreeLearner.Gradient, gTolerance, Node.Points, Node.Samples,
      Node.GetPopulationWeight, Node.GetSampleCount, Node.GetValue, Point.GetRawFeature,
      Point.GetProbWeight, abs_of_pos, abs_of_neg, Node.sub, List.range, List.range.loop,
      TreeFeature.ComputeTreeExpectations, TreeFeature.expectationsLoop, TreeFeature.new,
      TreeFeature.SetComplexity, Node.isNull]
  · norm_num [TreeFeature.TreeSize, TreeFeature.sizeLoop, Node.pushed, Node.isNull]
  · norm_num [TreeLearner.Gradient, Feature.GetUnnormalizedPopulationExpectation,
      Feature.GetSampleExpectation, TreeFeature.toFeature, Point.GetProbWeight]
  · norm_num

end NegativeBeta

/-! ## `TreeLearner::Train` ends -/

section TrainTermination

variable {α : Type} [LinearOrderedField α] [FloorRing α]

/-- Claim C40: for every space with non-negative point weights of positive total,
every sample that is not empty, `alpha >= 0`, `beta >= 0`, a square root that is
not negative, and value-to-threshold maps that send each value of a covariate that
occurs to the smallest threshold strictly greater than it, the call of
`TreeLearner::Train` ends: it does not run out of a bound of four passes through
its loop for every point of the space and of the sample and one more, and a result
does not depend on the bound.  In every state that the loop reaches, the recorded
gradient `old_gradient` is at most 1 in absolute value and at least `gTolerance`
times the number of splits made, so that there are at most `10 ^ 7` splits; and a
pass from such a state changes neither the tree nor the recorded gradient, or it
makes one split and raises the absolute value of the recorded gradient by more
than `gTolerance`.  A returned gradient and tree obey the same bounds. -/
theorem Train_terminates (sqrt log : α → α) (L : TreeLearner α) (space : Space α)
    (sample : Sample α) (examples : List (Point α)) (hsqrt : ∀ x, 0 ≤ sqrt x)
    (hres : Sample.points space sample = some examples) (hne : examples ≠ [])
    (hw : ∀ p ∈ space.points, 0 ≤ p.GetProbWeight)
    (hZ : 0 < (space.points.map Point.GetProbWeight).sum)
    (halpha : 0 ≤ L.model_parameter_alpha) (hbeta : 0 ≤ L.model_parameter_beta)
    (hnext : ∀ j : Nat, (j : Int) < L.num_features →
      L.NextThreshold (j : Int) (space.points ++ examples)) :
    (∀ bound, 4 * (space.points.length + examples.length) + 1 ≤ bound →
      L.Train sqrt log space sample bound ≠ Run.exhausted) ∧
    (∀ (bound bound1 : Nat) (r : TreeFeature α × α × TreeLearner α), bound ≤ bound1 →
      L.Train sqrt log space sample bound = Run.ok r →
      L.Train sqrt log space sample bound1 = Run.ok r) ∧
    (∀ st : TreeLearner.State α,
      TreeLearner.Reaches sqrt log (space.points.map Point.GetProbWeight).sum
        (examples.length : Int) (L.start space.points examples) st →
      |st.old_gradient| ≤ 1 ∧ (st.root.splits : α) * gTolerance ≤ |st.old_gradient| ∧
      st.root.splits ≤ 10 ^ 7 ∧
      ∀ (node : List Bool) (q : List (List Bool)) (st1 : TreeLearner.State α),
        st.q = node :: q →
        TreeLearner.TrainStep sqrt log (space.points.map Point.GetProbWeight).sum
          (examples.length : Int) st node q = some st1 →
        (st1.root = st.root ∧ st1.old_gradient = st.old_gradient) ∨
          (st1.root.splits = st.root.splits + 1 ∧
            |st1.old_gradient| > |st.old_gradient| + gTolerance)) ∧
    (∀ (bound : Nat) (f : TreeFeature α) (g : α) (L1 : TreeLearner α),
      L.Train sqrt log space sample bound = Run.ok (f, g, L1) →
      |g| ≤ 1 ∧ f.root.splits ≤ 10 ^ 7) := by
  have hc : ∀ tree_size : Int, 0 ≤ L.model_parameter_beta +
      L.model_parameter_alpha * L.TreeComplexity sqrt log tree_size (examples.length : Int) :=
    fun tree_size => add_nonneg hbeta (mul_nonneg halpha (hsqrt _))
  have hfacts : ∀ st : TreeLearner.State α,
      TreeLearner.Reaches sqrt log (space.points.map Point.GetProbWeight).sum
        (examples.length : Int) (L.start space.points examples) st →
      |st.old_gradient| ≤ 1 ∧ (st.root.splits : α) * gTolerance ≤ |st.old_gradient| ∧
      st.root.splits ≤ 10 ^ 7 := by
    intro st hreach
    obtain ⟨hS, hE⟩ := Reaches_Exact sqrt log _ L space.points examples st hnext hreach
    have h1 := old_gradient_le_one sqrt log L space.points examples st hS hE hw hZ hne hc
    refine ⟨h1, hE.2.2, ?_⟩
    have h2 : (st.root.splits : α) * gTolerance ≤ 1 := le_trans hE.2.2 h1
    have h10 : (0 : α) < 10 ^ 7 := by positivity
    unfold gTolerance at h2
    rw [mul_one_div, div_le_one h10] at h2
    exact_mod_cast h2
  refine ⟨fun bound hb => Train_bound sqrt log L space sample examples bound hres hb,
    fun bound bound1 r hb h => Train_mono sqrt log L space sample bound bound1 r hb h,
    fun st hreach => ?_, fun bound f g L1 hrun => ?_⟩
  · obtain ⟨h1, h2, h3⟩ := hfacts st hreach
    refine ⟨h1, h2, h3, fun node q st1 hq hstep => ?_⟩
    obtain ⟨hS, _⟩ := Reaches_Exact sqrt log _ L space.points examples st hnext hreach
    rcases (TrainStep_keeps_Sound sqrt log _ _ L space.points examples st st1 node q hS hq
      hstep).2 with ⟨hr, _, _, hg⟩ | ⟨_, _, _, _, _, _, _, _, _, _, _, _, hgt, _, hsp, _⟩
    · exact Or.inl ⟨hr, hg⟩
    · exact Or.inr ⟨hsp, hgt⟩
  · obtain ⟨st, hreach, _, _, hf, hg, _⟩ :=
      Train_Reaches sqrt log L space sample examples bound f g L1 hres hrun
    obtain ⟨h1, _, h3⟩ := hfacts st hreach
    rw [hf, hg]
    exact ⟨h1, h3⟩

end TrainTermination

section TrainTerminationWitness

/-- Claim C40 on the second fixture of `TestTrain`, with the absolute value in the
place of `sqrt` and the identity in the place of `log`: the call does not run out
of 21 passes, it returns after two splits with the gradient -1, and every returned
gradient is at most 1 in absolute value. -/
theorem Train_terminates_witness :
    (∀ bound, 4 * ((treeSpace ℚ).points.length + (treeExamples ℚ).length) + 1 ≤ bound →
      (treeLearner ℚ).Train (fun x : ℚ => |x|) (fun x : ℚ => x) (treeSpace ℚ) (treeSample ℚ)
        bound ≠ Run.exhausted) ∧
    (∃ (f : TreeFeature ℚ) (L1 : TreeLearner ℚ),
      (treeLearner ℚ).Train (fun x : ℚ => |x|) (fun x : ℚ => x) (treeSpace ℚ) (treeSample ℚ) 5 =
        Run.ok (f, -1, L1) ∧ f.root.splits = 2) ∧
    (∀ (bound : Nat) (f : TreeFeature ℚ) (g : ℚ) (L1 : TreeLearner ℚ),
      (treeLearner ℚ).Train (fun x : ℚ => |x|) (fun x : ℚ => x) (treeSpace ℚ) (treeSample ℚ)
        bound = Run.ok (f, g, L1) →
      |g| ≤ 1 ∧ f.root.splits ≤ 10 ^ 7) := by
  have h := Train_terminates (fun x : ℚ => |x|) (fun x : ℚ => x) (treeLearner ℚ) (treeSpace ℚ)
    (treeSample ℚ) (treeExamples ℚ) (fun x => abs_nonneg x) rfl (by simp [treeExamples])
    (by
      intro p hp
      simp only [treeSpace, treePoints, List.mem_cons, List.mem_singleton, List.not_mem_nil,
        or_false] at hp
      rcases hp with rfl | rfl | rfl | rfl <;> norm_num [Point.GetProbWeight])
    (by norm_num [treeSpace, treePoints, Point.GetProbWeight])
    (by norm_num [treeLearner]) (by norm_num [treeLearner])
    (fun j hj => treeLearner_next (j : Int) (by omega) (by simpa [treeLearner] using hj))
  refine ⟨h.1, ?_, h.2.2.2⟩
  refine ⟨{ root := Node.mk 0 0 0
              (Node.mk 0 0 0 Node.null Node.null 2
                [{ id := 1, finalized := true, probability_weight := 1, raw_features := [-1, -1] },
                 { id := 2, finalized := true, probability_weight := 1, raw_features := [-1, 1] }]
                [])
              (Node.mk 1 0 1
                (Node.mk 0 0 1 Node.null Node.null 0
                  [{ id := 3, finalized := true, probability_weight := 0,
                     raw_features := [1, -1] }]
                  [{ id := 3, finalized := false, probability_weight := 0,
                     raw_features := [1, -1] }])
                (Node.mk 0 0 0 Node.null Node.null 1
                  [{ id := 4, finalized := true, probability_weight := 1,
                     raw_features := [1, 1] }]
                  [])
                0 [] [])
              0 [] [],
            complexity := 88, sample_expectation := 1, population_expectation := 0 },
    treeLearner ℚ, ?_, by simp [Node.splits, Node.isNull]⟩
  norm_num [TreeLearner.Train, Sample.points, Example.deref, treeSample, treeSpace, treePoints,
    Node.new, AddPoint_mk, AddSample_mk, Node.SetValue, TreeLearner.TrainLoop,
    TreeLearner.TrainStep,
    TreeLearner.featureLoop, TreeLearner.BestThreshold,
    TreeLearner.BuildThresholdToWeightsMap, TreeLearner.addPoints, TreeLearner.addSamples,
    TreeLearner.thresholdOf, mapFind, mapInsert, mapUpdate, TreeLearner.scanEntry,
    TreeLearner.Gradient, gTolerance, treeLearner, Node.Points, Node.Samples,
    Node.GetPopulationWeight, Node.GetSampleCount, Node.GetValue, Point.GetRawFeature,
    Point.GetProbWeight, abs_of_pos, abs_of_neg, Node.sub, Node.modify, TreeLearner.GrowTree,
    truncate, Point.RawFeatureLess, Node.SetThreshold, Node.SetFeature, Node.SetLeftChild,
    Node.SetRightChild, Node.ClearPoints, Node.ClearSamples, List.range, List.range.loop,
    TreeFeature.ComputeTreeExpectations, TreeFeature.expectationsLoop, TreeFeature.new,
    TreeFeature.SetComplexity, TreeLearner.TreeComplexity, Node.isNull]

end TrainTerminationWitness

end StructMaxent
